import Mathlib

/-!
# mergo: recursive structural merge (`merge.go`)

A shallow embedding of `deepMergeSlices`, `deepMerge`, `merge`, `Merge` and
`MergeWithOverwrite` from `merge.go`, together with the part of Go's `reflect`
package these functions use.

## Data model

* `Ty` is a Go type, `Val` a Go value.  Values are trees: a pointer carries the
  identity of the object it points to together with that object's current
  contents, a slice carries the identity of its backing array, its capacity and
  its elements.  Two references with the same identity denote the same storage in
  Go; the embedding keeps one copy of the contents per occurrence, so it describes
  Go exactly on object graphs in which no storage is reachable along two paths.
* `Value` is a `reflect.Value`: the value it holds (`none` for the zero `Value`),
  the address of the storage it refers to when it is addressable, and the
  read-only flag set by unexported struct fields.
* A call of `deepMerge` mutates the storage behind `dst`; in the embedding it
  returns the new contents of that storage (`Out.val`), the visited set, the
  allocation counter, the returned `error` and whether the call returned
  normally, panicked, or the recursion budget of the embedding ran out.

The kinds modelled are bool, int, string, struct, slice, map, pointer and
interface; map keys are strings, ints or bools.  A `reflect` operation applied
to a value of a kind it does not accept is a panic (`none`); two values of
different kinds can only meet below an interface that holds values of two
dynamic types.  The `depth` argument of the Go functions is only ever passed on
and is left out.  `isEmptyValue` and `resolveValues` are not part of `merge.go`
and are modelled from the specification.

The recursion of `deepMerge` always descends into `src`; the embedding makes it
structural with a recursion budget (`fuel`), and a call that runs out of budget
ends with the status `fuel`.
-/

namespace Mergo

/-! ## Types and values -/

/-- A Go type.  Struct types are identified by their name (for an anonymous
struct type, its literal text). -/
inductive Ty where
  | bool
  | int
  | string
  | named (n : String)
  | slice (e : Ty)
  | map (k v : Ty)
  | ptr (e : Ty)
  | iface
  deriving DecidableEq, Repr

/-- A map key (keys of kind string, int or bool). -/
inductive Key where
  | str (s : String)
  | int (i : Int)
  | bool (b : Bool)
  deriving DecidableEq, Repr

/-- A Go value.
* `struct ty fields`: the fields in declaration order, with their names;
* `slice ety arr cap elems`: `arr` is the identity of the backing array (`none`
  for a nil slice), `cap` the capacity;
* `map kty vty entries`: `none` is the nil map; the order of the entries is the
  order in which `MapKeys` enumerates them;
* `ptr ety target`: `none` is the nil pointer, otherwise the identity of the
  pointed-to object and its contents;
* `iface dyn`: an `interface{}` value, `none` when it is nil. -/
inductive Val where
  | bool (b : Bool)
  | int (i : Int)
  | str (s : String)
  | struct (ty : String) (fields : List (String × Val))
  | slice (ety : Ty) (arr : Option Nat) (cap : Nat) (elems : List Val)
  | map (kty vty : Ty) (entries : Option (List (Key × Val)))
  | ptr (ety : Ty) (target : Option (Nat × Val))
  | iface (dyn : Option Val)
  deriving Repr

/-- The kinds of `reflect.Kind` that the embedding distinguishes. -/
inductive Kind where
  | invalid | bool | int | string | struct | slice | map | ptr | interface
  deriving DecidableEq, Repr

/-- An address: the identity of an allocation and the path of field and element
indices inside it. -/
abbrev Addr := Nat × List Nat

/-- One entry of the visited set: `visit.ptr` and `visit.typ`.  The Go code keeps
the entries in hash buckets (`17 * addr`) and compares `ptr` and `typ` of every
entry of the bucket, so the buckets behave as one set of pairs. -/
abbrev Visited := List (Addr × Ty)

/-- A `reflect.Value`. -/
structure Value where
  val : Option Val
  addr : Option Addr
  ro : Bool
  deriving Repr

/-- The errors of the package that the merge functions can return. -/
inductive MergeError where
  | ErrDifferentArgumentsTypes
  | invalidArgument
  | keyNotFound
  deriving DecidableEq, Repr

/-- How a call ended: it returned, it panicked, or the recursion budget of the
embedding was used up. -/
inductive Status where
  | ok | panic | fuel
  deriving DecidableEq, Repr

/-- The outcome of a call: the new contents of the mutated storage, the visited
set, the allocation counter, the returned error and the status. -/
structure Out (α : Type) where
  val : α
  visited : Visited
  next : Nat
  err : Option MergeError
  status : Status
  deriving Repr

/-- The outcome of `deepMerge`. -/
abbrev Res := Out (Option Val)

/-! ## The part of `reflect` used by the merge -/

/-- `reflect.Value.Type` on the value held. -/
def typeOf : Val → Ty
  | .bool _ => .bool
  | .int _ => .int
  | .str _ => .string
  | .struct ty _ => .named ty
  | .slice e _ _ _ => .slice e
  | .map k v _ => .map k v
  | .ptr e _ => .ptr e
  | .iface _ => .iface

/-- `reflect.Value.Kind` on the value held. -/
def kindOf : Val → Kind
  | .bool _ => .bool
  | .int _ => .int
  | .str _ => .string
  | .struct _ _ => .struct
  | .slice _ _ _ _ => .slice
  | .map _ _ _ => .map
  | .ptr _ _ => .ptr
  | .iface _ => .interface

/-- The type of a map key. -/
def keyType : Key → Ty
  | .str _ => .string
  | .int _ => .int
  | .bool _ => .bool

/-- `reflect.Type.String`. -/
def tyString : Ty → String
  | .bool => "bool"
  | .int => "int"
  | .string => "string"
  | .named n => n
  | .slice e => "[]" ++ tyString e
  | .map k v => "map[" ++ tyString k ++ "]" ++ tyString v
  | .ptr e => "*" ++ tyString e
  | .iface => "interface {}"

/-- Whether a value of type `s` can be stored in storage of type `t`. -/
def assignable (s t : Ty) : Bool :=
  decide (s = t) || decide (t = Ty.iface)

/-- A field name is exported when it starts with an upper-case letter. -/
def isExported (name : String) : Bool :=
  match name.data with
  | c :: _ => c.isUpper
  | [] => false

/-- `reflect.Value.IsValid`. -/
def Value.IsValid (x : Value) : Bool := x.val.isSome

/-- `reflect.Value.CanAddr`. -/
def Value.CanAddr (x : Value) : Bool := x.addr.isSome

/-- `reflect.Value.CanSet`: addressable and not reached through an unexported
field. -/
def Value.CanSet (x : Value) : Bool := x.addr.isSome && !x.ro

/-- `reflect.Value.CanInterface`. -/
def Value.CanInterface (x : Value) : Bool := !x.ro

/-- The flags of a value reached inside the allocation of `x` at index `i`
(a struct field). -/
def Value.sub (x : Value) (i : Nat) : Option Addr :=
  x.addr.map (fun a => (a.1, a.2 ++ [i]))

/-- `reflect.Value.Field`; `none` is a panic (not a struct, or no such field). -/
def Value.Field (x : Value) (i : Nat) : Option Value :=
  match x.val with
  | some (.struct _ fs) =>
    match fs.get? i with
    | some (n, v) => some ⟨some v, x.sub i, x.ro || !isExported n⟩
    | none => none
  | _ => none

/-- Position of the first field called `name`. -/
def fieldIndex (name : String) : List (String × Val) → Nat → Option Nat
  | [], _ => none
  | (n, _) :: rest, i => if n = name then some i else fieldIndex name rest (i + 1)

/-- `reflect.Value.FieldByName`: the zero `Value` when the struct has no field of
that name; `none` is a panic (not a struct). -/
def Value.FieldByName (x : Value) (name : String) : Option Value :=
  match x.val with
  | some (.struct _ fs) =>
    match fieldIndex name fs 0 with
    | some i => x.Field i
    | none => some ⟨none, none, false⟩
  | _ => none

/-- `reflect.Value.Len` on a slice, a map or a string; `none` is a panic. -/
def Value.Len (x : Value) : Option Nat :=
  match x.val with
  | some (.slice _ _ _ es) => some es.length
  | some (.map _ _ none) => some 0
  | some (.map _ _ (some es)) => some es.length
  | some (.str s) => some s.utf8ByteSize
  | _ => none

/-- `reflect.Value.Index` on a slice: the element is addressable, at index `i`
of the backing array; `none` is a panic. -/
def Value.Index (x : Value) (i : Nat) : Option Value :=
  match x.val with
  | some (.slice _ arr _ es) =>
    match es.get? i with
    | some v => some ⟨some v, arr.map (fun a => (a, [i])), x.ro⟩
    | none => none
  | _ => none

/-- Lookup in an association list. -/
def mapLookup (k : Key) : List (Key × Val) → Option Val
  | [] => none
  | (k', v) :: rest => if k' = k then some v else mapLookup k rest

/-- `reflect.Value.MapIndex` with a key of type `kty`: the zero `Value` when the
key is absent; the result is not addressable; `none` is a panic (not a map, or
a key that cannot be assigned to the key type of the map). -/
def Value.MapIndex (x : Value) (k : Key) (kty : Ty) (kro : Bool) : Option Value :=
  match x.val with
  | some (.map mkty _ es) =>
    if assignable kty mkty then
      match es with
      | none => some ⟨none, none, false⟩
      | some l =>
        match mapLookup k l with
        | some v => some ⟨some v, none, x.ro || kro⟩
        | none => some ⟨none, none, false⟩
    else none
  | _ => none

/-- `reflect.Value.MapKeys` with the static key type; `none` is a panic. -/
def Value.MapKeys (x : Value) : Option (List Key × Ty) :=
  match x.val with
  | some (.map kty _ none) => some ([], kty)
  | some (.map kty _ (some es)) => some (es.map Prod.fst, kty)
  | _ => none

/-- `reflect.Value.IsNil`; `none` is a panic. -/
def Value.IsNil (x : Value) : Option Bool :=
  match x.val with
  | some (.slice _ arr _ _) => some arr.isNone
  | some (.map _ _ es) => some es.isNone
  | some (.ptr _ t) => some t.isNone
  | some (.iface d) => some d.isNone
  | _ => none

/-- `reflect.Value.Elem`: the pointed-to object (addressable) or the value held
by an interface (not addressable); the zero `Value` for nil; `none` is a
panic. -/
def Value.Elem (x : Value) : Option Value :=
  match x.val with
  | some (.ptr _ none) => some ⟨none, none, false⟩
  | some (.ptr _ (some (id, v))) => some ⟨some v, some (id, []), x.ro⟩
  | some (.iface none) => some ⟨none, none, false⟩
  | some (.iface (some v)) => some ⟨some v, none, x.ro⟩
  | _ => none

/-- `reflect.Value.Kind`. -/
def Value.Kind (x : Value) : Kind :=
  match x.val with
  | none => .invalid
  | some v => kindOf v

/-- `reflect.Value.String`: the contents of a string, and `<T Value>` for a value
of any other type `T`. -/
def Value.String (x : Value) : String :=
  match x.val with
  | none => "<invalid Value>"
  | some (.str s) => s
  | some v => "<" ++ tyString (typeOf v) ++ " Value>"

/-- `reflect.Value.Type`; `none` is a panic (the zero `Value`). -/
def Value.Type (x : Value) : Option Ty := x.val.map typeOf

/-- Modelled from the spec: the emptiness predicate `isEmptyValue`, which is not
part of `merge.go`: zero number, empty text, false boolean, zero-length
container, unset optional; a record is never empty. -/
def isEmptyVal : Val → Bool
  | .bool b => !b
  | .int i => decide (i = 0)
  | .str s => decide (s = "")
  | .struct _ _ => false
  | .slice _ _ _ es => es.isEmpty
  | .map _ _ none => true
  | .map _ _ (some es) => es.isEmpty
  | .ptr _ t => t.isNone
  | .iface d => d.isNone

/-- Modelled from the spec: `isEmptyValue` on a `reflect.Value`; the zero `Value`
has no kind with an empty state. -/
def isEmptyValue (x : Value) : Bool :=
  match x.val with
  | none => false
  | some v => isEmptyVal v

/-- What storage of type `t` holds after the value `s` is stored in it: an
interface wraps a value that is not itself an interface. -/
def stored (t : Ty) (s : Val) : Val :=
  match t, s with
  | .iface, .iface x => .iface x
  | .iface, v => .iface (some v)
  | _, v => v

/-- `dst.Set(src)`: the new contents of the storage of `dst`; `none` is a panic
(`dst` not settable, `src` the zero `Value` or read-only, or of a type that
cannot be assigned). -/
def Value.Set (dst src : Value) : Option Val :=
  match dst.val, src.val with
  | some d, some s =>
    if dst.CanSet && !src.ro && assignable (typeOf s) (typeOf d) then some (stored (typeOf d) s)
    else none
  | _, _ => none

/-- Replace the element at position `i` of a list. -/
def setAt (l : List Val) (i : Nat) (v : Val) : List Val := l.set i v

/-- Store new contents in field `i` of a struct. -/
def setField (fs : List (String × Val)) (i : Nat) (v : Val) : List (String × Val) :=
  match fs.get? i with
  | some (n, _) => fs.set i (n, v)
  | none => fs

/-- The storage of `x` with field `i` holding `v` (write-back of a merged
field). -/
def Value.putField (x : Value) (i : Nat) (v : Option Val) : Value :=
  match x.val, v with
  | some (.struct ty fs), some w => { x with val := some (.struct ty (setField fs i w)) }
  | _, _ => x

/-- The storage of `x` with element `i` of its backing array holding `v`. -/
def Value.putIndex (x : Value) (i : Nat) (v : Option Val) : Value :=
  match x.val, v with
  | some (.slice e arr cap es), some w => { x with val := some (.slice e arr cap (setAt es i w)) }
  | _, _ => x

/-- Update of an association list: replace the value of an existing key, or add
the entry at the end. -/
def mapInsert (k : Key) (v : Val) : List (Key × Val) → List (Key × Val)
  | [] => [(k, v)]
  | (k', v') :: rest => if k' = k then (k, v) :: rest else (k', v') :: mapInsert k v rest

/-- Replace the value of an existing key of an association list. -/
def mapReplace (k : Key) (v : Val) : List (Key × Val) → List (Key × Val)
  | [] => []
  | (k1, v1) :: rest => if k1 = k then (k, v) :: rest else (k1, v1) :: mapReplace k v rest

/-- The map of `x` with the entry of an existing key `k` holding `v` (write-back
of a merged entry: what was reached through the entry is seen through the
map). -/
def Value.putEntry (x : Value) (k : Key) (v : Option Val) : Value :=
  match x.val, v with
  | some (.map kt vt (some es)), some w =>
    { x with val := some (.map kt vt (some (mapReplace k w es))) }
  | _, _ => x

/-- The pointer or interface `x` with the value it refers to holding `v`. -/
def Value.putElem (x : Value) (v : Option Val) : Value :=
  match x.val, v with
  | some (.ptr e (some (id, _))), some w => { x with val := some (.ptr e (some (id, w))) }
  | some (.iface (some _)), some w => { x with val := some (.iface (some w)) }
  | _, _ => x

/-- `dst.SetMapIndex(key, elem)` on a non-nil map; `none` is a panic (read-only
operands, nil map, or key or element of a type that cannot be assigned). -/
def Value.SetMapIndex (dst : Value) (k : Key) (kty : Ty) (elem : Value) : Option Val :=
  match dst.val, elem.val with
  | some (.map kt vt (some es)), some e =>
    if !dst.ro && !elem.ro && assignable kty kt && assignable (typeOf e) vt then
      some (.map kt vt (some (mapInsert k (stored vt e) es)))
    else none
  | _, _ => none

/-- `reflect.MakeMap(dst.Type())`. -/
def makeMap (x : Value) : Value :=
  match x.val with
  | some (.map kt vt _) => ⟨some (.map kt vt (some [])), none, false⟩
  | _ => ⟨none, none, false⟩

/-- The capacity chosen by `reflect.Append` when a slice of capacity `cap` and
length `len` has to grow by one element. -/
def growCap (len cap : Nat) : Nat :=
  if cap = 0 then 1 else if len < 1024 then cap + cap else cap + cap / 4

/-- `reflect.Append(s, x)`: the new slice and the allocation counter.  When the
capacity suffices the element is stored in the backing array of `s`, otherwise
a new backing array is allocated.  `none` is a panic (not a slice, read-only
operands, or an element of another type). -/
def reflectAppend (s x : Value) (next : Nat) : Option (Value × Nat) :=
  match s.val, x.val with
  | some (.slice e arr cap es), some v =>
    if !s.ro && !x.ro && assignable (typeOf v) e then
      if es.length < cap ∧ arr.isSome then
        some (⟨some (.slice e arr cap (es ++ [stored e v])), none, false⟩, next)
      else
        some (⟨some (.slice e (some next) (growCap es.length cap) (es ++ [stored e v])), none,
          false⟩,
          next + 1)
    else none
  | _, _ => none

/-! ## `deepMergeSlices` -/

/-- The outcome of scanning `b` for the element that matches `listDst`. -/
inductive Scan where
  | nomatch
  | found (bi : Nat)
  | keyMissing
  | panic
  deriving DecidableEq, Repr

/-- The inner loop of `deepMergeSlices` (`for bi := 0; bi < b.Len(); bi++`) up to
the decision `shouldMerge`: the first element of `b`, from index `bi` on, that has
the type of `listDst` and whose key has the same text as the key of `listDst`;
`keyMissing` when a compared element has no key field or entry. -/
def scanB (listDst b : Value) (listKey : String) : Nat → Nat → Scan
  | 0, _ => .nomatch
  | rem + 1, bi =>
    match b.Index bi with
    | none => .panic
    | some listSrc =>
      if listSrc.Type ≠ listDst.Type then scanB listDst b listKey rem (bi + 1)
      else
        match listDst.Kind with
        | .struct =>
          match listSrc.FieldByName listKey, listDst.FieldByName listKey with
          | some valueSrc, some valueDst =>
            if !valueSrc.IsValid || !valueDst.IsValid then .keyMissing
            else if valueSrc.String = valueDst.String then .found bi
            else scanB listDst b listKey rem (bi + 1)
          | _, _ => .panic
        | .map =>
          match listSrc.MapIndex (.str listKey) .string false,
                listDst.MapIndex (.str listKey) .string false with
          | some valueSrc, some valueDst =>
            if !valueSrc.IsValid || !valueDst.IsValid then .keyMissing
            else if valueSrc.String = valueDst.String then .found bi
            else scanB listDst b listKey rem (bi + 1)
          | _, _ => .panic
        | _ => scanB listDst b listKey rem (bi + 1)

/-- The outcome of `deepMergeSlices`: the contents of `a` and of `b`, the visited
set, the allocation counter, `bFounds`, `err` and the status. -/
structure SOut where
  a : Value
  b : Value
  visited : Visited
  next : Nat
  bFounds : List Nat
  err : Option MergeError
  status : Status
  deriving Repr

/-- The outer loop of `deepMergeSlices` (`for ai := 0; ai < a.Len(); ai++`), with
`rem` iterations left.  `rec` is `deepMerge` at the recursion budget of the
caller. -/
def sliceLoop (rec : Value → Value → Visited → Nat → Res) (backwards : Bool)
    (listKey : String) (aIgnores : List Nat) :
    Nat → Nat → Value → Value → Visited → Nat → List Nat → Option MergeError → SOut
  | 0, _, a, b, vis, next, bFounds, err => ⟨a, b, vis, next, bFounds, err, .ok⟩
  | rem + 1, ai, a, b, vis, next, bFounds, err =>
    if ai ∈ aIgnores then
      sliceLoop rec backwards listKey aIgnores rem (ai + 1) a b vis next bFounds err
    else
      match a.Index ai, b.Len with
      | some listDst, some bLen =>
        match scanB listDst b listKey bLen 0 with
        | .panic => ⟨a, b, vis, next, bFounds, err, .panic⟩
        | .keyMissing => ⟨a, b, vis, next, bFounds, some .keyNotFound, .ok⟩
        | .found bi =>
          match b.Index bi with
          | none => ⟨a, b, vis, next, bFounds, err, .panic⟩
          | some listSrc =>
            if backwards then
              let r := rec listSrc listDst vis next
              let b1 := b.putIndex bi r.val
              match r.status with
              | .ok =>
                sliceLoop rec backwards listKey aIgnores rem (ai + 1) a b1 r.visited r.next
                  (bFounds ++ [bi]) r.err
              | st => ⟨a, b1, r.visited, r.next, bFounds ++ [bi], r.err, st⟩
            else
              let r := rec listDst listSrc vis next
              let a1 := a.putIndex ai r.val
              match r.status with
              | .ok =>
                sliceLoop rec backwards listKey aIgnores rem (ai + 1) a1 b r.visited r.next
                  (bFounds ++ [bi]) r.err
              | st => ⟨a1, b, r.visited, r.next, bFounds ++ [bi], r.err, st⟩
        | .nomatch =>
          if backwards then
            match reflectAppend b listDst next with
            | none => ⟨a, b, vis, next, bFounds, err, .panic⟩
            | some (newB, next1) =>
              match b.Set newB with
              | none => ⟨a, b, vis, next1, bFounds, err, .panic⟩
              | some v =>
                sliceLoop rec backwards listKey aIgnores rem (ai + 1) a { b with val := some v }
                  vis next1 bFounds err
          else
            sliceLoop rec backwards listKey aIgnores rem (ai + 1) a b vis next bFounds err
      | _, _ => ⟨a, b, vis, next, bFounds, err, .panic⟩

/-- `deepMergeSlices(a, b, visited, depth, overwrite, backwards, listKey,
aIgnores)`; the length of `a` does not change while the loop runs. -/
def deepMergeSlices (rec : Value → Value → Visited → Nat → Res) (a b : Value)
    (visited : Visited) (next : Nat) (backwards : Bool) (listKey : String)
    (aIgnores : List Nat) : SOut :=
  match a.Len with
  | none => ⟨a, b, visited, next, [], none, .panic⟩
  | some n => sliceLoop rec backwards listKey aIgnores n 0 a b visited next [] none

/-! ## `deepMerge` -/

/-- The visited check at the head of `deepMerge`: `none` when the pair of the
address and the type of an addressable `dst` is already recorded, otherwise the
visited set with the pair added (unchanged for a `dst` that is not
addressable). -/
def enter (dst : Value) (visited : Visited) : Option Visited :=
  match dst.addr, dst.val with
  | some addr, some v =>
    if (addr, typeOf v) ∈ visited then none else some ((addr, typeOf v) :: visited)
  | _, _ => some visited

/-- The struct case: `for i, n := 0, dst.NumField(); i < n; i++`, with `rem`
fields left. -/
def structLoop (rec : Value → Value → Visited → Nat → Res) (src : Value) :
    Nat → Nat → Value → Visited → Nat → Res
  | 0, _, dst, vis, next => ⟨dst.val, vis, next, none, .ok⟩
  | rem + 1, i, dst, vis, next =>
    match dst.Field i, src.Field i with
    | some df, some sf =>
      let r := rec df sf vis next
      let dst1 := dst.putField i r.val
      match r.status, r.err with
      | .ok, none => structLoop rec src rem (i + 1) dst1 r.visited r.next
      | st, e => ⟨dst1.val, r.visited, r.next, e, st⟩
    | _, _ => ⟨dst.val, vis, next, none, .panic⟩

/-- `dst.NumField()`. -/
def Value.NumField (x : Value) : Nat :=
  match x.val with
  | some (.struct _ fs) => fs.length
  | _ => 0

/-- The kind of the dynamic type of a value: `reflect.TypeOf(v.Interface()).Kind()`. -/
def dynKind (x : Value) : Kind :=
  match x.val with
  | some (.iface (some v)) => kindOf v
  | some v => kindOf v
  | none => .invalid

/-- The map case: `for _, key := range src.MapKeys()`, over the keys still to be
visited. -/
def mapLoop (rec : Value → Value → Visited → Nat → Res) (overwrite : Bool) (src : Value)
    (kty : Ty) : List Key → Value → Visited → Nat → Res
  | [], dst, vis, next => ⟨dst.val, vis, next, none, .ok⟩
  | key :: rest, dst, vis, next =>
    match src.MapIndex key kty src.ro, dst.MapIndex key kty src.ro with
    | some srcElement, some dstElement =>
      if !srcElement.IsValid then mapLoop rec overwrite src kty rest dst vis next
      else if srcElement.Kind ∈ [Kind.map, Kind.ptr, Kind.interface, Kind.slice]
          ∧ srcElement.IsNil = some true then
        mapLoop rec overwrite src kty rest dst vis next
      else if !srcElement.CanInterface then mapLoop rec overwrite src kty rest dst vis next
      else
        let r : Res :=
          if dynKind srcElement ∈ [Kind.struct, Kind.ptr, Kind.map] then
            rec dstElement srcElement vis next
          else ⟨dstElement.val, vis, next, none, .ok⟩
        let dst1 := dst.putEntry key r.val
        match r.status, r.err with
        | .ok, none =>
          if !isEmptyValue srcElement
              && (overwrite || (!dstElement.IsValid || isEmptyValue dst1)) then
            match dst1.IsNil with
            | some true =>
              match dst1.Set (makeMap dst1) with
              | none => ⟨dst1.val, r.visited, r.next, none, .panic⟩
              | some m =>
                match Value.SetMapIndex { dst1 with val := some m } key kty srcElement with
                | none => ⟨some m, r.visited, r.next, none, .panic⟩
                | some m1 =>
                  mapLoop rec overwrite src kty rest { dst1 with val := some m1 } r.visited r.next
            | _ =>
              match dst1.SetMapIndex key kty srcElement with
              | none => ⟨dst1.val, r.visited, r.next, none, .panic⟩
              | some m1 =>
                mapLoop rec overwrite src kty rest { dst1 with val := some m1 } r.visited r.next
          else mapLoop rec overwrite src kty rest dst1 r.visited r.next
        | st, e => ⟨dst1.val, r.visited, r.next, e, st⟩
    | _, _ => ⟨dst.val, vis, next, none, .panic⟩

/-- The assignment shared by the slice case and the default case of `deepMerge`:
`if dst.CanSet() && !isEmptyValue(src) && (overwrite || isEmptyValue(dst)) {
dst.Set(src) }`. -/
def assignRule (overwrite : Bool) (dst src : Value) (vis : Visited) (next : Nat) : Res :=
  if dst.CanSet && !isEmptyValue src && (overwrite || isEmptyValue dst) then
    match dst.Set src with
    | none => ⟨dst.val, vis, next, none, .panic⟩
    | some v => ⟨some v, vis, next, none, .ok⟩
  else ⟨dst.val, vis, next, none, .ok⟩

/-- The value of `sliceKind` in the slice case of `deepMerge`; `none` is a
panic. -/
def sliceKindOf (listKey : String) (dst src : Value) : Option Kind :=
  if listKey.length = 0 then some Kind.invalid
  else
    match dst.Len with
    | none => none
    | some dl =>
      if 0 < dl then (dst.Index 0).map Value.Kind
      else
        match src.Len with
        | none => none
        | some sl => if 0 < sl then (src.Index 0).map Value.Kind else some Kind.invalid

/-- The slice case of `deepMerge`.  The `err` of the two calls of
`deepMergeSlices` is local to the case; the case itself returns a nil error. -/
def sliceCase (rec : Value → Value → Visited → Nat → Res) (overwrite : Bool)
    (listKey : String) (dst src : Value) (vis : Visited) (next : Nat) : Res :=
  match sliceKindOf listKey dst src with
  | none => ⟨dst.val, vis, next, none, .panic⟩
  | some k =>
    if k = Kind.struct ∨ k = Kind.map then
      let p1 := deepMergeSlices rec dst src vis next false listKey []
      match p1.status, p1.err with
      | .ok, none =>
        let p2 := deepMergeSlices rec p1.b p1.a p1.visited p1.next true listKey p1.bFounds
        match p2.status, p2.err with
        | .ok, none => ⟨p2.b.val, p2.visited, p2.next, none, .ok⟩
        | .ok, some _ => assignRule overwrite p2.b p2.a p2.visited p2.next
        | st, _ => ⟨p2.b.val, p2.visited, p2.next, none, st⟩
      | .ok, some _ => assignRule overwrite p1.a p1.b p1.visited p1.next
      | st, _ => ⟨p1.a.val, p1.visited, p1.next, none, st⟩
    else assignRule overwrite dst src vis next

/-- The pointer and interface case of `deepMerge`. -/
def ptrCase (rec : Value → Value → Visited → Nat → Res) (overwrite : Bool)
    (dst src : Value) (vis : Visited) (next : Nat) : Res :=
  match src.IsNil, dst.IsNil with
  | some true, _ => ⟨dst.val, vis, next, none, .ok⟩
  | some false, some dnil =>
    if dnil || overwrite then
      if dst.CanSet && (overwrite || isEmptyValue dst) then
        match dst.Set src with
        | none => ⟨dst.val, vis, next, none, .panic⟩
        | some v => ⟨some v, vis, next, none, .ok⟩
      else ⟨dst.val, vis, next, none, .ok⟩
    else
      match dst.Elem, src.Elem with
      | some de, some se =>
        let r := rec de se vis next
        ⟨(dst.putElem r.val).val, r.visited, r.next, r.err, r.status⟩
      | _, _ => ⟨dst.val, vis, next, none, .panic⟩
  | _, _ => ⟨dst.val, vis, next, none, .panic⟩

/-- `deepMerge(dst, src, visited, depth, overwrite, listKey)`.  The first
argument after the two modes is the recursion budget of the embedding: every
recursive call descends into `src`, and the budget bounds that descent. -/
def deepMerge (overwrite : Bool) (listKey : String) :
    Nat → Value → Value → Visited → Nat → Res
  | 0, dst, _, vis, next => ⟨dst.val, vis, next, none, .fuel⟩
  | fuel + 1, dst, src, vis, next =>
    if !src.IsValid then ⟨dst.val, vis, next, none, .ok⟩
    else
      match enter dst vis with
      | none => ⟨dst.val, vis, next, none, .ok⟩
      | some vis1 =>
        match dst.Kind with
        | .struct => structLoop (deepMerge overwrite listKey fuel) src dst.NumField 0 dst vis1 next
        | .slice => sliceCase (deepMerge overwrite listKey fuel) overwrite listKey dst src vis1 next
        | .map =>
          match src.MapKeys with
          | none => ⟨dst.val, vis1, next, none, .panic⟩
          | some (keys, kty) =>
            mapLoop (deepMerge overwrite listKey fuel) overwrite src kty keys dst vis1 next
        | .ptr => ptrCase (deepMerge overwrite listKey fuel) overwrite dst src vis1 next
        | .interface => ptrCase (deepMerge overwrite listKey fuel) overwrite dst src vis1 next
        | _ => assignRule overwrite dst src vis1 next

/-! ## Entry points -/

/-- Modelled from the spec: `resolveValues`, which is not part of `merge.go`.  The
destination has to be passed in a form that permits in-place mutation, a non-nil
pointer to a record or a mapping, and resolves to the addressable value it
points to; the source resolves to itself or, when it is passed as a pointer, to
the value it points to. -/
def resolveValues (dst src : Val) : Except MergeError (Value × Value) :=
  match dst with
  | .ptr _ (some (id, d)) =>
    if kindOf d = Kind.struct ∨ kindOf d = Kind.map then
      match src with
      | .ptr _ (some (sid, s)) => .ok (⟨some d, some (id, []), false⟩, ⟨some s, some (sid, []), false⟩)
      | .ptr _ none => .ok (⟨some d, some (id, []), false⟩, ⟨none, none, false⟩)
      | s => .ok (⟨some d, some (id, []), false⟩, ⟨some s, none, false⟩)
    else .error .invalidArgument
  | _ => .error .invalidArgument

/-- The argument `dst` after the call: the pointer with the object it points to
holding `v`. -/
def withTarget (dst : Val) (v : Option Val) : Val :=
  match dst, v with
  | .ptr e (some (id, _)), some w => .ptr e (some (id, w))
  | d, _ => d

/-- `merge(dst, src, overwrite, key)`.  `fuel` is the recursion budget of the
embedding and `next` the first unused allocation identity; the visited set
starts empty.  The result holds the argument `dst` after the call. -/
def merge (fuel next : Nat) (dst src : Val) (overwrite : Bool) (key : String) : Out Val :=
  match resolveValues dst src with
  | .error e => ⟨dst, [], next, some e, .ok⟩
  | .ok (vDst, vSrc) =>
    match vDst.Type, vSrc.Type with
    | some td, some ts =>
      if td ≠ ts then ⟨dst, [], next, some .ErrDifferentArgumentsTypes, .ok⟩
      else
        let r := deepMerge overwrite key fuel vDst vSrc [] next
        ⟨withTarget dst r.val, r.visited, r.next, r.err, r.status⟩
    | _, _ => ⟨dst, [], next, none, .panic⟩

/-- `Merge(dst, src, key)`. -/
def Merge (fuel next : Nat) (dst src : Val) (key : String) : Out Val :=
  merge fuel next dst src false key

/-- `MergeWithOverwrite(dst, src, key)`. -/
def MergeWithOverwrite (fuel next : Nat) (dst src : Val) (key : String) : Out Val :=
  merge fuel next dst src true key

/-! ## Specification vocabulary -/

/-- One step from a value to a value it contains. -/
inductive Step where
  | field (i : Nat)
  | index (i : Nat)
  | key (k : Key)
  | elem
  deriving DecidableEq, Repr

/-- The value reached from `v` by one step. -/
def child : Val → Step → Option Val
  | .struct _ fs, .field i => (fs.get? i).map Prod.snd
  | .slice _ _ _ es, .index i => es.get? i
  | .map _ _ (some es), .key k => mapLookup k es
  | .ptr _ (some (_, v)), .elem => some v
  | .iface (some v), .elem => some v
  | _, _ => none

/-- The leaves are the values of kind bool, int and string. -/
def isLeaf : Val → Bool
  | .bool _ => true
  | .int _ => true
  | .str _ => true
  | _ => false

/-- The leaf found in `v` at the end of a path, if the path leads to a leaf. -/
def leafAt : List Step → Val → Option Val
  | [], v => if isLeaf v then some v else none
  | s :: p, v =>
    match child v s with
    | some w => leafAt p w
    | none => none

/-- The whole-sequence replacement rule: the contents of the storage of `dst`,
which holds `d`, after the rule is applied with the source sequence `s`. -/
def replaceRule (overwrite : Bool) (dst : Value) (d s : Val) : Val :=
  if dst.CanSet && !isEmptyVal s && (overwrite || isEmptyVal d) then s else d

/-- `d1` keeps the non-empty leaves of `d`: every leaf that `d` holds at some
path with a non-empty value is held by `d1` at the same path with the same
value. -/
def Keeps (d d1 : Val) : Prop :=
  ∀ p v, leafAt p d = some v → isEmptyVal v = false → leafAt p d1 = some v

/-- `Keeps` on the contents of a `reflect.Value`; the zero `Value` has no
leaves. -/
def KeepsO : Option Val → Option Val → Prop
  | some d, some d1 => Keeps d d1
  | some _, none => False
  | none, _ => True

/-- A merge function never loses a non-empty leaf of its destination. -/
def RecKeeps (rec : Value → Value → Visited → Nat → Res) : Prop :=
  ∀ d s vis next, KeepsO d.val (rec d s vis next).val

/-- The leaf rule: `dst` takes the value of `src` when `src` is non-empty and
(`overwrite` is true or `dst` is empty), and keeps its value otherwise. -/
def leafRule (overwrite : Bool) (d s : Val) : Val :=
  if !isEmptyVal s && (overwrite || isEmptyVal d) then s else d

mutual
/-- `d` and `s` are records of one type whose leaves are scalars reached through
exported record-valued fields only (or are two scalars of one kind). -/
def scalarRecord : Val → Val → Bool
  | .bool _, .bool _ => true
  | .int _, .int _ => true
  | .str _, .str _ => true
  | .struct t fs, .struct t1 gs => decide (t = t1) && scalarFields fs gs
  | _, _ => false
/-- The field lists of two records of one type, see `scalarRecord`. -/
def scalarFields : List (String × Val) → List (String × Val) → Bool
  | [], [] => true
  | (n, v) :: fs, (m, w) :: gs =>
    decide (n = m) && isExported n && scalarRecord v w && scalarFields fs gs
  | _, _ => false
end

mutual
/-- The record obtained from `d` by applying the leaf rule to every leaf, with the
leaf of `s` at the same place. -/
def ruleMerge (overwrite : Bool) : Val → Val → Val
  | .struct t fs, .struct _ gs => .struct t (ruleFields overwrite fs gs)
  | d, s => leafRule overwrite d s
/-- The leaf rule on the fields of a record, see `ruleMerge`. -/
def ruleFields (overwrite : Bool) :
    List (String × Val) → List (String × Val) → List (String × Val)
  | (n, v) :: fs, (_, w) :: gs => (n, ruleMerge overwrite v w) :: ruleFields overwrite fs gs
  | fs, _ => fs
end

mutual
/-- The nesting depth of a value: a recursion budget that suffices to traverse
it. -/
def depth : Val → Nat
  | .bool _ => 1
  | .int _ => 1
  | .str _ => 1
  | .struct _ fs => depthFields fs + 1
  | .slice _ _ _ es => depthList es + 1
  | .map _ _ none => 1
  | .map _ _ (some es) => depthEntries es + 1
  | .ptr _ none => 1
  | .ptr _ (some (_, v)) => depth v + 1
  | .iface none => 1
  | .iface (some v) => depth v + 1
/-- The largest depth of a field. -/
def depthFields : List (String × Val) → Nat
  | [] => 0
  | (_, v) :: r => max (depth v) (depthFields r)
/-- The largest depth of an element. -/
def depthList : List Val → Nat
  | [] => 0
  | v :: r => max (depth v) (depthList r)
/-- The largest depth of an entry. -/
def depthEntries : List (Key × Val) → Nat
  | [] => 0
  | (_, v) :: r => max (depth v) (depthEntries r)
end

/-- No entry of the visited set lies at or below the address `(alloc, path)`. -/
def FreshBelow (vis : Visited) (alloc : Nat) (path : List Nat) : Prop :=
  ∀ e ∈ vis, e.1.1 = alloc → ¬ path <+: e.1.2

/-- The outcome `r` of a merge called at the address `(alloc, path)` with the
visited set `vis` and the allocation counter `next`: it returned normally with
the contents `v`, allocated nothing, returned no error, and recorded only
addresses at or below the one it was called at. -/
def ScalarOut (r : Res) (v : Val) (vis : Visited) (next alloc : Nat) (path : List Nat) :
    Prop :=
  r.val = some v ∧ r.next = next ∧ r.err = none ∧ r.status = Status.ok
    ∧ ∀ e ∈ r.visited, e ∈ vis ∨ (e.1.1 = alloc ∧ path <+: e.1.2)

/-- On records of scalars that fit in the budget `fuel`, at a fresh settable
address, the merge function `rec` returns the record given by the leaf rule. -/
def RecScalar (overwrite : Bool) (rec : Value → Value → Visited → Nat → Res) (fuel : Nat) :
    Prop :=
  ∀ d s, scalarRecord d s = true → depth d ≤ fuel →
    ∀ (alloc : Nat) (path : List Nat) (saddr : Option Addr) (vis : Visited) (next : Nat),
      FreshBelow vis alloc path →
      ScalarOut (rec ⟨some d, some (alloc, path), false⟩ ⟨some s, saddr, false⟩ vis next)
        (ruleMerge overwrite d s) vis next alloc path

/-! ## Keyed sequences of records -/

/-- The text of the list key of a record: the contents of its field called
`listKey`, when that field is a string. -/
def keyText (listKey : String) : Val → Option String
  | .struct _ fs =>
    match fieldIndex listKey fs 0 with
    | some i =>
      match fs.get? i with
      | some (_, .str s) => some s
      | _ => none
    | none => none
  | _ => none

/-- `el` is a record of the struct type `t`, with the field names `ns`, whose
list-key field holds a string. -/
def keyedRecord (listKey t : String) (ns : List String) (el : Val) : Bool :=
  match el with
  | .struct t1 fs =>
    decide (t1 = t) && decide (fs.map Prod.fst = ns) && (keyText listKey el).isSome
  | _ => false

/-- The position, counted from `i`, of the first record of the list whose key has
the text `kd`. -/
def findKey (listKey kd : String) : List Val → Nat → Option Nat
  | [], _ => none
  | x :: xs, i => if keyText listKey x = some kd then some i else findKey listKey kd xs (i + 1)

/-- A merge function that never returns an error. -/
def RecNoErr (rec : Value → Value → Visited → Nat → Res) : Prop :=
  ∀ d s vis next, (rec d s vis next).err = none

/-- A merge function that, on two keyed records with the same key text, returns
no error and leaves in the destination a keyed record with that key text. -/
def RecKey (listKey t : String) (ns : List String)
    (rec : Value → Value → Visited → Nat → Res) : Prop :=
  ∀ (d s : Value) (dv sv : Val) (k : String) (vis : Visited) (next : Nat),
    d.val = some dv → s.val = some sv →
    keyedRecord listKey t ns dv = true → keyedRecord listKey t ns sv = true →
    keyText listKey dv = some k → keyText listKey sv = some k →
    (rec d s vis next).err = none
    ∧ ∃ dv1, (rec d s vis next).val = some dv1 ∧ keyedRecord listKey t ns dv1 = true
        ∧ keyText listKey dv1 = some k

/-- What the first pass makes of the destination element `d`: `d1` is a keyed
record with the key text of `d`; it is `d` itself when no element of the source
sequence `ses` has that key text; and when one has, `d1` is what the merge
function `rec` leaves of `d` when it is called on `d` and the first element of
`ses` with that key text (at the place, visited set and allocation counter of
that moment). -/
def MatchMerged (rec : Value → Value → Visited → Nat → Res) (listKey t : String)
    (ns : List String) (ses : List Val) (d d1 : Val) : Prop :=
  keyedRecord listKey t ns d1 = true ∧ keyText listKey d1 = keyText listKey d
    ∧ (keyText listKey d ∉ ses.map (keyText listKey) → d1 = d)
    ∧ (∀ kd j, keyText listKey d = some kd → findKey listKey kd ses 0 = some j →
        ∃ (s : Val) (dv sv : Value) (vis : Visited) (next : Nat),
          ses.get? j = some s ∧ dv.val = some d ∧ sv.val = some s
          ∧ (rec dv sv vis next).val = some d1)

/-- The value of the list-key field of a record, of whatever kind. -/
def keyValue (listKey : String) : Val → Option Val
  | .struct _ fs =>
    match fieldIndex listKey fs 0 with
    | some i => (fs.get? i).map Prod.snd
    | none => none
  | _ => none

/-- Equality of two leaves: same kind and same value. -/
def sameLeaf : Option Val → Option Val → Bool
  | some (.bool a), some (.bool b) => decide (a = b)
  | some (.int a), some (.int b) => decide (a = b)
  | some (.str a), some (.str b) => decide (a = b)
  | _, _ => false

/-- The union by key value: the elements of `des` in their order, followed by the
elements of `ses` whose key value equals the key value of no element of `des`, in
their order. -/
def unionByKey (listKey : String) (des ses : List Val) : List Val :=
  des ++ ses.filter (fun s =>
    des.all (fun d => !sameLeaf (keyValue listKey d) (keyValue listKey s)))

/-- The elements of a sequence. -/
def elemsOf : Option Val → Option (List Val)
  | some (.slice _ _ _ es) => some es
  | _ => none

/-! ## The zero value -/

mutual
/-- The value is the zero value of its type: every leaf empty, every pointer,
interface, sequence and mapping unset, in a record every field the zero value. -/
def isZero : Val → Bool
  | .bool b => !b
  | .int i => decide (i = 0)
  | .str s => decide (s = "")
  | .struct _ fs => zeroFields fs
  | .slice _ arr _ es => arr.isNone && es.isEmpty
  | .map _ _ es => es.isNone
  | .ptr _ t => t.isNone
  | .iface d => d.isNone
/-- Every field holds the zero value, see `isZero`. -/
def zeroFields : List (String × Val) → Bool
  | [] => true
  | (_, v) :: r => isZero v && zeroFields r
end

mutual
/-- The types of `d` and `s` agree down to the places where `s` is unset: `s` can
be the zero value of the type of `d`. -/
def sameShape : Val → Val → Bool
  | .bool _, .bool _ => true
  | .int _, .int _ => true
  | .str _, .str _ => true
  | .struct t fs, .struct t1 gs => decide (t = t1) && shapeFields fs gs
  | .slice e _ _ _, .slice e1 _ _ _ => decide (e = e1)
  | .map k v _, .map k1 v1 _ => decide (k = k1) && decide (v = v1)
  | .ptr e _, .ptr e1 _ => decide (e = e1)
  | .iface _, .iface _ => true
  | _, _ => false
/-- The field lists of two records of one type, see `sameShape`. -/
def shapeFields : List (String × Val) → List (String × Val) → Bool
  | [], [] => true
  | (n, v) :: fs, (m, w) :: gs => decide (n = m) && sameShape v w && shapeFields fs gs
  | _, _ => false
end

/-- The value the argument `src` of `Merge` resolves to: the value itself or, for
a non-nil pointer, the value it points to. -/
def sourceValue : Val → Val
  | .ptr _ (some (_, s)) => s
  | s => s

/-- A merge function that leaves its destination as it is when the source is a
zero value. -/
def RecZero (rec : Value → Value → Visited → Nat → Res) : Prop :=
  ∀ (d s : Value) (sv : Val) (vis : Visited) (next : Nat),
    s.val = some sv → isZero sv = true →
      (rec d s vis next).val = d.val ∧ (rec d s vis next).next = next

/-- A merge function that returns normally on a destination that fits in the
budget `fuel` and a source that is the zero value of its type. -/
def RecZeroOk (rec : Value → Value → Visited → Nat → Res) (fuel : Nat) : Prop :=
  ∀ (d s : Value) (dv sv : Val) (vis : Visited) (next : Nat),
    d.val = some dv → s.val = some sv → isZero sv = true → sameShape dv sv = true →
    depth dv ≤ fuel → (rec d s vis next).status = Status.ok

/-! ## The map case, one key at a time -/

/-- The body of the loop of the map case for one key, see `mapLoop`: either the
state with which the loop goes on (`inl`), or the outcome with which it ends
(`inr`). -/
def mapStep (rec : Value → Value → Visited → Nat → Res) (overwrite : Bool) (src : Value)
    (kty : Ty) (key : Key) (dst : Value) (vis : Visited) (next : Nat) :
    (Value × Visited × Nat) ⊕ Res :=
  match src.MapIndex key kty src.ro, dst.MapIndex key kty src.ro with
  | some srcElement, some dstElement =>
    if !srcElement.IsValid then .inl (dst, vis, next)
    else if srcElement.Kind ∈ [Kind.map, Kind.ptr, Kind.interface, Kind.slice]
        ∧ srcElement.IsNil = some true then
      .inl (dst, vis, next)
    else if !srcElement.CanInterface then .inl (dst, vis, next)
    else
      let r : Res :=
        if dynKind srcElement ∈ [Kind.struct, Kind.ptr, Kind.map] then
          rec dstElement srcElement vis next
        else ⟨dstElement.val, vis, next, none, .ok⟩
      let dst1 := dst.putEntry key r.val
      match r.status, r.err with
      | .ok, none =>
        if !isEmptyValue srcElement
            && (overwrite || (!dstElement.IsValid || isEmptyValue dst1)) then
          match dst1.IsNil with
          | some true =>
            match dst1.Set (makeMap dst1) with
            | none => .inr ⟨dst1.val, r.visited, r.next, none, .panic⟩
            | some m =>
              match Value.SetMapIndex { dst1 with val := some m } key kty srcElement with
              | none => .inr ⟨some m, r.visited, r.next, none, .panic⟩
              | some m1 => .inl ({ dst1 with val := some m1 }, r.visited, r.next)
          | _ =>
            match dst1.SetMapIndex key kty srcElement with
            | none => .inr ⟨dst1.val, r.visited, r.next, none, .panic⟩
            | some m1 => .inl ({ dst1 with val := some m1 }, r.visited, r.next)
        else .inl (dst1, r.visited, r.next)
      | st, e => .inr ⟨dst1.val, r.visited, r.next, e, st⟩
  | _, _ => .inr ⟨dst.val, vis, next, none, .panic⟩

/-- The entry of a map value under a key. -/
def entryOf (v : Option Val) (k : Key) : Option Val :=
  match v with
  | some (.map _ _ (some es)) => mapLookup k es
  | _ => none

/-- A nil slice, map, pointer or interface. -/
def isNilVal : Val → Bool
  | .slice _ arr _ _ => arr.isNone
  | .map _ _ es => es.isNone
  | .ptr _ t => t.isNone
  | .iface d => d.isNone
  | _ => false

/-- What `MapIndex` returns for an entry: a copy of the value that is not
addressable, the zero `Value` for an absent key. -/
def elemValue (d : Option Val) (ro : Bool) : Value :=
  match d with
  | some v => ⟨some v, none, ro⟩
  | none => ⟨none, none, false⟩

/-- The rule of the map case for one key, as a rule on the entry: `d` is the
entry of `dst` under the key (if any), `s` the entry of `src`.  A nil or
unreadable `s` is skipped; a non-empty `s` is stored when `overwrite` is true or
`dst` has no entry; otherwise an existing entry holds the result of the
recursive merge when `s` is a struct, pointer or map, and is left as it is when
it is not. -/
def entryRule (rec : Value → Value → Visited → Nat → Res) (overwrite : Bool) (dro sro : Bool)
    (vt : Ty) (d : Option Val) (s : Val) (vis : Visited) (next : Nat) : Option Val :=
  if isNilVal s || sro then d
  else if !isEmptyVal s && (overwrite || d.isNone) then some (stored vt s)
  else
    match d with
    | none => none
    | some dv =>
      if dynKind ⟨some s, none, sro⟩ ∈ [Kind.struct, Kind.ptr, Kind.map] then
        match (rec ⟨some dv, none, dro || sro⟩ ⟨some s, none, sro⟩ vis next).val with
        | some w => some w
        | none => some dv
      else some dv

/-! ## Mappings up to the order of their entries -/

/-- The entries of a map value (none for a nil map and for what is not a map). -/
def entriesOf (v : Option Val) : List (Key × Val) :=
  match v with
  | some (.map _ _ (some es)) => es
  | _ => []

/-- The entry of a map under a key after the result `r` of the recursive merge
of the entry `d` is written back: an entry that exists holds the result. -/
def writtenBack (d r : Option Val) : Option Val :=
  match d, r with
  | some _, some w => some w
  | x, _ => x

/-- A value in which a new map entry can be stored: a map that is not nil, or
one that is addressable, so that `dst.Set(reflect.MakeMap(dst.Type()))` can
replace the nil map. -/
def canGrow (dst : Value) : Bool :=
  match dst.val with
  | some (.map _ _ none) => dst.addr.isSome
  | _ => true

/-- The body of the loop of the map case for one key, for operands that can be
read and written and a key of the key type of both maps, as a rule on the entry
`s` of `src` under the key: the state with which the loop goes on, `none` when
the loop stops.  It is related to `mapStep` by `mapStep_getLeft`. -/
def stepRule (rec : Value → Value → Visited → Nat → Res) (overwrite : Bool) (key : Key)
    (kt vt : Ty) (s : Option Val) (dst : Value) (vis : Visited) (next : Nat) :
    Option (Value × Visited × Nat) :=
  match s with
  | none => some (dst, vis, next)
  | some s =>
    if isNilVal s then some (dst, vis, next)
    else
      let d := entryOf dst.val key
      let r : Res :=
        if dynKind ⟨some s, none, false⟩ ∈ [Kind.struct, Kind.ptr, Kind.map] then
          rec (elemValue d false) ⟨some s, none, false⟩ vis next
        else ⟨d, vis, next, none, .ok⟩
      if r.status = .ok ∧ r.err = none then
        if !isEmptyVal s && (overwrite || d.isNone) then
          if assignable (typeOf s) vt && canGrow dst then
            some (⟨some (.map kt vt (some (mapInsert key (stored vt s)
              (entriesOf (dst.putEntry key r.val).val)))), dst.addr, false⟩, r.visited, r.next)
          else none
        else some (dst.putEntry key r.val, r.visited, r.next)
      else none

/-- Two values are the same up to the order in which the entries of the maps in
them are listed: equal leaves, or maps of one type that are both nil or both
not, with the same keys and, under every key, values of the value type that are
the same in this sense. -/
inductive Same : Val → Val → Prop where
  | bool (b : Bool) : Same (.bool b) (.bool b)
  | int (i : Int) : Same (.int i) (.int i)
  | str (s : String) : Same (.str s) (.str s)
  | nilMap (kt vt : Ty) : Same (.map kt vt none) (.map kt vt none)
  | map (kt vt : Ty) (es es1 : List (Key × Val))
      (hkeys : ∀ k, mapLookup k es = none ↔ mapLookup k es1 = none)
      (htype : ∀ k a, mapLookup k es = some a → typeOf a = vt)
      (hvals : ∀ k a b, mapLookup k es = some a → mapLookup k es1 = some b → Same a b) :
      Same (.map kt vt (some es)) (.map kt vt (some es1))

/-- `Same` on entries that may be absent. -/
def SameO : Option Val → Option Val → Prop
  | none, none => True
  | some a, some b => Same a b
  | _, _ => False

mutual
/-- The keys of every map in the value are pairwise distinct, as in a Go map. -/
def distinctKeys : Val → Bool
  | .map _ _ (some es) => decide ((es.map Prod.fst).Nodup) && distinctEntries es
  | _ => true
/-- The keys are distinct in every entry. -/
def distinctEntries : List (Key × Val) → Bool
  | [] => true
  | (_, v) :: rest => distinctKeys v && distinctEntries rest
end

/-- A merge function whose outcome on maps does not depend on the order of the
entries: it returns no error; on the zero `Value` as destination its outcome
does not depend on the source and, when it returns normally, nothing changed;
and on two destinations and two sources that are the same up to the order of
their entries it returns normally on both or on neither, does not touch the
visited set and the allocation counter, and leaves destinations of the type they
had that are again the same up to the order of their entries. -/
def RecOrder (rec : Value → Value → Visited → Nat → Res) : Prop :=
  RecNoErr rec
  ∧ (∀ (s s1 : Val) (vis : Visited) (next : Nat),
      rec ⟨none, none, false⟩ ⟨some s, none, false⟩ vis next
        = rec ⟨none, none, false⟩ ⟨some s1, none, false⟩ vis next
      ∧ ((rec ⟨none, none, false⟩ ⟨some s, none, false⟩ vis next).status = Status.ok →
          rec ⟨none, none, false⟩ ⟨some s, none, false⟩ vis next
            = ⟨none, vis, next, none, Status.ok⟩))
  ∧ (∀ (d d1 s s1 : Val) (vis : Visited) (next : Nat),
      Same d d1 → Same s s1 → kindOf s = Kind.map → typeOf d = typeOf s →
      distinctKeys s = true → distinctKeys s1 = true →
      ((rec ⟨some d, none, false⟩ ⟨some s, none, false⟩ vis next).status = Status.ok
        ↔ (rec ⟨some d1, none, false⟩ ⟨some s1, none, false⟩ vis next).status = Status.ok)
      ∧ ((rec ⟨some d, none, false⟩ ⟨some s, none, false⟩ vis next).status = Status.ok →
          (rec ⟨some d, none, false⟩ ⟨some s, none, false⟩ vis next).visited = vis
          ∧ (rec ⟨some d, none, false⟩ ⟨some s, none, false⟩ vis next).next = next
          ∧ (rec ⟨some d1, none, false⟩ ⟨some s1, none, false⟩ vis next).visited = vis
          ∧ (rec ⟨some d1, none, false⟩ ⟨some s1, none, false⟩ vis next).next = next
          ∧ ∃ w w1,
            (rec ⟨some d, none, false⟩ ⟨some s, none, false⟩ vis next).val = some w
            ∧ (rec ⟨some d1, none, false⟩ ⟨some s1, none, false⟩ vis next).val = some w1
            ∧ Same w w1 ∧ typeOf w = typeOf d))

mutual
/-- A check for `Same` on two values whose maps list every key once. -/
def sameB : Val → Val → Bool
  | .bool a, .bool b => decide (a = b)
  | .int a, .int b => decide (a = b)
  | .str a, .str b => decide (a = b)
  | .map kt vt none, .map kt1 vt1 none => decide (kt = kt1) && decide (vt = vt1)
  | .map kt vt (some es), .map kt1 vt1 (some es1) =>
    decide (kt = kt1) && decide (vt = vt1) && sameEntriesB vt es es1
      && es1.all (fun p => (mapLookup p.1 es).isSome)
  | _, _ => false
/-- Every listed entry has the value type and a counterpart under its key. -/
def sameEntriesB (vt : Ty) : List (Key × Val) → List (Key × Val) → Bool
  | [], _ => true
  | (k, v) :: rest, es1 =>
    (match mapLookup k es1 with
      | some v1 => decide (typeOf v = vt) && sameB v v1
      | none => false)
    && sameEntriesB vt rest es1
end

/-! ## Backing arrays -/

mutual
/-- The identities of the backing arrays of the sequences in a value, one entry
per sequence, through records, sequences, mappings, pointers and interfaces. -/
def arrayIds : Val → List Nat
  | .bool _ => []
  | .int _ => []
  | .str _ => []
  | .struct _ fs => arrayIdsFields fs
  | .slice _ arr _ es => arr.toList ++ arrayIdsList es
  | .map _ _ none => []
  | .map _ _ (some es) => arrayIdsEntries es
  | .ptr _ none => []
  | .ptr _ (some (_, v)) => arrayIds v
  | .iface none => []
  | .iface (some v) => arrayIds v
/-- The backing arrays in the fields of a record. -/
def arrayIdsFields : List (String × Val) → List Nat
  | [] => []
  | (_, v) :: r => arrayIds v ++ arrayIdsFields r
/-- The backing arrays in the elements of a sequence. -/
def arrayIdsList : List Val → List Nat
  | [] => []
  | v :: r => arrayIds v ++ arrayIdsList r
/-- The backing arrays in the entries of a mapping. -/
def arrayIdsEntries : List (Key × Val) → List Nat
  | [] => []
  | (_, v) :: r => arrayIds v ++ arrayIdsEntries r
end

/-- No backing array is reachable along two paths: every sequence in `dst` and
in `src` has a backing array of its own.  On such values an append in place
shows through no other sequence, as in the embedding, where every sequence holds
its elements itself. -/
def ownArrays (dst src : Val) : Bool :=
  decide ((arrayIds dst ++ arrayIds src).Nodup)

mutual
/-- The identities of the pointer targets in a value, one entry per pointer,
through records, sequences, mappings, pointers and interfaces. -/
def targetIds : Val → List Nat
  | .bool _ => []
  | .int _ => []
  | .str _ => []
  | .struct _ fs => targetIdsFields fs
  | .slice _ _ _ es => targetIdsList es
  | .map _ _ none => []
  | .map _ _ (some es) => targetIdsEntries es
  | .ptr _ none => []
  | .ptr _ (some (id, v)) => id :: targetIds v
  | .iface none => []
  | .iface (some v) => targetIds v
/-- The pointer targets in the fields of a record. -/
def targetIdsFields : List (String × Val) → List Nat
  | [] => []
  | (_, v) :: r => targetIds v ++ targetIdsFields r
/-- The pointer targets in the elements of a sequence. -/
def targetIdsList : List Val → List Nat
  | [] => []
  | v :: r => targetIds v ++ targetIdsList r
/-- The pointer targets in the entries of a mapping. -/
def targetIdsEntries : List (Key × Val) → List Nat
  | [] => []
  | (_, v) :: r => targetIds v ++ targetIdsEntries r
end

/-- No backing array and no pointer target is reachable along two paths: what is
written through one element of `dst` shows through no other element and through
no element of `src`, as in the embedding, where every sequence holds its
elements and every pointer its target itself. -/
def ownObjects (dst src : Val) : Bool :=
  ownArrays dst src && decide ((targetIds dst ++ targetIds src).Nodup)

/-! # Second embedding: an explicit heap

The embedding above keeps one copy of an object per reference.  For the claims
about what is shared (a value of the source that the destination refers to, a
map that contains itself) the same functions are embedded once more over an
explicit heap: a reference holds the identity of an object, the objects live in
the heap, and a call transforms the heap.  An addressable `reflect.Value` is a
place in the heap and is read when it is used; a `reflect.Value` that is not
addressable holds a copy of the value.  Everything else is as above. -/

namespace Graph

/-- A value as it is stored; a slice, map or pointer holds the identity of its
backing array, table or target. -/
inductive Val where
  | bool (b : Bool)
  | int (i : Int)
  | str (s : String)
  | struct (ty : String) (fields : List (String × Val))
  | slice (ety : Ty) (arr : Option Nat) (len cap : Nat)
  | map (kty vty : Ty) (tbl : Option Nat)
  | ptr (ety : Ty) (target : Option Nat)
  | iface (dyn : Option Val)
  deriving Repr

/-- An object of the heap: a variable or the target of a pointer, the backing
array of slices, or the table of a map (in the order in which `MapKeys`
enumerates it). -/
inductive Obj where
  | cell (v : Val)
  | array (es : List Val)
  | table (es : List (Key × Val))
  deriving Repr

/-- The heap: the objects by identity. -/
abbrev Heap := List (Nat × Obj)

/-- The object with the identity `id`. -/
def heapGet : Heap → Nat → Option Obj
  | [], _ => none
  | (i, o) :: rest, id => if i = id then some o else heapGet rest id

/-- The heap with the object `id` holding `o`. -/
def heapPut : Heap → Nat → Obj → Heap
  | [], id, o => [(id, o)]
  | (i, o1) :: rest, id, o => if i = id then (id, o) :: rest else (i, o1) :: heapPut rest id o

/-- A `reflect.Value`: a place in the heap (`loc`) when it is addressable,
otherwise a copy of the value (`held`); the zero `Value` has neither. -/
structure Value where
  held : Option Val
  loc : Option Addr
  ro : Bool
  deriving Repr

/-- The outcome of a call: the heap, the visited set, the allocation counter,
the returned error and the status. -/
structure Out where
  heap : Heap
  visited : Visited
  next : Nat
  err : Option MergeError
  status : Status
  deriving Repr

/-- The part of a value at a path of field indices. -/
def subVal : Val → List Nat → Option Val
  | v, [] => some v
  | .struct _ fs, i :: p =>
    match fs.get? i with
    | some (_, w) => subVal w p
    | none => none
  | _, _ => none

/-- The value with the part at a path of field indices replaced by `w`. -/
def setSub : Val → List Nat → Val → Option Val
  | _, [], w => some w
  | .struct t fs, i :: p, w =>
    match fs.get? i with
    | some (n, v) =>
      match setSub v p w with
      | some v1 => some (.struct t (fs.set i (n, v1)))
      | none => none
    | none => none
  | _, _, _ => none

/-- The value stored at a place. -/
def readAt (h : Heap) (a : Addr) : Option Val :=
  match heapGet h a.1, a.2 with
  | some (.cell v), p => subVal v p
  | some (.array es), i :: p =>
    match es.get? i with
    | some v => subVal v p
    | none => none
  | _, _ => none

/-- The heap with `w` stored at a place. -/
def writeAt (h : Heap) (a : Addr) (w : Val) : Option Heap :=
  match heapGet h a.1, a.2 with
  | some (.cell v), p =>
    match setSub v p w with
    | some v1 => some (heapPut h a.1 (.cell v1))
    | none => none
  | some (.array es), i :: p =>
    match es.get? i with
    | some v =>
      match setSub v p w with
      | some v1 => some (heapPut h a.1 (.array (es.set i v1)))
      | none => none
    | none => none
  | _, _ => none

/-- The value a `reflect.Value` holds now. -/
def load (h : Heap) (x : Value) : Option Val :=
  match x.loc with
  | some a => readAt h a
  | none => x.held

/-- `reflect.Value.Type` on the value held. -/
def typeOf : Val → Ty
  | .bool _ => .bool
  | .int _ => .int
  | .str _ => .string
  | .struct ty _ => .named ty
  | .slice e _ _ _ => .slice e
  | .map k v _ => .map k v
  | .ptr e _ => .ptr e
  | .iface _ => .iface

/-- `reflect.Value.Kind` on the value held. -/
def kindOf : Val → Kind
  | .bool _ => .bool
  | .int _ => .int
  | .str _ => .string
  | .struct _ _ => .struct
  | .slice _ _ _ _ => .slice
  | .map _ _ _ => .map
  | .ptr _ _ => .ptr
  | .iface _ => .interface

/-- `reflect.Value.IsValid`. -/
def IsValid (h : Heap) (x : Value) : Bool := (load h x).isSome

/-- `reflect.Value.CanAddr`. -/
def CanAddr (x : Value) : Bool := x.loc.isSome

/-- `reflect.Value.CanSet`. -/
def CanSet (x : Value) : Bool := x.loc.isSome && !x.ro

/-- `reflect.Value.CanInterface`. -/
def CanInterface (x : Value) : Bool := !x.ro

/-- `reflect.Value.Kind`. -/
def KindOf (h : Heap) (x : Value) : Kind :=
  match load h x with
  | none => .invalid
  | some v => kindOf v

/-- `reflect.Value.Type`; `none` is a panic (the zero `Value`). -/
def TypeOf (h : Heap) (x : Value) : Option Ty := (load h x).map typeOf

/-- `reflect.Value.NumField`. -/
def NumField (h : Heap) (x : Value) : Nat :=
  match load h x with
  | some (.struct _ fs) => fs.length
  | _ => 0

/-- `reflect.Value.Field`: a field of an addressable struct is a place, a field
of a copy is a copy; `none` is a panic. -/
def Field (h : Heap) (x : Value) (i : Nat) : Option Value :=
  match load h x with
  | some (.struct _ fs) =>
    match fs.get? i with
    | some (n, v) =>
      match x.loc with
      | some a => some ⟨none, some (a.1, a.2 ++ [i]), x.ro || !isExported n⟩
      | none => some ⟨some v, none, x.ro || !isExported n⟩
    | none => none
  | _ => none

/-- Position of the first field called `name`. -/
def fieldIndex (name : String) : List (String × Val) → Nat → Option Nat
  | [], _ => none
  | (n, _) :: rest, i => if n = name then some i else fieldIndex name rest (i + 1)

/-- `reflect.Value.FieldByName`: the zero `Value` when the struct has no field of
that name; `none` is a panic. -/
def FieldByName (h : Heap) (x : Value) (name : String) : Option Value :=
  match load h x with
  | some (.struct _ fs) =>
    match fieldIndex name fs 0 with
    | some i => Field h x i
    | none => some ⟨none, none, false⟩
  | _ => none

/-- Lookup in a table. -/
def mapLookup (k : Key) : List (Key × Val) → Option Val
  | [] => none
  | (k1, v) :: rest => if k1 = k then some v else mapLookup k rest

/-- Update of a table: replace the value of an existing key, or add the entry at
the end. -/
def mapInsert (k : Key) (v : Val) : List (Key × Val) → List (Key × Val)
  | [] => [(k, v)]
  | (k1, v1) :: rest => if k1 = k then (k, v) :: rest else (k1, v1) :: mapInsert k v rest

/-- The table of a map value. -/
def tableOf (h : Heap) : Val → Option (List (Key × Val))
  | .map _ _ (some t) =>
    match heapGet h t with
    | some (.table es) => some es
    | _ => none
  | _ => none

/-- `reflect.Value.Len` on a slice, a map or a string; `none` is a panic. -/
def Len (h : Heap) (x : Value) : Option Nat :=
  match load h x with
  | some (.slice _ _ len _) => some len
  | some (.map _ _ none) => some 0
  | some (.map k v (some t)) => (tableOf h (.map k v (some t))).map List.length
  | some (.str s) => some s.utf8ByteSize
  | _ => none

/-- `reflect.Value.Index` on a slice: element `i` of the backing array, a place;
`none` is a panic. -/
def Index (h : Heap) (x : Value) (i : Nat) : Option Value :=
  match load h x with
  | some (.slice _ (some arr) len _) =>
    if i < len then some ⟨none, some (arr, [i]), x.ro⟩ else none
  | _ => none

/-- `reflect.Value.MapIndex` with a key of type `kty`: a copy of the entry, the
zero `Value` when the key is absent; `none` is a panic. -/
def MapIndex (h : Heap) (x : Value) (k : Key) (kty : Ty) (kro : Bool) : Option Value :=
  match load h x with
  | some (.map mkty vty tbl) =>
    if assignable kty mkty then
      match tbl with
      | none => some ⟨none, none, false⟩
      | some t =>
        match tableOf h (.map mkty vty (some t)) with
        | some es =>
          match mapLookup k es with
          | some v => some ⟨some v, none, x.ro || kro⟩
          | none => some ⟨none, none, false⟩
        | none => none
    else none
  | _ => none

/-- `reflect.Value.MapKeys` with the static key type; `none` is a panic. -/
def MapKeys (h : Heap) (x : Value) : Option (List Key × Ty) :=
  match load h x with
  | some (.map kty _ none) => some ([], kty)
  | some (.map kty vty (some t)) =>
    (tableOf h (.map kty vty (some t))).map (fun es => (es.map Prod.fst, kty))
  | _ => none

/-- `reflect.Value.IsNil`; `none` is a panic. -/
def IsNil (h : Heap) (x : Value) : Option Bool :=
  match load h x with
  | some (.slice _ arr _ _) => some arr.isNone
  | some (.map _ _ t) => some t.isNone
  | some (.ptr _ t) => some t.isNone
  | some (.iface d) => some d.isNone
  | _ => none

/-- `reflect.Value.Elem`: the target of a pointer, a place, or a copy of the
value held by an interface; the zero `Value` for nil; `none` is a panic. -/
def Elem (h : Heap) (x : Value) : Option Value :=
  match load h x with
  | some (.ptr _ none) => some ⟨none, none, false⟩
  | some (.ptr _ (some id)) => some ⟨none, some (id, []), x.ro⟩
  | some (.iface none) => some ⟨none, none, false⟩
  | some (.iface (some v)) => some ⟨some v, none, x.ro⟩
  | _ => none

/-- `reflect.Value.String`: the contents of a string, and `<T Value>` for a value
of any other type `T`. -/
def StringOf (h : Heap) (x : Value) : String :=
  match load h x with
  | none => "<invalid Value>"
  | some (.str s) => s
  | some v => "<" ++ tyString (typeOf v) ++ " Value>"

/-- Modelled from the spec: the emptiness predicate `isEmptyValue`, which is not
part of `merge.go`: zero number, empty text, false boolean, zero-length
container, unset optional; a record is never empty; the zero `Value` has no kind
with an empty state. -/
def isEmptyValue (h : Heap) (x : Value) : Bool :=
  match load h x with
  | some (.bool b) => !b
  | some (.int i) => decide (i = 0)
  | some (.str s) => decide (s = "")
  | some (.struct _ _) => false
  | some (.slice _ _ len _) => decide (len = 0)
  | some (.map _ _ none) => true
  | some (.map k v (some t)) =>
    match tableOf h (.map k v (some t)) with
    | some es => es.isEmpty
    | none => false
  | some (.ptr _ t) => t.isNone
  | some (.iface d) => d.isNone
  | none => false

/-- What storage of type `t` holds after the value `s` is stored in it: an
interface wraps a value that is not itself an interface. -/
def stored (t : Ty) (s : Val) : Val :=
  match t, s with
  | .iface, .iface x => .iface x
  | .iface, v => .iface (some v)
  | _, v => v

/-- `dst.Set(src)`: the heap with the value of `src` stored at the place of
`dst`; `none` is a panic (`dst` not settable, `src` the zero `Value` or
read-only, or of a type that cannot be assigned). -/
def SetV (h : Heap) (dst src : Value) : Option Heap :=
  match load h dst, load h src, dst.loc with
  | some d, some s, some a =>
    if CanSet dst && !src.ro && assignable (typeOf s) (typeOf d) then
      writeAt h a (stored (typeOf d) s)
    else none
  | _, _, _ => none

/-- `dst.SetMapIndex(key, elem)`: the table of the map is updated in the heap;
`none` is a panic (read-only operands, nil map, or key or element of a type that
cannot be assigned). -/
def SetMapIndex (h : Heap) (dst : Value) (k : Key) (kty : Ty) (elem : Value) : Option Heap :=
  match load h dst, load h elem with
  | some (.map kt vt (some t)), some e =>
    match tableOf h (.map kt vt (some t)) with
    | some es =>
      if !dst.ro && !elem.ro && assignable kty kt && assignable (typeOf e) vt then
        some (heapPut h t (.table (mapInsert k (stored vt e) es)))
      else none
    | none => none
  | _, _ => none

/-- `reflect.MakeMap(dst.Type())`: a new, empty table. -/
def MakeMap (h : Heap) (x : Value) (next : Nat) : Value × Heap × Nat :=
  match load h x with
  | some (.map kt vt _) => (⟨some (.map kt vt (some next)), none, false⟩,
      heapPut h next (.table []), next + 1)
  | _ => (⟨none, none, false⟩, h, next)

/-- `reflect.Append(s, x)`: the new slice, the heap and the allocation counter.
When the capacity suffices the element is stored in the backing array of `s`,
otherwise a new backing array is allocated and the elements are copied.  `none`
is a panic. -/
def Append (h : Heap) (s x : Value) (next : Nat) : Option (Value × Heap × Nat) :=
  match load h s, load h x with
  | some (.slice e arr len cap), some v =>
    if !s.ro && !x.ro && assignable (typeOf v) e then
      let old : List Val :=
        match arr with
        | some a =>
          match heapGet h a with
          | some (.array es) => es
          | _ => []
        | none => []
      match arr with
      | some a =>
        if len < cap then
          some (⟨some (.slice e (some a) (len + 1) cap), none, false⟩,
            heapPut h a (.array (old.take len ++ [stored e v] ++ old.drop (len + 1))), next)
        else
          some (⟨some (.slice e (some next) (len + 1) (growCap len cap)), none, false⟩,
            heapPut h next (.array (old.take len ++ [stored e v])), next + 1)
      | none =>
        some (⟨some (.slice e (some next) (len + 1) (growCap len cap)), none, false⟩,
          heapPut h next (.array [stored e v]), next + 1)
    else none
  | _, _ => none

/-! ## `deepMergeSlices` over the heap -/

/-- The inner loop of `deepMergeSlices` up to the decision `shouldMerge`. -/
def scanB (h : Heap) (listDst b : Value) (listKey : String) : Nat → Nat → Scan
  | 0, _ => .nomatch
  | rem + 1, bi =>
    match Index h b bi with
    | none => .panic
    | some listSrc =>
      if TypeOf h listSrc ≠ TypeOf h listDst then scanB h listDst b listKey rem (bi + 1)
      else
        match KindOf h listDst with
        | .struct =>
          match FieldByName h listSrc listKey, FieldByName h listDst listKey with
          | some valueSrc, some valueDst =>
            if !IsValid h valueSrc || !IsValid h valueDst then .keyMissing
            else if StringOf h valueSrc = StringOf h valueDst then .found bi
            else scanB h listDst b listKey rem (bi + 1)
          | _, _ => .panic
        | .map =>
          match MapIndex h listSrc (.str listKey) .string false,
                MapIndex h listDst (.str listKey) .string false with
          | some valueSrc, some valueDst =>
            if !IsValid h valueSrc || !IsValid h valueDst then .keyMissing
            else if StringOf h valueSrc = StringOf h valueDst then .found bi
            else scanB h listDst b listKey rem (bi + 1)
          | _, _ => .panic
        | _ => scanB h listDst b listKey rem (bi + 1)

/-- The outcome of `deepMergeSlices`. -/
structure SOut where
  heap : Heap
  visited : Visited
  next : Nat
  bFounds : List Nat
  err : Option MergeError
  status : Status
  deriving Repr

/-- The outer loop of `deepMergeSlices`, with `rem` iterations left. -/
def sliceLoop (rec : Value → Value → Heap → Visited → Nat → Out) (backwards : Bool)
    (listKey : String) (aIgnores : List Nat) (a b : Value) :
    Nat → Nat → Heap → Visited → Nat → List Nat → Option MergeError → SOut
  | 0, _, h, vis, next, bFounds, err => ⟨h, vis, next, bFounds, err, .ok⟩
  | rem + 1, ai, h, vis, next, bFounds, err =>
    if ai ∈ aIgnores then
      sliceLoop rec backwards listKey aIgnores a b rem (ai + 1) h vis next bFounds err
    else
      match Index h a ai, Len h b with
      | some listDst, some bLen =>
        match scanB h listDst b listKey bLen 0 with
        | .panic => ⟨h, vis, next, bFounds, err, .panic⟩
        | .keyMissing => ⟨h, vis, next, bFounds, some .keyNotFound, .ok⟩
        | .found bi =>
          match Index h b bi with
          | none => ⟨h, vis, next, bFounds, err, .panic⟩
          | some listSrc =>
            let r := if backwards then rec listSrc listDst h vis next
              else rec listDst listSrc h vis next
            match r.status with
            | .ok =>
              sliceLoop rec backwards listKey aIgnores a b rem (ai + 1) r.heap r.visited r.next
                (bFounds ++ [bi]) r.err
            | st => ⟨r.heap, r.visited, r.next, bFounds ++ [bi], r.err, st⟩
        | .nomatch =>
          if backwards then
            match Append h b listDst next with
            | none => ⟨h, vis, next, bFounds, err, .panic⟩
            | some (newB, h1, next1) =>
              match SetV h1 b newB with
              | none => ⟨h1, vis, next1, bFounds, err, .panic⟩
              | some h2 =>
                sliceLoop rec backwards listKey aIgnores a b rem (ai + 1) h2 vis next1 bFounds err
          else
            sliceLoop rec backwards listKey aIgnores a b rem (ai + 1) h vis next bFounds err
      | _, _ => ⟨h, vis, next, bFounds, err, .panic⟩

/-- `deepMergeSlices(a, b, visited, depth, overwrite, backwards, listKey,
aIgnores)`. -/
def deepMergeSlices (rec : Value → Value → Heap → Visited → Nat → Out) (a b : Value)
    (h : Heap) (visited : Visited) (next : Nat) (backwards : Bool) (listKey : String)
    (aIgnores : List Nat) : SOut :=
  match Len h a with
  | none => ⟨h, visited, next, [], none, .panic⟩
  | some n => sliceLoop rec backwards listKey aIgnores a b n 0 h visited next [] none

/-! ## `deepMerge` over the heap -/

/-- The visited check at the head of `deepMerge`, see `Mergo.enter`. -/
def enter (h : Heap) (dst : Value) (visited : Visited) : Option Visited :=
  match dst.loc, load h dst with
  | some addr, some v =>
    if (addr, typeOf v) ∈ visited then none else some ((addr, typeOf v) :: visited)
  | _, _ => some visited

/-- The struct case: `for i, n := 0, dst.NumField(); i < n; i++`, with `rem`
fields left. -/
def structLoop (rec : Value → Value → Heap → Visited → Nat → Out) (dst src : Value) :
    Nat → Nat → Heap → Visited → Nat → Out
  | 0, _, h, vis, next => ⟨h, vis, next, none, .ok⟩
  | rem + 1, i, h, vis, next =>
    match Field h dst i, Field h src i with
    | some df, some sf =>
      let r := rec df sf h vis next
      match r.status, r.err with
      | .ok, none => structLoop rec dst src rem (i + 1) r.heap r.visited r.next
      | st, e => ⟨r.heap, r.visited, r.next, e, st⟩
    | _, _ => ⟨h, vis, next, none, .panic⟩

/-- The kind of the dynamic type of a value: `reflect.TypeOf(v.Interface()).Kind()`. -/
def dynKind (h : Heap) (x : Value) : Kind :=
  match load h x with
  | some (.iface (some v)) => kindOf v
  | some v => kindOf v
  | none => .invalid

/-- The map case: `for _, key := range src.MapKeys()`, over the keys still to be
visited. -/
def mapLoop (rec : Value → Value → Heap → Visited → Nat → Out) (overwrite : Bool)
    (dst src : Value) (kty : Ty) : List Key → Heap → Visited → Nat → Out
  | [], h, vis, next => ⟨h, vis, next, none, .ok⟩
  | key :: rest, h, vis, next =>
    match MapIndex h src key kty src.ro, MapIndex h dst key kty src.ro with
    | some srcElement, some dstElement =>
      if !IsValid h srcElement then mapLoop rec overwrite dst src kty rest h vis next
      else if KindOf h srcElement ∈ [Kind.map, Kind.ptr, Kind.interface, Kind.slice]
          ∧ IsNil h srcElement = some true then
        mapLoop rec overwrite dst src kty rest h vis next
      else if !CanInterface srcElement then mapLoop rec overwrite dst src kty rest h vis next
      else
        let r : Out :=
          if dynKind h srcElement ∈ [Kind.struct, Kind.ptr, Kind.map] then
            rec dstElement srcElement h vis next
          else ⟨h, vis, next, none, .ok⟩
        match r.status, r.err with
        | .ok, none =>
          if !isEmptyValue r.heap srcElement
              && (overwrite || (!IsValid r.heap dstElement || isEmptyValue r.heap dst)) then
            match IsNil r.heap dst with
            | some true =>
              match MakeMap r.heap dst r.next with
              | (m, h1, next1) =>
                match SetV h1 dst m with
                | none => ⟨h1, r.visited, next1, none, .panic⟩
                | some h2 =>
                  match SetMapIndex h2 dst key kty srcElement with
                  | none => ⟨h2, r.visited, next1, none, .panic⟩
                  | some h3 => mapLoop rec overwrite dst src kty rest h3 r.visited next1
            | _ =>
              match SetMapIndex r.heap dst key kty srcElement with
              | none => ⟨r.heap, r.visited, r.next, none, .panic⟩
              | some h3 => mapLoop rec overwrite dst src kty rest h3 r.visited r.next
          else mapLoop rec overwrite dst src kty rest r.heap r.visited r.next
        | st, e => ⟨r.heap, r.visited, r.next, e, st⟩
    | _, _ => ⟨h, vis, next, none, .panic⟩

/-- The assignment shared by the slice case and the default case of `deepMerge`. -/
def assignRule (overwrite : Bool) (dst src : Value) (h : Heap) (vis : Visited) (next : Nat) :
    Out :=
  if CanSet dst && !isEmptyValue h src && (overwrite || isEmptyValue h dst) then
    match SetV h dst src with
    | none => ⟨h, vis, next, none, .panic⟩
    | some h1 => ⟨h1, vis, next, none, .ok⟩
  else ⟨h, vis, next, none, .ok⟩

/-- The value of `sliceKind` in the slice case of `deepMerge`; `none` is a
panic. -/
def sliceKindOf (h : Heap) (listKey : String) (dst src : Value) : Option Kind :=
  if listKey.length = 0 then some Kind.invalid
  else
    match Len h dst with
    | none => none
    | some dl =>
      if 0 < dl then (Index h dst 0).map (KindOf h)
      else
        match Len h src with
        | none => none
        | some sl => if 0 < sl then (Index h src 0).map (KindOf h) else some Kind.invalid

/-- The slice case of `deepMerge`. -/
def sliceCase (rec : Value → Value → Heap → Visited → Nat → Out) (overwrite : Bool)
    (listKey : String) (dst src : Value) (h : Heap) (vis : Visited) (next : Nat) : Out :=
  match sliceKindOf h listKey dst src with
  | none => ⟨h, vis, next, none, .panic⟩
  | some k =>
    if k = Kind.struct ∨ k = Kind.map then
      let p1 := deepMergeSlices rec dst src h vis next false listKey []
      match p1.status, p1.err with
      | .ok, none =>
        let p2 := deepMergeSlices rec src dst p1.heap p1.visited p1.next true listKey p1.bFounds
        match p2.status, p2.err with
        | .ok, none => ⟨p2.heap, p2.visited, p2.next, none, .ok⟩
        | .ok, some _ => assignRule overwrite dst src p2.heap p2.visited p2.next
        | st, _ => ⟨p2.heap, p2.visited, p2.next, none, st⟩
      | .ok, some _ => assignRule overwrite dst src p1.heap p1.visited p1.next
      | st, _ => ⟨p1.heap, p1.visited, p1.next, none, st⟩
    else assignRule overwrite dst src h vis next

/-- The pointer and interface case of `deepMerge`. -/
def ptrCase (rec : Value → Value → Heap → Visited → Nat → Out) (overwrite : Bool)
    (dst src : Value) (h : Heap) (vis : Visited) (next : Nat) : Out :=
  match IsNil h src, IsNil h dst with
  | some true, _ => ⟨h, vis, next, none, .ok⟩
  | some false, some dnil =>
    if dnil || overwrite then
      if CanSet dst && (overwrite || isEmptyValue h dst) then
        match SetV h dst src with
        | none => ⟨h, vis, next, none, .panic⟩
        | some h1 => ⟨h1, vis, next, none, .ok⟩
      else ⟨h, vis, next, none, .ok⟩
    else
      match Elem h dst, Elem h src with
      | some de, some se => rec de se h vis next
      | _, _ => ⟨h, vis, next, none, .panic⟩
  | _, _ => ⟨h, vis, next, none, .panic⟩

/-- `deepMerge(dst, src, visited, depth, overwrite, listKey)` over the heap, with
the recursion budget of the embedding. -/
def deepMerge (overwrite : Bool) (listKey : String) :
    Nat → Value → Value → Heap → Visited → Nat → Out
  | 0, _, _, h, vis, next => ⟨h, vis, next, none, .fuel⟩
  | fuel + 1, dst, src, h, vis, next =>
    if !IsValid h src then ⟨h, vis, next, none, .ok⟩
    else
      match enter h dst vis with
      | none => ⟨h, vis, next, none, .ok⟩
      | some vis1 =>
        match KindOf h dst with
        | .struct =>
          structLoop (deepMerge overwrite listKey fuel) dst src (NumField h dst) 0 h vis1 next
        | .slice => sliceCase (deepMerge overwrite listKey fuel) overwrite listKey dst src h vis1 next
        | .map =>
          match MapKeys h src with
          | none => ⟨h, vis1, next, none, .panic⟩
          | some (keys, kty) =>
            mapLoop (deepMerge overwrite listKey fuel) overwrite dst src kty keys h vis1 next
        | .ptr => ptrCase (deepMerge overwrite listKey fuel) overwrite dst src h vis1 next
        | .interface => ptrCase (deepMerge overwrite listKey fuel) overwrite dst src h vis1 next
        | _ => assignRule overwrite dst src h vis1 next

/-- Modelled from the spec: `resolveValues`, which is not part of `merge.go`, see
`Mergo.resolveValues`. -/
def resolveValues (h : Heap) (dst src : Val) : Except MergeError (Value × Value) :=
  match dst with
  | .ptr _ (some id) =>
    if KindOf h ⟨none, some (id, []), false⟩ = Kind.struct
        ∨ KindOf h ⟨none, some (id, []), false⟩ = Kind.map then
      match src with
      | .ptr _ (some sid) => .ok (⟨none, some (id, []), false⟩, ⟨none, some (sid, []), false⟩)
      | .ptr _ none => .ok (⟨none, some (id, []), false⟩, ⟨none, none, false⟩)
      | s => .ok (⟨none, some (id, []), false⟩, ⟨some s, none, false⟩)
    else .error .invalidArgument
  | _ => .error .invalidArgument

/-- `merge(dst, src, overwrite, key)` on the heap `h`. -/
def merge (fuel next : Nat) (h : Heap) (dst src : Val) (overwrite : Bool) (key : String) : Out :=
  match resolveValues h dst src with
  | .error e => ⟨h, [], next, some e, .ok⟩
  | .ok (vDst, vSrc) =>
    match TypeOf h vDst, TypeOf h vSrc with
    | some td, some ts =>
      if td ≠ ts then ⟨h, [], next, some .ErrDifferentArgumentsTypes, .ok⟩
      else deepMerge overwrite key fuel vDst vSrc h [] next
    | _, _ => ⟨h, [], next, none, .panic⟩

/-- `Merge(dst, src, key)` on the heap `h`. -/
def Merge (fuel next : Nat) (h : Heap) (dst src : Val) (key : String) : Out :=
  merge fuel next h dst src false key

/-- `MergeWithOverwrite(dst, src, key)` on the heap `h`. -/
def MergeWithOverwrite (fuel next : Nat) (h : Heap) (dst src : Val) (key : String) : Out :=
  merge fuel next h dst src true key

/-- The value `v` as a tree, with the objects it refers to read from the heap `h`
down to the depth `n`. -/
def view (h : Heap) : Nat → Val → Mergo.Val
  | _, .bool b => .bool b
  | _, .int i => .int i
  | _, .str s => .str s
  | 0, .struct t _ => .struct t []
  | 0, .slice e _ _ cap => .slice e none cap []
  | 0, .map k v _ => .map k v none
  | 0, .ptr e _ => .ptr e none
  | 0, .iface _ => .iface none
  | n + 1, .struct t fs => .struct t (fs.map (fun p => (p.1, view h n p.2)))
  | n + 1, .slice e arr len cap =>
    match arr with
    | some a =>
      match heapGet h a with
      | some (.array es) => .slice e (some a) cap ((es.take len).map (view h n))
      | _ => .slice e (some a) cap []
    | none => .slice e none cap []
  | n + 1, .map k v tbl =>
    match tbl with
    | some t =>
      match heapGet h t with
      | some (.table es) => .map k v (some (es.map (fun p => (p.1, view h n p.2))))
      | _ => .map k v none
    | none => .map k v none
  | n + 1, .ptr e target =>
    match target with
    | some id =>
      match heapGet h id with
      | some (.cell w) => .ptr e (some (id, view h n w))
      | _ => .ptr e none
    | none => .ptr e none
  | n + 1, .iface dyn =>
    match dyn with
    | some w => .iface (some (view h n w))
    | none => .iface none

/-! ## Heaps with shared and self-referential objects -/

/-- The heap of the map that contains itself: the variable passed to `Merge`
(object 0) holds the map with the table 1, and `m["self"]` holds that map again;
the source is a second map of this shape, with the table 2. -/
def selfMapHeap : Heap :=
  [(0, .cell (.map .string .iface (some 1))),
   (1, .table [(.str "self", .iface (some (.map .string .iface (some 1))))]),
   (2, .table [(.str "self", .iface (some (.map .string .iface (some 2))))])]

/-- The heap of the record that points to itself: the object 1 is the record
`r` of type `N` (`V string; P *N`) with `r.P = &r`, the object 2 a second record
of this shape, with `V = "s"`. -/
def selfRecordHeap : Heap :=
  [(1, .cell (.struct "N" [("V", .str ""), ("P", .ptr (.named "N") (some 1))])),
   (2, .cell (.struct "N" [("V", .str "s"), ("P", .ptr (.named "N") (some 2))]))]

/-- The heap for `dst = S{}` (object 0) and `src = S{L: []E{{K: "a", P: p},
{K: "a", P: q}}}`: the backing array of `src.L` is the object 5, `*p = T{V: ""}`
the object 7 and `*q = T{V: "y"}` the object 8. -/
def sameKeyHeap : Heap :=
  [(0, .cell (.struct "S" [("L", .slice (.named "E") none 0 0)])),
   (5, .array [.struct "E" [("K", .str "a"), ("P", .ptr (.named "T") (some 7))],
               .struct "E" [("K", .str "a"), ("P", .ptr (.named "T") (some 8))]]),
   (7, .cell (.struct "T" [("V", .str "")])),
   (8, .cell (.struct "T" [("V", .str "y")]))]

/-- The heap for `dst = {"a": m, "b": m}` (object 0, table 1) with one empty map
`m` (table 3) under both keys, and `src = {"a": {"x": 1}, "b": {"x": 2}}` (table
2); `MapKeys` enumerates the keys of `src` in the order `a, b` when `aFirst` is
true and in the order `b, a` otherwise. -/
def sharedMapHeap (aFirst : Bool) : Heap :=
  [(0, .cell (.map .string (.map .string .int) (some 1))),
   (1, .table [(.str "a", .map .string .int (some 3)), (.str "b", .map .string .int (some 3))]),
   (3, .table []),
   (2, .table (if aFirst then
      [(.str "a", .map .string .int (some 4)), (.str "b", .map .string .int (some 5))]
    else
      [(.str "b", .map .string .int (some 5)), (.str "a", .map .string .int (some 4))])),
   (4, .table [(.str "x", .int 1)]),
   (5, .table [(.str "x", .int 2)])]


/-- The heap for `dst = S{L: arr[:1], M: arr}` (object 0) with the one backing
array `arr = [{a, 1}, {b, 2}]` (object 5) under both sequences, and `src = S{L:
[{c, 3}]}` with the backing array 6. -/
def sharedArrayHeap : Heap :=
  [(0, .cell (.struct "S" [("L", .slice (.named "E") (some 5) 1 2),
      ("M", .slice (.named "E") (some 5) 2 2)])),
   (5, .array [.struct "E" [("K", .str "a"), ("V", .int 1)],
               .struct "E" [("K", .str "b"), ("V", .int 2)]]),
   (6, .array [.struct "E" [("K", .str "c"), ("V", .int 3)]])]

/-- The heap for `dst = S{L: arr[0:2], M: arr[0:1], N: arr[0:3]}` (object 0) with
the one backing array `arr = [{a, 1}, {b, 2}, {c, 9}]` (object 5), and `src =
S{L: [{b, 5}], M: [{c, 3}]}` with the backing arrays 6 and 7. -/
def threeSliceHeap : Heap :=
  [(0, .cell (.struct "S" [("L", .slice (.named "E") (some 5) 2 3),
      ("M", .slice (.named "E") (some 5) 1 3), ("N", .slice (.named "E") (some 5) 3 3)])),
   (5, .array [.struct "E" [("K", .str "a"), ("V", .int 1)],
               .struct "E" [("K", .str "b"), ("V", .int 2)],
               .struct "E" [("K", .str "c"), ("V", .int 9)]]),
   (6, .array [.struct "E" [("K", .str "b"), ("V", .int 5)]]),
   (7, .array [.struct "E" [("K", .str "c"), ("V", .int 3)]])]

/-- The heap for `dst = S{L: arr}` (object 0) where `arr` (object 5) holds
`{K: "a", Sub: arr[0:0]}` and `{K: "b"}`, the first element holding an empty
sequence on the array it is stored in, and `src = S{L: [{K: "a", Sub: [{K:
"b"}]}]}` with the backing arrays 6 and 7. -/
def selfArrayHeap : Heap :=
  [(0, .cell (.struct "S" [("L", .slice (.named "E") (some 5) 2 2)])),
   (5, .array [.struct "E" [("K", .str "a"), ("Sub", .slice (.named "E") (some 5) 0 2)],
               .struct "E" [("K", .str "b"), ("Sub", .slice (.named "E") none 0 0)]]),
   (6, .array [.struct "E" [("K", .str "a"), ("Sub", .slice (.named "E") (some 7) 1 1)]]),
   (7, .array [.struct "E" [("K", .str "b"), ("Sub", .slice (.named "E") none 0 0)]])]

/-- The heap for `dst = S{L: [{K: "a", P: t}, {K: "b", P: t}]}` (object 0,
backing array 5), both elements holding the pointer `t` to the one record `T{V:
""}` (object 7), and `src = S{L: [{K: "a", P: u}]}` with the backing array 6 and
`*u = T{V: "x"}` (object 8). -/
def sharedTargetHeap : Heap :=
  [(0, .cell (.struct "S" [("L", .slice (.named "E") (some 5) 2 2)])),
   (5, .array [.struct "E" [("K", .str "a"), ("P", .ptr (.named "T") (some 7))],
               .struct "E" [("K", .str "b"), ("P", .ptr (.named "T") (some 7))]]),
   (6, .array [.struct "E" [("K", .str "a"), ("P", .ptr (.named "T") (some 8))]]),
   (7, .cell (.struct "T" [("V", .str "")])),
   (8, .cell (.struct "T" [("V", .str "x")]))]

/-! ## Graphs of records and pointers -/

mutual
/-- Whether a value is built from leaves, records and pointers only. -/
def recPtr : Val → Bool
  | .bool _ => true
  | .int _ => true
  | .str _ => true
  | .struct _ fs => recPtrFields fs
  | .slice _ _ _ _ => false
  | .map _ _ _ => false
  | .ptr _ _ => true
  | .iface _ => false
/-- Whether the fields of a record are built from leaves, records and pointers
only. -/
def recPtrFields : List (String × Val) → Bool
  | [] => true
  | (_, v) :: rest => recPtr v && recPtrFields rest
end

/-- Whether every object of the heap is a variable built from leaves, records and
pointers: the only references are pointers, and they may form any cycle. -/
def recPtrHeap : Heap → Bool
  | [] => true
  | (_, .cell v) :: rest => recPtr v && recPtrHeap rest
  | (_, .array _) :: _ => false
  | (_, .table _) :: _ => false

mutual
/-- The places inside a value, each a path of field indices with the type
stored there. -/
def placesOf : Val → List (List Nat × Ty)
  | .bool _ => [([], .bool)]
  | .int _ => [([], .int)]
  | .str _ => [([], .string)]
  | .struct t fs => ([], .named t) :: placesFields fs 0
  | .slice e _ _ _ => [([], .slice e)]
  | .map k v _ => [([], .map k v)]
  | .ptr e _ => [([], .ptr e)]
  | .iface _ => [([], .iface)]
/-- The places inside the fields of a record, the first field having the index
`i`. -/
def placesFields : List (String × Val) → Nat → List (List Nat × Ty)
  | [], _ => []
  | (_, v) :: rest, i =>
    (placesOf v).map (fun p => (i :: p.1, p.2)) ++ placesFields rest (i + 1)
end

/-- The places of the variables of a heap: every address at which `deepMerge` can
look a destination up in the visited set, with the type stored there. -/
def allPlaces : Heap → List (Addr × Ty)
  | [] => []
  | (id, .cell v) :: rest => (placesOf v).map (fun p => ((id, p.1), p.2)) ++ allPlaces rest
  | (_, .array _) :: rest => allPlaces rest
  | (_, .table _) :: rest => allPlaces rest

/-- How many of the places `U` are not recorded in the visited set. -/
def unvisited (U : List (Addr × Ty)) (vis : Visited) : Nat :=
  (U.filter (fun x => decide (x ∉ vis))).length

/-- A leaf or a reference: a value that has no places below it. -/
def isAtom : Val → Bool
  | .struct _ _ => false
  | _ => true

/-- The heap is one of records and pointers with the places `U`. -/
def HasPlaces (U : List (Addr × Ty)) (h : Heap) : Prop :=
  recPtrHeap h = true ∧ allPlaces h = U

/-- The outcome of a call is not the end of the recursion budget, the heap is
still one of records and pointers with the places `U`, and the visited set has
only grown. -/
def Ends (U : List (Addr × Ty)) (vis : Visited) (r : Out) : Prop :=
  r.status ≠ Status.fuel ∧ HasPlaces U r.heap ∧ ∀ x, x ∈ vis → x ∈ r.visited

/-- The recursive call ends on every addressable destination when fewer than
`fuel` places are left unvisited. -/
def RecEnds (U : List (Addr × Ty)) (fuel : Nat)
    (rec : Value → Value → Heap → Visited → Nat → Out) : Prop :=
  ∀ (dst src : Value) (h : Heap) (vis : Visited) (next : Nat) (a : Addr),
    dst.loc = some a → HasPlaces U h → unvisited U vis < fuel →
    Ends U vis (rec dst src h vis next)

/-- The heap for `dst = S{L: d}` (object 0), where the backing array of `d`
(object 5, capacity 1) holds the one element `{K: "a", Sub: d}`, and `src = S{L:
s}` with `s = [{K: "a"}, {K: "z"}, {K: "a", Sub: s}]` (backing array 6): a
cycle through the elements of a sequence. -/
def cycSliceHeap : Heap :=
  [(0, .cell (.struct "S" [("L", .slice (.named "E") (some 5) 1 1)])),
   (5, .array [.struct "E" [("K", .str "a"), ("Sub", .slice (.named "E") (some 5) 1 1)]]),
   (6, .array [.struct "E" [("K", .str "a"), ("Sub", .slice (.named "E") none 0 0)],
               .struct "E" [("K", .str "z"), ("Sub", .slice (.named "E") none 0 0)],
               .struct "E" [("K", .str "a"), ("Sub", .slice (.named "E") (some 6) 3 3)]])]

/-- The heap of two rings of records of type `N` (`V string; P *N`): the object 1
points to the object 2 and the object 2 back to the object 1, and likewise the
objects 3 and 4. -/
def ringHeap : Heap :=
  [(1, .cell (.struct "N" [("V", .str ""), ("P", .ptr (.named "N") (some 2))])),
   (2, .cell (.struct "N" [("V", .str "b"), ("P", .ptr (.named "N") (some 1))])),
   (3, .cell (.struct "N" [("V", .str "s"), ("P", .ptr (.named "N") (some 4))])),
   (4, .cell (.struct "N" [("V", .str "t"), ("P", .ptr (.named "N") (some 3))]))]

/-- The state of the heap `cycSliceHeap` when the merge comes back to the
sequence it started from: the backing arrays 5 and 6 are as they were, the moved
copy of the element of `dst` and the appended element lie in the backing array
`n`, no place of which has been visited, and the element in the array 5 has. -/
def CycRound (n next : Nat) (h : Heap) (vis : Visited) : Prop :=
  heapGet h 5 = some (.array
      [.struct "E" [("K", .str "a"), ("Sub", .slice (.named "E") (some 5) 1 1)]])
  ∧ heapGet h 6 = some (.array
      [.struct "E" [("K", .str "a"), ("Sub", .slice (.named "E") none 0 0)],
       .struct "E" [("K", .str "z"), ("Sub", .slice (.named "E") none 0 0)],
       .struct "E" [("K", .str "a"), ("Sub", .slice (.named "E") (some 6) 3 3)]])
  ∧ heapGet h n = some (.array
      [.struct "E" [("K", .str "a"), ("Sub", .slice (.named "E") (some 5) 1 1)],
       .struct "E" [("K", .str "z"), ("Sub", .slice (.named "E") none 0 0)]])
  ∧ 6 < n ∧ n < next
  ∧ (∀ x, x ∈ vis → x.1.1 < next)
  ∧ ((5, [0]), Ty.named "E") ∈ vis
  ∧ (∀ x, x ∈ vis → x.1.1 ≠ n)

end Graph

/-! # Theorems -/

/-! ## Entry: type mismatch -/

/-- C4. When the resolved values of `dst` and `src` have different types, `merge`
returns `ErrDifferentArgumentsTypes`, the traversal is not started (the visited
set is still empty, nothing is allocated) and `dst` is returned as it was; this
holds for either mode, hence for `Merge` and `MergeWithOverwrite`. -/
theorem merge_type_mismatch (fuel next : Nat) (dst src : Val) (overwrite : Bool)
    (key : String) (vDst vSrc : Value) (td ts : Ty)
    (hres : resolveValues dst src = .ok (vDst, vSrc))
    (hd : vDst.Type = some td) (hs : vSrc.Type = some ts) (hne : td ≠ ts) :
    merge fuel next dst src overwrite key
      = ⟨dst, [], next, some MergeError.ErrDifferentArgumentsTypes, Status.ok⟩ := by
  simp [merge, hres, hd, hs, hne]

/-- Witness for C4: a `{A: int}` record merged into a `{A: string}` record. -/
theorem merge_type_mismatch_witness :
    merge 5 10 (.ptr (.named "struct { A string }")
        (some (0, .struct "struct { A string }" [("A", .str "x")])))
      (.struct "struct { A int }" [("A", .int 1)]) false ""
      = ⟨.ptr (.named "struct { A string }")
          (some (0, .struct "struct { A string }" [("A", .str "x")])),
        [], 10, some MergeError.ErrDifferentArgumentsTypes, Status.ok⟩ :=
  merge_type_mismatch 5 10 _ _ false ""
    ⟨some (.struct "struct { A string }" [("A", .str "x")]), some (0, []), false⟩
    ⟨some (.struct "struct { A int }" [("A", .int 1)]), none, false⟩
    (.named "struct { A string }") (.named "struct { A int }") rfl rfl rfl (by decide)

/-! ## Sequences without a list key -/

/-- C8. With the empty list key, `deepMerge` on a pair of sequences of the same
type applies the whole-sequence replacement rule and nothing else, whatever the
kind of the elements: `dst` ends equal to `src` when `dst` is settable, `src` is
non-empty and (`overwrite` is true or `dst` is empty), and is unchanged
otherwise; nothing is allocated and no error is returned.  `dst` and `src` sit at
the same position of two values of one type (`hro`), and `dst` passes the
visited check (`hvis`). -/
theorem deepMerge_empty_key (overwrite : Bool) (fuel : Nat) (dst src : Value)
    (vis vis1 : Visited) (next : Nat) (e : Ty) (darr sarr : Option Nat) (dcap scap : Nat)
    (des ses : List Val)
    (hd : dst.val = some (.slice e darr dcap des))
    (hs : src.val = some (.slice e sarr scap ses))
    (hro : src.ro = dst.ro)
    (hvis : enter dst vis = some vis1) :
    deepMerge overwrite "" (fuel + 1) dst src vis next
      = ⟨some (replaceRule overwrite dst (.slice e darr dcap des) (.slice e sarr scap ses)),
          vis1, next, none, Status.ok⟩ := by
  have hk : dst.Kind = Kind.slice := by simp [Value.Kind, hd, kindOf]
  have hv : src.IsValid = true := by simp [Value.IsValid, hs]
  simp only [deepMerge, hv, hvis, hk, sliceCase, sliceKindOf, assignRule]
  simp [isEmptyValue, hd, hs, replaceRule, Value.Set, assignable, typeOf, stored, hro]
  by_cases hc : dst.CanSet = true
  · have hr : dst.ro = false := by
      simp [Value.CanSet] at hc; exact hc.2
    simp [hc, hr]
    split <;> simp_all
  · simp [hc]

/-- Witness for C8: an empty settable sequence of records is replaced by the
source sequence in fill-only mode. -/
theorem deepMerge_empty_key_witness :
    deepMerge false "" 1
      ⟨some (.slice (.named "T") none 0 []), some (1, [0]), false⟩
      ⟨some (.slice (.named "T") (some 2) 1 [.struct "T" [("V", .str "a")]]), none, false⟩
      [] 5
      = ⟨some (replaceRule false ⟨some (.slice (.named "T") none 0 []), some (1, [0]), false⟩
            (.slice (.named "T") none 0 [])
            (.slice (.named "T") (some 2) 1 [.struct "T" [("V", .str "a")]])),
          [((1, [0]), .slice (.named "T"))], 5, none, Status.ok⟩ :=
  deepMerge_empty_key false 0 _ _ [] _ 5 (.named "T") none (some 2) 0 1 []
    [.struct "T" [("V", .str "a")]] rfl rfl rfl rfl
/-! ## Non-destructiveness of the fill-only merge -/

theorem keeps_refl (d : Val) : Keeps d d := fun _ _ h _ => h

theorem keeps_trans {a b c : Val} (h1 : Keeps a b) (h2 : Keeps b c) : Keeps a c :=
  fun p v h hv => h2 p v (h1 p v h hv) hv

theorem keepsO_refl (d : Option Val) : KeepsO d d := by
  cases d with
  | none => trivial
  | some d => exact keeps_refl d

theorem keepsO_trans {a b c : Option Val} (h1 : KeepsO a b) (h2 : KeepsO b c) : KeepsO a c := by
  cases a with
  | none => trivial
  | some a =>
    cases b with
    | none => exact absurd h1 (by simp [KeepsO])
    | some b =>
      cases c with
      | none => exact absurd h2 (by simp [KeepsO])
      | some c => exact keeps_trans h1 h2

/-- An empty value has no non-empty leaf, so anything keeps its leaves. -/
theorem keeps_of_isEmpty {d : Val} (x : Val) (h : isEmptyVal d = true) : Keeps d x := by
  intro p v hp hv
  cases p with
  | nil =>
    cases d <;> simp [leafAt, isLeaf] at hp <;> subst hp <;> simp_all
  | cons s p =>
    cases d with
    | bool b => simp [leafAt, child] at hp
    | int i => simp [leafAt, child] at hp
    | str s => simp [leafAt, child] at hp
    | struct t fs => simp [isEmptyVal] at h
    | slice e arr cap es =>
      simp [isEmptyVal] at h
      subst h
      cases s <;> simp [leafAt, child] at hp
    | map kt vt es =>
      cases es with
      | none => cases s <;> simp [leafAt, child] at hp
      | some l =>
        simp [isEmptyVal] at h
        subst h
        cases s <;> simp [leafAt, child, mapLookup] at hp
    | ptr e t =>
      simp [isEmptyVal] at h
      subst h
      cases s <;> simp [leafAt, child] at hp
    | iface t =>
      simp [isEmptyVal] at h
      subst h
      cases s <;> simp [leafAt, child] at hp

/-- A value that is not a leaf keeps its leaves when each of its children does. -/
theorem keeps_of_children {d d1 : Val} (hl : isLeaf d = false)
    (h : ∀ s w, child d s = some w → ∃ w1, child d1 s = some w1 ∧ Keeps w w1) :
    Keeps d d1 := by
  intro p v hp hv
  cases p with
  | nil => simp [leafAt, hl] at hp
  | cons s p =>
    simp only [leafAt] at hp ⊢
    cases hc : child d s with
    | none => simp [hc] at hp
    | some w =>
      obtain ⟨w1, hw1, hk⟩ := h s w hc
      simp only [hc] at hp
      simp only [hw1]
      exact hk p v hp hv
theorem mapLookup_mapInsert (k k1 : Key) (w : Val) (es : List (Key × Val)) :
    mapLookup k1 (mapInsert k w es) = if k = k1 then some w else mapLookup k1 es := by
  induction es with
  | nil => simp [mapInsert, mapLookup]
  | cons e es ih =>
    obtain ⟨k2, v2⟩ := e
    by_cases h : k2 = k
    · subst h
      simp only [mapInsert, mapLookup, if_true]
      by_cases h2 : k2 = k1 <;> simp [h2]
    · simp only [mapInsert, h, if_false, mapLookup, ih]
      by_cases h2 : k2 = k1
      · subst h2
        simp [Ne.symm h]
      · simp [h2]

theorem keeps_setField {t : String} {fs : List (String × Val)} {i : Nat} {n : String}
    {f w : Val} (hf : fs.get? i = some (n, f)) (hk : Keeps f w) :
    Keeps (.struct t fs) (.struct t (setField fs i w)) := by
  apply keeps_of_children (by simp [isLeaf])
  intro s x hx
  cases s <;> simp [child] at hx
  case field j =>
    obtain ⟨m, hm⟩ := hx
    simp only [child, setField, hf, List.get?_eq_getElem?, List.getElem?_set]
    by_cases hij : i = j
    · subst hij
      have hlt : i < fs.length := by
        rw [List.get?_eq_getElem?] at hf
        exact (List.getElem?_eq_some_iff.mp hf).1
      rw [List.get?_eq_getElem?] at hf
      rw [hf] at hm
      simp at hm
      simp [hlt]
      rw [← hm.2]
      exact hk
    · simp [hij, hm]
      exact keeps_refl x

theorem keeps_setAt {e : Ty} {arr arr1 : Option Nat} {cap cap1 : Nat} {es : List Val}
    {i : Nat} {f w : Val} (hf : es.get? i = some f) (hk : Keeps f w) :
    Keeps (.slice e arr cap es) (.slice e arr1 cap1 (setAt es i w)) := by
  apply keeps_of_children (by simp [isLeaf])
  intro s x hx
  cases s <;> simp [child] at hx
  case index j =>
    simp only [child, setAt, List.get?_eq_getElem?, List.getElem?_set]
    by_cases hij : i = j
    · subst hij
      have hlt : i < es.length := by
        rw [List.get?_eq_getElem?] at hf
        exact (List.getElem?_eq_some_iff.mp hf).1
      rw [List.get?_eq_getElem?] at hf
      rw [hf] at hx
      simp at hx
      simp [hlt]
      rw [← hx]
      exact hk
    · simp [hij, hx]
      exact keeps_refl x

theorem keeps_append {e : Ty} {arr arr1 : Option Nat} {cap cap1 : Nat} (es tl : List Val) :
    Keeps (.slice e arr cap es) (.slice e arr1 cap1 (es ++ tl)) := by
  apply keeps_of_children (by simp [isLeaf])
  intro s x hx
  cases s <;> simp [child] at hx
  case index j =>
    have hlt : j < es.length := (List.getElem?_eq_some_iff.mp hx).1
    refine ⟨x, ?_, keeps_refl x⟩
    simp [child, List.getElem?_append_left hlt, hx]

theorem keeps_mapInsert {kt vt : Ty} {es : List (Key × Val)} {k : Key} {w : Val}
    (hk : ∀ v, mapLookup k es = some v → Keeps v w) :
    Keeps (.map kt vt (some es)) (.map kt vt (some (mapInsert k w es))) := by
  apply keeps_of_children (by simp [isLeaf])
  intro s x hx
  cases s <;> simp [child] at hx
  case key k1 =>
    simp only [child, mapLookup_mapInsert]
    by_cases h : k = k1
    · subst h
      simp
      exact hk x hx
    · simp [h, hx]
      exact keeps_refl x

theorem keeps_ptr {e : Ty} {id : Nat} {v w : Val} (hk : Keeps v w) :
    Keeps (.ptr e (some (id, v))) (.ptr e (some (id, w))) := by
  apply keeps_of_children (by simp [isLeaf])
  intro s x hx
  cases s <;> simp [child] at hx
  subst hx
  exact ⟨w, by simp [child], hk⟩

theorem keeps_iface {v w : Val} (hk : Keeps v w) :
    Keeps (.iface (some v)) (.iface (some w)) := by
  apply keeps_of_children (by simp [isLeaf])
  intro s x hx
  cases s <;> simp [child] at hx
  subst hx
  exact ⟨w, by simp [child], hk⟩
theorem putField_keeps {dst df : Value} {i : Nat} {r : Option Val}
    (hf : dst.Field i = some df) (hk : KeepsO df.val r) :
    KeepsO dst.val (dst.putField i r).val := by
  unfold Value.Field at hf
  cases hv : dst.val with
  | none => trivial
  | some d =>
    rw [hv] at hf
    cases d with
    | struct t fs =>
      simp only [] at hf
      cases hg : fs.get? i with
      | none => rw [hg] at hf; simp at hf
      | some nf =>
        obtain ⟨n, f⟩ := nf
        rw [hg] at hf
        simp only [Option.some.injEq] at hf
        cases r with
        | none => simp [Value.putField, hv]; exact keeps_refl _
        | some w =>
          simp only [Value.putField, hv, KeepsO]
          rw [← hf] at hk
          exact keeps_setField hg hk
    | _ => simp at hf

theorem structLoop_keeps {rec : Value → Value → Visited → Nat → Res} (hrec : RecKeeps rec)
    (src : Value) (rem : Nat) :
    ∀ (i : Nat) (dst : Value) (vis : Visited) (next : Nat),
      KeepsO dst.val (structLoop rec src rem i dst vis next).val := by
  induction rem with
  | zero => intro i dst vis next; simp [structLoop]; exact keepsO_refl _
  | succ rem ih =>
    intro i dst vis next
    simp only [structLoop]
    cases hdf : dst.Field i with
    | none => simp; exact keepsO_refl _
    | some df =>
      cases hsf : src.Field i with
      | none => simp; exact keepsO_refl _
      | some sf =>
        simp only []
        have h1 : KeepsO dst.val (dst.putField i (rec df sf vis next).val).val :=
          putField_keeps hdf (hrec df sf vis next)
        split
        · exact keepsO_trans h1 (ih _ _ _ _)
        · exact h1
theorem putIndex_keeps {x el : Value} {i : Nat} {r : Option Val}
    (hf : x.Index i = some el) (hk : KeepsO el.val r) :
    KeepsO x.val (x.putIndex i r).val := by
  unfold Value.Index at hf
  cases hv : x.val with
  | none => trivial
  | some d =>
    rw [hv] at hf
    cases d with
    | slice e arr cap es =>
      simp only [] at hf
      cases hg : es.get? i with
      | none => rw [hg] at hf; simp at hf
      | some f =>
        rw [hg] at hf
        simp only [Option.some.injEq] at hf
        cases r with
        | none => simp [Value.putIndex, hv]; exact keeps_refl _
        | some w =>
          simp only [Value.putIndex, hv, KeepsO]
          rw [← hf] at hk
          exact keeps_setAt hg hk
    | _ => simp at hf

/-- Appending to a slice and storing the result keeps the leaves of the slice. -/
theorem append_set_keeps {b x newB : Value} {next next1 : Nat} {v : Val}
    (ha : reflectAppend b x next = some (newB, next1)) (hs : b.Set newB = some v) :
    KeepsO b.val (some v) := by
  unfold reflectAppend at ha
  cases hb : b.val with
  | none => trivial
  | some d =>
    rw [hb] at ha
    cases d with
    | slice e arr cap es =>
      cases hx : x.val with
      | none => rw [hx] at ha; simp at ha
      | some xv =>
        rw [hx] at ha
        simp only [] at ha
        split at ha
        · split at ha
          · simp only [Option.some.injEq, Prod.mk.injEq] at ha
            obtain ⟨h1, _⟩ := ha
            subst h1
            simp only [Value.Set, hb] at hs
            split at hs
            · simp only [Option.some.injEq] at hs
              subst hs
              simp only [KeepsO, typeOf, stored]
              exact keeps_append es _
            · simp at hs
          · simp only [Option.some.injEq, Prod.mk.injEq] at ha
            obtain ⟨h1, _⟩ := ha
            subst h1
            simp only [Value.Set, hb] at hs
            split at hs
            · simp only [Option.some.injEq] at hs
              subst hs
              simp only [KeepsO, typeOf, stored]
              exact keeps_append es _
            · simp at hs
        · simp at ha
    | _ => simp at ha

theorem sliceLoop_keeps {rec : Value → Value → Visited → Nat → Res} (hrec : RecKeeps rec)
    (backwards : Bool) (listKey : String) (aIgnores : List Nat) (rem : Nat) :
    ∀ (ai : Nat) (a b : Value) (vis : Visited) (next : Nat) (bf : List Nat)
      (err : Option MergeError),
      KeepsO a.val (sliceLoop rec backwards listKey aIgnores rem ai a b vis next bf err).a.val
      ∧ KeepsO b.val
          (sliceLoop rec backwards listKey aIgnores rem ai a b vis next bf err).b.val := by
  induction rem with
  | zero => intro ai a b vis next bf err; simp [sliceLoop]; exact ⟨keepsO_refl _, keepsO_refl _⟩
  | succ rem ih =>
    intro ai a b vis next bf err
    simp only [sliceLoop]
    split
    · exact ih _ _ _ _ _ _ _
    · split
      · rename_i listDst bLen hai hbl
        split
        · exact ⟨keepsO_refl _, keepsO_refl _⟩
        · exact ⟨keepsO_refl _, keepsO_refl _⟩
        · rename_i bi hscan
          split
          · exact ⟨keepsO_refl _, keepsO_refl _⟩
          · rename_i listSrc hbi
            split
            · have h1 : KeepsO b.val (b.putIndex bi (rec listSrc listDst vis next).val).val :=
                putIndex_keeps hbi (hrec _ _ _ _)
              split
              · have h2 := ih (ai + 1) a (b.putIndex bi (rec listSrc listDst vis next).val)
                  (rec listSrc listDst vis next).visited (rec listSrc listDst vis next).next
                  (bf ++ [bi]) (rec listSrc listDst vis next).err
                exact ⟨h2.1, keepsO_trans h1 h2.2⟩
              · exact ⟨keepsO_refl _, h1⟩
            · have h1 : KeepsO a.val (a.putIndex ai (rec listDst listSrc vis next).val).val :=
                putIndex_keeps hai (hrec _ _ _ _)
              split
              · have h2 := ih (ai + 1) (a.putIndex ai (rec listDst listSrc vis next).val) b
                  (rec listDst listSrc vis next).visited (rec listDst listSrc vis next).next
                  (bf ++ [bi]) (rec listDst listSrc vis next).err
                exact ⟨keepsO_trans h1 h2.1, h2.2⟩
              · exact ⟨h1, keepsO_refl _⟩
        · split
          · split
            · exact ⟨keepsO_refl _, keepsO_refl _⟩
            · rename_i newB next1 happ
              split
              · exact ⟨keepsO_refl _, keepsO_refl _⟩
              · rename_i v hset
                have h1 : KeepsO b.val (some v) := append_set_keeps happ hset
                have h2 := ih (ai + 1) a { b with val := some v } vis next1 bf err
                exact ⟨h2.1, keepsO_trans h1 h2.2⟩
          · exact ih _ _ _ _ _ _ _
      · exact ⟨keepsO_refl _, keepsO_refl _⟩
theorem keepsO_of_isEmptyValue {dst : Value} (v : Val) (h : isEmptyValue dst = true) :
    KeepsO dst.val (some v) := by
  unfold isEmptyValue at h
  cases hd : dst.val with
  | none => trivial
  | some d =>
    rw [hd] at h
    exact keeps_of_isEmpty v h

theorem assignRule_keeps (dst src : Value) (vis : Visited) (next : Nat) :
    KeepsO dst.val (assignRule false dst src vis next).val := by
  unfold assignRule
  split
  · rename_i h
    simp only [Bool.false_or, Bool.and_eq_true] at h
    split
    · exact keepsO_refl _
    · exact keepsO_of_isEmptyValue _ h.2
  · exact keepsO_refl _

theorem deepMergeSlices_keeps {rec : Value → Value → Visited → Nat → Res}
    (hrec : RecKeeps rec) (a b : Value) (vis : Visited) (next : Nat) (backwards : Bool)
    (listKey : String) (aIgnores : List Nat) :
    KeepsO a.val (deepMergeSlices rec a b vis next backwards listKey aIgnores).a.val
    ∧ KeepsO b.val (deepMergeSlices rec a b vis next backwards listKey aIgnores).b.val := by
  unfold deepMergeSlices
  split
  · exact ⟨keepsO_refl _, keepsO_refl _⟩
  · exact sliceLoop_keeps hrec _ _ _ _ _ _ _ _ _ _ _

theorem sliceCase_keeps {rec : Value → Value → Visited → Nat → Res} (hrec : RecKeeps rec)
    (listKey : String) (dst src : Value) (vis : Visited) (next : Nat) :
    KeepsO dst.val (sliceCase rec false listKey dst src vis next).val := by
  unfold sliceCase
  split
  · exact keepsO_refl _
  · split
    · have h1 := deepMergeSlices_keeps hrec dst src vis next false listKey []
      simp only []
      split
      · have h2 := deepMergeSlices_keeps hrec
          (deepMergeSlices rec dst src vis next false listKey []).b
          (deepMergeSlices rec dst src vis next false listKey []).a
          (deepMergeSlices rec dst src vis next false listKey []).visited
          (deepMergeSlices rec dst src vis next false listKey []).next true listKey
          (deepMergeSlices rec dst src vis next false listKey []).bFounds
        split
        · exact keepsO_trans h1.1 h2.2
        · exact keepsO_trans h1.1 (keepsO_trans h2.2 (assignRule_keeps _ _ _ _))
        · exact keepsO_trans h1.1 h2.2
      · exact keepsO_trans h1.1 (assignRule_keeps _ _ _ _)
      · exact h1.1
    · exact assignRule_keeps _ _ _ _

theorem ptrCase_keeps {rec : Value → Value → Visited → Nat → Res} (hrec : RecKeeps rec)
    (dst src : Value) (vis : Visited) (next : Nat) :
    KeepsO dst.val (ptrCase rec false dst src vis next).val := by
  unfold ptrCase
  split
  · exact keepsO_refl _
  · rename_i dnil hs hd
    split
    · split
      · rename_i h
        simp only [Bool.false_or, Bool.and_eq_true] at h
        split
        · exact keepsO_refl _
        · exact keepsO_of_isEmptyValue _ h.2
      · exact keepsO_refl _
    · split
      · rename_i de se hde hse
        simp only []
        have hk := hrec de se vis next
        generalize (rec de se vis next).val = r at hk
        unfold Value.Elem at hde
        cases hv : dst.val with
        | none => trivial
        | some d =>
          rw [hv] at hde
          cases d with
          | ptr e t =>
            cases t with
            | none =>
              simp only [Option.some.injEq] at hde
              subst hde
              cases r <;> simp [Value.putElem, hv] <;> exact keeps_refl _
            | some p =>
              obtain ⟨id, x⟩ := p
              simp only [Option.some.injEq] at hde
              subst hde
              cases r with
              | none => simp [Value.putElem, hv]; exact keeps_refl _
              | some w => simp only [Value.putElem, hv, KeepsO]; exact keeps_ptr hk
          | iface t =>
            cases t with
            | none =>
              simp only [Option.some.injEq] at hde
              subst hde
              cases r <;> simp [Value.putElem, hv] <;> exact keeps_refl _
            | some x =>
              simp only [Option.some.injEq] at hde
              subst hde
              cases r with
              | none => simp [Value.putElem, hv]; exact keeps_refl _
              | some w => simp only [Value.putElem, hv, KeepsO]; exact keeps_iface hk
          | _ => simp at hde
      · exact keepsO_refl _
  · exact keepsO_refl _
theorem mapLookup_mapReplace (k k1 : Key) (w : Val) (es : List (Key × Val)) :
    mapLookup k1 (mapReplace k w es)
      = if k = k1 ∧ (mapLookup k es).isSome then some w else mapLookup k1 es := by
  induction es with
  | nil => simp [mapReplace, mapLookup]
  | cons e es ih =>
    obtain ⟨k2, v2⟩ := e
    by_cases h : k2 = k
    · subst h
      simp only [mapReplace, mapLookup, if_true]
      by_cases h2 : k2 = k1 <;> simp [h2]
    · simp only [mapReplace, h, if_false, mapLookup, ih]
      by_cases h2 : k2 = k1
      · subst h2
        simp [Ne.symm h]
      · simp [h2]

theorem mapReplace_isEmpty (k : Key) (w : Val) (es : List (Key × Val)) :
    (mapReplace k w es).isEmpty = es.isEmpty := by
  cases es with
  | nil => simp [mapReplace]
  | cons e es =>
    obtain ⟨k2, v2⟩ := e
    simp only [mapReplace]
    split <;> simp

theorem keeps_mapReplace {kt vt : Ty} {es : List (Key × Val)} {k : Key} {w : Val}
    (hk : ∀ v, mapLookup k es = some v → Keeps v w) :
    Keeps (.map kt vt (some es)) (.map kt vt (some (mapReplace k w es))) := by
  apply keeps_of_children (by simp [isLeaf])
  intro s x hx
  cases s <;> simp [child] at hx
  case key k1 =>
    simp only [child, mapLookup_mapReplace]
    by_cases h : k = k1
    · subst h
      simp [hx]
      exact hk x hx
    · simp [h, hx]
      exact keeps_refl x

/-- What `MapIndex` returns: the map is nil and the result is the zero `Value`,
or the result holds what the entries hold at the key. -/
theorem mapIndex_val {x el : Value} {k : Key} {kty : Ty} {kro : Bool}
    (h : x.MapIndex k kty kro = some el) :
    ∃ kt vt es, x.val = some (.map kt vt es) ∧ el.val = es.bind (mapLookup k) := by
  unfold Value.MapIndex at h
  cases hv : x.val with
  | none => rw [hv] at h; simp at h
  | some d =>
    rw [hv] at h
    cases d with
    | map kt vt es =>
      refine ⟨kt, vt, es, rfl, ?_⟩
      simp only [] at h
      split at h
      · cases es with
        | none => simp at h; subst h; rfl
        | some l =>
          simp only [] at h
          cases hl : mapLookup k l with
          | none => rw [hl] at h; simp at h; subst h; simp [hl]
          | some v => rw [hl] at h; simp at h; subst h; simp [hl]
      · simp at h
    | _ => simp at h

theorem putEntry_keeps {x el : Value} {k : Key} {kty : Ty} {kro : Bool} {r : Option Val}
    (h : x.MapIndex k kty kro = some el) (hk : KeepsO el.val r) :
    KeepsO x.val (x.putEntry k r).val := by
  obtain ⟨kt, vt, es, hx, hel⟩ := mapIndex_val h
  cases r with
  | none => simp [Value.putEntry, hx]; exact keeps_refl _
  | some w =>
    cases es with
    | none => simp [Value.putEntry, hx]; exact keeps_refl _
    | some l =>
      simp only [Value.putEntry, hx, KeepsO]
      apply keeps_mapReplace
      intro v hv
      simp [hv] at hel
      rw [hel] at hk
      exact hk

/-- After the write-back of an entry that exists, the map is not empty. -/
theorem putEntry_not_empty {x el : Value} {k : Key} {kty : Ty} {kro : Bool} {r : Option Val}
    (h : x.MapIndex k kty kro = some el) (hv : el.IsValid = true) :
    isEmptyValue (x.putEntry k r) = false := by
  obtain ⟨kt, vt, es, hx, hel⟩ := mapIndex_val h
  cases es with
  | none => simp [Value.IsValid, hel] at hv
  | some l =>
    have hl : l.isEmpty = false := by
      cases l with
      | nil => simp [Value.IsValid, hel, mapLookup] at hv
      | cons a l => rfl
    cases r with
    | none => simp [Value.putEntry, hx, isEmptyValue, isEmptyVal, hl]
    | some w => simp [Value.putEntry, hx, isEmptyValue, isEmptyVal, mapReplace_isEmpty, hl]

/-- The write-back of an entry that does not exist changes nothing. -/
theorem putEntry_absent {x el : Value} {k : Key} {kty : Ty} {kro : Bool} (r : Option Val)
    (h : x.MapIndex k kty kro = some el) (hv : el.IsValid = false) :
    (x.putEntry k r).val = x.val := by
  obtain ⟨kt, vt, es, hx, hel⟩ := mapIndex_val h
  cases es with
  | none => cases r <;> simp [Value.putEntry, hx]
  | some l =>
    cases r with
    | none => simp [Value.putEntry, hx]
    | some w =>
      simp only [Value.putEntry, hx]
      have hn : mapLookup k l = none := by
        simp [Value.IsValid, hel] at hv
        exact hv
      have : mapReplace k w l = l := by
        clear hx hel h
        induction l with
        | nil => rfl
        | cons a l ih =>
          obtain ⟨k2, v2⟩ := a
          simp only [mapLookup] at hn
          split at hn
          · simp at hn
          · rename_i hne
            simp [mapReplace, hne, ih hn]
      rw [this]
/-- Storing an entry under a key that the map does not hold keeps the leaves of
the map. -/
theorem setMapIndex_keeps_absent {x y el elem : Value} {k : Key} {kty kty1 : Ty} {kro : Bool}
    {m1 : Val} (hxy : x.val = y.val) (h : y.MapIndex k kty kro = some el)
    (hv : el.IsValid = false) (hs : x.SetMapIndex k kty1 elem = some m1) :
    KeepsO x.val (some m1) := by
  obtain ⟨kt, vt, es, hy, hel⟩ := mapIndex_val h
  rw [← hxy] at hy
  unfold Value.SetMapIndex at hs
  rw [hy] at hs
  cases es with
  | none => simp at hs
  | some l =>
    cases he : elem.val with
    | none => rw [he] at hs; simp at hs
    | some e =>
      rw [he] at hs
      simp only [] at hs
      split at hs
      · simp only [Option.some.injEq] at hs
        subst hs
        rw [hy]
        simp only [KeepsO]
        apply keeps_mapInsert
        intro v hl
        simp [Value.IsValid, hel, hl] at hv
      · simp at hs

theorem mapLoop_keeps {rec : Value → Value → Visited → Nat → Res} (hrec : RecKeeps rec)
    (src : Value) (kty : Ty) (keys : List Key) :
    ∀ (dst : Value) (vis : Visited) (next : Nat),
      KeepsO dst.val (mapLoop rec false src kty keys dst vis next).val := by
  induction keys with
  | nil => intro dst vis next; simp [mapLoop]; exact keepsO_refl _
  | cons key rest ih =>
    intro dst vis next
    simp only [mapLoop]
    split
    · rename_i srcElement dstElement hse hde
      split
      · exact ih _ _ _
      · split
        · exact ih _ _ _
        · split
          · exact ih _ _ _
          · generalize hr : (if dynKind srcElement ∈ [Kind.struct, Kind.ptr, Kind.map] then
              rec dstElement srcElement vis next
              else (⟨dstElement.val, vis, next, none, Status.ok⟩ : Res)) = r
            have hk : KeepsO dstElement.val r.val := by
              rw [← hr]
              split
              · exact hrec _ _ _ _
              · exact keepsO_refl _
            have h1 : KeepsO dst.val (dst.putEntry key r.val).val := putEntry_keeps hde hk
            split
            · split
              · rename_i hcond
                simp only [Bool.false_or, Bool.and_eq_true, Bool.or_eq_true,
                  Bool.not_eq_true'] at hcond
                have hinv : dstElement.IsValid = false := by
                  cases hval : dstElement.IsValid with
                  | false => rfl
                  | true =>
                    have := putEntry_not_empty (r := r.val) hde hval
                    rcases hcond.2 with h | h
                    · rw [hval] at h; cases h
                    · rw [this] at h; cases h
                have hsame : (dst.putEntry key r.val).val = dst.val :=
                  putEntry_absent r.val hde hinv
                split
                · rename_i hnil
                  have hemp : isEmptyValue (dst.putEntry key r.val) = true := by
                    obtain ⟨kt, vt, es, hx, _⟩ := mapIndex_val hde
                    rw [← hsame] at hx
                    simp only [Value.IsNil, hx, Option.some.injEq, Option.isNone_iff_eq_none]
                      at hnil
                    subst hnil
                    simp [isEmptyValue, hx, isEmptyVal]
                  split
                  · exact h1
                  · rename_i m hset
                    split
                    · exact keepsO_trans h1 (keepsO_of_isEmptyValue _ hemp)
                    · rename_i m1 hsmi
                      exact keepsO_trans h1
                        (keepsO_trans (keepsO_of_isEmptyValue m1 hemp)
                          (ih ⟨some m1, _, _⟩ _ _))
                · split
                  · exact h1
                  · rename_i m1 hsmi
                    exact keepsO_trans h1
                      (keepsO_trans (setMapIndex_keeps_absent hsame hde hinv hsmi)
                        (ih ⟨some m1, _, _⟩ _ _))
              · exact keepsO_trans h1 (ih _ _ _)
            · exact h1
    · exact keepsO_refl _
/-- In fill-only mode `deepMerge` never loses a non-empty leaf of its
destination, whatever the source, the visited set, the list key and the
recursion budget, and also when it panics on the way. -/
theorem deepMerge_keeps (listKey : String) (fuel : Nat) :
    RecKeeps (deepMerge false listKey fuel) := by
  induction fuel with
  | zero => intro d s vis next; simp [deepMerge]; exact keepsO_refl _
  | succ fuel ih =>
    intro d s vis next
    simp only [deepMerge]
    split
    · exact keepsO_refl _
    · split
      · exact keepsO_refl _
      · split
        · exact structLoop_keeps ih _ _ _ _ _ _
        · exact sliceCase_keeps ih _ _ _ _ _
        · split
          · exact keepsO_refl _
          · exact mapLoop_keeps ih _ _ _ _ _ _
        · exact ptrCase_keeps ih _ _ _ _
        · exact ptrCase_keeps ih _ _ _ _
        · exact assignRule_keeps _ _ _ _

/-- `Merge` never loses a non-empty leaf of its argument `dst`. -/
theorem Merge_keeps (fuel next : Nat) (dst src : Val) (key : String) :
    Keeps dst (Merge fuel next dst src key).val := by
  unfold Merge merge
  split
  · exact keeps_refl _
  · rename_i vDst vSrc hres
    split
    · split
      · exact keeps_refl _
      · simp only []
        have h := deepMerge_keeps key fuel vDst vSrc [] next
        generalize (deepMerge false key fuel vDst vSrc [] next).val = r at h
        unfold resolveValues at hres
        cases dst with
        | ptr e t =>
          cases t with
          | none => simp at hres
          | some q =>
            obtain ⟨id, d⟩ := q
            simp only [] at hres
            have hvd : vDst.val = some d := by
              split at hres
              · split at hres <;> simp at hres <;> rw [← hres.1]
              · simp at hres
            rw [hvd] at h
            cases r with
            | none => exact absurd h (by simp [KeepsO])
            | some w => simp only [withTarget]; exact keeps_ptr h
        | _ => simp at hres
    · exact keeps_refl _

/-- C1 (amended). Non-destructiveness of `Merge` on values in which no backing
array is reachable along two paths (`ownArrays`): every leaf that the argument
`dst` holds with a non-empty value before the call, at any path through records,
sequences, mappings, pointers and interfaces, is held with the same value at the
same path after `Merge(dst, src, key)`, for every such `dst` and `src` and every
list key (also when the call returns an error or panics on the way). -/
theorem Merge_keeps_nonempty_leaves (fuel next : Nat) (dst src : Val) (key : String)
    (p : List Step) (v : Val) (_hown : ownArrays dst src = true)
    (hleaf : leafAt p dst = some v) (hne : isEmptyVal v = false) :
    leafAt p (Merge fuel next dst src key).val = some v :=
  Merge_keeps fuel next dst src key p v hleaf hne

/-- Witness for C1: `dst = S{L: [{a, 1}]}` with room for one more element in the
backing array of `L`, `src = S{L: [{a, 7}, {c, 3}]}`, key `K`: the element of
`src` with the key `a` is merged into `dst.L[0]`, the other one is appended in
place, and the non-empty leaf `dst.L[0].V` is still 1. -/
theorem Merge_keeps_nonempty_leaves_witness :
    leafAt [.elem, .field 0, .index 0, .field 1]
      (Merge 5 10
        (.ptr (.named "S") (some (0, .struct "S"
          [("L", .slice (.named "E") (some 5) 2
            [.struct "E" [("K", .str "a"), ("V", .int 1)]])])))
        (.struct "S"
          [("L", .slice (.named "E") (some 6) 2
            [.struct "E" [("K", .str "a"), ("V", .int 7)],
             .struct "E" [("K", .str "c"), ("V", .int 3)]])]) "K").val = some (.int 1) :=
  Merge_keeps_nonempty_leaves 5 10 _ _ "K" [.elem, .field 0, .index 0, .field 1] (.int 1)
    (by decide) rfl rfl

/-! ## Records of scalars: the leaf rule -/

theorem get?_mid {α : Type} (pre : List α) (x : α) (rest : List α) :
    (pre ++ x :: rest).get? pre.length = some x := by
  induction pre with
  | nil => rfl
  | cons a pre ih => simpa using ih

theorem set_mid {α : Type} (pre : List α) (x y : α) (rest : List α) :
    (pre ++ x :: rest).set pre.length y = pre ++ y :: rest := by
  induction pre with
  | nil => rfl
  | cons a pre ih => simp [ih]

theorem prefix_snoc_inj {p l : List Nat} {i j : Nat} (h1 : (p ++ [i]) <+: l)
    (h2 : (p ++ [j]) <+: l) : i = j := by
  have h := List.prefix_of_prefix_length_le h1 h2 (by simp)
  have he := h.eq_of_length (by simp)
  simpa using he

theorem structLoop_scalar {overwrite : Bool} {rec : Value → Value → Visited → Nat → Res}
    {fuel : Nat} (hrec : RecScalar overwrite rec fuel) (t t1 : String) (alloc : Nat)
    (path : List Nat) (saddr : Option Addr) (next : Nat) (fs : List (String × Val)) :
    ∀ (gs pre pre1 : List (String × Val)) (vis : Visited),
      scalarFields fs gs = true → depthFields fs ≤ fuel → pre.length = pre1.length →
      (∀ e ∈ vis, e.1.1 = alloc → ∀ j, pre.length ≤ j → ¬ (path ++ [j]) <+: e.1.2) →
      ScalarOut
        (structLoop rec ⟨some (.struct t1 (pre1 ++ gs)), saddr, false⟩ fs.length pre.length
          ⟨some (.struct t (pre ++ fs)), some (alloc, path), false⟩ vis next)
        (.struct t (pre ++ ruleFields overwrite fs gs)) vis next alloc path := by
  induction fs with
  | nil =>
    intro gs pre pre1 vis hsf hdep hlen hfresh
    cases gs with
    | nil => exact ⟨by simp [structLoop, ruleFields], rfl, rfl, rfl, fun e he => Or.inl he⟩
    | cons g gs => simp [scalarFields] at hsf
  | cons f fs ih =>
    intro gs pre pre1 vis hsf hdep hlen hfresh
    obtain ⟨n, v⟩ := f
    cases gs with
    | nil => simp [scalarFields] at hsf
    | cons g gs =>
      obtain ⟨m, w⟩ := g
      simp only [scalarFields, Bool.and_eq_true, decide_eq_true_eq] at hsf
      obtain ⟨⟨⟨hnm, hexp⟩, hvw⟩, hrest⟩ := hsf
      subst hnm
      simp only [depthFields] at hdep
      have hdv : depth v ≤ fuel := le_trans (le_max_left _ _) hdep
      have hdr : depthFields fs ≤ fuel := le_trans (le_max_right _ _) hdep
      have hfr : FreshBelow vis alloc (path ++ [pre.length]) :=
        fun e he ha => hfresh e he ha pre.length (le_refl _)
      obtain ⟨r1, r2, r3, r4, r5⟩ := hrec v w hvw hdv alloc (path ++ [pre.length])
        (saddr.map (fun a => (a.1, a.2 ++ [pre.length]))) vis next hfr
      have hdf : Value.Field ⟨some (.struct t (pre ++ (n, v) :: fs)), some (alloc, path), false⟩
          pre.length = some ⟨some v, some (alloc, path ++ [pre.length]), false⟩ := by
        simp only [Value.Field, get?_mid, Value.sub, hexp]
        rfl
      have hsf : Value.Field ⟨some (.struct t1 (pre1 ++ (n, w) :: gs)), saddr, false⟩
          pre.length = some ⟨some w, saddr.map (fun a => (a.1, a.2 ++ [pre.length])), false⟩ := by
        rw [hlen]
        simp only [Value.Field, get?_mid, Value.sub, hexp]
        rfl
      have hput : Value.putField ⟨some (.struct t (pre ++ (n, v) :: fs)), some (alloc, path), false⟩
          pre.length (some (ruleMerge overwrite v w))
          = ⟨some (.struct t ((pre ++ [(n, ruleMerge overwrite v w)]) ++ fs)),
              some (alloc, path), false⟩ := by
        simp only [Value.putField, setField, get?_mid, set_mid]
        simp
      have hfresh2 : ∀ e ∈ (rec ⟨some v, some (alloc, path ++ [pre.length]), false⟩
          ⟨some w, saddr.map (fun a => (a.1, a.2 ++ [pre.length])), false⟩ vis next).visited,
          e.1.1 = alloc →
          ∀ j, (pre ++ [(n, ruleMerge overwrite v w)]).length ≤ j → ¬ (path ++ [j]) <+: e.1.2 := by
        intro e he ha j hj hp
        simp only [List.length_append, List.length_singleton] at hj
        rcases r5 e he with h | h
        · exact hfresh e h ha j (by omega) hp
        · have := prefix_snoc_inj h.2 hp
          omega
      have hlen2 : (pre ++ [(n, ruleMerge overwrite v w)]).length = (pre1 ++ [(n, w)]).length := by
        simp [hlen]
      have key := ih gs (pre ++ [(n, ruleMerge overwrite v w)]) (pre1 ++ [(n, w)]) _ hrest hdr
        hlen2 hfresh2
      have e1 : (pre ++ [(n, ruleMerge overwrite v w)]).length = pre.length + 1 := by simp
      have e2 : pre1 ++ [(n, w)] ++ gs = pre1 ++ (n, w) :: gs := by simp
      have e3 : pre ++ [(n, ruleMerge overwrite v w)] ++ ruleFields overwrite fs gs
          = pre ++ ruleFields overwrite ((n, v) :: fs) ((n, w) :: gs) := by
        simp [ruleFields]
      rw [e1, e2, e3] at key
      obtain ⟨k1, k2, k3, k4, k5⟩ := key
      simp only [List.length_cons, structLoop, hdf, hsf, r1, r3, r4, hput]
      rw [r2]
      refine ⟨k1, k2, k3, k4, ?_⟩
      intro e he
      rcases k5 e he with h | h
      · rcases r5 e h with h1 | h1
        · exact Or.inl h1
        · exact Or.inr ⟨h1.1, (List.prefix_append _ _).trans h1.2⟩
      · exact Or.inr h
theorem depth_pos (d : Val) : 1 ≤ depth d := by
  cases d with
  | map kt vt es => cases es <;> simp [depth]
  | ptr e t =>
    cases t with
    | none => simp [depth]
    | some p => obtain ⟨id, v⟩ := p; simp [depth]
  | iface t => cases t <;> simp [depth]
  | _ => simp [depth]

theorem enter_fresh {d : Val} {alloc : Nat} {path : List Nat} {ro : Bool} {vis : Visited}
    (h : FreshBelow vis alloc path) :
    enter ⟨some d, some (alloc, path), ro⟩ vis = some (((alloc, path), typeOf d) :: vis) := by
  have : ((alloc, path), typeOf d) ∉ vis := fun hm => h _ hm rfl (List.prefix_refl _)
  simp [enter, this]

/-- The default case at a settable address, on two scalars of one kind. -/
theorem assignRule_scalar (overwrite : Bool) (d s : Val) (hty : typeOf s = typeOf d)
    (hni : typeOf d ≠ Ty.iface) (a : Addr) (saddr : Option Addr) (vis : Visited) (next : Nat) :
    assignRule overwrite ⟨some d, some a, false⟩ ⟨some s, saddr, false⟩ vis next
      = ⟨some (leafRule overwrite d s), vis, next, none, Status.ok⟩ := by
  have hst : stored (typeOf d) s = s := by
    unfold stored
    split <;> simp_all
  unfold assignRule leafRule
  simp only [Value.CanSet, isEmptyValue, Value.Set, assignable, hty, hst]
  simp
  split <;> simp_all

theorem deepMerge_scalar (overwrite : Bool) (listKey : String) (fuel : Nat) :
    RecScalar overwrite (deepMerge overwrite listKey fuel) fuel := by
  induction fuel with
  | zero =>
    intro d s _ hdep
    have := depth_pos d
    omega
  | succ fuel ih =>
    intro d s hds hdep alloc path saddr vis next hfresh
    have hleaf : ∀ (hk : Value.Kind ⟨some d, some (alloc, path), false⟩ ≠ Kind.struct)
        (hk1 : Value.Kind ⟨some d, some (alloc, path), false⟩ ≠ Kind.slice)
        (hk2 : Value.Kind ⟨some d, some (alloc, path), false⟩ ≠ Kind.map)
        (hk3 : Value.Kind ⟨some d, some (alloc, path), false⟩ ≠ Kind.ptr)
        (hk4 : Value.Kind ⟨some d, some (alloc, path), false⟩ ≠ Kind.interface)
        (hty : typeOf s = typeOf d) (hni : typeOf d ≠ Ty.iface)
        (hr : ruleMerge overwrite d s = leafRule overwrite d s),
        ScalarOut (deepMerge overwrite listKey (fuel + 1) ⟨some d, some (alloc, path), false⟩
          ⟨some s, saddr, false⟩ vis next) (ruleMerge overwrite d s) vis next alloc path := by
      intro hk hk1 hk2 hk3 hk4 hty hni hr
      simp only [deepMerge, Value.IsValid, Option.isSome_some, Bool.not_true, Bool.false_eq_true,
        if_false, enter_fresh hfresh]
      rw [assignRule_scalar overwrite d s hty hni, hr]
      refine ⟨rfl, rfl, rfl, rfl, ?_⟩
      intro e he
      rcases List.mem_cons.mp he with h | h
      · subst h; exact Or.inr ⟨rfl, List.prefix_refl _⟩
      · exact Or.inl h
    cases d with
    | bool b =>
      cases s <;> simp [scalarRecord] at hds
      exact hleaf (by simp [Value.Kind, kindOf]) (by simp [Value.Kind, kindOf])
        (by simp [Value.Kind, kindOf]) (by simp [Value.Kind, kindOf])
        (by simp [Value.Kind, kindOf]) rfl (by simp [typeOf]) (by simp [ruleMerge])
    | int i =>
      cases s <;> simp [scalarRecord] at hds
      exact hleaf (by simp [Value.Kind, kindOf]) (by simp [Value.Kind, kindOf])
        (by simp [Value.Kind, kindOf]) (by simp [Value.Kind, kindOf])
        (by simp [Value.Kind, kindOf]) rfl (by simp [typeOf]) (by simp [ruleMerge])
    | str x =>
      cases s <;> simp [scalarRecord] at hds
      exact hleaf (by simp [Value.Kind, kindOf]) (by simp [Value.Kind, kindOf])
        (by simp [Value.Kind, kindOf]) (by simp [Value.Kind, kindOf])
        (by simp [Value.Kind, kindOf]) rfl (by simp [typeOf]) (by simp [ruleMerge])
    | struct t fs =>
      cases s <;> simp [scalarRecord] at hds
      rename_i t1 gs
      obtain ⟨ht, hfs⟩ := hds
      subst ht
      simp only [depth] at hdep
      have hd2 : depthFields fs ≤ fuel := by omega
      have hfr : ∀ e ∈ ((alloc, path), typeOf (Val.struct t fs)) :: vis, e.1.1 = alloc →
          ∀ j, ([] : List (String × Val)).length ≤ j → ¬ (path ++ [j]) <+: e.1.2 := by
        intro e he ha j _ hp
        rcases List.mem_cons.mp he with h | h
        · subst h
          have := hp.length_le
          simp at this
        · exact hfresh e h ha ((List.prefix_append _ _).trans hp)
      have key := structLoop_scalar ih t t alloc path saddr next fs gs [] [] _ hfs hd2 rfl hfr
      simp only [deepMerge, Value.IsValid, Option.isSome_some, Bool.not_true, Bool.false_eq_true,
        if_false, enter_fresh hfresh, Value.Kind, kindOf, Value.NumField]
      simp only [List.nil_append, List.length_nil] at key
      obtain ⟨k1, k2, k3, k4, k5⟩ := key
      refine ⟨by rw [k1]; simp [ruleMerge], k2, k3, k4, ?_⟩
      intro e he
      rcases k5 e he with h | h
      · rcases List.mem_cons.mp h with h1 | h1
        · subst h1; exact Or.inr ⟨rfl, List.prefix_refl _⟩
        · exact Or.inl h1
      · exact Or.inr h
    | slice e arr cap es => simp [scalarRecord] at hds
    | map kt vt es => simp [scalarRecord] at hds
    | ptr e t => simp [scalarRecord] at hds
    | iface t => simp [scalarRecord] at hds
theorem ruleFields_get (overwrite : Bool) (fs : List (String × Val)) :
    ∀ (gs : List (String × Val)) (i : Nat) (n : String) (w : Val),
      scalarFields fs gs = true → fs.get? i = some (n, w) →
      ∃ w1, gs.get? i = some (n, w1) ∧ scalarRecord w w1 = true
        ∧ (ruleFields overwrite fs gs).get? i = some (n, ruleMerge overwrite w w1) := by
  induction fs with
  | nil => intro gs i n w _ h; simp at h
  | cons f fs ih =>
    intro gs i n w hsf h
    obtain ⟨m, v⟩ := f
    cases gs with
    | nil => simp [scalarFields] at hsf
    | cons g gs =>
      obtain ⟨m1, v1⟩ := g
      simp only [scalarFields, Bool.and_eq_true, decide_eq_true_eq] at hsf
      obtain ⟨⟨⟨hnm, _⟩, hvw⟩, hrest⟩ := hsf
      subst hnm
      cases i with
      | zero =>
        simp only [List.get?_cons_zero, Option.some.injEq, Prod.mk.injEq] at h
        obtain ⟨h1, h2⟩ := h
        subst h1 h2
        exact ⟨v1, by simp, hvw, by simp [ruleFields]⟩
      | succ i =>
        simp only [List.get?_cons_succ] at h
        obtain ⟨w1, a1, a2, a3⟩ := ih gs i n w hrest h
        exact ⟨w1, by simpa using a1, a2, by simpa [ruleFields] using a3⟩

/-- Two scalars of one kind that are both empty are equal. -/
theorem scalar_empty_eq {x y : Val} (h : scalarRecord x y = true) (hl : isLeaf x = true)
    (hx : isEmptyVal x = true) (hy : isEmptyVal y = true) : x = y := by
  cases x <;> cases y <;> simp [scalarRecord, isLeaf, isEmptyVal] at h hl hx hy ⊢
  · simp [hx, hy]
  · simp [hx, hy]
  · simp [hx, hy]

theorem scalar_leaf (overwrite : Bool) {d s : Val} (h : scalarRecord d s = true)
    (hl : isLeaf d = true) :
    isLeaf s = true ∧ ruleMerge overwrite d s = leafRule overwrite d s
      ∧ isLeaf (leafRule overwrite d s) = true := by
  cases d <;> simp [isLeaf] at hl <;> cases s <;> simp [scalarRecord] at h <;>
    refine ⟨rfl, by simp [ruleMerge], ?_⟩ <;> unfold leafRule <;> split <;> rfl

theorem leafAt_ruleMerge (overwrite : Bool) (p : List Step) :
    ∀ (d s x : Val), scalarRecord d s = true → leafAt p d = some x →
      ∃ y, leafAt p s = some y ∧ scalarRecord x y = true ∧ isLeaf x = true
        ∧ leafAt p (ruleMerge overwrite d s) = some (leafRule overwrite x y) := by
  induction p with
  | nil =>
    intro d s x hds hx
    have hl : isLeaf d = true := by
      cases hd : isLeaf d with
      | true => rfl
      | false => simp [leafAt, hd] at hx
    simp only [leafAt, hl, if_true, Option.some.injEq] at hx
    subst hx
    obtain ⟨h1, h2, h3⟩ := scalar_leaf overwrite hds hl
    exact ⟨s, by simp [leafAt, h1], hds, hl, by simp [leafAt, h2, h3]⟩
  | cons st p ih =>
    intro d s x hds hx
    cases d with
    | struct t fs =>
      cases s <;> simp [scalarRecord] at hds
      rename_i t1 gs
      obtain ⟨_, hfs⟩ := hds
      cases st <;> simp [leafAt, child] at hx
      rename_i i
      cases hg : fs.get? i with
      | none => rw [List.get?_eq_getElem?] at hg; simp [hg] at hx
      | some nw =>
        obtain ⟨n, w⟩ := nw
        have hg1 := hg
        rw [List.get?_eq_getElem?] at hg1
        simp [hg1] at hx
        obtain ⟨w1, a1, a2, a3⟩ := ruleFields_get overwrite fs gs i n w hfs hg
        obtain ⟨y, b1, b2, b3, b4⟩ := ih w w1 x a2 hx
        refine ⟨y, ?_, b2, b3, ?_⟩
        · simp only [leafAt, child, a1, Option.map_some']
          exact b1
        · simp only [ruleMerge, leafAt, child, a3, Option.map_some']
          exact b4
    | bool b => simp [leafAt, child] at hx
    | int i => simp [leafAt, child] at hx
    | str s => simp [leafAt, child] at hx
    | slice e arr cap es => simp [scalarRecord] at hds
    | map kt vt es => simp [scalarRecord] at hds
    | ptr e t => simp [scalarRecord] at hds
    | iface t => simp [scalarRecord] at hds
/-- C3. Leaf rule and overwrite totality.  For two records `dst` and `src` of one
type whose leaves are scalars reached through exported record-valued fields only,
for either mode and any list key, `merge` returns normally and without error, and
every leaf of `dst` ends as the leaf rule says: it equals the leaf of `src` when
that leaf is non-empty and (`overwrite` is true or the leaf of `dst` was empty),
and keeps its previous value otherwise.  In particular after
`MergeWithOverwrite` every leaf that is non-empty in `src` equals the value of
`src`, and after `Merge` every leaf that was empty in `dst` equals the leaf of
`src`. -/
theorem merge_leaf_rule (overwrite : Bool) (key : String) (fuel next id : Nat) (t : String)
    (fs gs : List (String × Val)) (hrec : scalarFields fs gs = true)
    (hfuel : depth (.struct t fs) ≤ fuel) :
    (merge fuel next (.ptr (.named t) (some (id, .struct t fs))) (.struct t gs) overwrite
        key).status = Status.ok
    ∧ (merge fuel next (.ptr (.named t) (some (id, .struct t fs))) (.struct t gs) overwrite
        key).err = none
    ∧ (merge fuel next (.ptr (.named t) (some (id, .struct t fs))) (.struct t gs) overwrite
        key).val
      = .ptr (.named t) (some (id, ruleMerge overwrite (.struct t fs) (.struct t gs)))
    ∧ ∀ p x, leafAt p (.struct t fs) = some x →
        ∃ y, leafAt p (.struct t gs) = some y
          ∧ leafAt (.elem :: p)
              (merge fuel next (.ptr (.named t) (some (id, .struct t fs))) (.struct t gs)
                overwrite key).val = some (leafRule overwrite x y)
          ∧ (overwrite = true → isEmptyVal y = false → leafRule overwrite x y = y)
          ∧ (overwrite = false → isEmptyVal x = true → leafRule overwrite x y = y) := by
  have hsr : scalarRecord (.struct t fs) (.struct t gs) = true := by
    simp [scalarRecord, hrec]
  have hfresh : FreshBelow [] id [] := fun e he => by simp at he
  obtain ⟨r1, r2, r3, r4, r5⟩ := deepMerge_scalar overwrite key fuel (.struct t fs)
    (.struct t gs) hsr hfuel id [] none [] next hfresh
  have hval : (merge fuel next (.ptr (.named t) (some (id, .struct t fs))) (.struct t gs)
      overwrite key).val
      = .ptr (.named t) (some (id, ruleMerge overwrite (.struct t fs) (.struct t gs))) := by
    simp [merge, resolveValues, kindOf, Value.Type, typeOf, r1, withTarget]
  refine ⟨?_, ?_, hval, ?_⟩
  · simp [merge, resolveValues, kindOf, Value.Type, typeOf, r4]
  · simp [merge, resolveValues, kindOf, Value.Type, typeOf, r3]
  · intro p x hx
    obtain ⟨y, b1, b2, b3, b4⟩ := leafAt_ruleMerge overwrite p _ _ x hsr hx
    refine ⟨y, b1, ?_, ?_, ?_⟩
    · rw [hval]
      simp only [leafAt, child]
      exact b4
    · intro ho hy
      simp [leafRule, ho, hy]
    · intro ho hxe
      unfold leafRule
      split
      · rfl
      · rename_i hc
        have hye : isEmptyVal y = true := by
          cases hy : isEmptyVal y with
          | true => rfl
          | false => simp [hy, hxe] at hc
        exact scalar_empty_eq b2 b3 hxe hye

/-- Witness for C3: a record with a nested record, merged in fill-only mode. -/
theorem merge_leaf_rule_witness :
    (merge 3 10
        (.ptr (.named "R") (some (0, .struct "R" [("A", .str ""), ("B", .struct "Q" [("C", .int 4)])])))
        (.struct "R" [("A", .str "y"), ("B", .struct "Q" [("C", .int 5)])]) false "").val
      = .ptr (.named "R") (some (0, ruleMerge false
          (.struct "R" [("A", .str ""), ("B", .struct "Q" [("C", .int 4)])])
          (.struct "R" [("A", .str "y"), ("B", .struct "Q" [("C", .int 5)])]))) :=
  (merge_leaf_rule false "" 3 10 0 "R" [("A", .str ""), ("B", .struct "Q" [("C", .int 4)])]
    [("A", .str "y"), ("B", .struct "Q" [("C", .int 5)])] (by decide) (by decide)).2.2.1
/-! ## Keyed sequences of records with string keys -/

/-- What a keyed record is made of. -/
theorem keyedRecord_inv {listKey t : String} {ns : List String} {el : Val}
    (h : keyedRecord listKey t ns el = true) :
    ∃ fs i n txt, el = .struct t fs ∧ fs.map Prod.fst = ns ∧ fieldIndex listKey fs 0 = some i
      ∧ fs.get? i = some (n, .str txt) ∧ keyText listKey el = some txt := by
  cases el with
  | struct t1 fs =>
    simp only [keyedRecord, Bool.and_eq_true, decide_eq_true_eq] at h
    obtain ⟨⟨ht, hns⟩, hk⟩ := h
    subst ht
    cases hfi : fieldIndex listKey fs 0 with
    | none => simp [keyText, hfi] at hk
    | some i =>
      cases hg : fs.get? i with
      | none => simp only [keyText, hfi, hg] at hk; simp at hk
      | some nv =>
        obtain ⟨n, v⟩ := nv
        cases v with
        | str txt => exact ⟨fs, i, n, txt, rfl, hns, hfi, hg, by simp only [keyText, hfi, hg]⟩
        | _ => simp only [keyText, hfi, hg] at hk; simp at hk
  | _ => simp [keyedRecord] at h

/-- `FieldByName` on a keyed record finds the key, a valid string. -/
theorem keyed_fieldByName {listKey t : String} {ns : List String} {el : Val} {txt : String}
    (h : keyedRecord listKey t ns el = true) (hk : keyText listKey el = some txt)
    (a : Option Addr) (ro : Bool) :
    ∃ v, Value.FieldByName ⟨some el, a, ro⟩ listKey = some v ∧ v.val = some (.str txt) := by
  obtain ⟨fs, i, n, txt1, hel, _, hfi, hg, hk1⟩ := keyedRecord_inv h
  rw [hk] at hk1
  simp only [Option.some.injEq] at hk1
  subst hk1 hel
  rw [List.get?_eq_getElem?] at hg
  simp [Value.FieldByName, hfi, Value.Field, hg]

theorem keyed_typeOf {listKey t : String} {ns : List String} {el : Val}
    (h : keyedRecord listKey t ns el = true) : typeOf el = Ty.named t ∧ kindOf el = Kind.struct := by
  obtain ⟨fs, i, n, txt1, hel, _⟩ := keyedRecord_inv h
  subst hel
  exact ⟨rfl, rfl⟩

theorem scanB_findKey {listKey t : String} {ns : List String} (listDst : Value) {dv : Val}
    {kd : String} (hd : listDst.val = some dv) (hk : keyedRecord listKey t ns dv = true)
    (hkd : keyText listKey dv = some kd) (e : Ty) (arr : Option Nat) (cap : Nat)
    (baddr : Option Addr) (bro : Bool) (xs : List Val) :
    ∀ (pre : List Val), (∀ x ∈ xs, keyedRecord listKey t ns x = true) →
      scanB listDst ⟨some (.slice e arr cap (pre ++ xs)), baddr, bro⟩ listKey xs.length
          pre.length
        = match findKey listKey kd xs pre.length with
          | some j => Scan.found j
          | none => Scan.nomatch := by
  induction xs with
  | nil => intro pre _; simp [scanB, findKey]
  | cons x xs ih =>
    intro pre hall
    have hx := hall x (List.mem_cons_self _ _)
    obtain ⟨tx, htx⟩ := Option.isSome_iff_exists.mp (by
      obtain ⟨_, _, _, txt, _, _, _, _, h5⟩ := keyedRecord_inv hx
      simp [h5] : (keyText listKey x).isSome = true)
    obtain ⟨vs, hvs1, hvs2⟩ := keyed_fieldByName hx htx (arr.map (fun a => (a, [pre.length]))) bro
    have hld : listDst = ⟨some dv, listDst.addr, listDst.ro⟩ := by
      cases listDst; simp_all
    obtain ⟨vd, hvd1, hvd2⟩ := keyed_fieldByName hk hkd listDst.addr listDst.ro
    rw [← hld] at hvd1
    have hidx : Value.Index ⟨some (.slice e arr cap (pre ++ x :: xs)), baddr, bro⟩ pre.length
        = some ⟨some x, arr.map (fun a => (a, [pre.length])), bro⟩ := by
      simp only [Value.Index, get?_mid]
    have hty : Value.Type ⟨some x, arr.map (fun a => (a, [pre.length])), bro⟩ = listDst.Type := by
      simp [Value.Type, hd, (keyed_typeOf hx).1, (keyed_typeOf hk).1]
    have hkind : listDst.Kind = Kind.struct := by
      simp [Value.Kind, hd, (keyed_typeOf hk).2]
    have hrest := ih (pre ++ [x]) (fun y hy => hall y (List.mem_cons_of_mem _ hy))
    simp only [List.append_assoc, List.singleton_append, List.length_append,
      List.length_singleton] at hrest
    simp only [List.length_cons, scanB, hidx, hty, ne_eq, not_true_eq_false, if_false, hkind,
      hvs1, hvd1, Value.IsValid, hvs2, hvd2, Option.isSome_some, Bool.not_true, Bool.or_false,
      Bool.false_eq_true, Value.String, findKey, htx, Option.some.injEq, hrest]
    by_cases heq : tx = kd
    · simp [heq]
    · simp [heq]
theorem findKey_some {listKey kd : String} (xs : List Val) :
    ∀ (i j : Nat), findKey listKey kd xs i = some j →
      ∃ m x, j = i + m ∧ xs.get? m = some x ∧ keyText listKey x = some kd := by
  induction xs with
  | nil => intro i j h; simp [findKey] at h
  | cons x xs ih =>
    intro i j h
    simp only [findKey] at h
    split at h
    · rename_i hx
      simp only [Option.some.injEq] at h
      exact ⟨0, x, by omega, rfl, hx⟩
    · obtain ⟨m, y, h1, h2, h3⟩ := ih (i + 1) j h
      exact ⟨m + 1, y, by omega, by simpa using h2, h3⟩

theorem findKey_none {listKey kd : String} (xs : List Val) :
    ∀ (i : Nat), findKey listKey kd xs i = none ↔ ∀ x ∈ xs, keyText listKey x ≠ some kd := by
  induction xs with
  | nil => intro i; simp [findKey]
  | cons x xs ih =>
    intro i
    simp only [findKey]
    split
    · rename_i hx
      simp [hx]
    · rename_i hx
      rw [ih (i + 1)]
      simp [hx]

theorem findKey_nodup {listKey kd : String} (xs : List Val) :
    ∀ (i m : Nat) (x : Val), (xs.map (keyText listKey)).Nodup → xs.get? m = some x →
      keyText listKey x = some kd → findKey listKey kd xs i = some (i + m) := by
  induction xs with
  | nil => intro i m x _ h; simp at h
  | cons y xs ih =>
    intro i m x hnd hm hx
    simp only [List.map_cons, List.nodup_cons] at hnd
    cases m with
    | zero =>
      simp only [List.get?_cons_zero, Option.some.injEq] at hm
      subst hm
      simp [findKey, hx]
    | succ m =>
      simp only [List.get?_cons_succ] at hm
      have hne : keyText listKey y ≠ some kd := by
        intro hy
        apply hnd.1
        rw [hy, ← hx]
        exact List.mem_map_of_mem _ (List.get?_mem hm)
      simp only [findKey, hne, if_false]
      rw [ih (i + 1) m x hnd.2 hm hx]
      congr 1
      omega

/-! ## The returned error -/

theorem structLoop_noErr {rec : Value → Value → Visited → Nat → Res} (hrec : RecNoErr rec)
    (src : Value) (rem : Nat) :
    ∀ (i : Nat) (dst : Value) (vis : Visited) (next : Nat),
      (structLoop rec src rem i dst vis next).err = none := by
  induction rem with
  | zero => intro i dst vis next; rfl
  | succ rem ih =>
    intro i dst vis next
    simp only [structLoop]
    split
    · rename_i df sf _ _
      have := hrec df sf vis next
      split
      · exact ih _ _ _ _
      · simpa using this
    · rfl

theorem assignRule_noErr (overwrite : Bool) (dst src : Value) (vis : Visited) (next : Nat) :
    (assignRule overwrite dst src vis next).err = none := by
  unfold assignRule
  split
  · split <;> rfl
  · rfl

theorem sliceCase_noErr (rec : Value → Value → Visited → Nat → Res) (overwrite : Bool)
    (listKey : String) (dst src : Value) (vis : Visited) (next : Nat) :
    (sliceCase rec overwrite listKey dst src vis next).err = none := by
  unfold sliceCase
  split
  · rfl
  · split
    · simp only []
      split
      · split
        · rfl
        · exact assignRule_noErr _ _ _ _ _
        · rfl
      · exact assignRule_noErr _ _ _ _ _
      · rfl
    · exact assignRule_noErr _ _ _ _ _

theorem mapLoop_noErr {rec : Value → Value → Visited → Nat → Res} (hrec : RecNoErr rec)
    (overwrite : Bool) (src : Value) (kty : Ty) (keys : List Key) :
    ∀ (dst : Value) (vis : Visited) (next : Nat),
      (mapLoop rec overwrite src kty keys dst vis next).err = none := by
  induction keys with
  | nil => intro dst vis next; rfl
  | cons key rest ih =>
    intro dst vis next
    simp only [mapLoop]
    split
    · rename_i srcElement dstElement hse hde
      split
      · exact ih _ _ _
      · split
        · exact ih _ _ _
        · split
          · exact ih _ _ _
          · generalize hr : (if dynKind srcElement ∈ [Kind.struct, Kind.ptr, Kind.map] then
              rec dstElement srcElement vis next
              else (⟨dstElement.val, vis, next, none, Status.ok⟩ : Res)) = r
            have hk : r.err = none := by
              rw [← hr]
              split
              · exact hrec _ _ _ _
              · rfl
            split
            · split
              · split
                · split
                  · rfl
                  · split
                    · rfl
                    · exact ih _ _ _
                · split
                  · rfl
                  · exact ih _ _ _
              · exact ih _ _ _
            · simpa using hk
    · rfl

theorem ptrCase_noErr {rec : Value → Value → Visited → Nat → Res} (hrec : RecNoErr rec)
    (overwrite : Bool) (dst src : Value) (vis : Visited) (next : Nat) :
    (ptrCase rec overwrite dst src vis next).err = none := by
  unfold ptrCase
  split
  · rfl
  · split
    · split
      · split <;> rfl
      · rfl
    · split
      · exact hrec _ _ _ _
      · rfl
  · rfl

/-- `deepMerge` returns a nil error on every input. -/
theorem deepMerge_noErr (overwrite : Bool) (listKey : String) (fuel : Nat) :
    RecNoErr (deepMerge overwrite listKey fuel) := by
  induction fuel with
  | zero => intro d s vis next; rfl
  | succ fuel ih =>
    intro d s vis next
    simp only [deepMerge]
    split
    · rfl
    · split
      · rfl
      · split
        · exact structLoop_noErr ih _ _ _ _ _ _
        · exact sliceCase_noErr _ _ _ _ _ _ _
        · split
          · rfl
          · exact mapLoop_noErr ih _ _ _ _ _ _ _
        · exact ptrCase_noErr ih _ _ _ _ _
        · exact ptrCase_noErr ih _ _ _ _ _
        · exact assignRule_noErr _ _ _ _ _
/-! ## The key of a keyed record survives a merge -/

theorem fieldIndex_congr (name : String) (fs : List (String × Val)) :
    ∀ (gs : List (String × Val)) (j : Nat), fs.map Prod.fst = gs.map Prod.fst →
      fieldIndex name fs j = fieldIndex name gs j := by
  induction fs with
  | nil =>
    intro gs j h
    cases gs with
    | nil => rfl
    | cons g gs => simp at h
  | cons f fs ih =>
    intro gs j h
    cases gs with
    | nil => simp at h
    | cons g gs =>
      obtain ⟨n, v⟩ := f
      obtain ⟨m, w⟩ := g
      simp only [List.map_cons, List.cons.injEq] at h
      obtain ⟨h1, h2⟩ := h
      subst h1
      simp only [fieldIndex, ih gs (j + 1) h2]

theorem map_fst_set (fs : List (String × Val)) :
    ∀ (i : Nat) (n : String) (v w : Val), fs.get? i = some (n, v) →
      (fs.set i (n, w)).map Prod.fst = fs.map Prod.fst := by
  induction fs with
  | nil => intro i n v w h; simp at h
  | cons f fs ih =>
    intro i n v w h
    cases i with
    | zero =>
      simp only [List.get?_cons_zero, Option.some.injEq] at h
      subst h
      rfl
    | succ i =>
      simp only [List.get?_cons_succ] at h
      simp [ih i n v w h]

theorem get?_set_ne {α : Type} (l : List α) (i j : Nat) (a : α) (h : i ≠ j) :
    (l.set i a).get? j = l.get? j := by
  simp [List.get?_eq_getElem?, List.getElem?_set, h]

theorem get?_set_self {α : Type} (l : List α) (i : Nat) (a b : α) (h : l.get? i = some b) :
    (l.set i a).get? i = some a := by
  have hlt : i < l.length := by
    rw [List.get?_eq_getElem?] at h
    exact (List.getElem?_eq_some_iff.mp h).1
  simp [List.get?_eq_getElem?, List.getElem?_set, hlt]

/-- Writing a merged field back into a keyed record leaves a keyed record with
the same key text, when the merge of two equal strings returns that string. -/
theorem putField_keyed {listKey t : String} {ns : List String} {dst src df sf : Value}
    {dv sv : Val} {k : String} {i : Nat} {r : Option Val}
    (hd : dst.val = some dv) (hs : src.val = some sv)
    (hdk : keyedRecord listKey t ns dv = true) (hsk : keyedRecord listKey t ns sv = true)
    (hkd : keyText listKey dv = some k) (hks : keyText listKey sv = some k)
    (hdf : dst.Field i = some df) (hsf : src.Field i = some sf)
    (hr : ∀ k1, df.val = some (.str k1) → sf.val = some (.str k1) → r = some (.str k1)) :
    ∃ dv1, (dst.putField i r).val = some dv1 ∧ keyedRecord listKey t ns dv1 = true
      ∧ keyText listKey dv1 = some k := by
  cases r with
  | none => exact ⟨dv, by simp [Value.putField, hd], hdk, hkd⟩
  | some w =>
    obtain ⟨fs, i0, n0, kt, hdv, hns, hfi, hg0, hk0⟩ := keyedRecord_inv hdk
    obtain ⟨gs, j0, m0, kt1, hsv, hns1, hfj, hg1, hk1⟩ := keyedRecord_inv hsk
    rw [hkd] at hk0
    rw [hks] at hk1
    simp only [Option.some.injEq] at hk0 hk1
    subst hk0 hk1 hdv hsv
    have hij : j0 = i0 := by
      have := fieldIndex_congr listKey fs gs 0 (by rw [hns, hns1])
      rw [hfi, hfj] at this
      simpa using this.symm
    subst hij
    simp only [Value.Field, hd] at hdf
    simp only [Value.Field, hs] at hsf
    cases hgi : fs.get? i with
    | none => rw [hgi] at hdf; simp at hdf
    | some nv =>
      obtain ⟨n, v⟩ := nv
      rw [hgi] at hdf
      simp only [Option.some.injEq] at hdf
      cases hgj : gs.get? i with
      | none => rw [hgj] at hsf; simp at hsf
      | some mw =>
        obtain ⟨m, w1⟩ := mw
        rw [hgj] at hsf
        simp only [Option.some.injEq] at hsf
        refine ⟨.struct t (setField fs i w), by simp [Value.putField, hd], ?_, ?_⟩
        · have hnames : (fs.set i (n, w)).map Prod.fst = ns := by
            rw [map_fst_set fs i n v w hgi, hns]
          have hfi2 : fieldIndex listKey (fs.set i (n, w)) 0 = some j0 := by
            rw [fieldIndex_congr listKey (fs.set i (n, w)) fs 0 (map_fst_set fs i n v w hgi), hfi]
          simp only [keyedRecord, setField, hgi, hnames, decide_True, Bool.true_and,
            keyText, hfi2]
          by_cases hi : i = j0
          · subst hi
            rw [hgi] at hg0
            simp only [Option.some.injEq, Prod.mk.injEq] at hg0
            rw [hgj] at hg1
            simp only [Option.some.injEq, Prod.mk.injEq] at hg1
            have hw := hr k (by rw [← hdf]; simp [hg0.2]) (by rw [← hsf]; simp [hg1.2])
            simp only [Option.some.injEq] at hw
            subst hw
            rw [get?_set_self fs i (n, Val.str k) (n, v) hgi]
            rfl
          · rw [get?_set_ne fs i j0 (n, w) hi, hg0]
            rfl
        · have hfi2 : fieldIndex listKey (fs.set i (n, w)) 0 = some j0 := by
            rw [fieldIndex_congr listKey (fs.set i (n, w)) fs 0 (map_fst_set fs i n v w hgi), hfi]
          simp only [setField, hgi, keyText, hfi2]
          by_cases hi : i = j0
          · subst hi
            rw [hgi] at hg0
            simp only [Option.some.injEq, Prod.mk.injEq] at hg0
            rw [hgj] at hg1
            simp only [Option.some.injEq, Prod.mk.injEq] at hg1
            have hw := hr k (by rw [← hdf]; simp [hg0.2]) (by rw [← hsf]; simp [hg1.2])
            simp only [Option.some.injEq] at hw
            subst hw
            rw [get?_set_self fs i (n, Val.str k) (n, v) hgi]
          · rw [get?_set_ne fs i j0 (n, w) hi, hg0]
/-- `deepMerge` of a string into an equal string leaves that string. -/
theorem deepMerge_same_str (overwrite : Bool) (listKey : String) (fuel : Nat) (d s : Value)
    (k : String) (vis : Visited) (next : Nat) (hd : d.val = some (.str k))
    (hs : s.val = some (.str k)) :
    (deepMerge overwrite listKey fuel d s vis next).val = some (.str k) := by
  cases fuel with
  | zero => simp [deepMerge, hd]
  | succ fuel =>
    have hk : d.Kind = Kind.string := by simp [Value.Kind, hd, kindOf]
    simp only [deepMerge, hk]
    split
    · exact hd
    · split
      · exact hd
      · unfold assignRule
        split
        · simp only [Value.Set, hd, hs, typeOf, stored]
          split
          · rfl
          · rename_i v hv
            split at hv
            · simp only [Option.some.injEq] at hv
              rw [← hv]
            · simp at hv
        · exact hd

theorem structLoop_keyed (rec : Value → Value → Visited → Nat → Res)
    (hrec : ∀ (d s : Value) (k : String) (vis : Visited) (next : Nat),
      d.val = some (.str k) → s.val = some (.str k) → (rec d s vis next).val = some (.str k))
    {listKey t : String} {ns : List String} {src : Value} {sv : Val} {k : String}
    (hs : src.val = some sv) (hsk : keyedRecord listKey t ns sv = true)
    (hks : keyText listKey sv = some k) (rem : Nat) :
    ∀ (i : Nat) (dst : Value) (dv : Val) (vis : Visited) (next : Nat),
      dst.val = some dv → keyedRecord listKey t ns dv = true → keyText listKey dv = some k →
      ∃ dv1, (structLoop rec src rem i dst vis next).val = some dv1
        ∧ keyedRecord listKey t ns dv1 = true ∧ keyText listKey dv1 = some k := by
  induction rem with
  | zero => intro i dst dv vis next hd hdk hkd; exact ⟨dv, by simp [structLoop, hd], hdk, hkd⟩
  | succ rem ih =>
    intro i dst dv vis next hd hdk hkd
    simp only [structLoop]
    split
    · rename_i df sf hdf hsf
      obtain ⟨dv1, h1, h2, h3⟩ := putField_keyed (r := (rec df sf vis next).val) hd hs hdk hsk
        hkd hks hdf hsf (fun k1 a b => hrec df sf k1 vis next a b)
      split
      · exact ih _ _ dv1 _ _ h1 h2 h3
      · exact ⟨dv1, h1, h2, h3⟩
    · exact ⟨dv, hd, hdk, hkd⟩

/-- `deepMerge` keeps the key of a keyed record. -/
theorem deepMerge_recKey (overwrite : Bool) (listKey t : String) (ns : List String)
    (fuel : Nat) : RecKey listKey t ns (deepMerge overwrite listKey fuel) := by
  intro d s dv sv k vis next hd hs hdk hsk hkd hks
  refine ⟨deepMerge_noErr overwrite listKey fuel d s vis next, ?_⟩
  cases fuel with
  | zero => exact ⟨dv, by simp [deepMerge, hd], hdk, hkd⟩
  | succ fuel =>
    have hk : d.Kind = Kind.struct := by simp [Value.Kind, hd, (keyed_typeOf hdk).2]
    simp only [deepMerge, hk]
    split
    · exact ⟨dv, hd, hdk, hkd⟩
    · split
      · exact ⟨dv, hd, hdk, hkd⟩
      · rename_i vis1 _
        have h := structLoop_keyed (deepMerge overwrite listKey fuel)
          (fun d s k vis next a b => deepMerge_same_str overwrite listKey fuel d s k vis next a b)
          hs hsk hks d.NumField 0 d dv vis1 next hd hdk hkd
        exact h
/-! ## The two passes of `deepMergeSlices` on keyed records -/

theorem keyed_keyText {listKey t : String} {ns : List String} {el : Val}
    (h : keyedRecord listKey t ns el = true) : ∃ k, keyText listKey el = some k := by
  obtain ⟨_, _, _, txt, _, _, _, _, h5⟩ := keyedRecord_inv h
  exact ⟨txt, h5⟩

theorem setAt_mid (pre : List Val) (x y : Val) (rest : List Val) :
    setAt (pre ++ x :: rest) pre.length y = pre ++ y :: rest := set_mid pre x y rest

/-- The first pass (not backwards, nothing ignored) over the destination elements
still to be visited. -/
theorem sliceLoop_forward {rec : Value → Value → Visited → Nat → Res} {listKey t : String}
    {ns : List String} (hrec : RecKey listKey t ns rec) (e : Ty) (darr sarr : Option Nat)
    (dcap scap : Nat) (aaddr baddr : Option Addr) (aro bro : Bool) (ses : List Val)
    (hses : ∀ x ∈ ses, keyedRecord listKey t ns x = true) (rest : List Val) :
    ∀ (pre1 : List Val) (vis : Visited) (next : Nat) (bf : List Nat) (err : Option MergeError),
      (∀ x ∈ rest, keyedRecord listKey t ns x = true) →
      (sliceLoop rec false listKey [] rest.length pre1.length
          ⟨some (.slice e darr dcap (pre1 ++ rest)), aaddr, aro⟩
          ⟨some (.slice e sarr scap ses), baddr, bro⟩ vis next bf err).status = Status.ok →
      ∃ cur1,
        (sliceLoop rec false listKey [] rest.length pre1.length
          ⟨some (.slice e darr dcap (pre1 ++ rest)), aaddr, aro⟩
          ⟨some (.slice e sarr scap ses), baddr, bro⟩ vis next bf err).a
            = ⟨some (.slice e darr dcap (pre1 ++ cur1)), aaddr, aro⟩
        ∧ List.Forall₂ (MatchMerged rec listKey t ns ses) rest cur1
        ∧ (sliceLoop rec false listKey [] rest.length pre1.length
          ⟨some (.slice e darr dcap (pre1 ++ rest)), aaddr, aro⟩
          ⟨some (.slice e sarr scap ses), baddr, bro⟩ vis next bf err).b
            = ⟨some (.slice e sarr scap ses), baddr, bro⟩
        ∧ (err = none →
          (sliceLoop rec false listKey [] rest.length pre1.length
            ⟨some (.slice e darr dcap (pre1 ++ rest)), aaddr, aro⟩
            ⟨some (.slice e sarr scap ses), baddr, bro⟩ vis next bf err).err = none)
        ∧ ∀ j, j ∈ (sliceLoop rec false listKey [] rest.length pre1.length
            ⟨some (.slice e darr dcap (pre1 ++ rest)), aaddr, aro⟩
            ⟨some (.slice e sarr scap ses), baddr, bro⟩ vis next bf err).bFounds
          ↔ (j ∈ bf ∨ ∃ d ∈ rest, ∃ kd, keyText listKey d = some kd
              ∧ findKey listKey kd ses 0 = some j) := by
  induction rest with
  | nil =>
    intro pre1 vis next bf err _ _
    exact ⟨[], by simp [sliceLoop], List.Forall₂.nil, by simp [sliceLoop],
      fun h => by simp [sliceLoop, h], fun j => by simp [sliceLoop]⟩
  | cons d rest ih =>
    intro pre1 vis next bf err hall hst
    have hd := hall d (List.mem_cons_self _ _)
    have hrestk : ∀ x ∈ rest, keyedRecord listKey t ns x = true :=
      fun x hx => hall x (List.mem_cons_of_mem _ hx)
    obtain ⟨kd, hkd⟩ := keyed_keyText hd
    have hidx : Value.Index ⟨some (.slice e darr dcap (pre1 ++ d :: rest)), aaddr, aro⟩
        pre1.length = some ⟨some d, darr.map (fun a => (a, [pre1.length])), aro⟩ := by
      simp only [Value.Index, get?_mid]
    have hlen : Value.Len ⟨some (.slice e sarr scap ses), baddr, bro⟩ = some ses.length := rfl
    have hscan := scanB_findKey ⟨some d, darr.map (fun a => (a, [pre1.length])), aro⟩
      rfl hd hkd e sarr scap baddr bro ses [] hses
    simp only [List.nil_append, List.length_nil] at hscan
    have hassoc : pre1 ++ d :: rest = (pre1 ++ [d]) ++ rest := by simp
    have hl1 : ∀ x : Val, (pre1 ++ [x]).length = pre1.length + 1 := by simp
    simp only [List.length_cons, sliceLoop, List.not_mem_nil, if_false, hidx, hlen, hscan]
      at hst ⊢
    cases hfk : findKey listKey kd ses 0 with
    | none =>
      simp only [hfk, Bool.false_eq_true, if_false] at hst ⊢
      rw [hassoc, ← hl1 d] at hst ⊢
      obtain ⟨cur1, h1, h2, h3, h4, h5⟩ := ih (pre1 ++ [d]) vis next bf err hrestk hst
      refine ⟨d :: cur1, by rw [h1]; simp,
        List.Forall₂.cons ⟨hd, rfl, fun _ => rfl, ?_⟩ h2, h3, h4, ?_⟩
      · intro kd1 j1 hk1 hf1
        rw [hkd] at hk1
        simp only [Option.some.injEq] at hk1
        subst hk1
        rw [hfk] at hf1
        cases hf1
      intro j
      rw [h5 j]
      constructor
      · rintro (h | ⟨x, hx, k1, hk1, hf1⟩)
        · exact Or.inl h
        · exact Or.inr ⟨x, List.mem_cons_of_mem _ hx, k1, hk1, hf1⟩
      · rintro (h | ⟨x, hx, k1, hk1, hf1⟩)
        · exact Or.inl h
        · rcases List.mem_cons.mp hx with hxd | hxr
          · subst hxd
            rw [hkd] at hk1
            simp only [Option.some.injEq] at hk1
            subst hk1
            rw [hfk] at hf1
            cases hf1
          · exact Or.inr ⟨x, hxr, k1, hk1, hf1⟩
    | some j0 =>
      obtain ⟨m, x, hj, hxm, hxk⟩ := findKey_some ses 0 j0 hfk
      simp only [Nat.zero_add] at hj
      subst hj
      have hxs : keyedRecord listKey t ns x = true := hses x (List.get?_mem hxm)
      have hbi : Value.Index ⟨some (.slice e sarr scap ses), baddr, bro⟩ j0
          = some ⟨some x, sarr.map (fun a => (a, [j0])), bro⟩ := by
        simp only [Value.Index, hxm]
      simp only [hfk, hbi, Bool.false_eq_true, if_false] at hst ⊢
      obtain ⟨herr, d1, hd1, hd1k, hd1t⟩ := hrec
        ⟨some d, darr.map (fun a => (a, [pre1.length])), aro⟩
        ⟨some x, sarr.map (fun a => (a, [j0])), bro⟩ d x kd vis next rfl rfl hd hxs hkd hxk
      have hput : Value.putIndex ⟨some (.slice e darr dcap (pre1 ++ d :: rest)), aaddr, aro⟩
          pre1.length (some d1)
          = ⟨some (.slice e darr dcap ((pre1 ++ [d1]) ++ rest)), aaddr, aro⟩ := by
        simp [Value.putIndex, setAt_mid]
      rw [hd1, hput, herr] at hst ⊢
      split at hst
      · rename_i hok
        rw [← hl1 d1] at hst ⊢
        obtain ⟨cur1, h1, h2, h3, h4, h5⟩ := ih (pre1 ++ [d1]) _ _ (bf ++ [j0]) none hrestk hst
        refine ⟨d1 :: cur1, by rw [h1]; simp, List.Forall₂.cons ⟨hd1k, ?_, ?_, ?_⟩ h2, h3,
          fun _ => h4 rfl, ?_⟩
        · rw [hd1t, hkd]
        · intro hnot
          exfalso
          apply hnot
          rw [hkd, ← hxk]
          exact List.mem_map_of_mem _ (List.get?_mem hxm)
        · intro kd1 j1 hk1 hf1
          rw [hkd] at hk1
          simp only [Option.some.injEq] at hk1
          subst hk1
          rw [hfk] at hf1
          simp only [Option.some.injEq] at hf1
          subst hf1
          exact ⟨x, ⟨some d, darr.map (fun a => (a, [pre1.length])), aro⟩,
            ⟨some x, sarr.map (fun a => (a, [j0])), bro⟩, vis, next, hxm, rfl, rfl, hd1⟩
        · intro j
          rw [h5 j, List.mem_append, List.mem_singleton]
          constructor
          · rintro ((h | h) | ⟨y, hy, k1, hk1, hf1⟩)
            · exact Or.inl h
            · exact Or.inr ⟨d, List.mem_cons_self _ _, kd, hkd, by rw [hfk, h]⟩
            · exact Or.inr ⟨y, List.mem_cons_of_mem _ hy, k1, hk1, hf1⟩
          · rintro (h | ⟨y, hy, k1, hk1, hf1⟩)
            · exact Or.inl (Or.inl h)
            · rcases List.mem_cons.mp hy with hyd | hyr
              · subst hyd
                rw [hkd] at hk1
                simp only [Option.some.injEq] at hk1
                subst hk1
                rw [hfk] at hf1
                simp only [Option.some.injEq] at hf1
                exact Or.inl (Or.inr hf1.symm)
              · exact Or.inr ⟨y, hyr, k1, hk1, hf1⟩
      · rename_i st hne
        simp only [] at hst
        exact absurd hst (by intro h; exact hne h)
theorem reflectAppend_spec {b x newB : Value} {next next1 : Nat} {e : Ty} {arr : Option Nat}
    {cap : Nat} {es : List Val} {xv : Val}
    (ha : reflectAppend b x next = some (newB, next1))
    (hb : b.val = some (.slice e arr cap es)) (hx : x.val = some xv) :
    ∃ arr1 cap1, newB = ⟨some (.slice e arr1 cap1 (es ++ [stored e xv])), none, false⟩ := by
  simp only [reflectAppend, hb, hx] at ha
  split at ha
  · split at ha
    · simp only [Option.some.injEq, Prod.mk.injEq] at ha
      exact ⟨arr, cap, ha.1.symm⟩
    · simp only [Option.some.injEq, Prod.mk.injEq] at ha
      exact ⟨some next, growCap es.length cap, ha.1.symm⟩
  · simp at ha

theorem set_slice_spec {b newB : Value} {v : Val} {e : Ty} {arr arr1 : Option Nat}
    {cap cap1 : Nat} {es es1 : List Val} (hs : b.Set newB = some v)
    (hb : b.val = some (.slice e arr cap es))
    (hn : newB.val = some (.slice e arr1 cap1 es1)) : v = .slice e arr1 cap1 es1 := by
  simp only [Value.Set, hb, hn] at hs
  split at hs
  · simp only [Option.some.injEq] at hs
    rw [← hs]
    rfl
  · simp at hs

theorem stored_named (t : String) (x : Val) : stored (Ty.named t) x = x := by
  unfold stored
  split <;> simp_all

theorem nodup_map_mid {α β : Type} (f : α → β) (pre : List α) (x : α) (rest : List α)
    (h : ((pre ++ x :: rest).map f).Nodup) : ∀ y ∈ pre, f y ≠ f x := by
  intro y hy heq
  rw [List.map_append, List.map_cons] at h
  have h1 := List.nodup_append.mp h
  exact h1.2.2 (List.mem_map_of_mem f hy) (by rw [heq]; exact List.mem_cons_self _ _)

/-- The second pass (backwards) over the source elements still to be visited, when
the key texts of the source are pairwise distinct: no element is merged, and
exactly the source elements whose key text is not among `keysDst` are appended. -/
theorem sliceLoop_backward (rec : Value → Value → Visited → Nat → Res) {listKey t : String}
    {ns : List String} (sarr : Option Nat) (scap : Nat) (saddr daddr : Option Addr)
    (sro dro : Bool) (ses : List Val) (hses : ∀ x ∈ ses, keyedRecord listKey t ns x = true)
    (hnd : (ses.map (keyText listKey)).Nodup) (keysDst : List (Option String))
    (ign : List Nat)
    (hign : ∀ j x, ses.get? j = some x → (j ∈ ign ↔ keyText listKey x ∈ keysDst))
    (base : List Val)
    (hbase : ∀ y ∈ base, keyedRecord listKey t ns y = true ∧ keyText listKey y ∈ keysDst)
    (srest : List Val) :
    ∀ (spre : List Val) (barr : Option Nat) (bcap : Nat) (vis : Visited) (next : Nat)
      (bf : List Nat) (err : Option MergeError),
      ses = spre ++ srest →
      (sliceLoop rec true listKey ign srest.length spre.length
          ⟨some (.slice (.named t) sarr scap ses), saddr, sro⟩
          ⟨some (.slice (.named t) barr bcap
            (base ++ spre.filter (fun x => decide (keyText listKey x ∉ keysDst)))), daddr, dro⟩
          vis next bf err).status = Status.ok →
      ∃ arr1 cap1,
        (sliceLoop rec true listKey ign srest.length spre.length
          ⟨some (.slice (.named t) sarr scap ses), saddr, sro⟩
          ⟨some (.slice (.named t) barr bcap
            (base ++ spre.filter (fun x => decide (keyText listKey x ∉ keysDst)))), daddr, dro⟩
          vis next bf err).b
            = ⟨some (.slice (.named t) arr1 cap1
                (base ++ ses.filter (fun x => decide (keyText listKey x ∉ keysDst)))), daddr, dro⟩
        ∧ (sliceLoop rec true listKey ign srest.length spre.length
          ⟨some (.slice (.named t) sarr scap ses), saddr, sro⟩
          ⟨some (.slice (.named t) barr bcap
            (base ++ spre.filter (fun x => decide (keyText listKey x ∉ keysDst)))), daddr, dro⟩
          vis next bf err).err = err := by
  induction srest with
  | nil =>
    intro spre barr bcap vis next bf err hs _
    simp only [List.append_nil] at hs
    subst hs
    exact ⟨barr, bcap, by simp [sliceLoop], by simp [sliceLoop]⟩
  | cons x srest ih =>
    intro spre barr bcap vis next bf err hs hst
    have hxm : ses.get? spre.length = some x := by rw [hs]; exact get?_mid spre x srest
    have hxk : keyedRecord listKey t ns x = true := hses x (List.get?_mem hxm)
    have hs2 : ses = (spre ++ [x]) ++ srest := by rw [hs]; simp
    have hl1 : (spre ++ [x]).length = spre.length + 1 := by simp
    simp only [List.length_cons, sliceLoop] at hst ⊢
    by_cases hig : spre.length ∈ ign
    · have hin : keyText listKey x ∈ keysDst := (hign _ x hxm).mp hig
      have hf : (spre ++ [x]).filter (fun x => decide (keyText listKey x ∉ keysDst))
          = spre.filter (fun x => decide (keyText listKey x ∉ keysDst)) := by
        simp [List.filter_append, hin]
      simp only [hig, if_true] at hst ⊢
      rw [← hl1, ← hf] at hst ⊢
      exact ih (spre ++ [x]) barr bcap vis next bf err hs2 hst
    · have hnin : keyText listKey x ∉ keysDst := fun h => hig ((hign _ x hxm).mpr h)
      have hf : (spre ++ [x]).filter (fun x => decide (keyText listKey x ∉ keysDst))
          = spre.filter (fun x => decide (keyText listKey x ∉ keysDst)) ++ [x] := by
        simp [List.filter_append, hnin]
      obtain ⟨kx, hkx⟩ := keyed_keyText hxk
      have hidx : Value.Index ⟨some (.slice (.named t) sarr scap ses), saddr, sro⟩ spre.length
          = some ⟨some x, sarr.map (fun a => (a, [spre.length])), sro⟩ := by
        simp only [Value.Index, hxm]
      have hbk : ∀ y ∈ base ++ spre.filter (fun x => decide (keyText listKey x ∉ keysDst)),
          keyedRecord listKey t ns y = true := by
        intro y hy
        rcases List.mem_append.mp hy with h | h
        · exact (hbase y h).1
        · exact hses y (by rw [hs]; exact List.mem_append_left _ (List.mem_filter.mp h).1)
      have hscan := scanB_findKey
        ⟨some x, sarr.map (fun a => (a, [spre.length])), sro⟩ rfl hxk hkx
        (.named t) barr bcap daddr dro
        (base ++ spre.filter (fun x => decide (keyText listKey x ∉ keysDst))) [] hbk
      simp only [List.nil_append, List.length_nil] at hscan
      have hfk : findKey listKey kx
          (base ++ spre.filter (fun x => decide (keyText listKey x ∉ keysDst))) 0 = none := by
        rw [findKey_none]
        intro y hy hyk
        rcases List.mem_append.mp hy with h | h
        · exact hnin (by rw [hkx, ← hyk]; exact (hbase y h).2)
        · have hne := nodup_map_mid (keyText listKey) spre x srest (by rw [← hs]; exact hnd) y
            (List.mem_filter.mp h).1
          exact hne (by rw [hyk, hkx])
      rw [hfk] at hscan
      have hlen : Value.Len ⟨some (.slice (.named t) barr bcap
          (base ++ spre.filter (fun x => decide (keyText listKey x ∉ keysDst)))), daddr, dro⟩
          = some (base ++ spre.filter (fun x => decide (keyText listKey x ∉ keysDst))).length :=
        rfl
      simp only [hig, if_false, hidx, hlen, hscan, if_true] at hst ⊢
      cases happ : reflectAppend ⟨some (.slice (.named t) barr bcap
          (base ++ spre.filter (fun x => decide (keyText listKey x ∉ keysDst)))), daddr, dro⟩
          ⟨some x, sarr.map (fun a => (a, [spre.length])), sro⟩ next with
      | none => rw [happ] at hst; simp at hst
      | some p =>
        obtain ⟨newB, next1⟩ := p
        simp only [happ] at hst ⊢
        obtain ⟨arr1, cap1, hnb⟩ := reflectAppend_spec happ rfl rfl
        cases hset : Value.Set ⟨some (.slice (.named t) barr bcap
            (base ++ spre.filter (fun x => decide (keyText listKey x ∉ keysDst)))), daddr, dro⟩
            newB with
        | none => rw [hset] at hst; simp at hst
        | some v =>
          simp only [hset] at hst ⊢
          have hv := set_slice_spec hset rfl (by rw [hnb])
          rw [stored_named, List.append_assoc, ← hf] at hv
          subst hv
          rw [← hl1] at hst ⊢
          exact ih (spre ++ [x]) arr1 cap1 vis next1 bf err hs2 hst
theorem forall2_keys {rec : Value → Value → Visited → Nat → Res} {listKey t : String}
    {ns : List String} {ses des des1 : List Val}
    (h : List.Forall₂ (MatchMerged rec listKey t ns ses) des des1) :
    ∀ y ∈ des1, keyedRecord listKey t ns y = true
      ∧ keyText listKey y ∈ des.map (keyText listKey) := by
  induction h with
  | nil => intro y hy; simp at hy
  | cons hab _ ih =>
    intro y hy
    rcases List.mem_cons.mp hy with h1 | h1
    · subst h1
      exact ⟨hab.1, by rw [hab.2.1]; simp⟩
    · obtain ⟨a1, a2⟩ := ih y h1
      exact ⟨a1, by simp only [List.map_cons, List.mem_cons]; exact Or.inr a2⟩

/-- The slice case on two sequences of keyed records with a non-empty list key,
when the key texts of the source are pairwise distinct and the case returns
normally. -/
theorem sliceCase_keyed {rec : Value → Value → Visited → Nat → Res} {listKey t : String}
    {ns : List String} (hrec : RecKey listKey t ns rec) (overwrite : Bool)
    (hkey : listKey.length ≠ 0) (darr sarr : Option Nat) (dcap scap : Nat)
    (daddr saddr : Option Addr) (dro sro : Bool) (des ses : List Val)
    (hdes : ∀ x ∈ des, keyedRecord listKey t ns x = true)
    (hses : ∀ x ∈ ses, keyedRecord listKey t ns x = true)
    (hnd : (ses.map (keyText listKey)).Nodup) (vis : Visited) (next : Nat)
    (hok : (sliceCase rec overwrite listKey ⟨some (.slice (.named t) darr dcap des), daddr, dro⟩
      ⟨some (.slice (.named t) sarr scap ses), saddr, sro⟩ vis next).status = Status.ok) :
    ∃ arr1 cap1 des1,
      (sliceCase rec overwrite listKey ⟨some (.slice (.named t) darr dcap des), daddr, dro⟩
        ⟨some (.slice (.named t) sarr scap ses), saddr, sro⟩ vis next).val
        = some (.slice (.named t) arr1 cap1
            (des1 ++ ses.filter
              (fun x => decide (keyText listKey x ∉ des.map (keyText listKey)))))
      ∧ List.Forall₂ (MatchMerged rec listKey t ns ses) des des1 := by
  by_cases hemp : des = [] ∧ ses = []
  · obtain ⟨h1, h2⟩ := hemp
    subst h1 h2
    refine ⟨darr, dcap, [], ?_, List.Forall₂.nil⟩
    simp [sliceCase, sliceKindOf, hkey, Value.Len, assignRule, isEmptyValue, isEmptyVal]
  · have hkind : sliceKindOf listKey ⟨some (.slice (.named t) darr dcap des), daddr, dro⟩
        ⟨some (.slice (.named t) sarr scap ses), saddr, sro⟩ = some Kind.struct := by
      cases des with
      | cons d des =>
        have := (keyed_typeOf (hdes d (List.mem_cons_self _ _))).2
        simp [sliceKindOf, hkey, Value.Len, Value.Index, Value.Kind, this]
      | nil =>
        cases ses with
        | nil => exact absurd ⟨rfl, rfl⟩ hemp
        | cons s ses =>
          have := (keyed_typeOf (hses s (List.mem_cons_self _ _))).2
          simp [sliceKindOf, hkey, Value.Len, Value.Index, Value.Kind, this]
    have hp1 : deepMergeSlices rec ⟨some (.slice (.named t) darr dcap des), daddr, dro⟩
        ⟨some (.slice (.named t) sarr scap ses), saddr, sro⟩ vis next false listKey []
        = sliceLoop rec false listKey [] des.length ([] : List Val).length
            ⟨some (.slice (.named t) darr dcap ([] ++ des)), daddr, dro⟩
            ⟨some (.slice (.named t) sarr scap ses), saddr, sro⟩ vis next [] none := rfl
    simp only [sliceCase, hkind, true_or, if_true] at hok ⊢
    rw [hp1] at hok ⊢
    generalize hq : sliceLoop rec false listKey [] des.length ([] : List Val).length
        ⟨some (.slice (.named t) darr dcap ([] ++ des)), daddr, dro⟩
        ⟨some (.slice (.named t) sarr scap ses), saddr, sro⟩ vis next [] none = p1 at hok ⊢
    have hst1 : p1.status = Status.ok := by
      cases h : p1.status with
      | ok => rfl
      | panic => simp [h] at hok
      | fuel => simp [h] at hok
    have hfw := sliceLoop_forward hrec (.named t) darr sarr dcap scap daddr saddr dro sro ses
      hses des [] vis next [] none hdes (by rw [hq]; exact hst1)
    rw [hq] at hfw
    obtain ⟨des1, ha, hf2, hb, herr, hbf⟩ := hfw
    have herr1 := herr rfl
    simp only [List.nil_append] at ha
    have hp2 : deepMergeSlices rec p1.b p1.a p1.visited p1.next true listKey p1.bFounds
        = sliceLoop rec true listKey p1.bFounds ses.length ([] : List Val).length
            ⟨some (.slice (.named t) sarr scap ses), saddr, sro⟩
            ⟨some (.slice (.named t) darr dcap
              (des1 ++ ([] : List Val).filter
                (fun x => decide (keyText listKey x ∉ des.map (keyText listKey))))), daddr, dro⟩
            p1.visited p1.next [] none := by
      rw [hb, ha]
      simp [deepMergeSlices, Value.Len]
    simp only [hst1, herr1] at hok ⊢
    rw [hp2] at hok ⊢
    have hign : ∀ j x, ses.get? j = some x →
        (j ∈ p1.bFounds ↔ keyText listKey x ∈ des.map (keyText listKey)) := by
      intro j x hx
      rw [hbf j]
      simp only [List.not_mem_nil, false_or]
      constructor
      · rintro ⟨d, hd, kd, hkd, hfk⟩
        obtain ⟨m, y, hj, hym, hyk⟩ := findKey_some ses 0 j hfk
        simp only [Nat.zero_add] at hj
        subst hj
        rw [hx] at hym
        simp only [Option.some.injEq] at hym
        subst hym
        rw [hyk, ← hkd]
        exact List.mem_map_of_mem _ hd
      · intro hmem
        obtain ⟨d, hd, hdk⟩ := List.mem_map.mp hmem
        obtain ⟨kx, hkx⟩ := keyed_keyText (hses x (List.get?_mem hx))
        refine ⟨d, hd, kx, by rw [hdk, hkx], ?_⟩
        have := findKey_nodup ses 0 j x hnd hx hkx
        simpa using this
    generalize hq2 : sliceLoop rec true listKey p1.bFounds ses.length ([] : List Val).length
        ⟨some (.slice (.named t) sarr scap ses), saddr, sro⟩
        ⟨some (.slice (.named t) darr dcap
          (des1 ++ ([] : List Val).filter
            (fun x => decide (keyText listKey x ∉ des.map (keyText listKey))))), daddr, dro⟩
        p1.visited p1.next [] none = p2 at hok ⊢
    have hst2 : p2.status = Status.ok := by
      cases h : p2.status with
      | ok => rfl
      | panic => simp [h] at hok
      | fuel => simp [h] at hok
    have hbw := sliceLoop_backward rec sarr scap saddr daddr sro dro ses hses hnd
      (des.map (keyText listKey)) p1.bFounds hign des1 (forall2_keys hf2) ses [] darr dcap
      p1.visited p1.next [] none rfl (by rw [hq2]; exact hst2)
    rw [hq2] at hbw
    obtain ⟨arr1, cap1, hb2, herr2⟩ := hbw
    refine ⟨arr1, cap1, des1, ?_, hf2⟩
    simp only [hst2, herr2, hb2]
/-- C5 (amended). Keyed-list union for string keys when no storage is shared.
`dst` and `src` are sequences of records of one struct type whose list-key field
is a string, no backing array and no pointer target in them is reachable along
two paths (`ownObjects`), the key texts of `src` are pairwise distinct, the list
key is not empty, `dst` passes the visited check and the merge returns normally.
Then, in either mode, `dst` ends as one element per original element, in the
original order, followed by exactly the elements of `src` whose key is the key of
no element of `dst`, in the order of `src`.  Each of the leading elements is a
record with the key of the original; it is the original itself when no element of
`src` has its key, and otherwise it is what `deepMerge` leaves of the original
when the element of `src` with that key is merged into it (`MatchMerged`). -/
theorem deepMerge_keyed_union (overwrite : Bool) (listKey t : String) (ns : List String)
    (fuel : Nat) (dst src : Value) (vis vis1 : Visited) (next : Nat)
    (darr sarr : Option Nat) (dcap scap : Nat) (des ses : List Val)
    (hkey : listKey.length ≠ 0)
    (hd : dst.val = some (.slice (.named t) darr dcap des))
    (hs : src.val = some (.slice (.named t) sarr scap ses))
    (hdes : ∀ x ∈ des, keyedRecord listKey t ns x = true)
    (hses : ∀ x ∈ ses, keyedRecord listKey t ns x = true)
    (hnd : (ses.map (keyText listKey)).Nodup)
    (_hown : ownObjects (.slice (.named t) darr dcap des) (.slice (.named t) sarr scap ses)
      = true)
    (hvis : enter dst vis = some vis1)
    (hok : (deepMerge overwrite listKey (fuel + 1) dst src vis next).status = Status.ok) :
    ∃ arr1 cap1 des1,
      (deepMerge overwrite listKey (fuel + 1) dst src vis next).val
        = some (.slice (.named t) arr1 cap1
            (des1 ++ ses.filter
              (fun x => decide (keyText listKey x ∉ des.map (keyText listKey)))))
      ∧ List.Forall₂ (MatchMerged (deepMerge overwrite listKey fuel) listKey t ns ses)
          des des1 := by
  obtain ⟨dval, daddr, dro⟩ := dst
  obtain ⟨sval, saddr, sro⟩ := src
  simp only at hd hs
  subst hd hs
  have hsc : deepMerge overwrite listKey (fuel + 1)
      ⟨some (.slice (.named t) darr dcap des), daddr, dro⟩
      ⟨some (.slice (.named t) sarr scap ses), saddr, sro⟩ vis next
      = sliceCase (deepMerge overwrite listKey fuel) overwrite listKey
          ⟨some (.slice (.named t) darr dcap des), daddr, dro⟩
          ⟨some (.slice (.named t) sarr scap ses), saddr, sro⟩ vis1 next := by
    simp [deepMerge, Value.IsValid, hvis, Value.Kind, kindOf]
  rw [hsc] at hok ⊢
  exact sliceCase_keyed (deepMerge_recKey overwrite listKey t ns fuel) overwrite hkey darr sarr
    dcap scap daddr saddr dro sro des ses hdes hses hnd vis1 next hok

/-- Witness for C5: `dst = [{Id: "1", V: ""}]`, `src = [{Id: "1", V: "y"},
{Id: "2", V: "z"}]`, key `"Id"`: the first source element is merged into the
element of `dst`, the second is appended. -/
theorem deepMerge_keyed_union_witness :
    ∃ arr1 cap1 des1,
      (deepMerge false "Id" 3
        ⟨some (.slice (.named "U") (some 1) 1 [.struct "U" [("Id", .str "1"), ("V", .str "")]]),
          some (0, [0]), false⟩
        ⟨some (.slice (.named "U") (some 2) 2
            [.struct "U" [("Id", .str "1"), ("V", .str "y")],
             .struct "U" [("Id", .str "2"), ("V", .str "z")]]),
          none, false⟩ [] 10).val
        = some (.slice (.named "U") arr1 cap1
            (des1 ++ [Val.struct "U" [("Id", .str "1"), ("V", .str "y")],
                Val.struct "U" [("Id", .str "2"), ("V", .str "z")]].filter
              (fun x => decide (keyText "Id" x ∉
                [Val.struct "U" [("Id", .str "1"), ("V", .str "")]].map (keyText "Id")))))
      ∧ List.Forall₂ (MatchMerged (deepMerge false "Id" 2) "Id" "U" ["Id", "V"]
          [.struct "U" [("Id", .str "1"), ("V", .str "y")],
           .struct "U" [("Id", .str "2"), ("V", .str "z")]])
          [.struct "U" [("Id", .str "1"), ("V", .str "")]] des1 :=
  deepMerge_keyed_union false "Id" "U" ["Id", "V"] 2 _ _ [] _ 10 (some 1) (some 2) 1 2
    [.struct "U" [("Id", .str "1"), ("V", .str "")]]
    [.struct "U" [("Id", .str "1"), ("V", .str "y")],
     .struct "U" [("Id", .str "2"), ("V", .str "z")]]
    (by decide) rfl rfl (by decide) (by decide) (by decide) (by decide) rfl rfl

/-- C5 (counterexample).  The claim as stated fails at four inputs.  With the
integer ids of the example, `dst = [{Id: 1, V: "x"}]`, `src = [{Id: 2, V: "y"}]`,
key `"Id"`, the merge leaves `dst` as it was instead of appending the source
element.  With string keys, `dst = [{Id: "a", V: ""}]`, `src = [{Id: "a", V: "y"}]`,
the element of `dst` does not stay the original element: it is filled from the
source element with the same key.  On the heap `Graph.selfArrayHeap`, where the
first element of `dst.L` holds an empty sequence on the array it is stored in,
the merge with `src.L = [{K: "a", Sub: [{K: "b"}]}]` returns normally and the
first element of `dst.L`, with the key `a` before, has the key `b` after: the
append to its `Sub` is in place and overwrites it.  And on the heap
`Graph.sharedTargetHeap`, where the elements `a` and `b` of `dst.L` hold one
pointer, the merge with `src.L = [{K: "a", P: &T{V: "x"}}]` returns normally and
the element `b`, whose key no element of `src` has, reads `P.V = "x"` after it,
empty before: the target was filled through the element `a`. -/
theorem keyed_union_counterexample :
    elemsOf (deepMerge false "Id" 3
        ⟨some (.slice (.named "T") (some 1) 1 [.struct "T" [("Id", .int 1), ("V", .str "x")]]),
          some (0, [0]), false⟩
        ⟨some (.slice (.named "T") (some 2) 1 [.struct "T" [("Id", .int 2), ("V", .str "y")]]),
          none, false⟩ [] 10).val
      ≠ some (unionByKey "Id" [.struct "T" [("Id", .int 1), ("V", .str "x")]]
          [.struct "T" [("Id", .int 2), ("V", .str "y")]])
    ∧ elemsOf (deepMerge false "Id" 3
        ⟨some (.slice (.named "U") (some 1) 1 [.struct "U" [("Id", .str "a"), ("V", .str "")]]),
          some (0, [0]), false⟩
        ⟨some (.slice (.named "U") (some 2) 1 [.struct "U" [("Id", .str "a"), ("V", .str "y")]]),
          none, false⟩ [] 10).val
      ≠ some (unionByKey "Id" [.struct "U" [("Id", .str "a"), ("V", .str "")]]
          [.struct "U" [("Id", .str "a"), ("V", .str "y")]])
    ∧ (Graph.Merge 8 10 Graph.selfArrayHeap (.ptr (.named "S") (some 0))
        (.struct "S" [("L", .slice (.named "E") (some 6) 1 1)]) "K").status = Status.ok
    ∧ leafAt [.elem, .field 0, .index 0, .field 0]
        (Graph.view Graph.selfArrayHeap 6 (.ptr (.named "S") (some 0))) = some (.str "a")
    ∧ leafAt [.elem, .field 0, .index 0, .field 0]
        (Graph.view
          (Graph.Merge 8 10 Graph.selfArrayHeap (.ptr (.named "S") (some 0))
            (.struct "S" [("L", .slice (.named "E") (some 6) 1 1)]) "K").heap
          6 (.ptr (.named "S") (some 0))) = some (.str "b")
    ∧ (Graph.Merge 8 10 Graph.sharedTargetHeap (.ptr (.named "S") (some 0))
        (.struct "S" [("L", .slice (.named "E") (some 6) 1 1)]) "K").status = Status.ok
    ∧ leafAt [.elem, .field 0, .index 1, .field 1, .elem, .field 0]
        (Graph.view Graph.sharedTargetHeap 6 (.ptr (.named "S") (some 0))) = some (.str "")
    ∧ leafAt [.elem, .field 0, .index 1, .field 1, .elem, .field 0]
        (Graph.view
          (Graph.Merge 8 10 Graph.sharedTargetHeap (.ptr (.named "S") (some 0))
            (.struct "S" [("L", .slice (.named "E") (some 6) 1 1)]) "K").heap
          6 (.ptr (.named "S") (some 0))) = some (.str "x") :=
  ⟨fun h => absurd (congrArg (Option.map List.length) h) (by decide),
   fun h => absurd
    (congrArg (fun o => o.bind (fun l => ((l.get? 0).bind (leafAt [.field 1])).map isEmptyVal)) h)
    (by decide), rfl, rfl, rfl, rfl, rfl, rfl⟩
/-! ## Idempotence -/

theorem leafRule_facts {d s : Val} (h : scalarRecord d s = true) (hl : isLeaf d = true) :
    scalarRecord (leafRule false d s) s = true ∧ depth (leafRule false d s) = depth d
      ∧ isLeaf (leafRule false d s) = true
      ∧ leafRule false (leafRule false d s) s = leafRule false d s := by
  cases d <;> simp [isLeaf] at hl <;> cases s <;> simp [scalarRecord] at h <;>
    (unfold leafRule; simp only [Bool.false_or]; split) <;>
    simp_all [scalarRecord, depth, isLeaf, leafRule]

/-- On records of scalars that fit in the budget `n`, the leaf rule in fill-only
mode yields a record of the same shape and depth, and applying it again changes
nothing. -/
theorem ruleMerge_idem (n : Nat) :
    ∀ (d s : Val), scalarRecord d s = true → depth d ≤ n →
      scalarRecord (ruleMerge false d s) s = true ∧ depth (ruleMerge false d s) = depth d
        ∧ ruleMerge false (ruleMerge false d s) s = ruleMerge false d s := by
  induction n with
  | zero => intro d s _ hdep; have := depth_pos d; omega
  | succ n ih =>
    intro d s hds hdep
    have hfields : ∀ (fs gs : List (String × Val)), scalarFields fs gs = true →
        depthFields fs ≤ n →
        scalarFields (ruleFields false fs gs) gs = true
          ∧ depthFields (ruleFields false fs gs) = depthFields fs
          ∧ ruleFields false (ruleFields false fs gs) gs = ruleFields false fs gs := by
      intro fs
      induction fs with
      | nil =>
        intro gs h _
        cases gs with
        | nil => simp [ruleFields, scalarFields]
        | cons g gs => simp [scalarFields] at h
      | cons f fs ihf =>
        intro gs h hd
        obtain ⟨m, v⟩ := f
        cases gs with
        | nil => simp [scalarFields] at h
        | cons g gs =>
          obtain ⟨m1, w⟩ := g
          simp only [scalarFields, Bool.and_eq_true, decide_eq_true_eq] at h
          obtain ⟨⟨⟨hnm, hexp⟩, hvw⟩, hrest⟩ := h
          subst hnm
          simp only [depthFields] at hd
          obtain ⟨a1, a2, a3⟩ := ih v w hvw (le_trans (le_max_left _ _) hd)
          obtain ⟨b1, b2, b3⟩ := ihf gs hrest (le_trans (le_max_right _ _) hd)
          refine ⟨?_, ?_, ?_⟩
          · simp [ruleFields, scalarFields, hexp, a1, b1]
          · simp [ruleFields, depthFields, a2, b2]
          · simp [ruleFields, a3, b3]
    cases d with
    | struct t fs =>
      cases s <;> simp [scalarRecord] at hds
      rename_i t1 gs
      obtain ⟨ht, hfs⟩ := hds
      subst ht
      simp only [depth] at hdep
      obtain ⟨b1, b2, b3⟩ := hfields fs gs hfs (by omega)
      exact ⟨by simp [ruleMerge, scalarRecord, b1], by simp [ruleMerge, depth, b2],
        by simp [ruleMerge, b3]⟩
    | bool b =>
      obtain ⟨h1, h2, h3⟩ := scalar_leaf false hds rfl
      obtain ⟨c1, c2, c3, c4⟩ := leafRule_facts hds rfl
      rw [h2]
      exact ⟨c1, c2, by rw [(scalar_leaf false c1 c3).2.1, c4]⟩
    | int i =>
      obtain ⟨h1, h2, h3⟩ := scalar_leaf false hds rfl
      obtain ⟨c1, c2, c3, c4⟩ := leafRule_facts hds rfl
      rw [h2]
      exact ⟨c1, c2, by rw [(scalar_leaf false c1 c3).2.1, c4]⟩
    | str x =>
      obtain ⟨h1, h2, h3⟩ := scalar_leaf false hds rfl
      obtain ⟨c1, c2, c3, c4⟩ := leafRule_facts hds rfl
      rw [h2]
      exact ⟨c1, c2, by rw [(scalar_leaf false c1 c3).2.1, c4]⟩
    | slice e arr cap es => simp [scalarRecord] at hds
    | map kt vt es => simp [scalarRecord] at hds
    | ptr e t => simp [scalarRecord] at hds
    | iface t => simp [scalarRecord] at hds
/-- On records of scalars both calls of `Merge` return normally and the second
one leaves `dst` as the first one made it. -/
theorem Merge_idempotent_records (key : String) (fuel next next2 id : Nat) (t : String)
    (fs gs : List (String × Val)) (hrec : scalarFields fs gs = true)
    (hfuel : depth (.struct t fs) ≤ fuel) :
    (Merge fuel next (.ptr (.named t) (some (id, .struct t fs))) (.struct t gs) key).status
        = Status.ok
    ∧ (Merge fuel next2
        (Merge fuel next (.ptr (.named t) (some (id, .struct t fs))) (.struct t gs) key).val
        (.struct t gs) key).status = Status.ok
    ∧ (Merge fuel next2
        (Merge fuel next (.ptr (.named t) (some (id, .struct t fs))) (.struct t gs) key).val
        (.struct t gs) key).val
      = (Merge fuel next (.ptr (.named t) (some (id, .struct t fs))) (.struct t gs) key).val := by
  have hsr : scalarRecord (.struct t fs) (.struct t gs) = true := by
    simp [scalarRecord, hrec]
  obtain ⟨i1, i2, i3⟩ := ruleMerge_idem fuel _ _ hsr hfuel
  obtain ⟨a1, _, a3, _⟩ := merge_leaf_rule false key fuel next id t fs gs hrec hfuel
  have hshape : ruleMerge false (.struct t fs) (.struct t gs)
      = .struct t (ruleFields false fs gs) := by simp [ruleMerge]
  rw [hshape] at i1 i2 i3 a3
  have hrec2 : scalarFields (ruleFields false fs gs) gs = true := by
    simpa [scalarRecord] using i1
  obtain ⟨b1, _, b3, _⟩ := merge_leaf_rule false key fuel next2 id t (ruleFields false fs gs) gs
    hrec2 (by rw [i2]; exact hfuel)
  unfold Merge
  rw [a3]
  exact ⟨a1, b1, by rw [b3, i3]⟩

/-- `Merge` run twice changes `dst` twice.  `dst` is an empty map and `src = {"x": {L: [{Id: "a",
V: "1"}, {Id: "a", V: ""}]}}`, key `"Id"`.  The first `Merge` stores the record of
`src` under `"x"`.  The second `Merge` reconciles the stored sequence with the
sequence of `src`: its second element matches the first element of `src`, the
first with the key text `"a"`, and is filled from it.  Both calls return normally
and the second one changes `dst`. -/
theorem Merge_twice_counterexample :
    (Merge 5 10
        (.ptr (.map .string (.named "S")) (some (0, .map .string (.named "S") (some []))))
        (.map .string (.named "S") (some [(.str "x", .struct "S" [("L",
          .slice (.named "U") (some 2) 2
            [.struct "U" [("Id", .str "a"), ("V", .str "1")],
             .struct "U" [("Id", .str "a"), ("V", .str "")]])])])) "Id").status = Status.ok
    ∧ (Merge 5 10
        (Merge 5 10
          (.ptr (.map .string (.named "S")) (some (0, .map .string (.named "S") (some []))))
          (.map .string (.named "S") (some [(.str "x", .struct "S" [("L",
            .slice (.named "U") (some 2) 2
              [.struct "U" [("Id", .str "a"), ("V", .str "1")],
               .struct "U" [("Id", .str "a"), ("V", .str "")]])])])) "Id").val
        (.map .string (.named "S") (some [(.str "x", .struct "S" [("L",
          .slice (.named "U") (some 2) 2
            [.struct "U" [("Id", .str "a"), ("V", .str "1")],
             .struct "U" [("Id", .str "a"), ("V", .str "")]])])])) "Id").status = Status.ok
    ∧ (Merge 5 10
        (Merge 5 10
          (.ptr (.map .string (.named "S")) (some (0, .map .string (.named "S") (some []))))
          (.map .string (.named "S") (some [(.str "x", .struct "S" [("L",
            .slice (.named "U") (some 2) 2
              [.struct "U" [("Id", .str "a"), ("V", .str "1")],
               .struct "U" [("Id", .str "a"), ("V", .str "")]])])])) "Id").val
        (.map .string (.named "S") (some [(.str "x", .struct "S" [("L",
          .slice (.named "U") (some 2) 2
            [.struct "U" [("Id", .str "a"), ("V", .str "1")],
             .struct "U" [("Id", .str "a"), ("V", .str "")]])])])) "Id").val
      ≠ (Merge 5 10
          (.ptr (.map .string (.named "S")) (some (0, .map .string (.named "S") (some []))))
          (.map .string (.named "S") (some [(.str "x", .struct "S" [("L",
            .slice (.named "U") (some 2) 2
              [.struct "U" [("Id", .str "a"), ("V", .str "1")],
               .struct "U" [("Id", .str "a"), ("V", .str "")]])])])) "Id").val :=
  ⟨rfl, rfl, fun h => absurd
    (congrArg (fun v => leafAt [.elem, .key (.str "x"), .field 0, .index 1, .field 1] v
      |>.map isEmptyVal) h) (by decide)⟩

/-! ## Pointers and interfaces -/

/-- C11. The rule for a pair of pointer or interface nodes of one type, at the
same position of two values (`hro`), when `dst` passes the visited check
(`hvis`): if `src` is nil, `dst` is unchanged; if `src` is non-nil and (`dst` is
nil or `overwrite` is true), `dst` ends holding the reference of `src` when it is
settable and is unchanged when it is not; if both are non-nil and `overwrite` is
false, `dst` keeps its reference and the object it refers to holds the result of
the recursive merge of the object of `src` into it. -/
theorem deepMerge_optional_reference (overwrite : Bool) (listKey : String) (fuel : Nat)
    (dst src : Value) (vis vis1 : Visited) (next : Nat)
    (hk : dst.Kind = Kind.ptr ∨ dst.Kind = Kind.interface)
    (hty : dst.Type = src.Type)
    (hro : src.ro = dst.ro)
    (hvis : enter dst vis = some vis1) :
    (src.IsNil = some true →
      deepMerge overwrite listKey (fuel + 1) dst src vis next
        = ⟨dst.val, vis1, next, none, Status.ok⟩)
    ∧ (src.IsNil = some false → (dst.IsNil = some true ∨ overwrite = true) →
        (dst.CanSet = true →
          deepMerge overwrite listKey (fuel + 1) dst src vis next
            = ⟨src.val, vis1, next, none, Status.ok⟩)
        ∧ (dst.CanSet = false →
          deepMerge overwrite listKey (fuel + 1) dst src vis next
            = ⟨dst.val, vis1, next, none, Status.ok⟩))
    ∧ (src.IsNil = some false → dst.IsNil = some false → overwrite = false →
        ∃ de se, dst.Elem = some de ∧ src.Elem = some se
          ∧ deepMerge overwrite listKey (fuel + 1) dst src vis next
            = ⟨(dst.putElem (deepMerge overwrite listKey fuel de se vis1 next).val).val,
                (deepMerge overwrite listKey fuel de se vis1 next).visited,
                (deepMerge overwrite listKey fuel de se vis1 next).next,
                (deepMerge overwrite listKey fuel de se vis1 next).err,
                (deepMerge overwrite listKey fuel de se vis1 next).status⟩) := by
  obtain ⟨dv, da, dr⟩ := dst
  obtain ⟨sv, sa, sr⟩ := src
  simp only at hro
  subst hro
  cases dv with
  | none => simp [Value.Kind] at hk
  | some d =>
    cases sv with
    | none => simp [Value.Type] at hty
    | some s =>
      simp only [Value.Type, Option.map_some', Option.some.injEq] at hty
      cases d <;> simp [Value.Kind, kindOf] at hk <;>
        cases s <;> simp [typeOf] at hty
      · rename_i e t e1 t1
        subst hty
        refine ⟨?_, ?_, ?_⟩
        · intro hn
          cases t1 <;> simp [Value.IsNil] at hn
          simp [deepMerge, Value.IsValid, hvis, Value.Kind, kindOf, ptrCase, Value.IsNil]
        · intro hn hd
          cases t1 <;> simp [Value.IsNil] at hn
          refine ⟨?_, ?_⟩
          · intro hc
            have hr : sr = false := by simp [Value.CanSet] at hc; exact hc.2
            subst hr
            rcases hd with hd | hd
            · cases t <;> simp [Value.IsNil] at hd
              simp [deepMerge, Value.IsValid, hvis, Value.Kind, kindOf, ptrCase, Value.IsNil, hc,
                isEmptyValue, isEmptyVal, Value.Set, assignable, typeOf, stored]
            · subst hd
              cases t <;>
              simp [deepMerge, Value.IsValid, hvis, Value.Kind, kindOf, ptrCase, Value.IsNil, hc,
                isEmptyValue, isEmptyVal, Value.Set, assignable, typeOf, stored]
          · intro hc
            rcases hd with hd | hd
            · cases t <;> simp [Value.IsNil] at hd
              simp [deepMerge, Value.IsValid, hvis, Value.Kind, kindOf, ptrCase, Value.IsNil, hc]
            · subst hd
              cases t <;>
              simp [deepMerge, Value.IsValid, hvis, Value.Kind, kindOf, ptrCase, Value.IsNil, hc]
        · intro hn hd ho
          subst ho
          cases t1 <;> simp [Value.IsNil] at hn
          cases t <;> simp [Value.IsNil] at hd
          rename_i tv sv
          obtain ⟨i1, w1⟩ := tv
          obtain ⟨i2, w2⟩ := sv
          refine ⟨_, _, rfl, rfl, ?_⟩
          simp [deepMerge, Value.IsValid, hvis, Value.Kind, kindOf, ptrCase, Value.IsNil,
            Value.Elem]
      · rename_i t t1
        refine ⟨?_, ?_, ?_⟩
        · intro hn
          cases t1 <;> simp [Value.IsNil] at hn
          simp [deepMerge, Value.IsValid, hvis, Value.Kind, kindOf, ptrCase, Value.IsNil]
        · intro hn hd
          cases t1 <;> simp [Value.IsNil] at hn
          refine ⟨?_, ?_⟩
          · intro hc
            have hr : sr = false := by simp [Value.CanSet] at hc; exact hc.2
            subst hr
            rcases hd with hd | hd
            · cases t <;> simp [Value.IsNil] at hd
              simp [deepMerge, Value.IsValid, hvis, Value.Kind, kindOf, ptrCase, Value.IsNil, hc,
                isEmptyValue, isEmptyVal, Value.Set, assignable, typeOf, stored]
            · subst hd
              cases t <;>
              simp [deepMerge, Value.IsValid, hvis, Value.Kind, kindOf, ptrCase, Value.IsNil, hc,
                isEmptyValue, isEmptyVal, Value.Set, assignable, typeOf, stored]
          · intro hc
            rcases hd with hd | hd
            · cases t <;> simp [Value.IsNil] at hd
              simp [deepMerge, Value.IsValid, hvis, Value.Kind, kindOf, ptrCase, Value.IsNil, hc]
            · subst hd
              cases t <;>
              simp [deepMerge, Value.IsValid, hvis, Value.Kind, kindOf, ptrCase, Value.IsNil, hc]
        · intro hn hd ho
          subst ho
          cases t1 <;> simp [Value.IsNil] at hn
          cases t <;> simp [Value.IsNil] at hd
          refine ⟨_, _, rfl, rfl, ?_⟩
          simp [deepMerge, Value.IsValid, hvis, Value.Kind, kindOf, ptrCase, Value.IsNil,
            Value.Elem]

/-- Witness for C11: a nil settable pointer takes the reference of the source in
fill-only mode. -/
theorem deepMerge_optional_reference_witness :
    deepMerge false "K" 1
      ⟨some (.ptr .int none), some (0, [0]), false⟩
      ⟨some (.ptr .int (some (7, .int 3))), none, false⟩ [] 9
      = ⟨some (.ptr .int (some (7, .int 3))), [((0, [0]), .ptr .int)], 9, none, Status.ok⟩ :=
  ((deepMerge_optional_reference false "K" 0
      ⟨some (.ptr .int none), some (0, [0]), false⟩
      ⟨some (.ptr .int (some (7, .int 3))), none, false⟩ [] _ 9
      (Or.inl rfl) rfl rfl rfl).2.1 rfl (Or.inl rfl)).1 rfl

/-! ## The error of the keyed-list diff is not surfaced -/

/-- C13. `deepMerge` returns a nil error on every input, and so do `Merge` and
`MergeWithOverwrite` once `resolveValues` has accepted the arguments and the two
types are equal.  The missing-key error of `deepMergeSlices` is consumed in the
slice case: on two sequences of records without a field `K`, `deepMergeSlices`
returns the error, while `deepMerge` returns normally with a nil error. -/
theorem deepMerge_error_not_surfaced (overwrite : Bool) (key : String) (fuel next : Nat)
    (d s : Value) (vis : Visited) (dst src : Val) (vd vs : Value)
    (hres : resolveValues dst src = .ok (vd, vs))
    (hty : vd.Type = vs.Type) :
    (deepMerge overwrite key fuel d s vis next).err = none
    ∧ (Merge fuel next dst src key).err = none
    ∧ (MergeWithOverwrite fuel next dst src key).err = none
    ∧ (deepMergeSlices (deepMerge overwrite "K" 3)
          ⟨some (.slice (.named "T") (some 1) 1 [.struct "T" [("V", .str "a")]]), some (0, [0]),
            false⟩
          ⟨some (.slice (.named "T") (some 2) 1 [.struct "T" [("V", .str "b")]]), none, false⟩
          [] 5 false "K" []).err = some MergeError.keyNotFound
    ∧ (deepMerge overwrite "K" 4
          ⟨some (.slice (.named "T") (some 1) 1 [.struct "T" [("V", .str "a")]]), some (0, [0]),
            false⟩
          ⟨some (.slice (.named "T") (some 2) 1 [.struct "T" [("V", .str "b")]]), none, false⟩
          [] 5).err = none
    ∧ (deepMerge overwrite "K" 4
          ⟨some (.slice (.named "T") (some 1) 1 [.struct "T" [("V", .str "a")]]), some (0, [0]),
            false⟩
          ⟨some (.slice (.named "T") (some 2) 1 [.struct "T" [("V", .str "b")]]), none, false⟩
          [] 5).status = Status.ok := by
  refine ⟨deepMerge_noErr overwrite key fuel d s vis next, ?_, ?_, ?_, ?_, ?_⟩
  · simp only [Merge, merge, hres]
    split
    · split
      · exact absurd hty (by simp_all)
      · exact deepMerge_noErr false key fuel _ _ _ _
    · rfl
  · simp only [MergeWithOverwrite, merge, hres]
    split
    · split
      · exact absurd hty (by simp_all)
      · exact deepMerge_noErr true key fuel _ _ _ _
    · rfl
  · cases overwrite <;> rfl
  · cases overwrite <;> rfl
  · cases overwrite <;> rfl

/-- Witness for C13: `Merge` and `MergeWithOverwrite` on a record holding a
sequence of records without the key field return a nil error. -/
theorem deepMerge_error_not_surfaced_witness :
    (Merge 5 10
        (.ptr (.named "S") (some (0, .struct "S"
          [("L", .slice (.named "T") (some 1) 1 [.struct "T" [("V", .str "a")]])])))
        (.struct "S" [("L", .slice (.named "T") (some 2) 1 [.struct "T" [("V", .str "b")]])])
        "K").err = none
    ∧ (MergeWithOverwrite 5 10
        (.ptr (.named "S") (some (0, .struct "S"
          [("L", .slice (.named "T") (some 1) 1 [.struct "T" [("V", .str "a")]])])))
        (.struct "S" [("L", .slice (.named "T") (some 2) 1 [.struct "T" [("V", .str "b")]])])
        "K").err = none :=
  ⟨(deepMerge_error_not_surfaced false "K" 5 10 ⟨none, none, false⟩ ⟨none, none, false⟩ []
      (.ptr (.named "S") (some (0, .struct "S"
        [("L", .slice (.named "T") (some 1) 1 [.struct "T" [("V", .str "a")]])])))
      (.struct "S" [("L", .slice (.named "T") (some 2) 1 [.struct "T" [("V", .str "b")]])])
      _ _ rfl rfl).2.1,
   (deepMerge_error_not_surfaced false "K" 5 10 ⟨none, none, false⟩ ⟨none, none, false⟩ []
      (.ptr (.named "S") (some (0, .struct "S"
        [("L", .slice (.named "T") (some 1) 1 [.struct "T" [("V", .str "a")]])])))
      (.struct "S" [("L", .slice (.named "T") (some 2) 1 [.struct "T" [("V", .str "b")]])])
      _ _ rfl rfl).2.2.1⟩

/-! ## A zero source changes nothing -/

theorem zeroFields_get : ∀ (gs : List (String × Val)) (i : Nat) (n : String) (w : Val),
    zeroFields gs = true → gs.get? i = some (n, w) → isZero w = true := by
  intro gs
  induction gs with
  | nil => intro i n w _ h; simp at h
  | cons g gs ih =>
    intro i n w hz h
    obtain ⟨m, v⟩ := g
    simp only [zeroFields, Bool.and_eq_true] at hz
    cases i with
    | zero =>
      simp at h
      obtain ⟨_, rfl⟩ := h
      exact hz.1
    | succ i =>
      simp only [List.get?_cons_succ] at h
      exact ih i n w hz.2 h

theorem set_same {α : Type} : ∀ (l : List α) (i : Nat) (x : α),
    l.get? i = some x → l.set i x = l := by
  intro l
  induction l with
  | nil => intro i x h; simp at h
  | cons a l ih =>
    intro i x h
    cases i with
    | zero =>
      simp at h
      subst h
      rfl
    | succ i =>
      simp only [List.get?_cons_succ] at h
      simp only [List.set_cons_succ, ih i x h]

/-- A field of a zero record is a zero value. -/
theorem zero_field {src sf : Value} {sv : Val} {i : Nat} (hs : src.val = some sv)
    (hz : isZero sv = true) (hf : src.Field i = some sf) :
    ∃ w, sf.val = some w ∧ isZero w = true := by
  unfold Value.Field at hf
  rw [hs] at hf
  cases sv with
  | struct t gs =>
    simp only at hf
    cases hg : gs.get? i with
    | none => rw [hg] at hf; simp at hf
    | some p =>
      obtain ⟨n, w⟩ := p
      simp only [hg, Option.some.injEq] at hf
      subst hf
      exact ⟨w, rfl, zeroFields_get gs i n w (by simpa [isZero] using hz) hg⟩
  | _ => simp at hf

/-- Writing back the contents a field already has changes nothing. -/
theorem putField_same {dst df : Value} {i : Nat} (hf : dst.Field i = some df) :
    dst.putField i df.val = dst := by
  obtain ⟨dv, da, dr⟩ := dst
  unfold Value.Field at hf
  cases dv with
  | none => simp at hf
  | some d =>
    cases d with
    | struct t fs =>
      simp only at hf
      cases hg : fs.get? i with
      | none => rw [hg] at hf; simp at hf
      | some p =>
        obtain ⟨n, w⟩ := p
        simp only [hg, Option.some.injEq] at hf
        subst hf
        simp only [Value.putField, setField, hg, set_same fs i (n, w) hg]
    | _ => simp at hf

theorem structLoop_zero {rec : Value → Value → Visited → Nat → Res} (hrec : RecZero rec)
    {src : Value} {sv : Val} (hs : src.val = some sv) (hz : isZero sv = true) :
    ∀ (rem i : Nat) (dst : Value) (vis : Visited) (next : Nat),
      (structLoop rec src rem i dst vis next).val = dst.val
      ∧ (structLoop rec src rem i dst vis next).next = next := by
  intro rem
  induction rem with
  | zero => intro i dst vis next; exact ⟨rfl, rfl⟩
  | succ rem ih =>
    intro i dst vis next
    simp only [structLoop]
    cases hdf : dst.Field i with
    | none => exact ⟨rfl, rfl⟩
    | some df =>
      cases hsf : src.Field i with
      | none => exact ⟨rfl, rfl⟩
      | some sf =>
        obtain ⟨w, hw, hzw⟩ := zero_field hs hz hsf
        obtain ⟨hv, hn⟩ := hrec df sf w vis next hw hzw
        simp only [hv, hn, putField_same hdf]
        split
        · exact ih _ _ _ _
        · exact ⟨rfl, rfl⟩

/-- A zero value that is not a record is empty. -/
theorem zero_empty {sv : Val} (hz : isZero sv = true) (hk : kindOf sv ≠ Kind.struct) :
    isEmptyVal sv = true := by
  cases sv <;> simp_all [isZero, isEmptyVal, kindOf]

theorem assignRule_zero (overwrite : Bool) {dst src : Value} {sv : Val} (vis : Visited)
    (next : Nat) (hs : src.val = some sv) (hz : isZero sv = true)
    (hk1 : dst.Kind ≠ Kind.struct) (hk2 : dst.Kind ≠ Kind.interface) :
    (assignRule overwrite dst src vis next).val = dst.val
    ∧ (assignRule overwrite dst src vis next).next = next := by
  unfold assignRule
  split
  · rename_i hc
    cases hset : dst.Set src with
    | none => exact ⟨rfl, rfl⟩
    | some v =>
      exfalso
      simp only [Bool.and_eq_true, Bool.not_eq_true', isEmptyValue, hs] at hc
      have hstruct : kindOf sv = Kind.struct := by
        by_contra hne
        rw [zero_empty hz hne] at hc
        simp at hc
      unfold Value.Set at hset
      rw [hs] at hset
      cases hd : dst.val with
      | none => simp [hd] at hset
      | some d =>
        simp only [hd] at hset
        have hd1 : kindOf d ≠ Kind.struct := by simpa [Value.Kind, hd] using hk1
        have hd2 : kindOf d ≠ Kind.interface := by simpa [Value.Kind, hd] using hk2
        cases sv <;> simp [kindOf] at hstruct
        cases d <;> simp [kindOf] at hd1 hd2 <;> simp [assignable, typeOf] at hset
  · exact ⟨rfl, rfl⟩

theorem ptrCase_zero (rec : Value → Value → Visited → Nat → Res) (overwrite : Bool)
    {dst src : Value} {sv : Val} (vis : Visited) (next : Nat)
    (hs : src.val = some sv) (hz : isZero sv = true) :
    (ptrCase rec overwrite dst src vis next).val = dst.val
    ∧ (ptrCase rec overwrite dst src vis next).next = next := by
  unfold ptrCase
  cases sv <;> simp_all [Value.IsNil, isZero]

/-- A zero value has no elements. -/
theorem zero_len {src : Value} {sv : Val} (hs : src.val = some sv) (hz : isZero sv = true) :
    src.Len = none ∨ src.Len = some 0 := by
  unfold Value.Len
  rw [hs]
  cases sv with
  | slice e arr cap es =>
    simp only [isZero, Bool.and_eq_true, List.isEmpty_iff] at hz
    simp [hz.2]
  | map k v es =>
    cases es with
    | none => simp
    | some l => simp [isZero] at hz
  | str s =>
    simp only [isZero, decide_eq_true_eq] at hz
    subst hz
    right
    rfl
  | _ => simp

/-- The forward pass over a `b` without elements changes nothing. -/
theorem sliceLoop_forward_empty (rec : Value → Value → Visited → Nat → Res) (listKey : String)
    (ign : List Nat) {b : Value} (hb : b.Len = none ∨ b.Len = some 0) :
    ∀ (rem ai : Nat) (a : Value) (vis : Visited) (next : Nat) (bf : List Nat)
      (err : Option MergeError),
      (sliceLoop rec false listKey ign rem ai a b vis next bf err).a = a
      ∧ (sliceLoop rec false listKey ign rem ai a b vis next bf err).b = b
      ∧ (sliceLoop rec false listKey ign rem ai a b vis next bf err).next = next
      ∧ (sliceLoop rec false listKey ign rem ai a b vis next bf err).err = err := by
  intro rem
  induction rem with
  | zero => intro ai a vis next bf err; exact ⟨rfl, rfl, rfl, rfl⟩
  | succ rem ih =>
    intro ai a vis next bf err
    simp only [sliceLoop]
    split
    · exact ih _ _ _ _ _ _
    · cases hai : a.Index ai with
      | none => exact ⟨rfl, rfl, rfl, rfl⟩
      | some listDst =>
        rcases hb with hb | hb
        · rw [hb]; exact ⟨rfl, rfl, rfl, rfl⟩
        · rw [hb]
          simp only [scanB]
          exact ih _ _ _ _ _ _

theorem deepMergeSlices_forward_empty (rec : Value → Value → Visited → Nat → Res)
    (listKey : String) (ign : List Nat) (a : Value) {b : Value} (vis : Visited) (next : Nat)
    (hb : b.Len = none ∨ b.Len = some 0) :
    (deepMergeSlices rec a b vis next false listKey ign).a = a
    ∧ (deepMergeSlices rec a b vis next false listKey ign).b = b
    ∧ (deepMergeSlices rec a b vis next false listKey ign).next = next
    ∧ (deepMergeSlices rec a b vis next false listKey ign).err = none := by
  unfold deepMergeSlices
  cases a.Len with
  | none => exact ⟨rfl, rfl, rfl, rfl⟩
  | some n => exact sliceLoop_forward_empty rec listKey ign hb n 0 a vis next [] none

/-- A pass over an `a` without elements changes nothing. -/
theorem deepMergeSlices_empty_a (rec : Value → Value → Visited → Nat → Res)
    (listKey : String) (ign : List Nat) (backwards : Bool) {a : Value} (b : Value)
    (vis : Visited) (next : Nat) (ha : a.Len = none ∨ a.Len = some 0) :
    (deepMergeSlices rec a b vis next backwards listKey ign).a = a
    ∧ (deepMergeSlices rec a b vis next backwards listKey ign).b = b
    ∧ (deepMergeSlices rec a b vis next backwards listKey ign).next = next
    ∧ (deepMergeSlices rec a b vis next backwards listKey ign).err = none := by
  unfold deepMergeSlices
  rcases ha with ha | ha <;> rw [ha]
  · exact ⟨rfl, rfl, rfl, rfl⟩
  · exact ⟨rfl, rfl, rfl, rfl⟩

theorem sliceCase_zero (rec : Value → Value → Visited → Nat → Res) (overwrite : Bool)
    (listKey : String) {dst src : Value} {sv : Val} (vis : Visited) (next : Nat)
    (hs : src.val = some sv) (hz : isZero sv = true) (hk : dst.Kind = Kind.slice) :
    (sliceCase rec overwrite listKey dst src vis next).val = dst.val
    ∧ (sliceCase rec overwrite listKey dst src vis next).next = next := by
  have hk1 : dst.Kind ≠ Kind.struct := by rw [hk]; decide
  have hk2 : dst.Kind ≠ Kind.interface := by rw [hk]; decide
  have hlen := zero_len hs hz
  unfold sliceCase
  cases sliceKindOf listKey dst src with
  | none => exact ⟨rfl, rfl⟩
  | some k =>
    simp only
    split
    · obtain ⟨ha, hb, hn, he⟩ :=
        deepMergeSlices_forward_empty rec listKey [] dst vis next hlen
      generalize deepMergeSlices rec dst src vis next false listKey [] = p1 at ha hb hn he ⊢
      have hlen2 : p1.b.Len = none ∨ p1.b.Len = some 0 := by rw [hb]; exact hlen
      obtain ⟨ha2, hb2, hn2, he2⟩ := deepMergeSlices_empty_a rec listKey
        p1.bFounds true p1.a p1.visited p1.next hlen2
      generalize deepMergeSlices rec p1.b p1.a p1.visited p1.next true listKey p1.bFounds = p2
        at ha2 hb2 hn2 he2 ⊢
      split
      · split
        · rw [hb2, ha, hn2, hn]; exact ⟨rfl, rfl⟩
        · rename_i heq
          rw [he2] at heq
          simp at heq
        · rw [hb2, ha, hn2, hn]; exact ⟨rfl, rfl⟩
      · rename_i heq
        rw [he] at heq
        simp at heq
      · rw [ha, hn]; exact ⟨rfl, rfl⟩
    · exact assignRule_zero overwrite vis next hs hz hk1 hk2

theorem zero_mapKeys {src : Value} {sv : Val} {keys : List Key} {kty : Ty}
    (hs : src.val = some sv) (hz : isZero sv = true) (hm : src.MapKeys = some (keys, kty)) :
    keys = [] := by
  unfold Value.MapKeys at hm
  rw [hs] at hm
  cases sv with
  | map k v es =>
    cases es with
    | none => simp at hm; exact hm.1
    | some l => simp [isZero] at hz
  | _ => simp at hm

/-- `deepMerge` with a zero source leaves the destination as it is and
allocates nothing. -/
theorem deepMerge_zero (overwrite : Bool) (listKey : String) (fuel : Nat) :
    RecZero (deepMerge overwrite listKey fuel) := by
  induction fuel with
  | zero => intro d s sv vis next _ _; exact ⟨rfl, rfl⟩
  | succ fuel ih =>
    intro d s sv vis next hs hz
    simp only [deepMerge]
    split
    · exact ⟨rfl, rfl⟩
    · split
      · exact ⟨rfl, rfl⟩
      · split
        · exact structLoop_zero ih hs hz _ _ _ _ _
        · rename_i hk
          exact sliceCase_zero _ overwrite listKey _ next hs hz hk
        · cases hm : s.MapKeys with
          | none => exact ⟨rfl, rfl⟩
          | some p =>
            obtain ⟨keys, kty⟩ := p
            rw [zero_mapKeys hs hz hm]
            exact ⟨rfl, rfl⟩
        · exact ptrCase_zero _ overwrite _ next hs hz
        · exact ptrCase_zero _ overwrite _ next hs hz
        · rename_i hk1 hk2 hk3 hk4 hk5
          exact assignRule_zero overwrite _ next hs hz hk1 hk5

/-! ## A zero source of the type of the destination: the merge returns -/

theorem shapeFields_get : ∀ (fs gs : List (String × Val)) (i : Nat),
    shapeFields fs gs = true → i < fs.length →
      ∃ n v w, fs.get? i = some (n, v) ∧ gs.get? i = some (n, w) ∧ sameShape v w = true
        ∧ depth v ≤ depthFields fs := by
  intro fs
  induction fs with
  | nil => intro gs i _ h; simp at h
  | cons f fs ih =>
    intro gs i hsh hi
    obtain ⟨n, v⟩ := f
    cases gs with
    | nil => simp [shapeFields] at hsh
    | cons g gs =>
      obtain ⟨m, w⟩ := g
      simp only [shapeFields, Bool.and_eq_true, decide_eq_true_eq] at hsh
      obtain ⟨⟨hnm, hvw⟩, hrest⟩ := hsh
      subst hnm
      cases i with
      | zero => exact ⟨n, v, w, rfl, rfl, hvw, by simp [depthFields]⟩
      | succ i =>
        obtain ⟨n1, v1, w1, h1, h2, h3, h4⟩ := ih gs i hrest (by simpa using hi)
        exact ⟨n1, v1, w1, by simpa using h1, by simpa using h2, h3,
          le_trans h4 (by simp [depthFields])⟩

theorem structLoop_zeroOk {rec : Value → Value → Visited → Nat → Res} {fuel : Nat}
    (hzero : RecZero rec) (herr : RecNoErr rec) (hok : RecZeroOk rec fuel)
    {dst src : Value} {t t1 : String} {fs gs : List (String × Val)}
    (hd : dst.val = some (.struct t fs)) (hs : src.val = some (.struct t1 gs))
    (hz : zeroFields gs = true) (hsh : shapeFields fs gs = true)
    (hdep : depthFields fs ≤ fuel) :
    ∀ (rem i : Nat) (vis : Visited) (next : Nat), i + rem = fs.length →
      (structLoop rec src rem i dst vis next).status = Status.ok := by
  intro rem
  induction rem with
  | zero => intro i vis next _; rfl
  | succ rem ih =>
    intro i vis next hlen
    obtain ⟨n, v, w, hf, hg, hvw, hdv⟩ := shapeFields_get fs gs i hsh (by omega)
    have hdf : dst.Field i = some ⟨some v, dst.sub i, dst.ro || !isExported n⟩ := by
      simp only [Value.Field, hd, hf]
    have hsf : src.Field i = some ⟨some w, src.sub i, src.ro || !isExported n⟩ := by
      simp only [Value.Field, hs, hg]
    have hzw : isZero w = true := zeroFields_get gs i n w hz hg
    simp only [structLoop, hdf, hsf]
    have h1 := (hzero ⟨some v, dst.sub i, dst.ro || !isExported n⟩
      ⟨some w, src.sub i, src.ro || !isExported n⟩ w vis next rfl hzw)
    have h2 := herr ⟨some v, dst.sub i, dst.ro || !isExported n⟩
      ⟨some w, src.sub i, src.ro || !isExported n⟩ vis next
    have h3 := hok ⟨some v, dst.sub i, dst.ro || !isExported n⟩
      ⟨some w, src.sub i, src.ro || !isExported n⟩ v w vis next rfl rfl hzw hvw
      (le_trans hdv hdep)
    rw [h1.1, h2, h3]
    have hput := putField_same hdf
    simp only at hput
    rw [hput]
    exact ih (i + 1) _ _ (by omega)

theorem sliceLoop_forward_empty_ok (rec : Value → Value → Visited → Nat → Res)
    (listKey : String) (ign : List Nat) {a b : Value} {e : Ty} {arr : Option Nat} {cap : Nat}
    {es : List Val} (ha : a.val = some (.slice e arr cap es)) (hb : b.Len = some 0) :
    ∀ (rem ai : Nat) (vis : Visited) (next : Nat) (bf : List Nat) (err : Option MergeError),
      ai + rem = es.length →
      (sliceLoop rec false listKey ign rem ai a b vis next bf err).status = Status.ok := by
  intro rem
  induction rem with
  | zero => intro ai vis next bf err _; rfl
  | succ rem ih =>
    intro ai vis next bf err hlen
    simp only [sliceLoop]
    split
    · exact ih _ _ _ _ _ (by omega)
    · have hlt : ai < es.length := by omega
      have hai : a.Index ai = some ⟨some (es.get ⟨ai, hlt⟩), arr.map (fun x => (x, [ai])), a.ro⟩ := by
        simp only [Value.Index, ha, List.get?_eq_get hlt]
      rw [hai, hb]
      simp only [scanB]
      exact ih _ _ _ _ _ (by omega)

theorem sliceCase_zeroOk (rec : Value → Value → Visited → Nat → Res) (overwrite : Bool)
    (listKey : String) {dst src : Value} (vis : Visited) (next : Nat) {e e1 : Ty}
    {darr : Option Nat} {dcap scap : Nat} {des : List Val}
    (hd : dst.val = some (.slice e darr dcap des))
    (hs : src.val = some (.slice e1 none scap [])) :
    (sliceCase rec overwrite listKey dst src vis next).status = Status.ok := by
  have hsl : src.Len = some 0 := by simp [Value.Len, hs]
  have hse : isEmptyValue src = true := by simp [isEmptyValue, hs, isEmptyVal]
  have hassign : ∀ (d : Value) (v : Visited) (n : Nat),
      (assignRule overwrite d src v n).status = Status.ok := by
    intro d v n
    simp [assignRule, hse]
  unfold sliceCase
  cases hk : sliceKindOf listKey dst src with
  | none =>
    exfalso
    cases des with
    | nil => simp [sliceKindOf, Value.Len, hd, hs] at hk
    | cons x xs =>
      simp [sliceKindOf, Value.Len, Value.Index, hd, hs] at hk
      split at hk <;> simp at hk
  | some k =>
    simp only
    split
    · obtain ⟨ha, hb, hn, he⟩ :=
        deepMergeSlices_forward_empty rec listKey [] dst vis next (Or.inr hsl)
      have hst : (deepMergeSlices rec dst src vis next false listKey []).status = Status.ok := by
        simp only [deepMergeSlices, Value.Len, hd]
        exact sliceLoop_forward_empty_ok rec listKey [] hd hsl _ 0 vis next [] none (by simp)
      generalize deepMergeSlices rec dst src vis next false listKey [] = p1 at ha hb hn he hst ⊢
      have hlen2 : p1.b.Len = some 0 := by rw [hb]; exact hsl
      have hst2 : (deepMergeSlices rec p1.b p1.a p1.visited p1.next true listKey
          p1.bFounds).status = Status.ok := by
        simp only [deepMergeSlices, hlen2, sliceLoop]
      have he2 : (deepMergeSlices rec p1.b p1.a p1.visited p1.next true listKey
          p1.bFounds).err = none := by
        simp only [deepMergeSlices, hlen2, sliceLoop]
      rw [hst, he]
      simp only [hst2, he2]
    · exact hassign _ _ _

/-- `deepMerge` returns normally on a destination that fits in the budget and a
source that is the zero value of its type. -/
theorem deepMerge_zeroOk (overwrite : Bool) (listKey : String) (fuel : Nat) :
    RecZeroOk (deepMerge overwrite listKey fuel) fuel := by
  induction fuel with
  | zero =>
    intro d s dv sv vis next _ _ _ _ hdep
    have := depth_pos dv
    omega
  | succ fuel ih =>
    intro d s dv sv vis next hd hs hz hsh hdep
    have hv : s.IsValid = true := by simp [Value.IsValid, hs]
    simp only [deepMerge, hv]
    cases henter : enter d vis with
    | none => rfl
    | some vis1 =>
      simp only [Bool.not_true, Bool.false_eq_true, ↓reduceIte]
      cases dv with
      | struct t fs =>
        cases sv <;> simp [sameShape] at hsh
        rename_i t1 gs
        have hk : d.Kind = Kind.struct := by simp [Value.Kind, hd, kindOf]
        have hnf : d.NumField = fs.length := by simp [Value.NumField, hd]
        simp only [hk, hnf]
        refine structLoop_zeroOk (deepMerge_zero overwrite listKey fuel)
          (deepMerge_noErr overwrite listKey fuel) ih hd hs (by simpa [isZero] using hz) hsh.2
          ?_ _ 0 _ _ (by simp)
        simp only [depth] at hdep
        omega
      | slice e arr cap es =>
        cases sv <;> simp [sameShape] at hsh
        rename_i e1 sarr scap ses
        have hk : d.Kind = Kind.slice := by simp [Value.Kind, hd, kindOf]
        simp only [isZero, Bool.and_eq_true, List.isEmpty_iff, Option.isNone_iff_eq_none] at hz
        obtain ⟨hz1, hz2⟩ := hz
        subst hz1 hz2
        simp only [hk]
        exact sliceCase_zeroOk _ overwrite listKey _ _ hd hs
      | map k v es =>
        cases sv <;> simp [sameShape] at hsh
        rename_i k1 v1 ses
        have hk : d.Kind = Kind.map := by simp [Value.Kind, hd, kindOf]
        simp only [isZero, Option.isNone_iff_eq_none] at hz
        subst hz
        simp only [hk, Value.MapKeys, hs, mapLoop]
      | ptr e t =>
        cases sv <;> simp [sameShape] at hsh
        have hk : d.Kind = Kind.ptr := by simp [Value.Kind, hd, kindOf]
        simp only [isZero, Option.isNone_iff_eq_none] at hz
        subst hz
        simp only [hk, ptrCase, Value.IsNil, hs, Option.isNone_none]
      | iface t =>
        cases sv <;> simp [sameShape] at hsh
        have hk : d.Kind = Kind.interface := by simp [Value.Kind, hd, kindOf]
        simp only [isZero, Option.isNone_iff_eq_none] at hz
        subst hz
        simp only [hk, ptrCase, Value.IsNil, hs, Option.isNone_none]
      | bool b =>
        cases sv <;> simp [sameShape] at hsh
        have hk : d.Kind = Kind.bool := by simp [Value.Kind, hd, kindOf]
        have hse : isEmptyValue s = true := by
          simp only [isEmptyValue, hs, isEmptyVal]; simpa [isZero] using hz
        simp [hk, assignRule, hse]
      | int i =>
        cases sv <;> simp [sameShape] at hsh
        have hk : d.Kind = Kind.int := by simp [Value.Kind, hd, kindOf]
        have hse : isEmptyValue s = true := by
          simp only [isEmptyValue, hs, isEmptyVal]; simpa [isZero] using hz
        simp [hk, assignRule, hse]
      | str x =>
        cases sv <;> simp [sameShape] at hsh
        have hk : d.Kind = Kind.string := by simp [Value.Kind, hd, kindOf]
        have hse : isEmptyValue s = true := by
          simp only [isEmptyValue, hs, isEmptyVal]; simpa [isZero] using hz
        simp [hk, assignRule, hse]

theorem sameShape_typeOf {d s : Val} (h : sameShape d s = true) : typeOf d = typeOf s := by
  cases d <;> cases s <;> simp_all [sameShape, typeOf]

/-- What `resolveValues` returns when it accepts its arguments. -/
theorem resolveValues_ok {dst src : Val} {vd vs : Value}
    (h : resolveValues dst src = .ok (vd, vs)) :
    ∃ e id d, dst = .ptr e (some (id, d)) ∧ vd = ⟨some d, some (id, []), false⟩
      ∧ (vs.val = some (sourceValue src) ∨ vs.val = none) ∧ vs.ro = false := by
  unfold resolveValues at h
  cases dst with
  | ptr e t =>
    cases t with
    | none => simp at h
    | some p =>
      obtain ⟨id, d⟩ := p
      simp only at h
      split at h
      · refine ⟨e, id, d, rfl, ?_⟩
        cases src with
        | ptr e1 t1 =>
          cases t1 with
          | none =>
            simp only [Except.ok.injEq, Prod.mk.injEq] at h
            obtain ⟨h1, h2⟩ := h
            subst h1 h2
            exact ⟨rfl, Or.inr rfl, rfl⟩
          | some q =>
            obtain ⟨sid, s⟩ := q
            simp only [Except.ok.injEq, Prod.mk.injEq] at h
            obtain ⟨h1, h2⟩ := h
            subst h1 h2
            exact ⟨rfl, Or.inl rfl, rfl⟩
        | _ =>
          simp only [Except.ok.injEq, Prod.mk.injEq] at h
          obtain ⟨h1, h2⟩ := h
          subst h1 h2
          exact ⟨rfl, Or.inl rfl, rfl⟩
      · simp at h
  | _ => simp at h

theorem merge_zero_val (fuel next : Nat) (dst src : Val) (overwrite : Bool) (key : String)
    (hz : isZero (sourceValue src) = true) :
    (merge fuel next dst src overwrite key).val = dst := by
  unfold merge
  cases hres : resolveValues dst src with
  | error e => rfl
  | ok p =>
    obtain ⟨vd, vs⟩ := p
    obtain ⟨e, id, d, hdst, hvd, hvs, _⟩ := resolveValues_ok hres
    simp only
    split
    · split
      · rfl
      · rcases hvs with hvs | hvs
        · have := (deepMerge_zero overwrite key fuel vd vs _ [] next hvs hz).1
          subst hvd
          subst hdst
          simp only [this, withTarget]
        · rename_i ts hts _
          simp [Value.Type, hvs] at hts
    · rfl

theorem merge_zero_ok (fuel next : Nat) (dst src : Val) (overwrite : Bool) (key : String)
    (e : Ty) (id : Nat) (d : Val) (hdst : dst = .ptr e (some (id, d)))
    (hk : kindOf d = Kind.struct ∨ kindOf d = Kind.map)
    (hz : isZero (sourceValue src) = true) (hsh : sameShape d (sourceValue src) = true)
    (hfuel : depth d ≤ fuel) :
    (merge fuel next dst src overwrite key).status = Status.ok
    ∧ (merge fuel next dst src overwrite key).err = none := by
  subst hdst
  have hres : ∃ sa, resolveValues (.ptr e (some (id, d))) src
      = .ok (⟨some d, some (id, []), false⟩, ⟨some (sourceValue src), sa, false⟩) := by
    unfold resolveValues
    simp only [hk, ↓reduceIte]
    cases src with
    | ptr e1 t1 =>
      cases t1 with
      | none =>
        exfalso
        cases d <;> simp [kindOf] at hk <;> simp [sameShape, sourceValue] at hsh
      | some q => exact ⟨_, rfl⟩
    | _ => exact ⟨_, rfl⟩
  obtain ⟨sa, hres⟩ := hres
  have hty := sameShape_typeOf hsh
  simp only [merge, hres, Value.Type, Option.map_some', hty, ne_eq, not_true_eq_false,
    ↓reduceIte]
  exact ⟨deepMerge_zeroOk overwrite key fuel _ _ d (sourceValue src) [] next rfl rfl hz hsh hfuel,
    deepMerge_noErr overwrite key fuel _ _ _ _⟩

/-- C17. A zero source is an identity.  When the source argument is, or points
to, a zero value (every leaf empty, every pointer, interface, sequence and
mapping unset), `Merge` and `MergeWithOverwrite`, with any list key and any
recursion budget, leave the destination argument as it is.  When in addition the
destination is a pointer to a record or mapping, the source has the type of that
record or mapping and the recursion budget is at least its depth, both calls
return normally with a nil error. -/
theorem merge_zero_source_identity (fuel next : Nat) (dst src : Val) (key : String)
    (hz : isZero (sourceValue src) = true) :
    (Merge fuel next dst src key).val = dst
    ∧ (MergeWithOverwrite fuel next dst src key).val = dst
    ∧ ∀ (e : Ty) (id : Nat) (d : Val), dst = .ptr e (some (id, d)) →
        kindOf d = Kind.struct ∨ kindOf d = Kind.map →
        sameShape d (sourceValue src) = true → depth d ≤ fuel →
          (Merge fuel next dst src key).status = Status.ok
          ∧ (Merge fuel next dst src key).err = none
          ∧ (MergeWithOverwrite fuel next dst src key).status = Status.ok
          ∧ (MergeWithOverwrite fuel next dst src key).err = none := by
  refine ⟨merge_zero_val fuel next dst src false key hz,
    merge_zero_val fuel next dst src true key hz, ?_⟩
  intro e id d hdst hk hsh hfuel
  obtain ⟨h1, h2⟩ := merge_zero_ok fuel next dst src false key e id d hdst hk hz hsh hfuel
  obtain ⟨h3, h4⟩ := merge_zero_ok fuel next dst src true key e id d hdst hk hz hsh hfuel
  exact ⟨h1, h2, h3, h4⟩

/-- Witness for C17: a record with a filled leaf, a pointer, a keyed sequence and
a mapping, merged with the zero record of its type under the list key `K`. -/
theorem merge_zero_source_identity_witness :
    (Merge 4 10
        (.ptr (.named "S") (some (0, .struct "S"
          [("A", .str "x"), ("P", .ptr .int (some (1, .int 3))),
           ("L", .slice (.named "T") (some 2) 1 [.struct "T" [("K", .str "a")]]),
           ("M", .map .string .int (some [(.str "k", .int 1)]))])))
        (.struct "S"
          [("A", .str ""), ("P", .ptr .int none), ("L", .slice (.named "T") none 0 []),
           ("M", .map .string .int none)]) "K").val
      = .ptr (.named "S") (some (0, .struct "S"
          [("A", .str "x"), ("P", .ptr .int (some (1, .int 3))),
           ("L", .slice (.named "T") (some 2) 1 [.struct "T" [("K", .str "a")]]),
           ("M", .map .string .int (some [(.str "k", .int 1)]))]))
    ∧ (MergeWithOverwrite 4 10
        (.ptr (.named "S") (some (0, .struct "S"
          [("A", .str "x"), ("P", .ptr .int (some (1, .int 3))),
           ("L", .slice (.named "T") (some 2) 1 [.struct "T" [("K", .str "a")]]),
           ("M", .map .string .int (some [(.str "k", .int 1)]))])))
        (.struct "S"
          [("A", .str ""), ("P", .ptr .int none), ("L", .slice (.named "T") none 0 []),
           ("M", .map .string .int none)]) "K").status = Status.ok :=
  ⟨(merge_zero_source_identity 4 10 _
      (.struct "S"
        [("A", .str ""), ("P", .ptr .int none), ("L", .slice (.named "T") none 0 []),
         ("M", .map .string .int none)]) "K" rfl).1,
   ((merge_zero_source_identity 4 10
      (.ptr (.named "S") (some (0, .struct "S"
        [("A", .str "x"), ("P", .ptr .int (some (1, .int 3))),
         ("L", .slice (.named "T") (some 2) 1 [.struct "T" [("K", .str "a")]]),
         ("M", .map .string .int (some [(.str "k", .int 1)]))])))
      (.struct "S"
        [("A", .str ""), ("P", .ptr .int none), ("L", .slice (.named "T") none 0 []),
         ("M", .map .string .int none)]) "K" rfl).2.2 _ _ _ rfl (Or.inl rfl) rfl
      (by decide)).2.2.1⟩

/-! ## Keyed reconciliation keeps the keys of the destination distinct -/

theorem map_set_same {α β : Type} (f : α → β) : ∀ (l : List α) (j : Nat) (y z : α),
    l.get? j = some y → f z = f y → (l.set j z).map f = l.map f := by
  intro l
  induction l with
  | nil => intro j y z h _; simp at h
  | cons a l ih =>
    intro j y z h hf
    cases j with
    | zero =>
      simp only [List.get?_cons_zero, Option.some.injEq] at h
      subst h
      simp [hf]
    | succ j =>
      simp only [List.get?_cons_succ] at h
      simp only [List.set_cons_succ, List.map_cons, ih j y z h hf]

/-- The second pass (backwards) keeps the destination a sequence of keyed records
with pairwise distinct key texts, whatever the source holds and however the pass
ends. -/
theorem sliceLoop_backward_nodup {rec : Value → Value → Visited → Nat → Res}
    {listKey t : String} {ns : List String} (hrec : RecKey listKey t ns rec)
    (sarr : Option Nat) (scap : Nat) (saddr daddr : Option Addr) (sro dro : Bool)
    (ses : List Val) (hses : ∀ x ∈ ses, keyedRecord listKey t ns x = true) (ign : List Nat) :
    ∀ (rem ai : Nat) (cur : List Val) (barr : Option Nat) (bcap : Nat) (vis : Visited)
      (next : Nat) (bf : List Nat) (err : Option MergeError),
      (∀ y ∈ cur, keyedRecord listKey t ns y = true) →
      (cur.map (keyText listKey)).Nodup →
      ∃ arr1 cap1 cur1,
        (sliceLoop rec true listKey ign rem ai
          ⟨some (.slice (.named t) sarr scap ses), saddr, sro⟩
          ⟨some (.slice (.named t) barr bcap cur), daddr, dro⟩ vis next bf err).b
            = ⟨some (.slice (.named t) arr1 cap1 cur1), daddr, dro⟩
        ∧ (∀ y ∈ cur1, keyedRecord listKey t ns y = true)
        ∧ (cur1.map (keyText listKey)).Nodup
        ∧ (err = none →
          (sliceLoop rec true listKey ign rem ai
            ⟨some (.slice (.named t) sarr scap ses), saddr, sro⟩
            ⟨some (.slice (.named t) barr bcap cur), daddr, dro⟩ vis next bf err).err = none) := by
  intro rem
  induction rem with
  | zero =>
    intro ai cur barr bcap vis next bf err hk hnd
    exact ⟨barr, bcap, cur, rfl, hk, hnd, fun h => h⟩
  | succ rem ih =>
    intro ai cur barr bcap vis next bf err hk hnd
    have stay : ∀ (v1 : Visited) (n1 : Nat) (b1 : List Nat) (e1 : Option MergeError)
        (st : Status), (err = none → e1 = none) →
        ∃ arr1 cap1 cur1,
          (SOut.mk ⟨some (.slice (.named t) sarr scap ses), saddr, sro⟩
            ⟨some (.slice (.named t) barr bcap cur), daddr, dro⟩ v1 n1 b1 e1 st).b
            = ⟨some (.slice (.named t) arr1 cap1 cur1), daddr, dro⟩
          ∧ (∀ y ∈ cur1, keyedRecord listKey t ns y = true)
          ∧ (cur1.map (keyText listKey)).Nodup
          ∧ (err = none →
            (SOut.mk ⟨some (.slice (.named t) sarr scap ses), saddr, sro⟩
              ⟨some (.slice (.named t) barr bcap cur), daddr, dro⟩ v1 n1 b1 e1 st).err = none) :=
      fun v1 n1 b1 e1 st he => ⟨barr, bcap, cur, rfl, hk, hnd, he⟩
    simp only [sliceLoop]
    split
    · exact ih _ _ _ _ _ _ _ _ hk hnd
    · cases hx : ses.get? ai with
      | none =>
        have hidx : Value.Index ⟨some (.slice (.named t) sarr scap ses), saddr, sro⟩ ai = none := by
          simp only [Value.Index, hx]
        rw [hidx]
        exact stay _ _ _ _ _ (fun h => h)
      | some x =>
        have hidx : Value.Index ⟨some (.slice (.named t) sarr scap ses), saddr, sro⟩ ai
            = some ⟨some x, sarr.map (fun a => (a, [ai])), sro⟩ := by
          simp only [Value.Index, hx]
        have hxk : keyedRecord listKey t ns x = true := hses x (List.get?_mem hx)
        obtain ⟨kx, hkx⟩ := keyed_keyText hxk
        have hlen : Value.Len ⟨some (.slice (.named t) barr bcap cur), daddr, dro⟩
            = some cur.length := rfl
        have hscan := scanB_findKey ⟨some x, sarr.map (fun a => (a, [ai])), sro⟩ rfl hxk hkx
          (.named t) barr bcap daddr dro cur [] hk
        simp only [List.nil_append, List.length_nil] at hscan
        rw [hidx, hlen]
        simp only [hscan]
        cases hfk : findKey listKey kx cur 0 with
        | none =>
          simp only [if_true]
          cases happ : reflectAppend ⟨some (.slice (.named t) barr bcap cur), daddr, dro⟩
              ⟨some x, sarr.map (fun a => (a, [ai])), sro⟩ next with
          | none => exact stay _ _ _ _ _ (fun h => h)
          | some p =>
            obtain ⟨newB, next1⟩ := p
            simp only
            obtain ⟨arr1, cap1, hnb⟩ := reflectAppend_spec happ rfl rfl
            cases hset : Value.Set ⟨some (.slice (.named t) barr bcap cur), daddr, dro⟩ newB with
            | none => exact stay _ _ _ _ _ (fun h => h)
            | some v =>
              simp only
              have hv := set_slice_spec hset rfl (by rw [hnb])
              rw [stored_named] at hv
              subst hv
              have hk2 : ∀ y ∈ cur ++ [x], keyedRecord listKey t ns y = true := by
                intro y hy
                rcases List.mem_append.mp hy with h | h
                · exact hk y h
                · simp only [List.mem_singleton] at h; subst h; exact hxk
              have hnd2 : ((cur ++ [x]).map (keyText listKey)).Nodup := by
                rw [List.map_append, List.map_cons, List.map_nil]
                refine List.Nodup.append hnd (List.nodup_singleton _) ?_
                intro k hk1 hk2
                simp only [List.mem_singleton] at hk2
                subst hk2
                obtain ⟨y, hy, hyk⟩ := List.mem_map.mp hk1
                exact (findKey_none cur 0).mp hfk y hy (by rw [hyk, hkx])
              exact ih _ _ _ _ _ _ _ _ hk2 hnd2
        | some j =>
          obtain ⟨m, y, hj, hym, hyk⟩ := findKey_some cur 0 j hfk
          simp only [Nat.zero_add] at hj
          subst hj
          have hyk1 : keyedRecord listKey t ns y = true := hk y (List.get?_mem hym)
          have hbi : Value.Index ⟨some (.slice (.named t) barr bcap cur), daddr, dro⟩ j
              = some ⟨some y, barr.map (fun a => (a, [j])), dro⟩ := by
            simp only [Value.Index, hym]
          simp only [hbi, if_true]
          obtain ⟨he, dv1, hr, hdk1, hdkt⟩ := hrec ⟨some y, barr.map (fun a => (a, [j])), dro⟩
            ⟨some x, sarr.map (fun a => (a, [ai])), sro⟩ y x kx vis next rfl rfl hyk1 hxk hyk hkx
          have hput : Value.putIndex ⟨some (.slice (.named t) barr bcap cur), daddr, dro⟩ j
              (rec ⟨some y, barr.map (fun a => (a, [j])), dro⟩
                ⟨some x, sarr.map (fun a => (a, [ai])), sro⟩ vis next).val
              = ⟨some (.slice (.named t) barr bcap (setAt cur j dv1)), daddr, dro⟩ := by
            rw [hr]; rfl
          rw [hput]
          have hk2 : ∀ z ∈ setAt cur j dv1, keyedRecord listKey t ns z = true := by
            intro z hz
            rcases List.mem_or_eq_of_mem_set hz with h | h
            · exact hk z h
            · subst h; exact hdk1
          have hnd2 : ((setAt cur j dv1).map (keyText listKey)).Nodup := by
            rw [setAt, map_set_same (keyText listKey) cur j y dv1 hym (by rw [hdkt, hyk])]
            exact hnd
          split
          · rw [he]
            obtain ⟨a1, c1, cur1, h1, h2, h3, h4⟩ := ih (ai + 1) (setAt cur j dv1) barr bcap
              (rec ⟨some y, barr.map (fun a => (a, [j])), dro⟩
                ⟨some x, sarr.map (fun a => (a, [ai])), sro⟩ vis next).visited
              (rec ⟨some y, barr.map (fun a => (a, [j])), dro⟩
                ⟨some x, sarr.map (fun a => (a, [ai])), sro⟩ vis next).next
              (bf ++ [j]) none hk2 hnd2
            exact ⟨a1, c1, cur1, h1, h2, h3, fun _ => h4 rfl⟩
          · exact ⟨barr, bcap, setAt cur j dv1, rfl, hk2, hnd2, fun _ => he⟩

theorem forall2_keyText {rec : Value → Value → Visited → Nat → Res} {listKey t : String}
    {ns : List String} {ses des des1 : List Val}
    (h : List.Forall₂ (MatchMerged rec listKey t ns ses) des des1) :
    des1.map (keyText listKey) = des.map (keyText listKey) := by
  induction h with
  | nil => rfl
  | cons hab _ ih => simp only [List.map_cons, hab.2.1, ih]

/-- The slice case on two sequences of keyed records with a non-empty list key:
when it returns normally, the key texts of the destination are still pairwise
distinct. -/
theorem sliceCase_nodup {rec : Value → Value → Visited → Nat → Res} {listKey t : String}
    {ns : List String} (hrec : RecKey listKey t ns rec) (overwrite : Bool)
    (hkey : listKey.length ≠ 0) (darr sarr : Option Nat) (dcap scap : Nat)
    (daddr saddr : Option Addr) (dro sro : Bool) (des ses : List Val)
    (hdes : ∀ x ∈ des, keyedRecord listKey t ns x = true)
    (hses : ∀ x ∈ ses, keyedRecord listKey t ns x = true)
    (hnd : (des.map (keyText listKey)).Nodup) (vis : Visited) (next : Nat)
    (hok : (sliceCase rec overwrite listKey ⟨some (.slice (.named t) darr dcap des), daddr, dro⟩
      ⟨some (.slice (.named t) sarr scap ses), saddr, sro⟩ vis next).status = Status.ok) :
    ∃ arr1 cap1 des1,
      (sliceCase rec overwrite listKey ⟨some (.slice (.named t) darr dcap des), daddr, dro⟩
        ⟨some (.slice (.named t) sarr scap ses), saddr, sro⟩ vis next).val
        = some (.slice (.named t) arr1 cap1 des1)
      ∧ (∀ y ∈ des1, keyedRecord listKey t ns y = true)
      ∧ (des1.map (keyText listKey)).Nodup := by
  by_cases hemp : des = [] ∧ ses = []
  · obtain ⟨h1, h2⟩ := hemp
    subst h1 h2
    refine ⟨darr, dcap, [], ?_, by simp, by simp⟩
    simp [sliceCase, sliceKindOf, hkey, Value.Len, assignRule, isEmptyValue, isEmptyVal]
  · have hkind : sliceKindOf listKey ⟨some (.slice (.named t) darr dcap des), daddr, dro⟩
        ⟨some (.slice (.named t) sarr scap ses), saddr, sro⟩ = some Kind.struct := by
      cases des with
      | cons d des =>
        have := (keyed_typeOf (hdes d (List.mem_cons_self _ _))).2
        simp [sliceKindOf, hkey, Value.Len, Value.Index, Value.Kind, this]
      | nil =>
        cases ses with
        | nil => exact absurd ⟨rfl, rfl⟩ hemp
        | cons s ses =>
          have := (keyed_typeOf (hses s (List.mem_cons_self _ _))).2
          simp [sliceKindOf, hkey, Value.Len, Value.Index, Value.Kind, this]
    have hp1 : deepMergeSlices rec ⟨some (.slice (.named t) darr dcap des), daddr, dro⟩
        ⟨some (.slice (.named t) sarr scap ses), saddr, sro⟩ vis next false listKey []
        = sliceLoop rec false listKey [] des.length ([] : List Val).length
            ⟨some (.slice (.named t) darr dcap ([] ++ des)), daddr, dro⟩
            ⟨some (.slice (.named t) sarr scap ses), saddr, sro⟩ vis next [] none := rfl
    simp only [sliceCase, hkind, true_or, if_true] at hok ⊢
    rw [hp1] at hok ⊢
    generalize hq : sliceLoop rec false listKey [] des.length ([] : List Val).length
        ⟨some (.slice (.named t) darr dcap ([] ++ des)), daddr, dro⟩
        ⟨some (.slice (.named t) sarr scap ses), saddr, sro⟩ vis next [] none = p1 at hok ⊢
    have hst1 : p1.status = Status.ok := by
      cases h : p1.status with
      | ok => rfl
      | panic => simp [h] at hok
      | fuel => simp [h] at hok
    have hfw := sliceLoop_forward hrec (.named t) darr sarr dcap scap daddr saddr dro sro ses
      hses des [] vis next [] none hdes (by rw [hq]; exact hst1)
    rw [hq] at hfw
    obtain ⟨des1, ha, hf2, hb, herr, _⟩ := hfw
    have herr1 := herr rfl
    simp only [List.nil_append] at ha
    have hk1 : ∀ y ∈ des1, keyedRecord listKey t ns y = true := fun y hy => (forall2_keys hf2 y hy).1
    have hnd1 : (des1.map (keyText listKey)).Nodup := by rw [forall2_keyText hf2]; exact hnd
    have hp2 : deepMergeSlices rec p1.b p1.a p1.visited p1.next true listKey p1.bFounds
        = sliceLoop rec true listKey p1.bFounds ses.length 0
            ⟨some (.slice (.named t) sarr scap ses), saddr, sro⟩
            ⟨some (.slice (.named t) darr dcap des1), daddr, dro⟩
            p1.visited p1.next [] none := by
      rw [hb, ha]
      simp [deepMergeSlices, Value.Len]
    simp only [hst1, herr1] at hok ⊢
    rw [hp2] at hok ⊢
    obtain ⟨arr2, cap2, des2, hb2, hk2, hnd2, herr2⟩ := sliceLoop_backward_nodup hrec sarr scap
      saddr daddr sro dro ses hses p1.bFounds ses.length 0 des1 darr dcap p1.visited p1.next []
      none hk1 hnd1
    have herr3 := herr2 rfl
    generalize sliceLoop rec true listKey p1.bFounds ses.length 0
        ⟨some (.slice (.named t) sarr scap ses), saddr, sro⟩
        ⟨some (.slice (.named t) darr dcap des1), daddr, dro⟩
        p1.visited p1.next [] none = p2 at hok hb2 herr3 ⊢
    refine ⟨arr2, cap2, des2, ?_, hk2, hnd2⟩
    rw [herr3]
    cases h : p2.status <;> simp only [hb2]

/-- C18 (amended). Keyed reconciliation keeps the keys of the destination unique
when no backing array is reachable along two paths.  `dst` and `src` are
sequences of records of one struct type whose list-key field is a string, every
sequence in them has a backing array of its own (`ownArrays`), the list key is
not empty, `dst` passes the visited check, and the key texts of the elements of
`dst` are pairwise distinct.  When the merge returns normally, in either mode,
`dst` is again a sequence of such records with pairwise distinct key texts; the
key texts of `src` need not be distinct. -/
theorem deepMerge_keys_stay_distinct (overwrite : Bool) (listKey t : String)
    (ns : List String) (fuel : Nat) (dst src : Value) (vis vis1 : Visited) (next : Nat)
    (darr sarr : Option Nat) (dcap scap : Nat) (des ses : List Val)
    (hkey : listKey.length ≠ 0)
    (hd : dst.val = some (.slice (.named t) darr dcap des))
    (hs : src.val = some (.slice (.named t) sarr scap ses))
    (_hown : ownArrays (.slice (.named t) darr dcap des) (.slice (.named t) sarr scap ses)
      = true)
    (hdes : ∀ x ∈ des, keyedRecord listKey t ns x = true)
    (hses : ∀ x ∈ ses, keyedRecord listKey t ns x = true)
    (hnd : (des.map (keyText listKey)).Nodup)
    (hvis : enter dst vis = some vis1)
    (hok : (deepMerge overwrite listKey (fuel + 1) dst src vis next).status = Status.ok) :
    ∃ arr1 cap1 des1,
      (deepMerge overwrite listKey (fuel + 1) dst src vis next).val
        = some (.slice (.named t) arr1 cap1 des1)
      ∧ (∀ y ∈ des1, keyedRecord listKey t ns y = true)
      ∧ (des1.map (keyText listKey)).Nodup := by
  obtain ⟨dval, daddr, dro⟩ := dst
  obtain ⟨sval, saddr, sro⟩ := src
  simp only at hd hs
  subst hd hs
  have hsc : deepMerge overwrite listKey (fuel + 1)
      ⟨some (.slice (.named t) darr dcap des), daddr, dro⟩
      ⟨some (.slice (.named t) sarr scap ses), saddr, sro⟩ vis next
      = sliceCase (deepMerge overwrite listKey fuel) overwrite listKey
          ⟨some (.slice (.named t) darr dcap des), daddr, dro⟩
          ⟨some (.slice (.named t) sarr scap ses), saddr, sro⟩ vis1 next := by
    simp [deepMerge, Value.IsValid, hvis, Value.Kind, kindOf]
  rw [hsc] at hok ⊢
  exact sliceCase_nodup (deepMerge_recKey overwrite listKey t ns fuel) overwrite hkey darr sarr
    dcap scap daddr saddr dro sro des ses hdes hses hnd vis1 next hok

/-- Witness for C18: `dst = [{Id: "1", V: "x"}]`, `src = [{Id: "2", V: "y"},
{Id: "2", V: "z"}]`, key `"Id"`: the second source element meets the appended
first one and is not appended. -/
theorem deepMerge_keys_stay_distinct_witness :
    ∃ arr1 cap1 des1,
      (deepMerge false "Id" 3
        ⟨some (.slice (.named "U") (some 1) 1 [.struct "U" [("Id", .str "1"), ("V", .str "x")]]),
          some (0, [0]), false⟩
        ⟨some (.slice (.named "U") (some 2) 2
            [.struct "U" [("Id", .str "2"), ("V", .str "y")],
             .struct "U" [("Id", .str "2"), ("V", .str "z")]]),
          none, false⟩ [] 10).val
        = some (.slice (.named "U") arr1 cap1 des1)
      ∧ (∀ y ∈ des1, keyedRecord "Id" "U" ["Id", "V"] y = true)
      ∧ (des1.map (keyText "Id")).Nodup :=
  deepMerge_keys_stay_distinct false "Id" "U" ["Id", "V"] 2 _ _ [] _ 10 (some 1) (some 2) 1 2
    [.struct "U" [("Id", .str "1"), ("V", .str "x")]]
    [.struct "U" [("Id", .str "2"), ("V", .str "y")],
     .struct "U" [("Id", .str "2"), ("V", .str "z")]]
    (by decide) rfl rfl (by decide) (by decide) (by decide) (by decide) rfl rfl

/-! ## What the merge does to the source -/

/-- The forward pass writes to `a` only. -/
theorem sliceLoop_forward_b (rec : Value → Value → Visited → Nat → Res) (listKey : String)
    (ign : List Nat) (b : Value) :
    ∀ (rem ai : Nat) (a : Value) (vis : Visited) (next : Nat) (bf : List Nat)
      (err : Option MergeError),
      (sliceLoop rec false listKey ign rem ai a b vis next bf err).b = b := by
  intro rem
  induction rem with
  | zero => intro ai a vis next bf err; rfl
  | succ rem ih =>
    intro ai a vis next bf err
    simp only [sliceLoop]
    split
    · exact ih _ _ _ _ _ _
    · split
      · split
        · rfl
        · rfl
        · split
          · rfl
          · simp only [Bool.false_eq_true, if_false]
            split
            · exact ih _ _ _ _ _ _
            · rfl
        · simp only [Bool.false_eq_true, if_false]
          exact ih _ _ _ _ _ _
      · rfl

/-- The backwards pass writes to `b` only. -/
theorem sliceLoop_backward_a (rec : Value → Value → Visited → Nat → Res) (listKey : String)
    (ign : List Nat) (a : Value) :
    ∀ (rem ai : Nat) (b : Value) (vis : Visited) (next : Nat) (bf : List Nat)
      (err : Option MergeError),
      (sliceLoop rec true listKey ign rem ai a b vis next bf err).a = a := by
  intro rem
  induction rem with
  | zero => intro ai b vis next bf err; rfl
  | succ rem ih =>
    intro ai b vis next bf err
    simp only [sliceLoop]
    split
    · exact ih _ _ _ _ _ _
    · split
      · split
        · rfl
        · rfl
        · split
          · rfl
          · simp only [if_true]
            split
            · exact ih _ _ _ _ _ _
            · rfl
        · simp only [if_true]
          split
          · rfl
          · split
            · rfl
            · exact ih _ _ _ _ _ _
      · rfl


/-! ## The visited check, cycles and shared objects (heap embedding) -/

/-- On the map that contains itself, every call of `deepMerge` below the one made
by `merge` has a destination without an address; none of them returns within the
recursion budget, whatever the budget. -/
theorem deepMerge_selfMap_inner (listKey : String) : ∀ (fuel : Nat) (vis : Visited) (next : Nat),
    (Graph.deepMerge false listKey fuel ⟨some (.map .string .iface (some 1)), none, false⟩
      ⟨some (.map .string .iface (some 2)), none, false⟩ Graph.selfMapHeap vis next)
      = ⟨Graph.selfMapHeap, vis, next, none, Status.fuel⟩
  | 0, _, _ => rfl
  | 1, _, _ => rfl
  | fuel + 2, vis, next => by
    have ih := deepMerge_selfMap_inner listKey fuel vis next
    simp only [Graph.deepMerge]
    simp [Graph.IsValid, Graph.load, Graph.enter, Graph.KindOf, Graph.kindOf, Graph.MapKeys,
      Graph.tableOf, Graph.selfMapHeap, Graph.heapGet, Graph.mapLoop, Graph.MapIndex, assignable,
      Graph.mapLookup, Graph.IsNil, Graph.CanInterface, Graph.dynKind, Graph.ptrCase, Graph.Elem]
    simp [Graph.selfMapHeap] at ih
    simp [ih]


/-- An addressable destination whose pair of address and type is recorded in the
visited set: `deepMerge` returns at once and changes nothing. -/
theorem deepMerge_visited_hit (overwrite : Bool) (listKey : String) (fuel : Nat)
    (dst src : Graph.Value) (h : Graph.Heap) (vis : Visited) (next : Nat) (a : Addr)
    (v : Graph.Val) (hl : dst.loc = some a) (hv : Graph.load h dst = some v)
    (hin : (a, Graph.typeOf v) ∈ vis) :
    Graph.deepMerge overwrite listKey (fuel + 1) dst src h vis next
      = ⟨h, vis, next, none, Status.ok⟩ := by
  simp only [Graph.deepMerge]
  split
  · rfl
  · simp [Graph.enter, hl, hv, hin]

theorem heapGet_heapPut (h : Graph.Heap) (id id1 : Nat) (o : Graph.Obj) :
    Graph.heapGet (Graph.heapPut h id o) id1
      = if id1 = id then some o else Graph.heapGet h id1 := by
  induction h with
  | nil =>
    simp only [Graph.heapPut, Graph.heapGet]
    by_cases h1 : id = id1
    · simp [h1]
    · have : ¬ id1 = id := fun e => h1 e.symm
      simp [h1, this]
  | cons e rest ih =>
    obtain ⟨i, o1⟩ := e
    simp only [Graph.heapPut]
    by_cases h1 : i = id
    · subst h1
      simp only [if_true, Graph.heapGet]
      by_cases h2 : i = id1
      · simp [h2]
      · have : ¬ id1 = i := fun e => h2 e.symm
        simp [h2, this]
    · simp only [h1, if_false, Graph.heapGet, ih]
      by_cases h2 : i = id1
      · subst h2
        simp [h1]
      · simp [h2]

theorem self_record_leaf (listKey : String) (f : Nat) (h : Graph.Heap) (dv s : String)
    (vis : Visited) (next : Nat)
    (hself : Graph.heapGet h 1
      = some (.cell (.struct "N" [("V", .str dv), ("P", .ptr (.named "N") (some 1))])))
    (hvis : ((1, [0]), Ty.string) ∉ vis) :
    (Graph.deepMerge false listKey (f + 1) ⟨none, some (1, [0]), false⟩
        ⟨some (.str s), none, false⟩ h vis next).status = Status.ok
    ∧ (Graph.deepMerge false listKey (f + 1) ⟨none, some (1, [0]), false⟩
        ⟨some (.str s), none, false⟩ h vis next).err = none
    ∧ (Graph.deepMerge false listKey (f + 1) ⟨none, some (1, [0]), false⟩
        ⟨some (.str s), none, false⟩ h vis next).visited = ((1, [0]), Ty.string) :: vis
    ∧ ∃ x, Graph.heapGet (Graph.deepMerge false listKey (f + 1) ⟨none, some (1, [0]), false⟩
        ⟨some (.str s), none, false⟩ h vis next).heap 1
        = some (.cell (.struct "N" [("V", .str x), ("P", .ptr (.named "N") (some 1))])) := by
  have hl : Graph.load h ⟨none, some (1, [0]), false⟩ = some (.str dv) := by
    simp [Graph.load, Graph.readAt, hself, Graph.subVal]
  have hk : Graph.KindOf h ⟨none, some (1, [0]), false⟩ = Kind.string := by
    simp [Graph.KindOf, hl, Graph.kindOf]
  have he : Graph.enter h ⟨none, some (1, [0]), false⟩ vis = some (((1, [0]), Ty.string) :: vis) := by
    simp [Graph.enter, hl, Graph.typeOf, hvis]
  have hv : Graph.IsValid h ⟨some (.str s), none, false⟩ = true := rfl
  simp only [Graph.deepMerge, hv, he, hk, Bool.not_true, Bool.false_eq_true, if_false]
  unfold Graph.assignRule
  split
  · have hset : Graph.SetV h ⟨none, some (1, [0]), false⟩ ⟨some (.str s), none, false⟩
        = some (Graph.heapPut h 1
            (.cell (.struct "N" [("V", .str s), ("P", .ptr (.named "N") (some 1))]))) := by
      have hls : Graph.load h ⟨some (.str s), none, false⟩ = some (.str s) := rfl
      simp only [Graph.SetV, hl, hls]
      simp [Graph.CanSet, assignable, Graph.typeOf, Graph.writeAt, hself, Graph.setSub,
        Graph.stored]
    rw [hset]
    exact ⟨rfl, rfl, rfl, s, by simp [heapGet_heapPut]⟩
  · exact ⟨rfl, rfl, rfl, dv, hself⟩

theorem self_record_ptr (listKey : String) (f : Nat) (h : Graph.Heap) (x : String)
    (t : Option Nat) (vis : Visited) (next : Nat)
    (hself : Graph.heapGet h 1
      = some (.cell (.struct "N" [("V", .str x), ("P", .ptr (.named "N") (some 1))])))
    (hin : ((1, []), Ty.named "N") ∈ vis) :
    (Graph.deepMerge false listKey (f + 2) ⟨none, some (1, [1]), false⟩
        ⟨some (.ptr (.named "N") t), none, false⟩ h vis next).status = Status.ok
    ∧ (Graph.deepMerge false listKey (f + 2) ⟨none, some (1, [1]), false⟩
        ⟨some (.ptr (.named "N") t), none, false⟩ h vis next).err = none := by
  have hl : Graph.load h ⟨none, some (1, [1]), false⟩ = some (.ptr (.named "N") (some 1)) := by
    simp [Graph.load, Graph.readAt, hself, Graph.subVal]
  have hk : Graph.KindOf h ⟨none, some (1, [1]), false⟩ = Kind.ptr := by
    simp [Graph.KindOf, hl, Graph.kindOf]
  have hv : Graph.IsValid h ⟨some (.ptr (.named "N") t), none, false⟩ = true := rfl
  have hd : Graph.IsNil h ⟨none, some (1, [1]), false⟩ = some false := by
    simp [Graph.IsNil, hl]
  have hs : Graph.IsNil h ⟨some (.ptr (.named "N") t), none, false⟩ = some t.isNone := rfl
  have hde : Graph.Elem h ⟨none, some (1, [1]), false⟩ = some ⟨none, some (1, []), false⟩ := by
    simp [Graph.Elem, hl]
  simp only [Graph.deepMerge, hv, Bool.not_true, Bool.false_eq_true, if_false]
  cases henter : Graph.enter h ⟨none, some (1, [1]), false⟩ vis with
  | none => exact ⟨rfl, rfl⟩
  | some vis1 =>
    have hin1 : ((1, []), Ty.named "N") ∈ vis1 := by
      simp only [Graph.enter, hl] at henter
      split at henter
      · simp at henter
      · simp only [Option.some.injEq] at henter
        rw [← henter]
        exact List.mem_cons_of_mem _ hin
    simp only [hk, Graph.ptrCase, hs, hd]
    cases t with
    | none => exact ⟨rfl, rfl⟩
    | some tid =>
      have hse : Graph.Elem h ⟨some (.ptr (.named "N") (some tid)), none, false⟩
          = some ⟨none, some (tid, []), false⟩ := rfl
      simp only [Option.isNone_some, Bool.false_or, Bool.false_eq_true, if_false, hde, hse]
      split
      · exact ⟨rfl, rfl⟩
      · have hhit : Graph.enter h ⟨none, some (1, []), false⟩ vis1 = none := by
          simp [Graph.enter, Graph.load, Graph.readAt, hself, Graph.subVal, Graph.typeOf, hin1]
        rw [hhit]
        exact ⟨rfl, rfl⟩

/-- The record that points to itself, on any heap, merged in fill-only mode with
any record of its type passed by value: the merge returns normally for every
recursion budget of at least three. -/
theorem merge_self_record_any (k next : Nat) (h : Graph.Heap) (dv s : String)
    (t : Option Nat) (listKey : String)
    (hself : Graph.heapGet h 1
      = some (.cell (.struct "N" [("V", .str dv), ("P", .ptr (.named "N") (some 1))]))) :
    (Graph.Merge (k + 3) next h (.ptr (.named "N") (some 1))
        (.struct "N" [("V", .str s), ("P", .ptr (.named "N") t)]) listKey).status
      = Status.ok := by
  show (Graph.Merge (k + 1 + 1 + 1) next h (.ptr (.named "N") (some 1))
        (.struct "N" [("V", .str s), ("P", .ptr (.named "N") t)]) listKey).status = Status.ok
  have hl : Graph.load h ⟨none, some (1, []), false⟩
      = some (.struct "N" [("V", .str dv), ("P", .ptr (.named "N") (some 1))]) := by
    simp [Graph.load, Graph.readAt, hself, Graph.subVal]
  have hk : Graph.KindOf h ⟨none, some (1, []), false⟩ = Kind.struct := by
    simp [Graph.KindOf, hl, Graph.kindOf]
  have hres : Graph.resolveValues h (.ptr (.named "N") (some 1))
      (.struct "N" [("V", .str s), ("P", .ptr (.named "N") t)])
      = .ok (⟨none, some (1, []), false⟩,
          ⟨some (.struct "N" [("V", .str s), ("P", .ptr (.named "N") t)]), none, false⟩) := by
    simp [Graph.resolveValues, hk]
  have hnf : Graph.NumField h ⟨none, some (1, []), false⟩ = 2 := by
    simp [Graph.NumField, hl]
  obtain ⟨a1, a2, a3, x, a4⟩ := self_record_leaf listKey (k + 1) h dv s
    [((1, []), Ty.named "N")] next hself (by simp)
  obtain ⟨b1, b2⟩ := self_record_ptr listKey k
    (Graph.deepMerge false listKey (k + 1 + 1) ⟨none, some (1, [0]), false⟩
      ⟨some (.str s), none, false⟩ h [((1, []), Ty.named "N")] next).heap x t
    (Graph.deepMerge false listKey (k + 1 + 1) ⟨none, some (1, [0]), false⟩
      ⟨some (.str s), none, false⟩ h [((1, []), Ty.named "N")] next).visited
    (Graph.deepMerge false listKey (k + 1 + 1) ⟨none, some (1, [0]), false⟩
      ⟨some (.str s), none, false⟩ h [((1, []), Ty.named "N")] next).next a4
    (by rw [a3]; simp)
  have hf0 : Graph.Field h ⟨none, some (1, []), false⟩ 0 = some ⟨none, some (1, [0]), false⟩ := by
    simp [Graph.Field, hl, isExported]
  have hg0 : Graph.Field h
      ⟨some (.struct "N" [("V", .str s), ("P", .ptr (.named "N") t)]), none, false⟩ 0
      = some ⟨some (.str s), none, false⟩ := by
    simp [Graph.Field, Graph.load, isExported]
  have hf1 : ∀ h1 y, Graph.heapGet h1 1
      = some (.cell (.struct "N" [("V", .str y), ("P", .ptr (.named "N") (some 1))])) →
      Graph.Field h1 ⟨none, some (1, []), false⟩ 1 = some ⟨none, some (1, [1]), false⟩ := by
    intro h1 y hy
    simp [Graph.Field, Graph.load, Graph.readAt, hy, Graph.subVal, isExported]
  have hg1 : ∀ h1, Graph.Field h1
      ⟨some (.struct "N" [("V", .str s), ("P", .ptr (.named "N") t)]), none, false⟩ 1
      = some ⟨some (.ptr (.named "N") t), none, false⟩ := by
    intro h1
    simp [Graph.Field, Graph.load, isExported]
  have ht1 : Graph.TypeOf h ⟨none, some (1, []), false⟩ = some (Ty.named "N") := by
    simp [Graph.TypeOf, hl, Graph.typeOf]
  have ht2 : Graph.TypeOf h
      ⟨some (.struct "N" [("V", .str s), ("P", .ptr (.named "N") t)]), none, false⟩
      = some (Ty.named "N") := rfl
  have hv : Graph.IsValid h
      ⟨some (.struct "N" [("V", .str s), ("P", .ptr (.named "N") t)]), none, false⟩ = true := rfl
  have he : Graph.enter h ⟨none, some (1, []), false⟩ [] = some [((1, []), Ty.named "N")] := by
    simp [Graph.enter, hl, Graph.typeOf]
  simp only [Graph.Merge, Graph.merge, hres, ht1, ht2, ne_eq, not_true_eq_false, if_false]
  rw [Graph.deepMerge]
  simp only [hv, he, hk, hnf, Bool.not_true, Bool.false_eq_true, if_false]
  simp only [Graph.structLoop, hf0, hg0]
  rw [a1, a2]
  simp only [hf1 _ x a4, hg1]
  rw [b1, b2]

/-! ## Termination on graphs of records and pointers (heap embedding) -/

theorem filter_length_le {α : Type} (p q : α → Bool) (hpq : ∀ x, q x = true → p x = true) :
    ∀ l : List α, (l.filter q).length ≤ (l.filter p).length
  | [] => by simp
  | y :: l => by
    have ih := filter_length_le p q hpq l
    rw [List.filter_cons, List.filter_cons]
    cases hq : q y with
    | true =>
      rw [hpq y hq]
      simp only [if_true, List.length_cons]
      omega
    | false =>
      cases hp : p y with
      | true =>
        simp only [if_true, Bool.false_eq_true, if_false, List.length_cons]
        omega
      | false =>
        simp only [Bool.false_eq_true, if_false]
        exact ih

theorem filter_length_lt {α : Type} (p q : α → Bool) (hpq : ∀ x, q x = true → p x = true)
    (x : α) (hp : p x = true) (hq : q x = false) :
    ∀ l : List α, x ∈ l → (l.filter q).length < (l.filter p).length
  | [], hx => by simp at hx
  | y :: l, hx => by
    have hle := filter_length_le p q hpq l
    rw [List.filter_cons, List.filter_cons]
    cases hqy : q y with
    | true =>
      rw [hpq y hqy]
      simp only [if_true, List.length_cons]
      have hxl : x ∈ l := by
        rcases List.mem_cons.mp hx with h | h
        · subst h
          rw [hq] at hqy
          exact absurd hqy (by decide)
        · exact h
      have ih := filter_length_lt p q hpq x hp hq l hxl
      omega
    | false =>
      cases hpy : p y with
      | true =>
        simp only [if_true, Bool.false_eq_true, if_false, List.length_cons]
        omega
      | false =>
        simp only [Bool.false_eq_true, if_false]
        have hxl : x ∈ l := by
          rcases List.mem_cons.mp hx with h | h
          · subst h
            rw [hp] at hpy
            exact absurd hpy (by decide)
          · exact h
        exact filter_length_lt p q hpq x hp hq l hxl

theorem unvisited_le (U : List (Addr × Ty)) (vis vis1 : Visited)
    (hsub : ∀ x, x ∈ vis → x ∈ vis1) : Graph.unvisited U vis1 ≤ Graph.unvisited U vis := by
  unfold Graph.unvisited
  apply filter_length_le
  intro x hx
  have h1 : x ∉ vis1 := of_decide_eq_true hx
  exact decide_eq_true (fun h => h1 (hsub x h))

theorem unvisited_lt (U : List (Addr × Ty)) (vis : Visited) (x : Addr × Ty) (hx : x ∈ U)
    (hn : x ∉ vis) : Graph.unvisited U (x :: vis) < Graph.unvisited U vis := by
  unfold Graph.unvisited
  apply filter_length_lt _ _ _ x (decide_eq_true hn) _ U hx
  · intro y hy
    have h1 : y ∉ x :: vis := of_decide_eq_true hy
    exact decide_eq_true (fun h => h1 (List.mem_cons_of_mem _ h))
  · exact decide_eq_false (fun h => h (List.mem_cons_self _ _))

theorem subVal_struct (t : String) (fs : List (String × Graph.Val)) (i : Nat) (p : List Nat) :
    Graph.subVal (.struct t fs) (i :: p)
      = match fs.get? i with
        | some (_, w) => Graph.subVal w p
        | none => none := by
  rw [Graph.subVal]

theorem placesFields_mem : ∀ (fs : List (String × Graph.Val)) (k i : Nat) (n : String)
    (u : Graph.Val) (x : List Nat × Ty), fs.get? i = some (n, u) → x ∈ Graph.placesOf u →
    ((k + i) :: x.1, x.2) ∈ Graph.placesFields fs k
  | [], _, _, _, _, _, h, _ => by simp at h
  | (m, w) :: rest, k, 0, n, u, x, h, hx => by
    simp only [List.get?_cons_zero, Option.some.injEq, Prod.mk.injEq] at h
    obtain ⟨_, rfl⟩ := h
    simp only [Graph.placesFields, Nat.add_zero]
    exact List.mem_append_left _ (List.mem_map.mpr ⟨x, hx, rfl⟩)
  | (m, w) :: rest, k, i + 1, n, u, x, h, hx => by
    simp only [List.get?_cons_succ] at h
    have ih := placesFields_mem rest (k + 1) i n u x h hx
    simp only [Graph.placesFields]
    have e : k + (i + 1) = k + 1 + i := by omega
    rw [e]
    exact List.mem_append_right _ ih

theorem placesOf_self (v : Graph.Val) : ([], Graph.typeOf v) ∈ Graph.placesOf v := by
  cases v <;> simp [Graph.placesOf, Graph.typeOf]

theorem subVal_nil (v : Graph.Val) : Graph.subVal v [] = some v := by
  cases v <;> rfl

theorem places_complete : ∀ (p : List Nat) (v w : Graph.Val),
    Graph.subVal v p = some w → (p, Graph.typeOf w) ∈ Graph.placesOf v
  | [], v, w, h => by
    rw [subVal_nil] at h
    simp only [Option.some.injEq] at h
    subst h
    exact placesOf_self v
  | i :: p, v, w, h => by
    cases v with
    | struct t fs =>
      rw [subVal_struct] at h
      cases hg : fs.get? i with
      | none =>
        rw [hg] at h
        cases h
      | some e =>
        obtain ⟨n, u⟩ := e
        simp only [hg] at h
        have ih := places_complete p u w h
        have hm := placesFields_mem fs 0 i n u (p, Graph.typeOf w) hg ih
        simp only [Nat.zero_add] at hm
        simp only [Graph.placesOf]
        exact List.mem_cons_of_mem _ hm
    | bool _ => simp [Graph.subVal] at h
    | int _ => simp [Graph.subVal] at h
    | str _ => simp [Graph.subVal] at h
    | slice _ _ _ _ => simp [Graph.subVal] at h
    | map _ _ _ => simp [Graph.subVal] at h
    | ptr _ _ => simp [Graph.subVal] at h
    | iface _ => simp [Graph.subVal] at h

theorem recPtrFields_get : ∀ (fs : List (String × Graph.Val)) (i : Nat) (n : String)
    (u : Graph.Val), Graph.recPtrFields fs = true → fs.get? i = some (n, u) →
    Graph.recPtr u = true
  | [], _, _, _, _, h => by simp at h
  | (m, w) :: rest, 0, n, u, hr, h => by
    simp only [List.get?_cons_zero, Option.some.injEq, Prod.mk.injEq] at h
    obtain ⟨_, rfl⟩ := h
    simp only [Graph.recPtrFields, Bool.and_eq_true] at hr
    exact hr.1
  | (m, w) :: rest, i + 1, n, u, hr, h => by
    simp only [List.get?_cons_succ] at h
    simp only [Graph.recPtrFields, Bool.and_eq_true] at hr
    exact recPtrFields_get rest i n u hr.2 h

theorem recPtr_sub : ∀ (p : List Nat) (v w : Graph.Val), Graph.recPtr v = true →
    Graph.subVal v p = some w → Graph.recPtr w = true
  | [], v, w, hr, h => by
    rw [subVal_nil] at h
    simp only [Option.some.injEq] at h
    subst h
    exact hr
  | i :: p, v, w, hr, h => by
    cases v with
    | struct t fs =>
      rw [subVal_struct] at h
      cases hg : fs.get? i with
      | none =>
        rw [hg] at h
        cases h
      | some e =>
        obtain ⟨n, u⟩ := e
        simp only [hg] at h
        simp only [Graph.recPtr] at hr
        exact recPtr_sub p u w (recPtrFields_get fs i n u hr hg) h
    | bool _ => simp [Graph.subVal] at h
    | int _ => simp [Graph.subVal] at h
    | str _ => simp [Graph.subVal] at h
    | slice _ _ _ _ => simp [Graph.subVal] at h
    | map _ _ _ => simp [Graph.subVal] at h
    | ptr _ _ => simp [Graph.subVal] at h
    | iface _ => simp [Graph.subVal] at h

theorem recPtrHeap_get : ∀ (h : Graph.Heap) (id : Nat) (o : Graph.Obj),
    Graph.recPtrHeap h = true → Graph.heapGet h id = some o →
    ∃ v, o = .cell v ∧ Graph.recPtr v = true ∧
      ∀ x, x ∈ Graph.placesOf v → ((id, x.1), x.2) ∈ Graph.allPlaces h
  | [], _, _, _, h => by simp [Graph.heapGet] at h
  | (i, .cell v) :: rest, id, o, hr, h => by
    simp only [Graph.recPtrHeap, Bool.and_eq_true] at hr
    simp only [Graph.heapGet] at h
    by_cases hi : i = id
    · subst hi
      simp only [if_true, Option.some.injEq] at h
      subst h
      refine ⟨v, rfl, hr.1, ?_⟩
      intro x hx
      simp only [Graph.allPlaces]
      exact List.mem_append_left _ (List.mem_map.mpr ⟨x, hx, rfl⟩)
    · simp only [hi, if_false] at h
      obtain ⟨v1, e, r1, m1⟩ := recPtrHeap_get rest id o hr.2 h
      refine ⟨v1, e, r1, ?_⟩
      intro x hx
      simp only [Graph.allPlaces]
      exact List.mem_append_right _ (m1 x hx)
  | (i, .array _) :: rest, _, _, hr, _ => by simp [Graph.recPtrHeap] at hr
  | (i, .table _) :: rest, _, _, hr, _ => by simp [Graph.recPtrHeap] at hr

/-- In a heap of records and pointers, what is stored at a place is built from
leaves, records and pointers, and the place is one of `allPlaces`. -/
theorem readAt_place (h : Graph.Heap) (a : Addr) (w : Graph.Val)
    (hr : Graph.recPtrHeap h = true) (hw : Graph.readAt h a = some w) :
    (a, Graph.typeOf w) ∈ Graph.allPlaces h ∧ Graph.recPtr w = true
      ∧ ∃ v, Graph.heapGet h a.1 = some (.cell v) ∧ Graph.subVal v a.2 = some w := by
  obtain ⟨id, p⟩ := a
  simp only [Graph.readAt] at hw
  cases hg : Graph.heapGet h id with
  | none => simp [hg] at hw
  | some o =>
    obtain ⟨v, e, r1, m1⟩ := recPtrHeap_get h id o hr hg
    subst e
    simp only [hg] at hw
    exact ⟨m1 (p, Graph.typeOf w) (places_complete p v w hw), recPtr_sub p v w r1 hw,
      v, rfl, hw⟩

theorem placesFields_set : ∀ (fs : List (String × Graph.Val)) (k i : Nat) (n : String)
    (u u1 : Graph.Val), fs.get? i = some (n, u) → Graph.placesOf u1 = Graph.placesOf u →
    Graph.placesFields (fs.set i (n, u1)) k = Graph.placesFields fs k
  | [], _, _, _, _, _, h, _ => by simp at h
  | (m, w) :: rest, k, 0, n, u, u1, h, hp => by
    simp only [List.get?_cons_zero, Option.some.injEq, Prod.mk.injEq] at h
    obtain ⟨_, rfl⟩ := h
    simp only [List.set_cons_zero, Graph.placesFields, hp]
  | (m, w) :: rest, k, i + 1, n, u, u1, h, hp => by
    simp only [List.get?_cons_succ] at h
    simp only [List.set_cons_succ, Graph.placesFields,
      placesFields_set rest (k + 1) i n u u1 h hp]

theorem recPtrFields_set : ∀ (fs : List (String × Graph.Val)) (i : Nat) (n : String)
    (u1 : Graph.Val), Graph.recPtrFields fs = true → Graph.recPtr u1 = true →
    Graph.recPtrFields (fs.set i (n, u1)) = true
  | [], _, _, _, _, _ => by simp [Graph.recPtrFields]
  | (m, w) :: rest, 0, n, u1, hr, h1 => by
    simp only [Graph.recPtrFields, Bool.and_eq_true] at hr
    simp only [List.set_cons_zero, Graph.recPtrFields, Bool.and_eq_true]
    exact ⟨h1, hr.2⟩
  | (m, w) :: rest, i + 1, n, u1, hr, h1 => by
    simp only [Graph.recPtrFields, Bool.and_eq_true] at hr
    simp only [List.set_cons_succ, Graph.recPtrFields, Bool.and_eq_true]
    exact ⟨hr.1, recPtrFields_set rest i n u1 hr.2 h1⟩

theorem placesOf_atom (d w : Graph.Val) (hd : Graph.isAtom d = true)
    (hw : Graph.isAtom w = true) (ht : Graph.typeOf w = Graph.typeOf d) :
    Graph.placesOf w = Graph.placesOf d := by
  cases d <;> cases w <;> simp_all [Graph.isAtom, Graph.typeOf, Graph.placesOf]

/-- Storing a leaf or a reference of the type that was there leaves the places
of a value as they were. -/
theorem setSub_places : ∀ (p : List Nat) (v v1 d w : Graph.Val),
    Graph.subVal v p = some d → Graph.setSub v p w = some v1 →
    Graph.isAtom d = true → Graph.isAtom w = true → Graph.typeOf w = Graph.typeOf d →
    Graph.recPtr v = true → Graph.recPtr w = true →
    Graph.placesOf v1 = Graph.placesOf v ∧ Graph.recPtr v1 = true
  | [], v, v1, d, w, h, hs, hd, hw, ht, _, hrw => by
    rw [subVal_nil] at h
    simp only [Option.some.injEq] at h
    subst h
    have e : Graph.setSub v [] w = some w := by cases v <;> rfl
    rw [e] at hs
    simp only [Option.some.injEq] at hs
    subst hs
    exact ⟨placesOf_atom v w hd hw ht, hrw⟩
  | i :: p, v, v1, d, w, h, hs, hd, hw, ht, hrv, hrw => by
    cases v with
    | struct t fs =>
      rw [subVal_struct] at h
      simp only [Graph.setSub] at hs
      cases hg : fs.get? i with
      | none =>
        rw [hg] at h
        cases h
      | some e =>
        obtain ⟨n, u⟩ := e
        simp only [hg] at h hs
        simp only [Graph.recPtr] at hrv
        cases hu : Graph.setSub u p w with
        | none => simp [hu] at hs
        | some u1 =>
          simp only [hu, Option.some.injEq] at hs
          subst hs
          obtain ⟨e1, e2⟩ := setSub_places p u u1 d w h hu hd hw ht
            (recPtrFields_get fs i n u hrv hg) hrw
          refine ⟨?_, ?_⟩
          · simp only [Graph.placesOf, placesFields_set fs 0 i n u u1 hg e1]
          · simp only [Graph.recPtr]
            exact recPtrFields_set fs i n u1 hrv e2
    | bool _ => simp [Graph.subVal] at h
    | int _ => simp [Graph.subVal] at h
    | str _ => simp [Graph.subVal] at h
    | slice _ _ _ _ => simp [Graph.subVal] at h
    | map _ _ _ => simp [Graph.subVal] at h
    | ptr _ _ => simp [Graph.subVal] at h
    | iface _ => simp [Graph.subVal] at h

theorem heapPut_places : ∀ (h : Graph.Heap) (id : Nat) (v v1 : Graph.Val),
    Graph.recPtrHeap h = true → Graph.heapGet h id = some (.cell v) →
    Graph.placesOf v1 = Graph.placesOf v → Graph.recPtr v1 = true →
    Graph.recPtrHeap (Graph.heapPut h id (.cell v1)) = true
      ∧ Graph.allPlaces (Graph.heapPut h id (.cell v1)) = Graph.allPlaces h
  | [], _, _, _, _, h, _, _ => by simp [Graph.heapGet] at h
  | (i, .cell v0) :: rest, id, v, v1, hr, h, hp, h1 => by
    simp only [Graph.recPtrHeap, Bool.and_eq_true] at hr
    simp only [Graph.heapGet] at h
    by_cases hi : i = id
    · subst hi
      simp only [if_true, Option.some.injEq, Graph.Obj.cell.injEq] at h
      subst h
      simp only [Graph.heapPut, if_true, Graph.recPtrHeap, Bool.and_eq_true, Graph.allPlaces, hp]
      exact ⟨⟨h1, hr.2⟩, trivial⟩
    · simp only [hi, if_false] at h
      obtain ⟨e1, e2⟩ := heapPut_places rest id v v1 hr.2 h hp h1
      simp only [Graph.heapPut, hi, if_false, Graph.recPtrHeap, Bool.and_eq_true,
        Graph.allPlaces, e2]
      exact ⟨⟨hr.1, e1⟩, trivial⟩
  | (i, .array _) :: rest, _, _, _, hr, _, _, _ => by simp [Graph.recPtrHeap] at hr
  | (i, .table _) :: rest, _, _, _, hr, _, _, _ => by simp [Graph.recPtrHeap] at hr

/-- `Set` on a destination that holds a leaf or a pointer keeps the heap one of
records and pointers with the same places. -/
theorem SetV_places (U : List (Addr × Ty)) (h h1 : Graph.Heap) (dst src : Graph.Value)
    (hU : Graph.HasPlaces U h) (hk : Graph.KindOf h dst ≠ Kind.struct)
    (hs : Graph.SetV h dst src = some h1) : Graph.HasPlaces U h1 := by
  obtain ⟨hr, ha⟩ := hU
  unfold Graph.SetV at hs
  cases hd : Graph.load h dst with
  | none => simp [hd] at hs
  | some d =>
    cases hsv : Graph.load h src with
    | none => simp [hd, hsv] at hs
    | some s =>
      cases hl : dst.loc with
      | none => simp [hd, hsv, hl] at hs
      | some a =>
        simp only [hd, hsv, hl] at hs
        split at hs
        · rename_i hc
          simp only [Bool.and_eq_true] at hc
          have hrd : Graph.readAt h a = some d := by
            simpa [Graph.load, hl] using hd
          obtain ⟨_, hrpd, v, hg, hsub⟩ := readAt_place h a d hr hrd
          have hkd : Graph.kindOf d ≠ Kind.struct := by
            simpa [Graph.KindOf, hd] using hk
          have hatom : Graph.isAtom d = true := by
            cases d <;> simp_all [Graph.isAtom, Graph.kindOf]
          have hst : Graph.stored (Graph.typeOf d) s = s ∧ Graph.isAtom s = true
              ∧ Graph.typeOf s = Graph.typeOf d ∧ Graph.recPtr s = true := by
            have hasg := hc.2
            cases d <;> cases s <;>
              simp_all [Graph.isAtom, Graph.kindOf, Graph.recPtr, Graph.typeOf, assignable,
                Graph.stored]
          rw [hst.1] at hs
          obtain ⟨id, p⟩ := a
          simp only [Graph.writeAt, hg] at hs
          cases hset : Graph.setSub v p s with
          | none => simp [hset] at hs
          | some v1 =>
            simp only [hset, Option.some.injEq] at hs
            subst hs
            obtain ⟨rv, _, _⟩ := recPtrHeap_get h id _ hr hg
            have hrv : Graph.recPtr v = true := by
              obtain ⟨v0, e0, r0, _⟩ := recPtrHeap_get h id _ hr hg
              simp only [Graph.Obj.cell.injEq] at e0
              subst e0
              exact r0
            obtain ⟨e1, e2⟩ := setSub_places p v v1 d s hsub hset hatom hst.2.1 hst.2.2.1
              hrv hst.2.2.2
            obtain ⟨f1, f2⟩ := heapPut_places h id v v1 hr hg e1 e2
            exact ⟨f1, f2.trans ha⟩
        · simp at hs

theorem ends_same (U : List (Addr × Ty)) (h : Graph.Heap) (vis : Visited) (next : Nat)
    (st : Status) (e : Option MergeError) (hU : Graph.HasPlaces U h) (hst : st ≠ Status.fuel) :
    Graph.Ends U vis ⟨h, vis, next, e, st⟩ :=
  ⟨hst, hU, fun _ hx => hx⟩

theorem assignRule_ends (U : List (Addr × Ty)) (overwrite : Bool) (dst src : Graph.Value)
    (h : Graph.Heap) (vis : Visited) (next : Nat) (hU : Graph.HasPlaces U h)
    (hk : Graph.KindOf h dst ≠ Kind.struct) :
    Graph.Ends U vis (Graph.assignRule overwrite dst src h vis next) := by
  unfold Graph.assignRule
  split
  · cases hs : Graph.SetV h dst src with
    | none => exact ends_same U h vis next _ _ hU (by decide)
    | some h1 =>
      exact ends_same U h1 vis next _ _ (SetV_places U h h1 dst src hU hk hs) (by decide)
  · exact ends_same U h vis next _ _ hU (by decide)

theorem ptrCase_ends (U : List (Addr × Ty)) (fuel : Nat)
    (rec : Graph.Value → Graph.Value → Graph.Heap → Visited → Nat → Graph.Out)
    (hrec : Graph.RecEnds U fuel rec) (overwrite : Bool) (dst src : Graph.Value)
    (h : Graph.Heap) (vis : Visited) (next : Nat) (hU : Graph.HasPlaces U h)
    (hk : Graph.KindOf h dst = Kind.ptr) (hf : Graph.unvisited U vis < fuel) :
    Graph.Ends U vis (Graph.ptrCase rec overwrite dst src h vis next) := by
  have hk1 : Graph.KindOf h dst ≠ Kind.struct := by rw [hk]; decide
  unfold Graph.ptrCase
  split
  · exact ends_same U h vis next _ _ hU (by decide)
  · rename_i dnil hsn hdn
    split
    · split
      · cases hs : Graph.SetV h dst src with
        | none => exact ends_same U h vis next _ _ hU (by decide)
        | some h1 =>
          exact ends_same U h1 vis next _ _ (SetV_places U h h1 dst src hU hk1 hs) (by decide)
      · exact ends_same U h vis next _ _ hU (by decide)
    · rename_i hno
      cases hde : Graph.Elem h dst with
      | none => exact ends_same U h vis next _ _ hU (by decide)
      | some de =>
        cases hse : Graph.Elem h src with
        | none => exact ends_same U h vis next _ _ hU (by decide)
        | some se =>
          simp only []
          have hloc : ∃ a, de.loc = some a := by
            simp only [Bool.or_eq_true, not_or, Bool.not_eq_true] at hno
            have hd := hno.1
            subst hd
            unfold Graph.KindOf at hk
            unfold Graph.IsNil at hdn
            unfold Graph.Elem at hde
            cases hl : Graph.load h dst with
            | none => simp [hl] at hk
            | some d =>
              cases d with
              | ptr e t =>
                cases t with
                | none => simp [hl] at hdn
                | some id =>
                  simp only [hl, Option.some.injEq] at hde
                  subst hde
                  exact ⟨_, rfl⟩
              | bool _ => simp [hl, Graph.kindOf] at hk
              | int _ => simp [hl, Graph.kindOf] at hk
              | str _ => simp [hl, Graph.kindOf] at hk
              | struct _ _ => simp [hl, Graph.kindOf] at hk
              | slice _ _ _ _ => simp [hl, Graph.kindOf] at hk
              | map _ _ _ => simp [hl, Graph.kindOf] at hk
              | iface _ => simp [hl, Graph.kindOf] at hk
          obtain ⟨a, ha⟩ := hloc
          exact hrec de se h vis next a ha hU hf
  · exact ends_same U h vis next _ _ hU (by decide)

theorem structLoop_ends (U : List (Addr × Ty)) (fuel : Nat)
    (rec : Graph.Value → Graph.Value → Graph.Heap → Visited → Nat → Graph.Out)
    (hrec : Graph.RecEnds U fuel rec) (dst src : Graph.Value) (a : Addr)
    (hl : dst.loc = some a) :
    ∀ (rem i : Nat) (h : Graph.Heap) (vis : Visited) (next : Nat),
      Graph.HasPlaces U h → Graph.unvisited U vis < fuel →
      Graph.Ends U vis (Graph.structLoop rec dst src rem i h vis next) := by
  intro rem
  induction rem with
  | zero =>
    intro i h vis next hU _
    exact ends_same U h vis next _ _ hU (by decide)
  | succ rem ih =>
    intro i h vis next hU hf
    simp only [Graph.structLoop]
    cases hdf : Graph.Field h dst i with
    | none => exact ends_same U h vis next _ _ hU (by decide)
    | some df =>
      cases hsf : Graph.Field h src i with
      | none => exact ends_same U h vis next _ _ hU (by decide)
      | some sf =>
        simp only []
        have hloc : ∃ b, df.loc = some b := by
          unfold Graph.Field at hdf
          split at hdf
          · split at hdf
            · simp only [hl, Option.some.injEq] at hdf
              subst hdf
              exact ⟨_, rfl⟩
            · simp at hdf
          · simp at hdf
        obtain ⟨b, hb⟩ := hloc
        obtain ⟨r1, r2, r3⟩ := hrec df sf h vis next b hb hU hf
        generalize Graph.Out.status (rec df sf h vis next) = st at r1 ⊢
        generalize hre : Graph.Out.err (rec df sf h vis next) = re
        have hle := unvisited_le U vis _ r3
        cases st with
        | ok =>
          cases re with
          | none =>
            obtain ⟨s1, s2, s3⟩ := ih (i + 1) _ _ _ r2 (Nat.lt_of_le_of_lt hle hf)
            exact ⟨s1, s2, fun x hx => s3 x (r3 x hx)⟩
          | some e =>
            refine ⟨?_, r2, r3⟩
            simp
        | panic =>
          refine ⟨?_, r2, r3⟩
          simp
        | fuel => exact absurd rfl r1

/-- On a heap of records and pointers `deepMerge` ends on every addressable
destination once the recursion budget exceeds the number of places that are not
yet in the visited set. -/
theorem deepMerge_ends (U : List (Addr × Ty)) (overwrite : Bool) (listKey : String) :
    ∀ fuel, Graph.RecEnds U fuel (Graph.deepMerge overwrite listKey fuel) := by
  intro fuel
  induction fuel with
  | zero =>
    intro dst src h vis next a _ _ hf
    exact absurd hf (Nat.not_lt_zero _)
  | succ fuel ih =>
    intro dst src h vis next a hl hU hf
    simp only [Graph.deepMerge]
    split
    · exact ends_same U h vis next _ _ hU (by decide)
    · cases hen : Graph.enter h dst vis with
      | none => exact ends_same U h vis next _ _ hU (by decide)
      | some vis1 =>
        simp only []
        cases hd : Graph.load h dst with
        | none =>
          have hk : Graph.KindOf h dst = Kind.invalid := by simp [Graph.KindOf, hd]
          have hv1 : vis1 = vis := by
            simp only [Graph.enter, hl, hd, Option.some.injEq] at hen
            exact hen.symm
          subst hv1
          rw [hk]
          exact assignRule_ends U overwrite dst src h vis1 next hU (by rw [hk]; decide)
        | some d =>
          have hrd : Graph.readAt h a = some d := by
            simpa [Graph.load, hl] using hd
          obtain ⟨hmem, hrp, _⟩ := readAt_place h a d hU.1 hrd
          have hv1 : vis1 = (a, Graph.typeOf d) :: vis ∧ (a, Graph.typeOf d) ∉ vis := by
            simp only [Graph.enter, hl, hd] at hen
            split at hen
            · simp at hen
            · rename_i hn
              simp only [Option.some.injEq] at hen
              exact ⟨hen.symm, hn⟩
          obtain ⟨hv1, hnot⟩ := hv1
          subst hv1
          rw [hU.2] at hmem
          have hlt := unvisited_lt U vis _ hmem hnot
          have hf1 : Graph.unvisited U ((a, Graph.typeOf d) :: vis) < fuel := by omega
          have hsub : ∀ x, x ∈ vis → x ∈ (a, Graph.typeOf d) :: vis :=
            fun x hx => List.mem_cons_of_mem _ hx
          have hkd : Graph.KindOf h dst = Graph.kindOf d := by simp [Graph.KindOf, hd]
          have key : ∀ r : Graph.Out, Graph.Ends U ((a, Graph.typeOf d) :: vis) r →
              Graph.Ends U vis r := fun r hr => ⟨hr.1, hr.2.1, fun x hx => hr.2.2 x (hsub x hx)⟩
          cases d with
          | struct t fs =>
            simp only [hkd, Graph.kindOf]
            exact key _ (structLoop_ends U fuel _ ih dst src a hl _ 0 h _ next hU hf1)
          | ptr e t =>
            simp only [hkd, Graph.kindOf]
            exact key _ (ptrCase_ends U fuel _ ih overwrite dst src h _ next hU
              (by simp [hkd, Graph.kindOf]) hf1)
          | bool _ =>
            simp only [hkd, Graph.kindOf]
            exact key _ (assignRule_ends U overwrite dst src h _ next hU
              (by simp [hkd, Graph.kindOf]))
          | int _ =>
            simp only [hkd, Graph.kindOf]
            exact key _ (assignRule_ends U overwrite dst src h _ next hU
              (by simp [hkd, Graph.kindOf]))
          | str _ =>
            simp only [hkd, Graph.kindOf]
            exact key _ (assignRule_ends U overwrite dst src h _ next hU
              (by simp [hkd, Graph.kindOf]))
          | slice _ _ _ _ => simp [Graph.recPtr] at hrp
          | map _ _ _ => simp [Graph.recPtr] at hrp
          | iface _ => simp [Graph.recPtr] at hrp

theorem unvisited_le_length (U : List (Addr × Ty)) (vis : Visited) :
    Graph.unvisited U vis ≤ U.length := by
  unfold Graph.unvisited
  exact List.length_filter_le _ _

theorem resolveValues_loc (h : Graph.Heap) (d s : Graph.Val) (vd vs : Graph.Value)
    (hr : Graph.resolveValues h d s = .ok (vd, vs)) : ∃ a, vd.loc = some a := by
  unfold Graph.resolveValues at hr
  split at hr
  · split at hr
    · split at hr <;>
        (simp only [Except.ok.injEq, Prod.mk.injEq] at hr
         obtain ⟨rfl, _⟩ := hr
         exact ⟨_, rfl⟩)
    · cases hr
  · cases hr

/-- On a heap of records and pointers `merge` ends, in either mode, once the
recursion budget exceeds the number of places of the heap. -/
theorem merge_ends (fuel next : Nat) (h : Graph.Heap) (d s : Graph.Val) (overwrite : Bool)
    (key : String) (hrp : Graph.recPtrHeap h = true)
    (hfuel : (Graph.allPlaces h).length < fuel) :
    (Graph.merge fuel next h d s overwrite key).status ≠ Status.fuel := by
  unfold Graph.merge
  cases hres : Graph.resolveValues h d s with
  | error e => simp
  | ok p =>
    obtain ⟨vd, vs⟩ := p
    obtain ⟨a, ha⟩ := resolveValues_loc h d s vd vs hres
    simp only []
    cases Graph.TypeOf h vd with
    | none => simp
    | some td =>
      cases Graph.TypeOf h vs with
      | none => simp
      | some ts =>
        simp only []
        split
        · simp
        · exact (deepMerge_ends (Graph.allPlaces h) overwrite key fuel vd vs h [] next a ha
            ⟨hrp, rfl⟩ (Nat.lt_of_le_of_lt (unvisited_le_length _ _) hfuel)).1

/-- C14 (amended). Cycle safety through pointers.  Whenever `deepMerge` is
entered, in either mode, for an addressable destination whose pair of address
and type is recorded in the visited set, it returns a nil error at once and
leaves the heap, and with it `dst` and `src`, the visited set and the allocation
counter as they were.  And on every heap of records, leaves and pointers,
whatever cycles the pointers form in `dst`, in `src` and between the two:
`deepMerge` on any addressable destination, any source and any visited set, and
`merge` on any two arguments, end in either mode and for any list key within a
recursion budget of the number of places of the heap plus one (a place is a
variable, a pointer target or a field of a record in one, the addresses at
which the visited check looks a destination up). -/
theorem deepMerge_visited_check (overwrite : Bool) (listKey : String)
    (fuel fuel1 next next1 : Nat) (dst src dst1 src1 : Graph.Value) (h h1 : Graph.Heap)
    (vis vis1 : Visited) (a a1 : Addr) (v d s : Graph.Val)
    (hl : dst.loc = some a) (hv : Graph.load h dst = some v)
    (hin : (a, Graph.typeOf v) ∈ vis)
    (hl1 : dst1.loc = some a1) (hrp : Graph.recPtrHeap h1 = true)
    (hfuel : (Graph.allPlaces h1).length < fuel1) :
    Graph.deepMerge overwrite listKey (fuel + 1) dst src h vis next
      = ⟨h, vis, next, none, Status.ok⟩
    ∧ (Graph.deepMerge overwrite listKey fuel1 dst1 src1 h1 vis1 next1).status ≠ Status.fuel
    ∧ (Graph.merge fuel1 next1 h1 d s overwrite listKey).status ≠ Status.fuel :=
  ⟨deepMerge_visited_hit overwrite listKey fuel dst src h vis next a v hl hv hin,
    (deepMerge_ends (Graph.allPlaces h1) overwrite listKey fuel1 dst1 src1 h1 vis1 next1 a1 hl1
      ⟨hrp, rfl⟩ (Nat.lt_of_le_of_lt (unvisited_le_length _ _) hfuel)).1,
    merge_ends fuel1 next1 h1 d s overwrite listKey hrp hfuel⟩

/-- Witness for C14: the first record of a ring of two, entered a second time;
and the ring of the objects 1 and 2 merged with the ring of the objects 3 and 4,
twelve places in all. -/
theorem deepMerge_visited_check_witness :
    Graph.deepMerge false "" 1 ⟨none, some (1, []), false⟩ ⟨none, some (3, []), false⟩
        Graph.ringHeap [((1, []), Ty.named "N")] 10
      = ⟨Graph.ringHeap, [((1, []), Ty.named "N")], 10, none, Status.ok⟩
    ∧ (Graph.deepMerge false "" 13 ⟨none, some (1, []), false⟩ ⟨none, some (3, []), false⟩
        Graph.ringHeap [] 10).status ≠ Status.fuel
    ∧ (Graph.merge 13 10 Graph.ringHeap (.ptr (.named "N") (some 1))
        (.ptr (.named "N") (some 3)) false "").status ≠ Status.fuel :=
  deepMerge_visited_check false "" 0 13 10 10 ⟨none, some (1, []), false⟩
    ⟨none, some (3, []), false⟩ ⟨none, some (1, []), false⟩ ⟨none, some (3, []), false⟩
    Graph.ringHeap Graph.ringHeap [((1, []), Ty.named "N")] [] (1, []) (1, [])
    (.struct "N" [("V", .str ""), ("P", .ptr (.named "N") (some 2))])
    (.ptr (.named "N") (some 1)) (.ptr (.named "N") (some 3))
    rfl rfl (List.mem_cons_self _ _) rfl (by decide) (by decide)

/-- The ring of the objects 1 and 2 merged with the ring of the objects 3 and 4
in fill-only mode returns normally, and the empty `V` of the object 1 is
filled. -/
theorem merge_ring_returns :
    (Graph.Merge 13 10 Graph.ringHeap (.ptr (.named "N") (some 1))
        (.ptr (.named "N") (some 3)) "").status = Status.ok
    ∧ Graph.heapGet (Graph.Merge 13 10 Graph.ringHeap (.ptr (.named "N") (some 1))
        (.ptr (.named "N") (some 3)) "").heap 1
      = some (.cell (.struct "N" [("V", .str "s"), ("P", .ptr (.named "N") (some 2))])) :=
  ⟨rfl, rfl⟩

/-- The map `m` with `m["self"] = m`, merged in fill-only
mode with a second map of this shape: no recursion budget suffices, the merge
never returns.  The maps below the one passed to `Merge` are reached through
`MapIndex` and `Elem`, are not addressable, and are never looked up in the
visited set. -/
theorem merge_self_map_diverges :
    ¬ ∃ fuel, (Graph.Merge fuel 10 Graph.selfMapHeap (.ptr (.map .string .iface) (some 0))
        (.map .string .iface (some 2)) "").status ≠ Status.fuel := by
  rintro ⟨fuel, h⟩
  apply h
  match fuel with
  | 0 => rfl
  | 1 => rfl
  | f + 2 =>
    have ih := deepMerge_selfMap_inner "" f
      [((0, []), Ty.map .string .iface)] 10
    simp [Graph.selfMapHeap] at ih
    simp only [Graph.Merge, Graph.merge, Graph.resolveValues]
    simp [Graph.deepMerge, Graph.IsValid, Graph.load, Graph.enter, Graph.KindOf, Graph.kindOf,
      Graph.MapKeys, Graph.readAt, Graph.subVal, Graph.TypeOf, Graph.typeOf,
      Graph.tableOf, Graph.selfMapHeap, Graph.heapGet, Graph.mapLoop, Graph.MapIndex, assignable,
      Graph.mapLookup, Graph.IsNil, Graph.CanInterface, Graph.dynKind, Graph.ptrCase, Graph.Elem,
      ih]


/-! ### A cycle through the elements of a sequence -/

theorem cyc_leaf (g n next : Nat) (h : Graph.Heap) (vis : Visited)
    (h6 : Graph.heapGet h 6 = some (.array
      [.struct "E" [("K", .str "a"), ("Sub", .slice (.named "E") none 0 0)],
       .struct "E" [("K", .str "z"), ("Sub", .slice (.named "E") none 0 0)],
       .struct "E" [("K", .str "a"), ("Sub", .slice (.named "E") (some 6) 3 3)]]))
    (hn : Graph.heapGet h n = some (.array
      [.struct "E" [("K", .str "a"), ("Sub", .slice (.named "E") (some 5) 1 1)],
       .struct "E" [("K", .str "z"), ("Sub", .slice (.named "E") none 0 0)]]))
    (hv : ((n, [0, 0]), Ty.string) ∉ vis) :
    Graph.deepMerge false "K" (g + 1) ⟨none, some (n, [0, 0]), false⟩
        ⟨none, some (6, [2, 0]), false⟩ h vis next
      = ⟨h, ((n, [0, 0]), Ty.string) :: vis, next, none, Status.ok⟩ := by
  simp [Graph.deepMerge, Graph.IsValid, Graph.load, Graph.readAt, h6, hn, Graph.subVal,
    Graph.enter, Graph.typeOf, hv, Graph.KindOf, Graph.kindOf, Graph.assignRule, Graph.CanSet,
    Graph.isEmptyValue]

theorem cyc_sub (g n next : Nat) (h : Graph.Heap) (vis : Visited)
    (h5 : Graph.heapGet h 5 = some (.array
      [.struct "E" [("K", .str "a"), ("Sub", .slice (.named "E") (some 5) 1 1)]]))
    (h6 : Graph.heapGet h 6 = some (.array
      [.struct "E" [("K", .str "a"), ("Sub", .slice (.named "E") none 0 0)],
       .struct "E" [("K", .str "z"), ("Sub", .slice (.named "E") none 0 0)],
       .struct "E" [("K", .str "a"), ("Sub", .slice (.named "E") (some 6) 3 3)]]))
    (hn : Graph.heapGet h n = some (.array
      [.struct "E" [("K", .str "a"), ("Sub", .slice (.named "E") (some 5) 1 1)],
       .struct "E" [("K", .str "z"), ("Sub", .slice (.named "E") none 0 0)]]))
    (hn6 : 6 < n) (hnn : n < next) (hlt : ∀ x, x ∈ vis → x.1.1 < next)
    (hv5 : ((5, [0]), Ty.named "E") ∈ vis)
    (hv : ((n, [0, 1]), Ty.slice (.named "E")) ∉ vis)
    (ih : ∀ (n1 next1 : Nat) (h1 : Graph.Heap) (vis1 : Visited),
      Graph.CycRound n1 next1 h1 vis1 →
      (Graph.deepMerge false "K" g ⟨none, some (n1, [0]), false⟩
        ⟨none, some (6, [2]), false⟩ h1 vis1 next1).status = Status.fuel) :
    (Graph.deepMerge false "K" (g + 1) ⟨none, some (n, [0, 1]), false⟩
        ⟨none, some (6, [2, 1]), false⟩ h vis next).status = Status.fuel := by
  have hn5 : n ≠ 5 := by omega
  have hn6' : n ≠ 6 := by omega
  have hK : ¬ "K".length = 0 := by decide
  cases g with
  | zero =>
    simp [Graph.deepMerge, Graph.IsValid, Graph.load, Graph.readAt, h5, h6, hn, Graph.subVal,
      Graph.enter, Graph.typeOf, hv, Graph.KindOf, Graph.kindOf, Graph.sliceCase,
      Graph.sliceKindOf, Graph.Len, Graph.Index, Graph.deepMergeSlices, Graph.sliceLoop,
      Graph.scanB, Graph.TypeOf, Graph.FieldByName, Graph.fieldIndex, Graph.Field,
      Graph.StringOf, isExported, hK]
  | succ g =>
    have hhit : ∀ vis1, ((5, [0]), Ty.named "E") ∈ vis1 → ∀ nx,
        Graph.deepMerge false "K" (g + 1) ⟨none, some (5, [0]), false⟩
          ⟨none, some (6, [0]), false⟩ h vis1 nx = ⟨h, vis1, nx, none, Status.ok⟩ := by
      intro vis1 hin nx
      exact deepMerge_visited_hit false "K" g _ _ h vis1 nx (5, [0])
        (.struct "E" [("K", .str "a"), ("Sub", .slice (.named "E") (some 5) 1 1)]) rfl
        (by simp [Graph.load, Graph.readAt, h5, Graph.subVal]) hin
    have e1 : ¬ 6 = next := by omega
    have e2 : ¬ 5 = next := by omega
    have e3 : ¬ n = next := by omega
    have e4 : ¬ next = n := by omega
    have e5 : ¬ 6 = n := by omega
    have e6 : ¬ 5 = n := by omega
    have e7 : ¬ next = 6 := by omega
    have e8 : ¬ next = 5 := by omega
    rw [Graph.deepMerge]
    simp [Graph.IsValid, Graph.load, Graph.readAt, h5, h6, hn, Graph.subVal,
      Graph.enter, Graph.typeOf, hv, Graph.KindOf, Graph.kindOf, Graph.sliceCase,
      Graph.sliceKindOf, Graph.Len, Graph.Index, Graph.deepMergeSlices, Graph.sliceLoop,
      Graph.scanB, Graph.TypeOf, Graph.FieldByName, Graph.fieldIndex, Graph.Field,
      Graph.StringOf, isExported, hK, hhit, hv5, Graph.Append, Graph.SetV, Graph.writeAt,
      Graph.setSub, Graph.stored, assignable, growCap, heapGet_heapPut, Graph.CanSet,
      e1, e2, e3, e4, e5, e6, e7, e8, hn5, hn6']
    generalize hr : Graph.deepMerge false "K" (g + 1) ⟨none, some (next, [0]), false⟩ _ _ _ _ = r
    have hst : r.status = Status.fuel := by
      rw [← hr]
      apply ih
      refine ⟨?_, ?_, ?_, by omega, by omega, ?_, ?_, ?_⟩
      · simp [heapGet_heapPut, e2, e6, h5]
      · simp [heapGet_heapPut, e1, e5, h6]
      · simp [heapGet_heapPut, e4]
      · intro x hx
        rcases List.mem_cons.mp hx with hx | hx
        · subst hx
          show n < next + 1
          omega
        · have := hlt x hx
          omega
      · exact List.mem_cons_of_mem _ hv5
      · intro x hx
        rcases List.mem_cons.mp hx with hx | hx
        · subst hx
          exact e3
        · have := hlt x hx
          omega
    simp [hst]

/-- Every round of the merge on the sequence that holds itself leads to the next
one, on a new backing array: no recursion budget lets it return. -/
theorem cyc_round : ∀ (f n next : Nat) (h : Graph.Heap) (vis : Visited),
    Graph.CycRound n next h vis →
    (Graph.deepMerge false "K" f ⟨none, some (n, [0]), false⟩
      ⟨none, some (6, [2]), false⟩ h vis next).status = Status.fuel
  | 0, _, _, _, _, _ => rfl
  | 1, n, next, h, vis, hc => by
    obtain ⟨h5, h6, hn, hn6, hnn, hlt, hv5, hvn⟩ := hc
    have hv0 : ((n, [0]), Ty.named "E") ∉ vis := fun hx => hvn _ hx rfl
    simp [Graph.deepMerge, Graph.IsValid, Graph.load, Graph.readAt, h6, hn, Graph.subVal,
      Graph.enter, Graph.typeOf, hv0, Graph.KindOf, Graph.kindOf, Graph.NumField,
      Graph.structLoop, Graph.Field, isExported]
  | f + 2, n, next, h, vis, hc => by
    have hc0 := hc
    obtain ⟨h5, h6, hn, hn6, hnn, hlt, hv5, hvn⟩ := hc
    have hv0 : ((n, [0]), Ty.named "E") ∉ vis := fun hx => hvn _ hx rfl
    have hleaf := cyc_leaf f n next h (((n, [0]), Ty.named "E") :: vis) h6 hn
      (by
        intro hx
        rcases List.mem_cons.mp hx with hx | hx
        · simp at hx
        · exact hvn _ hx rfl)
    have hsub := cyc_sub f n next h
      (((n, [0, 0]), Ty.string) :: ((n, [0]), Ty.named "E") :: vis)
      h5 h6 hn hn6 hnn ?_ ?_ ?_ (cyc_round f)
    · rw [Graph.deepMerge]
      simp [Graph.IsValid, Graph.load, Graph.readAt, h6, hn, Graph.subVal,
        Graph.enter, Graph.typeOf, hv0, Graph.KindOf, Graph.kindOf, Graph.NumField,
        Graph.structLoop, Graph.Field, isExported, hleaf, hsub]
    · intro x hx
      simp only [List.mem_cons] at hx
      rcases hx with hx | hx | hx
      · subst hx
        exact hnn
      · subst hx
        exact hnn
      · exact hlt x hx
    · exact List.mem_cons_of_mem _ (List.mem_cons_of_mem _ hv5)
    · intro hx
      simp only [List.mem_cons] at hx
      rcases hx with hx | hx | hx
      · simp at hx
      · simp at hx
      · exact hvn _ hx rfl

theorem cyc_first (f next : Nat) :
    Graph.deepMerge false "K" (f + 2) ⟨none, some (5, [0]), false⟩
        ⟨none, some (6, [0]), false⟩ Graph.cycSliceHeap
        [((0, [0]), Ty.slice (.named "E")), ((0, []), Ty.named "S")] next
      = ⟨Graph.cycSliceHeap,
          [((5, [0, 1]), Ty.slice (.named "E")), ((5, [0, 0]), Ty.string),
            ((5, [0]), Ty.named "E"), ((0, [0]), Ty.slice (.named "E")),
            ((0, []), Ty.named "S")], next, none, Status.ok⟩ := by
  have hK : ¬ "K".length = 0 := by decide
  simp [Graph.deepMerge, Graph.IsValid, Graph.load, Graph.readAt, Graph.subVal,
    Graph.enter, Graph.typeOf, Graph.KindOf, Graph.kindOf, Graph.sliceCase,
    Graph.sliceKindOf, Graph.Len, Graph.Index, Graph.deepMergeSlices, Graph.sliceLoop,
    Graph.scanB, Graph.Field, isExported, hK, Graph.CanSet,
    Graph.cycSliceHeap, Graph.heapGet, Graph.NumField, Graph.structLoop,
    Graph.assignRule, Graph.isEmptyValue]

/-- The sequence that holds itself in its one element (`d[0] = {K: "a", Sub:
d}`), merged in fill-only mode with `src.L = s`, `s = [{K: "a"}, {K: "z"}, {K:
"a", Sub: s}]`, key `K`, on the heap `Graph.cycSliceHeap`: no recursion budget
suffices, the merge never returns.  The element `z` has no match and is appended;
the sequence is full, so the append moves its elements to a new backing array;
the second element of `src` with the key `a` then matches the moved copy, whose
address is not in the visited set, and the descent through its `Sub` meets the
same sequence again. -/
theorem merge_cyclic_sequence_diverges :
    ¬ ∃ fuel, (Graph.Merge fuel 10 Graph.cycSliceHeap (.ptr (.named "S") (some 0))
        (.struct "S" [("L", .slice (.named "E") (some 6) 3 3)]) "K").status ≠ Status.fuel := by
  rintro ⟨fuel, h⟩
  apply h
  match fuel with
  | 0 => rfl
  | 1 => rfl
  | 2 => rfl
  | 3 => rfl
  | f + 4 =>
    have hK : ¬ "K".length = 0 := by decide
    have hfirst := cyc_first f 10
    have hg0 : Graph.heapGet Graph.cycSliceHeap 0
        = some (.cell (.struct "S" [("L", .slice (.named "E") (some 5) 1 1)])) := rfl
    have hg5 : Graph.heapGet Graph.cycSliceHeap 5 = some (.array
        [.struct "E" [("K", .str "a"), ("Sub", .slice (.named "E") (some 5) 1 1)]]) := rfl
    have hg6 : Graph.heapGet Graph.cycSliceHeap 6 = some (.array
        [.struct "E" [("K", .str "a"), ("Sub", .slice (.named "E") none 0 0)],
         .struct "E" [("K", .str "z"), ("Sub", .slice (.named "E") none 0 0)],
         .struct "E" [("K", .str "a"), ("Sub", .slice (.named "E") (some 6) 3 3)]]) := rfl
    simp only [Graph.Merge, Graph.merge, Graph.resolveValues]
    simp [Graph.load, Graph.readAt, Graph.subVal, Graph.typeOf, Graph.KindOf, Graph.kindOf,
      Graph.TypeOf, hg0]
    rw [show f + 4 = (f + 3) + 1 from rfl, Graph.deepMerge]
    simp [Graph.IsValid, Graph.load, Graph.readAt, Graph.subVal,
      Graph.enter, Graph.typeOf, Graph.KindOf, Graph.kindOf,
      Graph.TypeOf, Graph.Field, isExported, hg0, Graph.NumField, Graph.structLoop]
    rw [show f + 3 = (f + 2) + 1 from rfl, Graph.deepMerge]
    simp [Graph.IsValid, Graph.load, Graph.readAt, Graph.subVal,
      Graph.enter, Graph.typeOf, Graph.KindOf, Graph.kindOf, Graph.sliceCase,
      Graph.sliceKindOf, Graph.Len, Graph.Index, Graph.deepMergeSlices, Graph.sliceLoop,
      Graph.scanB, Graph.TypeOf, Graph.FieldByName, Graph.fieldIndex, Graph.Field,
      Graph.StringOf, isExported, hK, Graph.Append, Graph.SetV, Graph.writeAt,
      Graph.setSub, Graph.stored, assignable, growCap, Graph.CanSet,
      hg0, hg5, hg6, heapGet_heapPut, hfirst]
    generalize hr : Graph.deepMerge false "K" (f + 2) ⟨none, some (10, [0]), false⟩ _ _ _ _ = r
    have hst : r.status = Status.fuel := by
      rw [← hr]
      apply cyc_round
      refine ⟨?_, ?_, ?_, by omega, by omega, ?_, ?_, ?_⟩
      · simp [heapGet_heapPut, hg5]
      · simp [heapGet_heapPut, hg6]
      · simp [heapGet_heapPut]
      · intro x hx
        simp only [List.mem_cons, List.mem_singleton, List.not_mem_nil, or_false] at hx
        rcases hx with hx | hx | hx | hx | hx <;> (subst hx; decide)
      · simp
      · intro x hx
        simp only [List.mem_cons, List.mem_singleton, List.not_mem_nil, or_false] at hx
        rcases hx with hx | hx | hx | hx | hx <;> (subst hx; decide)
    simp [hst]

/-- C14 (counterexample). Two destination graphs with a reference cycle on which
the merge never returns, whatever the recursion budget.  The map `m` with
`m["self"] = m`, merged in fill-only mode with a second map of this shape: the
maps below the one passed to `Merge` are reached through `MapIndex` and `Elem`,
are not addressable, and are never looked up in the visited set.  And the
sequence `d` with `d[0] = {K: "a", Sub: d}`, merged with `s = [{K: "a"}, {K:
"z"}, {K: "a", Sub: s}]` under the key `K`: every element is addressable and is
recorded, but the append of `z` moves the elements of the full sequence to a new
backing array, the second `a` of `src` matches the moved copy, whose address is
new, and the descent through its `Sub` meets the same sequence again. -/
theorem merge_cycle_never_returns :
    (¬ ∃ fuel, (Graph.Merge fuel 10 Graph.selfMapHeap (.ptr (.map .string .iface) (some 0))
        (.map .string .iface (some 2)) "").status ≠ Status.fuel)
    ∧ (¬ ∃ fuel, (Graph.Merge fuel 10 Graph.cycSliceHeap (.ptr (.named "S") (some 0))
        (.struct "S" [("L", .slice (.named "E") (some 6) 3 3)]) "K").status ≠ Status.fuel) :=
  ⟨merge_self_map_diverges, merge_cyclic_sequence_diverges⟩


/-- C15 (failing input). `dst = S{}`, `src = S{L: []E{{K: "a", P: p}, {K: "a",
P: q}}}` with `*p = T{V: ""}` and `*q = T{V: "y"}`, list key `K`, fill-only, on
the heap `Graph.sameKeyHeap`.  Neither pass of `deepMergeSlices` writes to the
sequence it has in the role of the source (first two parts, on the tree
embedding).  But the backwards pass appends the element `src.L[0]` to `dst.L`, and
with it the pointer `p`; the second element of `src` has the same key, so it is
merged into the appended element, and the recursion through `P` fills the empty
`V` of `*p`: the merge returns normally, and `src.L[0].P.V`, empty before the call,
reads `"y"` after it. -/
theorem merge_writes_source_object :
    (∀ (rec : Value → Value → Visited → Nat → Res) (listKey : String) (ign : List Nat)
        (a b : Value) (vis : Visited) (next : Nat),
        (deepMergeSlices rec a b vis next false listKey ign).b = b)
    ∧ (∀ (rec : Value → Value → Visited → Nat → Res) (listKey : String) (ign : List Nat)
        (a b : Value) (vis : Visited) (next : Nat),
        (deepMergeSlices rec a b vis next true listKey ign).a = a)
    ∧ (Graph.Merge 8 10 Graph.sameKeyHeap (.ptr (.named "S") (some 0))
        (.struct "S" [("L", .slice (.named "E") (some 5) 2 2)]) "K").status = Status.ok
    ∧ leafAt [.field 0, .index 0, .field 1, .elem, .field 0]
        (Graph.view Graph.sameKeyHeap 8 (.struct "S" [("L", .slice (.named "E") (some 5) 2 2)]))
      = some (.str "")
    ∧ leafAt [.field 0, .index 0, .field 1, .elem, .field 0]
        (Graph.view
          (Graph.Merge 8 10 Graph.sameKeyHeap (.ptr (.named "S") (some 0))
            (.struct "S" [("L", .slice (.named "E") (some 5) 2 2)]) "K").heap
          8 (.struct "S" [("L", .slice (.named "E") (some 5) 2 2)]))
      = some (.str "y") := by
  refine ⟨?_, ?_, rfl, rfl, rfl⟩
  · intro rec listKey ign a b vis next
    unfold deepMergeSlices
    split
    · rfl
    · exact sliceLoop_forward_b rec listKey ign b _ _ _ _ _ _ _
  · intro rec listKey ign a b vis next
    unfold deepMergeSlices
    split
    · rfl
    · exact sliceLoop_backward_a rec listKey ign a _ _ _ _ _ _ _

/-- C19 (counterexample). `dst = {"a": m, "b": m}`, one empty map `m` under both
keys, and `src = {"a": {"x": 1}, "b": {"x": 2}}`, fill-only, on the heap
`Graph.sharedMapHeap`, which differs in nothing but the order in which the keys
of `src` are enumerated.  Both merges return normally; with `a` first `m["x"]`
ends as 1, with `b` first as 2. -/
theorem merge_shared_map_order :
    (Graph.Merge 5 10 (Graph.sharedMapHeap true) (.ptr (.map .string (.map .string .int)) (some 0))
        (.map .string (.map .string .int) (some 2)) "").status = Status.ok
    ∧ (Graph.Merge 5 10 (Graph.sharedMapHeap false)
        (.ptr (.map .string (.map .string .int)) (some 0))
        (.map .string (.map .string .int) (some 2)) "").status = Status.ok
    ∧ leafAt [.elem, .key (.str "a"), .key (.str "x")]
        (Graph.view
          (Graph.Merge 5 10 (Graph.sharedMapHeap true)
            (.ptr (.map .string (.map .string .int)) (some 0))
            (.map .string (.map .string .int) (some 2)) "").heap
          5 (.ptr (.map .string (.map .string .int)) (some 0)))
      = some (.int 1)
    ∧ leafAt [.elem, .key (.str "a"), .key (.str "x")]
        (Graph.view
          (Graph.Merge 5 10 (Graph.sharedMapHeap false)
            (.ptr (.map .string (.map .string .int)) (some 0))
            (.map .string (.map .string .int) (some 2)) "").heap
          5 (.ptr (.map .string (.map .string .int)) (some 0)))
      = some (.int 2) :=
  ⟨rfl, rfl, rfl, rfl⟩

/-! ## The map case, one key at a time -/

/-- The loop of the map case runs the step for its first key and goes on with
the other keys, or ends with the outcome of the step. -/
theorem mapLoop_step (rec : Value → Value → Visited → Nat → Res) (overwrite : Bool)
    (src : Value) (kty : Ty) (key : Key) (rest : List Key) (dst : Value) (vis : Visited)
    (next : Nat) :
    mapLoop rec overwrite src kty (key :: rest) dst vis next
      = match mapStep rec overwrite src kty key dst vis next with
        | .inl (d, v, n) => mapLoop rec overwrite src kty rest d v n
        | .inr o => o := by
  simp only [mapLoop, mapStep]
  repeat' split
  all_goals first | rfl | simp_all

theorem isNilVal_spec (s : Val) (ro : Bool) :
    ((Value.Kind ⟨some s, none, ro⟩ ∈ [Kind.map, Kind.ptr, Kind.interface, Kind.slice]
      ∧ Value.IsNil ⟨some s, none, ro⟩ = some true) ↔ isNilVal s = true) := by
  cases s <;> simp [Value.Kind, kindOf, Value.IsNil, isNilVal]

/-- What `MapIndex` returns on a map. -/
theorem mapIndex_map {x : Value} {kt vt : Ty} {es : Option (List (Key × Val))} {k : Key}
    {kty : Ty} {kro : Bool} {el : Value} (hx : x.val = some (.map kt vt es))
    (h : x.MapIndex k kty kro = some el) :
    el = elemValue (entryOf x.val k) (x.ro || kro) := by
  unfold Value.MapIndex at h
  rw [hx] at h
  simp only at h
  split at h
  · cases es with
    | none =>
      simp only [Option.some.injEq] at h
      rw [← h, hx]
      rfl
    | some l =>
      simp only at h
      rw [hx]
      simp only [entryOf]
      cases hl : mapLookup k l with
      | none => rw [hl] at h; simp only [Option.some.injEq] at h; rw [← h]; rfl
      | some v => rw [hl] at h; simp only [Option.some.injEq] at h; rw [← h]; rfl
  · simp at h

theorem putEntry_entry {x : Value} {kt vt : Ty} {es : Option (List (Key × Val))}
    (hx : x.val = some (.map kt vt es)) (key : Key) (rv : Option Val) :
    (∃ es1, (x.putEntry key rv).val = some (.map kt vt es1) ∧ (es1.isNone = es.isNone))
    ∧ (x.putEntry key rv).addr = x.addr ∧ (x.putEntry key rv).ro = x.ro
    ∧ (∀ k, k ≠ key → entryOf (x.putEntry key rv).val k = entryOf x.val k)
    ∧ entryOf (x.putEntry key rv).val key
        = (match entryOf x.val key, rv with
          | some _, some w => some w
          | d, _ => d) := by
  unfold Value.putEntry
  rw [hx]
  cases es with
  | none =>
    refine ⟨⟨none, by cases rv <;> simp [hx], rfl⟩, by cases rv <;> rfl, by cases rv <;> rfl,
      fun k _ => by cases rv <;> simp [hx], ?_⟩
    cases rv <;> simp [hx, entryOf]
  | some l =>
    cases rv with
    | none =>
      refine ⟨⟨some l, by simp [hx], rfl⟩, rfl, rfl, fun k _ => by simp [hx], ?_⟩
      simp only [hx, entryOf]
      cases mapLookup key l <;> rfl
    | some w =>
      refine ⟨⟨some (mapReplace key w l), rfl, rfl⟩, rfl, rfl, ?_, ?_⟩
      · intro k hk
        simp only [entryOf, mapLookup_mapReplace]
        have : ¬ key = k := fun e => hk e.symm
        simp [this]
      · simp only [entryOf, mapLookup_mapReplace, true_and]
        cases mapLookup key l <;> simp

theorem setMapIndex_entry {x elem : Value} {kt vt : Ty} {es : Option (List (Key × Val))}
    {key : Key} {kty : Ty} {m1 e : Val} (hx : x.val = some (.map kt vt es))
    (he : elem.val = some e) (h : x.SetMapIndex key kty elem = some m1) :
    (∃ es1, m1 = .map kt vt (some es1))
    ∧ (∀ k, k ≠ key → entryOf (some m1) k = entryOf x.val k)
    ∧ entryOf (some m1) key = some (stored vt e) := by
  unfold Value.SetMapIndex at h
  rw [hx, he] at h
  cases es with
  | none => simp at h
  | some l =>
    simp only at h
    split at h
    · simp only [Option.some.injEq] at h
      subst h
      refine ⟨⟨_, rfl⟩, ?_, ?_⟩
      · intro k hk
        have : ¬ key = k := fun e => hk e.symm
        simp [entryOf, hx, mapLookup_mapInsert, this]
      · simp [entryOf, mapLookup_mapInsert]
    · simp at h

theorem set_makeMap {x : Value} {kt vt : Ty} {m : Val} (hx : x.val = some (.map kt vt none))
    (h : x.Set (makeMap x) = some m) : m = .map kt vt (some []) := by
  simp only [Value.Set, makeMap, hx] at h
  split at h
  · simp only [Option.some.injEq] at h
    rw [← h]
    rfl
  · simp at h

/-- One step of the map case that lets the loop go on: what it does to the
entries of `dst`. -/
theorem mapStep_inl {rec : Value → Value → Visited → Nat → Res} {overwrite : Bool}
    {src dst d1 : Value} {kty kt vt skt svt : Ty} {des ses : Option (List (Key × Val))}
    {key : Key} {vis v : Visited} {next n : Nat}
    (hd : dst.val = some (.map kt vt des)) (hs : src.val = some (.map skt svt ses))
    (hstep : mapStep rec overwrite src kty key dst vis next = .inl (d1, v, n)) :
    d1.addr = dst.addr ∧ d1.ro = dst.ro ∧ (∃ des1, d1.val = some (.map kt vt des1))
    ∧ (∀ k, k ≠ key → entryOf d1.val k = entryOf dst.val k)
    ∧ (entryOf src.val key = none → d1 = dst ∧ v = vis ∧ n = next)
    ∧ (∀ s, entryOf src.val key = some s →
        entryOf d1.val key
          = entryRule rec overwrite dst.ro src.ro vt (entryOf dst.val key) s vis next
        ∧ ((v = vis ∧ n = next)
          ∨ (v = (rec (elemValue (entryOf dst.val key) (dst.ro || src.ro))
                ⟨some s, none, src.ro⟩ vis next).visited
            ∧ n = (rec (elemValue (entryOf dst.val key) (dst.ro || src.ro))
                ⟨some s, none, src.ro⟩ vis next).next))) := by
  unfold mapStep at hstep
  cases hsi : src.MapIndex key kty src.ro with
  | none => rw [hsi] at hstep; simp at hstep
  | some srcElement =>
    cases hdi : dst.MapIndex key kty src.ro with
    | none => rw [hsi, hdi] at hstep; simp at hstep
    | some dstElement =>
      rw [hsi, hdi] at hstep
      simp only at hstep
      have hse := mapIndex_map hs hsi
      have hde := mapIndex_map hd hdi
      cases hsk : entryOf src.val key with
      | none =>
        rw [hsk] at hse
        subst hse
        simp only [elemValue, Value.IsValid, Option.isSome_none, Bool.not_false, if_true,
          Sum.inl.injEq, Prod.mk.injEq] at hstep
        obtain ⟨h1, h2, h3⟩ := hstep
        subst h1 h2 h3
        exact ⟨rfl, rfl, ⟨des, hd⟩, fun _ _ => rfl, fun _ => ⟨rfl, rfl, rfl⟩,
          fun s hs0 => by simp at hs0⟩
      | some s =>
        rw [hsk] at hse
        simp only [elemValue, Bool.or_self] at hse
        subst hse
        have hvalid : Value.IsValid ⟨some s, none, src.ro⟩ = true := rfl
        simp only [hvalid, Bool.not_true, Bool.false_eq_true, if_false] at hstep
        have same : d1 = dst → v = vis → n = next →
            entryRule rec overwrite dst.ro src.ro vt (entryOf dst.val key) s vis next
              = entryOf dst.val key →
            d1.addr = dst.addr ∧ d1.ro = dst.ro ∧ (∃ des1, d1.val = some (.map kt vt des1))
            ∧ (∀ k, k ≠ key → entryOf d1.val k = entryOf dst.val k)
            ∧ (some s = none → d1 = dst ∧ v = vis ∧ n = next)
            ∧ (∀ s1, some s = some s1 →
                entryOf d1.val key
                  = entryRule rec overwrite dst.ro src.ro vt (entryOf dst.val key) s1 vis next
                ∧ ((v = vis ∧ n = next)
                  ∨ (v = (rec (elemValue (entryOf dst.val key) (dst.ro || src.ro))
                        ⟨some s1, none, src.ro⟩ vis next).visited
                    ∧ n = (rec (elemValue (entryOf dst.val key) (dst.ro || src.ro))
                        ⟨some s1, none, src.ro⟩ vis next).next))) := by
          intro h1 h2 h3 h4
          subst h1 h2 h3
          refine ⟨rfl, rfl, ⟨des, hd⟩, fun _ _ => rfl, fun h0 => by simp at h0, ?_⟩
          intro s1 hs1
          simp only [Option.some.injEq] at hs1
          subst hs1
          exact ⟨h4.symm, Or.inl ⟨rfl, rfl⟩⟩
        subst hde
        by_cases hnil : isNilVal s = true
        · have hc := (isNilVal_spec s src.ro).mpr hnil
          simp only [hc, and_self, if_true, Sum.inl.injEq, Prod.mk.injEq] at hstep
          exact same hstep.1.symm hstep.2.1.symm hstep.2.2.symm (by simp [entryRule, hnil])
        · have hc : ¬ (Value.Kind ⟨some s, none, src.ro⟩
              ∈ [Kind.map, Kind.ptr, Kind.interface, Kind.slice]
              ∧ Value.IsNil ⟨some s, none, src.ro⟩ = some true) :=
            fun h => hnil ((isNilVal_spec s src.ro).mp h)
          simp only [hc, if_false] at hstep
          by_cases hro : src.ro = true
          · simp only [Value.CanInterface, hro, Bool.not_true, Bool.not_false, if_true,
              Sum.inl.injEq, Prod.mk.injEq] at hstep
            exact same hstep.1.symm hstep.2.1.symm hstep.2.2.symm (by simp [entryRule, hro])
          · have hro1 : src.ro = false := by simpa using hro
            simp only [Value.CanInterface, hro1, Bool.not_false, Bool.not_true,
              Bool.false_eq_true, if_false] at hstep
            simp only [hro1] at hdi ⊢
            generalize hr : (if dynKind ⟨some s, none, false⟩ ∈ [Kind.struct, Kind.ptr, Kind.map]
                then rec (elemValue (entryOf dst.val key) (dst.ro || false))
                  ⟨some s, none, false⟩ vis next
                else (⟨(elemValue (entryOf dst.val key) (dst.ro || false)).val, vis, next, none,
                  Status.ok⟩ : Res)) = r at hstep
            have hrv : (r.visited = vis ∧ r.next = next)
                ∨ (r.visited = (rec (elemValue (entryOf dst.val key) (dst.ro || false))
                      ⟨some s, none, false⟩ vis next).visited
                  ∧ r.next = (rec (elemValue (entryOf dst.val key) (dst.ro || false))
                      ⟨some s, none, false⟩ vis next).next) := by
              rw [← hr]
              split
              · exact Or.inr ⟨rfl, rfl⟩
              · exact Or.inl ⟨rfl, rfl⟩
            obtain ⟨⟨es1, hval1, hnone⟩, haddr, hrop, hother, hown⟩ :=
              putEntry_entry hd key r.val
            have hvd : (elemValue (entryOf dst.val key) (dst.ro || false)).IsValid
                = (entryOf dst.val key).isSome := by
              cases entryOf dst.val key <;> rfl
            have hse : isEmptyValue ⟨some s, none, false⟩ = isEmptyVal s := rfl
            have hne : (entryOf dst.val key).isSome = true →
                isEmptyValue (dst.putEntry key r.val) = false := by
              intro hsome
              exact putEntry_not_empty hdi (by rw [hvd]; exact hsome)
            have hrule : entryRule rec overwrite dst.ro false vt (entryOf dst.val key) s vis next
                = if !isEmptyVal s && (overwrite || (entryOf dst.val key).isNone) then
                    some (stored vt s)
                  else (match entryOf dst.val key, r.val with
                    | some _, some w => some w
                    | d, _ => d) := by
              have hn : isNilVal s = false := by simpa using hnil
              simp only [entryRule, hn, Bool.or_false, Bool.false_eq_true, if_false]
              split
              · rfl
              · rw [← hr]
                cases hdk : entryOf dst.val key with
                | none => rfl
                | some dv =>
                  simp only [elemValue, Bool.or_false]
                  split
                  · split <;> simp_all
                  · rfl
            split at hstep
            · split at hstep
              · rename_i hcond
                have hcond1 : (!isEmptyVal s && (overwrite || (entryOf dst.val key).isNone))
                    = true := by
                  simp only [hse, hvd, Bool.and_eq_true, Bool.or_eq_true, Bool.not_eq_true']
                    at hcond ⊢
                  refine ⟨hcond.1, ?_⟩
                  rcases hcond.2 with h | h | h
                  · exact Or.inl h
                  · right; cases hx : entryOf dst.val key <;> simp_all
                  · right
                    cases hx : entryOf dst.val key with
                    | none => rfl
                    | some dv =>
                      have := hne (by rw [hx]; rfl)
                      rw [this] at h
                      cases h
                split at hstep
                · rename_i hisnil
                  have hes1 : es1 = none := by
                    simp only [Value.IsNil, hval1, Option.some.injEq,
                      Option.isNone_iff_eq_none] at hisnil
                    exact hisnil
                  subst hes1
                  have hdes : des = none := by
                    cases des with
                    | none => rfl
                    | some l => simp at hnone
                  subst hdes
                  split at hstep
                  · simp at hstep
                  · rename_i m hset
                    have hm := set_makeMap hval1 hset
                    subst hm
                    split at hstep
                    · simp at hstep
                    · rename_i m1 hsmi
                      simp only [Sum.inl.injEq, Prod.mk.injEq] at hstep
                      obtain ⟨h1, h2, h3⟩ := hstep
                      subst h1 h2 h3
                      obtain ⟨⟨esm, hesm⟩, ho, hk⟩ := @setMapIndex_entry
                        { dst.putEntry key r.val with val := some (.map kt vt (some [])) }
                        ⟨some s, none, false⟩ _ _ _ _ _ _ _ rfl rfl hsmi
                      refine ⟨haddr, hrop, ⟨some esm, by simp [hesm]⟩, ?_, fun h0 => by simp at h0, ?_⟩
                      · intro k hk1
                        rw [ho k hk1]
                        simp [entryOf, hd, mapLookup]
                      · intro s1 hs1
                        simp only [Option.some.injEq] at hs1
                        subst hs1
                        refine ⟨?_, hrv⟩
                        rw [hrule]
                        simp only [hcond1, if_true]
                        exact hk
                · split at hstep
                  · simp at hstep
                  · rename_i m1 hsmi
                    simp only [Sum.inl.injEq, Prod.mk.injEq] at hstep
                    obtain ⟨h1, h2, h3⟩ := hstep
                    subst h1 h2 h3
                    obtain ⟨⟨esm, hesm⟩, ho, hk⟩ := @setMapIndex_entry _
                      ⟨some s, none, false⟩ _ _ _ _ _ _ _ hval1 rfl hsmi
                    refine ⟨haddr, hrop, ⟨some esm, by simp [hesm]⟩, ?_, fun h0 => by simp at h0, ?_⟩
                    · intro k hk1
                      rw [ho k hk1, hother k hk1]
                    · intro s1 hs1
                      simp only [Option.some.injEq] at hs1
                      subst hs1
                      refine ⟨?_, hrv⟩
                      rw [hrule]
                      simp only [hcond1, if_true]
                      exact hk
              · rename_i hcond
                have hcond1 : (!isEmptyVal s && (overwrite || (entryOf dst.val key).isNone))
                    = false := by
                  cases hc1 : (!isEmptyVal s && (overwrite || (entryOf dst.val key).isNone)) with
                  | false => rfl
                  | true =>
                    exfalso
                    apply hcond
                    simp only [hse, hvd, Bool.and_eq_true, Bool.or_eq_true, Bool.not_eq_true']
                      at hc1 ⊢
                    refine ⟨hc1.1, ?_⟩
                    rcases hc1.2 with h | h
                    · exact Or.inl h
                    · right; left
                      cases hx : entryOf dst.val key <;> simp_all
                simp only [Sum.inl.injEq, Prod.mk.injEq] at hstep
                obtain ⟨h1, h2, h3⟩ := hstep
                subst h1 h2 h3
                refine ⟨haddr, hrop, ⟨es1, hval1⟩, hother, fun h0 => by simp at h0, ?_⟩
                intro s1 hs1
                simp only [Option.some.injEq] at hs1
                subst hs1
                refine ⟨?_, hrv⟩
                rw [hrule]
                simp only [hcond1, Bool.false_eq_true, if_false]
                exact hown
            · simp at hstep

/-- A step of the map case that ends the loop, for a merge function that never
returns an error: it did not return normally. -/
theorem mapStep_inr {rec : Value → Value → Visited → Nat → Res} (hrec : RecNoErr rec)
    {overwrite : Bool} {src dst : Value} {kty : Ty} {key : Key} {vis : Visited} {next : Nat}
    {o : Res} (hstep : mapStep rec overwrite src kty key dst vis next = .inr o) :
    o.status ≠ Status.ok := by
  unfold mapStep at hstep
  split at hstep
  · rename_i srcElement dstElement _ _
    split at hstep
    · simp at hstep
    · split at hstep
      · simp at hstep
      · split at hstep
        · simp at hstep
        · generalize hr : (if dynKind srcElement ∈ [Kind.struct, Kind.ptr, Kind.map] then
              rec dstElement srcElement vis next
            else (⟨dstElement.val, vis, next, none, Status.ok⟩ : Res)) = r at hstep
          have he : r.err = none := by
            rw [← hr]
            split
            · exact hrec _ _ _ _
            · rfl
          simp only at hstep
          split at hstep
          · split at hstep
            · split at hstep
              · split at hstep
                · simp only [Sum.inr.injEq] at hstep
                  rw [← hstep]; simp
                · split at hstep
                  · simp only [Sum.inr.injEq] at hstep
                    rw [← hstep]; simp
                  · simp at hstep
              · split at hstep
                · simp only [Sum.inr.injEq] at hstep
                  rw [← hstep]; simp
                · simp at hstep
            · simp at hstep
          · rename_i st e hne
            simp only [Sum.inr.injEq] at hstep
            rw [← hstep]
            simp only
            intro hst
            exact hne hst he
  · simp only [Sum.inr.injEq] at hstep
    rw [← hstep]
    simp

/-- The slice case with a source that has no elements and an assignment that
changes nothing. -/
theorem sliceCase_empty_src (rec : Value → Value → Visited → Nat → Res) (overwrite : Bool)
    (listKey : String) {dst src : Value} (vis : Visited) (next : Nat)
    (hlen : src.Len = none ∨ src.Len = some 0)
    (hassign : ∀ (v : Visited) (n : Nat), (assignRule overwrite dst src v n).val = dst.val) :
    (sliceCase rec overwrite listKey dst src vis next).val = dst.val := by
  unfold sliceCase
  cases sliceKindOf listKey dst src with
  | none => rfl
  | some k =>
    simp only
    split
    · obtain ⟨ha, hb, hn, he⟩ :=
        deepMergeSlices_forward_empty rec listKey [] dst vis next hlen
      generalize deepMergeSlices rec dst src vis next false listKey [] = p1 at ha hb hn he ⊢
      have hlen2 : p1.b.Len = none ∨ p1.b.Len = some 0 := by rw [hb]; exact hlen
      obtain ⟨ha2, hb2, hn2, he2⟩ := deepMergeSlices_empty_a rec listKey
        p1.bFounds true p1.a p1.visited p1.next hlen2
      generalize deepMergeSlices rec p1.b p1.a p1.visited p1.next true listKey p1.bFounds = p2
        at ha2 hb2 hn2 he2 ⊢
      split
      · split
        · rw [hb2, ha]
        · rename_i heq
          rw [he2] at heq
          simp at heq
        · rw [hb2, ha]
      · rename_i heq
        rw [he] at heq
        simp at heq
      · rw [ha]
    · exact hassign _ _

/-- `deepMerge` with an empty, non-nil map as source leaves a destination that
is not addressable as it is. -/
theorem deepMerge_empty_map_src (overwrite : Bool) (listKey : String) (fuel : Nat) (d : Value)
    (hd : d.addr = none) (k v : Ty) (sro : Bool) (vis : Visited) (next : Nat) :
    (deepMerge overwrite listKey fuel d ⟨some (.map k v (some [])), none, sro⟩ vis next).val
      = d.val := by
  cases fuel with
  | zero => rfl
  | succ fuel =>
    have hcs : d.CanSet = false := by simp [Value.CanSet, hd]
    have hassign : ∀ (vv : Visited) (n : Nat),
        (assignRule overwrite d ⟨some (.map k v (some [])), none, sro⟩ vv n).val = d.val := by
      intro vv n
      simp [assignRule, hcs]
    have henter : enter d vis = some vis := by simp [enter, hd]
    simp only [deepMerge, Value.IsValid, Option.isSome_some, Bool.not_true, Bool.false_eq_true,
      if_false, henter]
    split
    · cases hn : d.NumField with
      | zero => rfl
      | succ m =>
        have hsf : Value.Field ⟨some (.map k v (some [])), none, sro⟩ 0 = none := rfl
        simp only [structLoop, hsf]
        split
        · rename_i h1 h2
          simp at h2
        · rfl
    · exact sliceCase_empty_src _ overwrite listKey vis next (Or.inr rfl) hassign
    · simp [Value.MapKeys, mapLoop]
    · simp only [ptrCase, Value.IsNil, Option.isNone_some]
      split
      · rfl
      · split
        · simp [hcs]
        · simp [Value.Elem]
      · rfl
    · simp only [ptrCase, Value.IsNil, Option.isNone_some]
      split
      · rfl
      · split
        · simp [hcs]
        · simp [Value.Elem]
      · rfl
    · exact hassign _ _

/-- The entry rule in overwrite mode, with `deepMerge` as the merge function: a
nil or empty source entry leaves the entry of `dst` as it is, any other source
entry replaces it. -/
theorem entryRule_overwrite (listKey : String) (fuel : Nat) (dro : Bool) (vt : Ty)
    (d : Option Val) (s : Val) (vis : Visited) (next : Nat) :
    (isNilVal s = true ∨ isEmptyVal s = true →
      entryRule (deepMerge true listKey fuel) true dro false vt d s vis next = d)
    ∧ (isNilVal s = false → isEmptyVal s = false →
      entryRule (deepMerge true listKey fuel) true dro false vt d s vis next
        = some (stored vt s)) := by
  constructor
  · intro h
    unfold entryRule
    by_cases hn : isNilVal s = true
    · simp [hn]
    · have hn1 : isNilVal s = false := by simpa using hn
      have he : isEmptyVal s = true := by
        rcases h with h | h
        · exact absurd h hn
        · exact h
      simp only [hn1, Bool.or_false, Bool.false_eq_true, if_false, he, Bool.not_true,
        Bool.false_and]
      cases d with
      | none => rfl
      | some dv =>
        simp only
        split
        · rename_i hk
          have hmap : ∃ k v, s = .map k v (some []) := by
            cases s with
            | map k v es =>
              cases es with
              | none => simp [isNilVal] at hn1
              | some l =>
                simp only [isEmptyVal, List.isEmpty_iff] at he
                subst he
                exact ⟨k, v, rfl⟩
            | struct t fs => simp [isEmptyVal] at he
            | ptr e t =>
              simp only [isEmptyVal] at he
              simp only [isNilVal] at hn1
              rw [he] at hn1
              cases hn1
            | iface x =>
              simp only [isEmptyVal] at he
              simp only [isNilVal] at hn1
              rw [he] at hn1
              cases hn1
            | bool b => simp [dynKind, kindOf] at hk
            | int i => simp [dynKind, kindOf] at hk
            | str x => simp [dynKind, kindOf] at hk
            | slice e arr cap es => simp [dynKind, kindOf] at hk
          obtain ⟨k, v, rfl⟩ := hmap
          rw [deepMerge_empty_map_src true listKey fuel ⟨some dv, none, dro⟩ rfl k v false
            vis next]
        · rfl
  · intro hn he
    simp [entryRule, hn, he]

/-- The map case in overwrite mode, over the keys still to be visited, when it
returns normally. -/
theorem mapLoop_overwrite (listKey : String) (fuel : Nat) (src : Value) (kty kt vt skt svt : Ty)
    (ses : Option (List (Key × Val))) (hs : src.val = some (.map skt svt ses))
    (hsro : src.ro = false) :
    ∀ (keys : List Key) (dst : Value) (vis : Visited) (next : Nat)
      (des : Option (List (Key × Val))),
      keys.Nodup → dst.val = some (.map kt vt des) →
      (mapLoop (deepMerge true listKey fuel) true src kty keys dst vis next).status = Status.ok →
      (∃ desF, (mapLoop (deepMerge true listKey fuel) true src kty keys dst vis next).val
          = some (.map kt vt desF))
      ∧ ∀ k,
        (k ∉ keys →
          entryOf (mapLoop (deepMerge true listKey fuel) true src kty keys dst vis next).val k
            = entryOf dst.val k)
        ∧ (k ∈ keys →
          (entryOf src.val k = none →
            entryOf (mapLoop (deepMerge true listKey fuel) true src kty keys dst vis next).val k
              = entryOf dst.val k)
          ∧ ∀ s, entryOf src.val k = some s →
            (isNilVal s = false → isEmptyVal s = false →
              entryOf (mapLoop (deepMerge true listKey fuel) true src kty keys dst vis next).val k
                = some (stored vt s))
            ∧ (isNilVal s = true ∨ isEmptyVal s = true →
              entryOf (mapLoop (deepMerge true listKey fuel) true src kty keys dst vis next).val k
                = entryOf dst.val k)) := by
  intro keys
  induction keys with
  | nil =>
    intro dst vis next des _ hd _
    exact ⟨⟨des, hd⟩, fun k => ⟨fun _ => rfl, fun h => by simp at h⟩⟩
  | cons key rest ih =>
    intro dst vis next des hnd hd hok
    rw [mapLoop_step] at hok ⊢
    cases hstep : mapStep (deepMerge true listKey fuel) true src kty key dst vis next with
    | inr o =>
      rw [hstep] at hok
      exact absurd hok (mapStep_inr (deepMerge_noErr true listKey fuel) hstep)
    | inl p =>
      obtain ⟨d1, v, n⟩ := p
      rw [hstep] at hok
      simp only at hok ⊢
      obtain ⟨_, hro, ⟨des1, hd1⟩, hother, hnone, hsome⟩ := mapStep_inl hd hs hstep
      have hnd1 := (List.nodup_cons.mp hnd)
      obtain ⟨hmapF, hF⟩ := ih d1 v n des1 hnd1.2 hd1 hok
      refine ⟨hmapF, ?_⟩
      intro k
      constructor
      · intro hk
        have hk1 : k ≠ key := fun e => hk (by rw [e]; exact List.mem_cons_self _ _)
        have hk2 : k ∉ rest := fun e => hk (List.mem_cons_of_mem _ e)
        rw [(hF k).1 hk2, hother k hk1]
      · intro hk
        by_cases hkk : k = key
        · subst hkk
          rw [(hF k).1 hnd1.1]
          constructor
          · intro hsn
            rw [(hnone hsn).1]
          · intro s hss
            rw [(hsome s hss).1, hsro]
            exact ⟨(entryRule_overwrite listKey fuel dst.ro vt _ s vis next).2,
              (entryRule_overwrite listKey fuel dst.ro vt _ s vis next).1⟩
        · have hkr : k ∈ rest := by
            rcases List.mem_cons.mp hk with h | h
            · exact absurd h hkk
            · exact h
          have := (hF k).2 hkr
          rw [hother k hkk] at this
          exact this

/-- The body of the loop of the map case for one key, for operands that can be
read and written and a key of the key type of both maps: the loop goes on as
`stepRule` says. -/
theorem mapStep_getLeft (rec : Value → Value → Visited → Nat → Res) (overwrite : Bool)
    {src dst : Value} {kty kt vt skt svt : Ty} {des ses : Option (List (Key × Val))}
    (key : Key) (vis : Visited) (next : Nat)
    (hd : dst.val = some (.map kt vt des)) (hs : src.val = some (.map skt svt ses))
    (hsro : src.ro = false) (hdro : dst.ro = false)
    (hk1 : assignable kty skt = true) (hk2 : assignable kty kt = true) :
    (mapStep rec overwrite src kty key dst vis next).getLeft?
      = stepRule rec overwrite key kt vt (entryOf src.val key) dst vis next := by
  have hsi : src.MapIndex key kty src.ro = some (elemValue (entryOf src.val key) false) := by
    simp only [Value.MapIndex, hs, hk1, if_true, entryOf, hsro]
    cases ses with
    | none => rfl
    | some l => simp only; cases mapLookup key l <;> rfl
  have hdi : dst.MapIndex key kty src.ro = some (elemValue (entryOf dst.val key) false) := by
    simp only [Value.MapIndex, hd, hk2, if_true, entryOf, hsro, hdro]
    cases des with
    | none => rfl
    | some l => simp only; cases mapLookup key l <;> rfl
  unfold mapStep
  rw [hsi, hdi]
  simp only
  cases hsk : entryOf src.val key with
  | none => simp [elemValue, Value.IsValid, stepRule]
  | some s =>
    have hvalid : Value.IsValid (elemValue (some s) false) = true := rfl
    simp only [hvalid, Bool.not_true, Bool.false_eq_true, if_false, stepRule]
    by_cases hnil : isNilVal s = true
    · have hc := (isNilVal_spec s false).mpr hnil
      simp only [elemValue] at hc ⊢
      simp [hc, hnil]
    · have hc : ¬ (Value.Kind ⟨some s, none, false⟩
          ∈ [Kind.map, Kind.ptr, Kind.interface, Kind.slice]
          ∧ Value.IsNil ⟨some s, none, false⟩ = some true) :=
        fun h => hnil ((isNilVal_spec s false).mp h)
      have hn : isNilVal s = false := by simpa using hnil
      simp only [elemValue] at hc ⊢
      simp only [hc, if_false, hn, Bool.false_eq_true, Value.CanInterface, Bool.not_false,
        Bool.not_true]
      have hel : ∀ d : Option Val, (match d with
          | some v => (⟨some v, none, false⟩ : Value)
          | none => ⟨none, none, false⟩) = elemValue d false := fun d => rfl
      rw [hel]
      have hvd : (elemValue (entryOf dst.val key) false).val = entryOf dst.val key := by
        cases entryOf dst.val key <;> rfl
      rw [hvd]
      generalize hr : (if dynKind ⟨some s, none, false⟩ ∈ [Kind.struct, Kind.ptr, Kind.map]
          then rec (elemValue (entryOf dst.val key) false) ⟨some s, none, false⟩ vis next
          else (⟨entryOf dst.val key, vis, next, none, Status.ok⟩ : Res)) = r
      obtain ⟨⟨es1, hval1, hnone⟩, haddr, hrop, hother, hown⟩ := putEntry_entry hd key r.val
      have hvd2 : (elemValue (entryOf dst.val key) false).IsValid
          = (entryOf dst.val key).isSome := by
        cases entryOf dst.val key <;> rfl
      have hse : isEmptyValue ⟨some s, none, false⟩ = isEmptyVal s := rfl
      have hne : (entryOf dst.val key).isSome = true →
          isEmptyValue (dst.putEntry key r.val) = false := by
        intro hsome
        exact putEntry_not_empty hdi (by rw [hvd2]; exact hsome)
      have hcond : (!isEmptyValue ⟨some s, none, false⟩
            && (overwrite || (!(elemValue (entryOf dst.val key) false).IsValid
              || isEmptyValue (dst.putEntry key r.val))))
          = (!isEmptyVal s && (overwrite || (entryOf dst.val key).isNone)) := by
        rw [hse, hvd2]
        cases hx : entryOf dst.val key with
        | none => simp
        | some dv =>
          have := hne (by rw [hx]; rfl)
          rw [this]
          simp
      rw [hcond]
      by_cases hst : r.status = Status.ok ∧ r.err = none
      · obtain ⟨h1, h2⟩ := hst
        simp only [h1, h2, and_self, if_true]
        by_cases hins : (!isEmptyVal s && (overwrite || (entryOf dst.val key).isNone)) = true
        · simp only [hins, if_true]
          cases des with
          | none =>
            have hes1 : es1 = none := by
              cases es1 with
              | none => rfl
              | some l => simp at hnone
            subst hes1
            have hisnil : (dst.putEntry key r.val).IsNil = some true := by
              simp [Value.IsNil, hval1]
            simp only [hisnil]
            have hro1 : (dst.putEntry key r.val).ro = false := by rw [hrop, hdro]
            have hcg : canGrow dst = dst.addr.isSome := by simp [canGrow, hd]
            have hset : (dst.putEntry key r.val).Set (makeMap (dst.putEntry key r.val))
                = if dst.addr.isSome then some (.map kt vt (some [])) else none := by
              simp [Value.Set, makeMap, hval1, Value.CanSet, haddr, hro1, assignable, typeOf,
                stored]
            rw [hset, hcg]
            cases hadd : dst.addr.isSome with
            | false => simp
            | true =>
              simp only [if_true, Bool.and_true]
              have hsmi : Value.SetMapIndex
                  { dst.putEntry key r.val with val := some (.map kt vt (some [])) } key kty
                  ⟨some s, none, false⟩
                  = if assignable (typeOf s) vt then
                      some (.map kt vt (some (mapInsert key (stored vt s) []))) else none := by
                simp [Value.SetMapIndex, hro1, hk2]
              rw [hsmi]
              cases hasg : assignable (typeOf s) vt with
              | false => simp
              | true => simp [hval1, entriesOf, haddr, hro1]
          | some l =>
            have hes1 : ∃ l1, es1 = some l1 := by
              cases es1 with
              | none => simp at hnone
              | some l1 => exact ⟨l1, rfl⟩
            obtain ⟨l1, rfl⟩ := hes1
            have hisnil : (dst.putEntry key r.val).IsNil = some false := by
              simp [Value.IsNil, hval1]
            simp only [hisnil]
            have hro1 : (dst.putEntry key r.val).ro = false := by rw [hrop, hdro]
            have hcg : canGrow dst = true := by simp [canGrow, hd]
            have hsmi : Value.SetMapIndex (dst.putEntry key r.val) key kty ⟨some s, none, false⟩
                = if assignable (typeOf s) vt then
                    some (.map kt vt (some (mapInsert key (stored vt s) l1))) else none := by
              simp [Value.SetMapIndex, hro1, hk2, hval1]
            rw [hsmi, hcg]
            cases hasg : assignable (typeOf s) vt with
            | false => simp
            | true => simp [hval1, entriesOf, haddr, hro1]
        · simp [hins]
      · have : ¬ (r.status = Status.ok ∧ r.err = none) := hst
        split
        · rename_i h1 h2
          exact absurd ⟨h1, h2⟩ hst
        · simp [hst]

/-! ## Values up to the order of map entries -/

theorem same_typeOf {a b : Val} (h : Same a b) : typeOf a = typeOf b := by
  cases h <;> rfl

theorem same_kindOf {a b : Val} (h : Same a b) : kindOf a = kindOf b := by
  cases h <;> rfl

theorem same_isNil {a b : Val} (h : Same a b) : isNilVal a = isNilVal b := by
  cases h <;> rfl

theorem mapLookup_nil_iff (es : List (Key × Val)) : es = [] ↔ ∀ k, mapLookup k es = none := by
  constructor
  · intro h k
    subst h
    rfl
  · intro h
    cases es with
    | nil => rfl
    | cons p rest =>
      have := h p.1
      simp [mapLookup] at this

theorem same_isEmpty {a b : Val} (h : Same a b) : isEmptyVal a = isEmptyVal b := by
  cases h with
  | bool b => rfl
  | int i => rfl
  | str s => rfl
  | nilMap kt vt => rfl
  | map kt vt es es1 hkeys htype hvals =>
    simp only [isEmptyVal]
    have h1 := mapLookup_nil_iff es
    have h2 := mapLookup_nil_iff es1
    have : es = [] ↔ es1 = [] := by
      rw [h1, h2]
      exact ⟨fun h k => (hkeys k).mp (h k), fun h k => (hkeys k).mpr (h k)⟩
    cases es with
    | nil => rw [this.mp rfl]
    | cons p rest =>
      cases es1 with
      | nil => exact absurd (this.mpr rfl) (by simp)
      | cons q r1 => rfl

/-- A value of this class stored under its own type is stored as it is. -/
theorem same_stored {a b : Val} (h : Same a b) : stored (typeOf a) a = a := by
  cases h <;> rfl

theorem same_leaf_or_map {a b : Val} (h : Same a b) :
    kindOf a = Kind.map ∨ dynKind ⟨some a, none, false⟩ ∉ [Kind.struct, Kind.ptr, Kind.map] := by
  cases h <;> simp [kindOf, dynKind]

theorem same_dynKind_map {a b : Val} (h : Same a b) (hk : kindOf a = Kind.map) :
    dynKind ⟨some a, none, false⟩ ∈ [Kind.struct, Kind.ptr, Kind.map] := by
  cases h <;> simp [kindOf, dynKind] at hk ⊢

theorem same_symm {a b : Val} (h : Same a b) : Same b a := by
  induction h with
  | bool b => exact Same.bool b
  | int i => exact Same.int i
  | str s => exact Same.str s
  | nilMap kt vt => exact Same.nilMap kt vt
  | map kt vt es es1 hkeys htype hvals ih =>
    refine Same.map kt vt es1 es (fun k => (hkeys k).symm) ?_ ?_
    · intro k b hb
      cases ha : mapLookup k es with
      | none => rw [(hkeys k).mp ha] at hb; cases hb
      | some a => rw [← same_typeOf (hvals k a b ha hb)]; exact htype k a ha
    · intro k b a hb ha
      exact ih k a b ha hb

theorem same_trans {a b c : Val} (h : Same a b) : Same b c → Same a c := by
  induction h generalizing c with
  | bool b => exact id
  | int i => exact id
  | str s => exact id
  | nilMap kt vt => exact id
  | map kt vt es es1 hkeys htype hvals ih =>
    intro h2
    cases h2 with
    | map _ _ _ es2 hkeys2 htype2 hvals2 =>
      refine Same.map kt vt es es2 (fun k => (hkeys k).trans (hkeys2 k)) htype ?_
      intro k a c1 ha hc
      cases hb : mapLookup k es1 with
      | none => rw [(hkeys k).mpr hb] at ha; cases ha
      | some b => exact ih k a b ha hb (hvals2 k b c1 hb hc)

theorem same_left {a b : Val} (h : Same a b) : Same a a := same_trans h (same_symm h)

theorem same_right {a b : Val} (h : Same a b) : Same b b := same_trans (same_symm h) h

theorem sameO_symm {a b : Option Val} (h : SameO a b) : SameO b a := by
  cases a <;> cases b <;> simp only [SameO] at h ⊢
  exact same_symm h

theorem sameO_trans {a b c : Option Val} (h : SameO a b) (h2 : SameO b c) : SameO a c := by
  cases a <;> cases b <;> cases c <;> simp only [SameO] at h h2 ⊢
  exact same_trans h h2

theorem sameO_none {a b : Option Val} (h : SameO a b) : a = none ↔ b = none := by
  cases a <;> cases b <;> simp [SameO] at h ⊢

theorem sameO_isNone {a b : Option Val} (h : SameO a b) : a.isNone = b.isNone := by
  cases a <;> cases b <;> simp [SameO] at h ⊢

/-- The entries of two maps that are the same. -/
theorem same_entries {a b : Val} (h : Same a b) (k : Key) :
    SameO (entryOf (some a) k) (entryOf (some b) k) := by
  cases h with
  | bool b => trivial
  | int i => trivial
  | str s => trivial
  | nilMap kt vt => trivial
  | map kt vt es es1 hkeys htype hvals =>
    simp only [entryOf]
    cases ha : mapLookup k es with
    | none => rw [(hkeys k).mp ha]; trivial
    | some x =>
      cases hb : mapLookup k es1 with
      | none => rw [(hkeys k).mpr hb] at ha; cases ha
      | some y => exact hvals k x y ha hb

/-- The entries of a map of this class have the value type of the map. -/
theorem same_entry_type {a b : Val} (h : Same a b) {kt vt : Ty}
    (ht : typeOf a = Ty.map kt vt) (k : Key) (x : Val) (hx : entryOf (some a) k = some x) :
    typeOf x = vt := by
  cases h with
  | bool b => cases hx
  | int i => cases hx
  | str s => cases hx
  | nilMap kt vt => cases hx
  | map kt1 vt1 es es1 hkeys htype hvals =>
    simp only [typeOf, Ty.map.injEq] at ht
    rw [← ht.2]
    exact htype k x hx

/-- Two maps with related entries under every key are the same. -/
theorem same_of_entries {kt vt : Ty} {es es1 : Option (List (Key × Val))}
    (hnil : es = none ↔ es1 = none)
    (hent : ∀ k, SameO (entryOf (some (.map kt vt es)) k) (entryOf (some (.map kt vt es1)) k))
    (hty : ∀ k x, entryOf (some (.map kt vt es)) k = some x → typeOf x = vt) :
    Same (.map kt vt es) (.map kt vt es1) := by
  cases es with
  | none => rw [hnil.mp rfl]; exact Same.nilMap kt vt
  | some l =>
    cases es1 with
    | none => exact absurd (hnil.mpr rfl) (by simp)
    | some l1 =>
      refine Same.map kt vt l l1 (fun k => sameO_none (hent k)) hty ?_
      intro k a b ha hb
      have := hent k
      simp only [entryOf, ha, hb, SameO] at this
      exact this

/-- What a step of the map case leaves of the state it started from: address,
type, the entries under the other keys; a nil map stays nil exactly when no
entry was stored under the key; and a map that could take a new entry still
can. -/
theorem stepRule_frame {rec : Value → Value → Visited → Nat → Res} {overwrite : Bool}
    {key : Key} {kt vt : Ty} {s : Option Val} {dst d1 : Value} {vis v : Visited} {next n : Nat}
    {des : Option (List (Key × Val))} (hd : dst.val = some (.map kt vt des))
    (hdro : dst.ro = false)
    (h : stepRule rec overwrite key kt vt s dst vis next = some (d1, v, n)) :
    d1.addr = dst.addr ∧ d1.ro = false
    ∧ (∃ des1, d1.val = some (.map kt vt des1)
        ∧ (des1 = none ↔ des = none ∧ entryOf d1.val key = none))
    ∧ canGrow d1 = canGrow dst
    ∧ (∀ k, k ≠ key → entryOf d1.val k = entryOf dst.val k)
    ∧ (entryOf d1.val key = none → entryOf dst.val key = none) := by
  have hsame : d1 = dst →
      d1.addr = dst.addr ∧ d1.ro = false
      ∧ (∃ des1, d1.val = some (.map kt vt des1)
          ∧ (des1 = none ↔ des = none ∧ entryOf d1.val key = none))
      ∧ canGrow d1 = canGrow dst
      ∧ (∀ k, k ≠ key → entryOf d1.val k = entryOf dst.val k)
      ∧ (entryOf d1.val key = none → entryOf dst.val key = none) := by
    intro e
    subst e
    refine ⟨rfl, hdro, ⟨des, hd, ?_⟩, rfl, fun _ _ => rfl, id⟩
    constructor
    · intro h0
      subst h0
      exact ⟨rfl, by rw [hd]; rfl⟩
    · exact fun h0 => h0.1
  unfold stepRule at h
  cases s with
  | none =>
    simp only [Option.some.injEq, Prod.mk.injEq] at h
    exact hsame h.1.symm
  | some s =>
    simp only at h
    split at h
    · simp only [Option.some.injEq, Prod.mk.injEq] at h
      exact hsame h.1.symm
    · clear hsame
      generalize hr : (if dynKind ⟨some s, none, false⟩ ∈ [Kind.struct, Kind.ptr, Kind.map]
          then rec (elemValue (entryOf dst.val key) false) ⟨some s, none, false⟩ vis next
          else (⟨entryOf dst.val key, vis, next, none, Status.ok⟩ : Res)) = r at h
      obtain ⟨⟨es1, hval1, hnone⟩, haddr, hrop, hother, hown⟩ := putEntry_entry hd key r.val
      split at h
      · split at h
        · split at h
          · rename_i hcond hgrow
            simp only [Option.some.injEq, Prod.mk.injEq] at h
            obtain ⟨h1, _, _⟩ := h
            subst h1
            simp only [Bool.and_eq_true] at hgrow
            refine ⟨rfl, rfl, ⟨_, rfl, ?_⟩, ?_, ?_, ?_⟩
            · simp [entryOf, mapLookup_mapInsert]
            · rw [hgrow.2]
              rfl
            · intro k hk
              have hne : ¬ key = k := fun e => hk e.symm
              have e1 : mapLookup k (entriesOf (dst.putEntry key r.val).val)
                  = entryOf (dst.putEntry key r.val).val k := by
                rw [hval1]
                cases es1 <;> rfl
              show mapLookup k (mapInsert key (stored vt s)
                (entriesOf (dst.putEntry key r.val).val)) = _
              rw [mapLookup_mapInsert]
              simp only [hne, if_false]
              rw [e1, hother k hk]
            · simp [entryOf, mapLookup_mapInsert]
          · simp at h
        · simp only [Option.some.injEq, Prod.mk.injEq] at h
          obtain ⟨h1, _, _⟩ := h
          subst h1
          refine ⟨haddr, by rw [hrop, hdro], ⟨es1, hval1, ?_⟩, ?_, hother, ?_⟩
          · rw [hown]
            constructor
            · intro h0
              subst h0
              have hdn : des = none := by
                cases des with
                | none => rfl
                | some l => simp at hnone
              subst hdn
              refine ⟨rfl, ?_⟩
              rw [hd]
              rfl
            · intro h0
              obtain ⟨h0, _⟩ := h0
              subst h0
              cases es1 with
              | none => rfl
              | some l => simp at hnone
          · simp only [canGrow, hval1, hd, haddr]
            cases es1 <;> cases des <;> simp at hnone ⊢
          · rw [hown]
            cases entryOf dst.val key with
            | none => intro _; rfl
            | some dv => cases r.val <;> simp
      · simp at h

theorem same_dynKind {a b : Val} (h : Same a b) :
    dynKind ⟨some a, none, false⟩ = dynKind ⟨some b, none, false⟩ := by
  cases h <;> rfl

/-- The recursive merge of one step of the map case, on related entries. -/
theorem stepRule_rec {rec : Value → Value → Visited → Nat → Res} (hrec : RecOrder rec)
    {vt : Ty} {a b : Val} {d d1 : Option Val} (vis : Visited) (next : Nat)
    (hab : Same a b) (hat : typeOf a = vt)
    (hak : distinctKeys a = true) (hbk : distinctKeys b = true)
    (he : SameO d d1) (het : ∀ x, d = some x → typeOf x = vt)
    (r r1 : Res)
    (hr : (if dynKind ⟨some a, none, false⟩ ∈ [Kind.struct, Kind.ptr, Kind.map]
          then rec (elemValue d false) ⟨some a, none, false⟩ vis next
          else (⟨d, vis, next, none, Status.ok⟩ : Res)) = r)
    (hr1 : (if dynKind ⟨some b, none, false⟩ ∈ [Kind.struct, Kind.ptr, Kind.map]
          then rec (elemValue d1 false) ⟨some b, none, false⟩ vis next
          else (⟨d1, vis, next, none, Status.ok⟩ : Res)) = r1) :
    r.err = none ∧ r1.err = none
    ∧ (r.status = Status.ok ↔ r1.status = Status.ok)
    ∧ (r.status = Status.ok →
        r.visited = vis ∧ r.next = next ∧ r1.visited = vis ∧ r1.next = next
        ∧ SameO (writtenBack d r.val) (writtenBack d1 r1.val)
        ∧ ∀ x, writtenBack d r.val = some x → typeOf x = vt) := by
  rw [← same_dynKind hab] at hr1
  by_cases hk : dynKind ⟨some a, none, false⟩ ∈ [Kind.struct, Kind.ptr, Kind.map]
  · simp only [hk, if_true] at hr hr1
    have hkm : kindOf a = Kind.map := by
      rcases same_leaf_or_map hab with h | h
      · exact h
      · exact absurd hk h
    cases d with
    | none =>
      cases d1 with
      | some y => simp [SameO] at he
      | none =>
        simp only [elemValue] at hr hr1
        obtain ⟨heq, hok⟩ := hrec.2.1 a b vis next
        rw [hr, hr1] at heq
        subst heq
        rw [hr] at hok
        refine ⟨?_, ?_, Iff.rfl, ?_⟩
        · rw [← hr]; exact hrec.1 _ _ _ _
        · rw [← hr]; exact hrec.1 _ _ _ _
        · intro h
          rw [hok h]
          exact ⟨rfl, rfl, rfl, rfl, trivial, fun x hx => by cases hx⟩
    | some dv =>
      cases d1 with
      | none => simp [SameO] at he
      | some dv1 =>
        simp only [SameO] at he
        simp only [elemValue] at hr hr1
        have hty : typeOf dv = typeOf a := by rw [het dv rfl, hat]
        obtain ⟨hiff, hres⟩ := hrec.2.2 dv dv1 a b vis next he hab hkm hty hak hbk
        rw [hr, hr1] at hiff hres
        refine ⟨?_, ?_, hiff, ?_⟩
        · rw [← hr]; exact hrec.1 _ _ _ _
        · rw [← hr1]; exact hrec.1 _ _ _ _
        · intro h
          obtain ⟨h1, h2, h3, h4, w, w1, hw, hw1, hsame, hwt⟩ := hres h
          refine ⟨h1, h2, h3, h4, ?_, ?_⟩
          · rw [hw, hw1]
            exact hsame
          · rw [hw]
            intro x hx
            simp only [writtenBack, Option.some.injEq] at hx
            rw [← hx, hwt]
            exact het dv rfl
  · simp only [hk, if_false] at hr hr1
    subst hr hr1
    refine ⟨rfl, rfl, Iff.rfl, fun _ => ⟨rfl, rfl, rfl, rfl, ?_, ?_⟩⟩
    · cases d <;> cases d1 <;> simp only [SameO, writtenBack] at he ⊢
      exact he
    · intro x hx
      cases d with
      | none => cases hx
      | some dv =>
        simp only [writtenBack, Option.some.injEq] at hx
        rw [← hx]
        exact het dv rfl

theorem putEntry_own {x : Value} {kt vt : Ty} {es : Option (List (Key × Val))}
    (hx : x.val = some (.map kt vt es)) (key : Key) (rv : Option Val) :
    entryOf (x.putEntry key rv).val key = writtenBack (entryOf x.val key) rv := by
  rw [(putEntry_entry hx key rv).2.2.2.2]
  cases entryOf x.val key <;> cases rv <;> rfl

/-- One step of the map case on related states and related entries of the
source: the loop goes on from both or from neither, the visited set and the
allocation counter are as before, and the entries under the key are related
again. -/
theorem stepRule_congr {rec : Value → Value → Visited → Nat → Res} (hrec : RecOrder rec)
    (overwrite : Bool) (key : Key) {kt vt : Ty} {s s1 : Option Val} {dst dst1 : Value}
    {des des1 : Option (List (Key × Val))} (vis : Visited) (next : Nat)
    (hd : dst.val = some (.map kt vt des)) (hd1 : dst1.val = some (.map kt vt des1))
    (hgrow : canGrow dst = canGrow dst1)
    (hs : SameO s s1) (hst : ∀ x, s = some x → typeOf x = vt)
    (hsk : ∀ x, s = some x → distinctKeys x = true)
    (hsk1 : ∀ x, s1 = some x → distinctKeys x = true)
    (he : SameO (entryOf dst.val key) (entryOf dst1.val key))
    (het : ∀ x, entryOf dst.val key = some x → typeOf x = vt) :
    ((stepRule rec overwrite key kt vt s dst vis next).isSome
      = (stepRule rec overwrite key kt vt s1 dst1 vis next).isSome)
    ∧ ∀ p p1, stepRule rec overwrite key kt vt s dst vis next = some p →
        stepRule rec overwrite key kt vt s1 dst1 vis next = some p1 →
        p.2 = (vis, next) ∧ p1.2 = (vis, next)
        ∧ SameO (entryOf p.1.val key) (entryOf p1.1.val key)
        ∧ ∀ x, entryOf p.1.val key = some x → typeOf x = vt := by
  have hsame : ((some (dst, vis, next) : Option (Value × Visited × Nat)).isSome
      = (some (dst1, vis, next) : Option (Value × Visited × Nat)).isSome)
      ∧ ∀ p p1, (some (dst, vis, next) : Option (Value × Visited × Nat)) = some p →
        (some (dst1, vis, next) : Option (Value × Visited × Nat)) = some p1 →
        p.2 = (vis, next) ∧ p1.2 = (vis, next)
        ∧ SameO (entryOf p.1.val key) (entryOf p1.1.val key)
        ∧ ∀ x, entryOf p.1.val key = some x → typeOf x = vt := by
    refine ⟨rfl, ?_⟩
    intro p p1 hp hp1
    simp only [Option.some.injEq] at hp hp1
    subst hp hp1
    exact ⟨rfl, rfl, he, het⟩
  cases s with
  | none =>
    cases s1 with
    | some y => simp [SameO] at hs
    | none => exact hsame
  | some a =>
    cases s1 with
    | none => simp [SameO] at hs
    | some b =>
      simp only [SameO] at hs
      have hat : typeOf a = vt := hst a rfl
      have hbt : typeOf b = vt := by rw [← same_typeOf hs]; exact hat
      unfold stepRule
      simp only
      rw [← same_isNil hs, ← same_isEmpty hs, ← sameO_isNone he, hbt, hat, ← hgrow]
      by_cases hnil : isNilVal a = true
      · simp only [hnil, if_true]
        exact hsame
      · simp only [hnil, Bool.false_eq_true, if_false]
        clear hsame
        generalize hr : (if dynKind ⟨some a, none, false⟩ ∈ [Kind.struct, Kind.ptr, Kind.map]
          then rec (elemValue (entryOf dst.val key) false) ⟨some a, none, false⟩ vis next
          else (⟨entryOf dst.val key, vis, next, none, Status.ok⟩ : Res)) = r
        generalize hr1 : (if dynKind ⟨some b, none, false⟩ ∈ [Kind.struct, Kind.ptr, Kind.map]
          then rec (elemValue (entryOf dst1.val key) false) ⟨some b, none, false⟩ vis next
          else (⟨entryOf dst1.val key, vis, next, none, Status.ok⟩ : Res)) = r1
        obtain ⟨hre, hre1, hiff, hres⟩ := stepRule_rec hrec vis next hs hat (hsk a rfl)
          (hsk1 b rfl) he het r r1 hr hr1
        simp only [hre, hre1, and_true]
        by_cases hok : r.status = Status.ok
        · have hok1 := hiff.mp hok
          obtain ⟨h1, h2, h3, h4, hsw, htw⟩ := hres hok
          simp only [hok, hok1, if_true, h1, h2, h3, h4]
          by_cases hins : (!isEmptyVal a && (overwrite || (entryOf dst.val key).isNone)) = true
          · simp only [hins, if_true]
            by_cases hg : (assignable vt vt && canGrow dst) = true
            · simp only [hg, if_true]
              refine ⟨rfl, ?_⟩
              intro p p1 hp hp1
              simp only [Option.some.injEq] at hp hp1
              subst hp hp1
              have ea : stored vt a = a := by rw [← hat]; exact same_stored hs
              have eb : stored vt b = b := by rw [← hbt]; exact same_stored (same_symm hs)
              refine ⟨rfl, rfl, ?_, ?_⟩
              · simp only [entryOf, mapLookup_mapInsert, if_true, ea, eb, SameO]
                exact hs
              · intro x hx
                simp only [entryOf, mapLookup_mapInsert, if_true, ea, Option.some.injEq] at hx
                rw [← hx]
                exact hat
            · simp only [hg]
              exact ⟨by simp, fun p p1 hp => by simp at hp⟩
          · simp only [hins]
            refine ⟨rfl, ?_⟩
            intro p p1 hp hp1
            simp only [Bool.false_eq_true, if_false, Option.some.injEq] at hp hp1
            subst hp hp1
            refine ⟨rfl, rfl, ?_, ?_⟩
            · simp only [putEntry_own hd, putEntry_own hd1]
              exact hsw
            · simp only [putEntry_own hd]
              exact htw
        · have hok1 : ¬ r1.status = Status.ok := fun h => hok (hiff.mpr h)
          simp only [hok, hok1, if_false]
          exact ⟨by simp, fun p p1 hp => by simp at hp⟩

/-- The map case over a list of distinct keys, measured against single steps
from a reference state `xr` with a reference source `srcR`: it returns normally
exactly when every such step lets the loop go on, and then every entry under a
key of the list is related to the entry the reference step leaves, the other
entries are as before, and the map is nil only if it was nil and has no entry
under the keys. -/
theorem mapLoop_char {rec : Value → Value → Visited → Nat → Res} (hrec : RecOrder rec)
    (overwrite : Bool) {src srcR xr : Value} {kt vt : Ty}
    {ses desR : Option (List (Key × Val))} (vis : Visited) (next : Nat)
    (hs : src.val = some (.map kt vt ses)) (hsro : src.ro = false)
    (hss : ∀ k, SameO (entryOf src.val k) (entryOf srcR.val k))
    (hst : ∀ k x, entryOf src.val k = some x → typeOf x = vt)
    (hsk : ∀ k x, entryOf src.val k = some x → distinctKeys x = true)
    (hskR : ∀ k x, entryOf srcR.val k = some x → distinctKeys x = true)
    (hxr : xr.val = some (.map kt vt desR))
    (hxt : ∀ k x, entryOf xr.val k = some x → typeOf x = vt) :
    ∀ (keys : List Key), keys.Nodup →
      ∀ (y : Value) (des : Option (List (Key × Val))),
      y.val = some (.map kt vt des) → y.ro = false → canGrow y = canGrow xr →
      (∀ k ∈ keys, SameO (entryOf y.val k) (entryOf xr.val k)) →
      ((mapLoop rec overwrite src kt keys y vis next).status = Status.ok
        ↔ ∀ k ∈ keys,
          (stepRule rec overwrite k kt vt (entryOf srcR.val k) xr vis next).isSome = true)
      ∧ ((mapLoop rec overwrite src kt keys y vis next).status = Status.ok →
          (mapLoop rec overwrite src kt keys y vis next).visited = vis
          ∧ (mapLoop rec overwrite src kt keys y vis next).next = next
          ∧ ∃ desF, (mapLoop rec overwrite src kt keys y vis next).val = some (.map kt vt desF)
            ∧ (desF = none ↔ des = none
                ∧ ∀ k ∈ keys,
                  entryOf (mapLoop rec overwrite src kt keys y vis next).val k = none)
            ∧ (∀ k, k ∉ keys →
                entryOf (mapLoop rec overwrite src kt keys y vis next).val k = entryOf y.val k)
            ∧ (∀ k ∈ keys, ∀ p,
                stepRule rec overwrite k kt vt (entryOf srcR.val k) xr vis next = some p →
                SameO (entryOf (mapLoop rec overwrite src kt keys y vis next).val k)
                  (entryOf p.1.val k)
                ∧ ∀ x, entryOf (mapLoop rec overwrite src kt keys y vis next).val k = some x →
                  typeOf x = vt)) := by
  intro keys
  induction keys with
  | nil =>
    intro _ y des hy _ _ _
    simp only [mapLoop, List.not_mem_nil, false_implies, implies_true, iff_true, true_implies,
      true_and, not_false_eq_true, and_true]
    exact ⟨des, hy, Iff.rfl⟩
  | cons key rest ih =>
    intro hnd y des hy hyro hgrow hent
    obtain ⟨hkr, hndr⟩ := List.nodup_cons.mp hnd
    have hkk : assignable kt kt = true := by simp [assignable]
    have hleft := mapStep_getLeft rec overwrite key vis next hy hs hsro
      hyro hkk hkk
    have hyt : ∀ x, entryOf y.val key = some x → typeOf x = vt := by
      intro x hx
      have h1 := hent key (List.mem_cons_self _ _)
      rw [hx] at h1
      cases hxr1 : entryOf xr.val key with
      | none => rw [hxr1] at h1; simp [SameO] at h1
      | some z =>
        rw [hxr1] at h1
        simp only [SameO] at h1
        rw [same_typeOf h1]
        exact hxt key z hxr1
    obtain ⟨hsome, hrel⟩ := stepRule_congr hrec overwrite key vis next
      hy hxr hgrow (hss key) (hst key) (hsk key) (hskR key)
      (hent key (List.mem_cons_self _ _)) hyt
    rw [mapLoop_step]
    cases hstep : mapStep rec overwrite src kt key y vis next with
    | inr o =>
      rw [hstep] at hleft
      simp only [Sum.getLeft?] at hleft
      rw [← hleft] at hsome
      have hno := mapStep_inr hrec.1 hstep
      simp only
      refine ⟨⟨fun h => absurd h hno, ?_⟩, fun h => absurd h hno⟩
      intro h
      have := h key (List.mem_cons_self _ _)
      rw [← hsome] at this
      simp at this
    | inl q =>
      obtain ⟨y1, v, n⟩ := q
      rw [hstep] at hleft
      simp only [Sum.getLeft?] at hleft
      rw [← hleft] at hsome
      have hrefsome : (stepRule rec overwrite key kt vt (entryOf srcR.val key) xr vis
          next).isSome = true := by rw [← hsome]; rfl
      obtain ⟨p1, hp1⟩ := Option.isSome_iff_exists.mp hrefsome
      obtain ⟨hvn, _, hsame1, htype1⟩ := hrel (y1, v, n) p1 hleft.symm hp1
      simp only [Prod.mk.injEq] at hvn
      obtain ⟨hv, hn⟩ := hvn
      subst hv hn
      obtain ⟨_, hro1, ⟨des1, hy1, hnil1⟩, hgrow1, hother1, _⟩ :=
        stepRule_frame hy hyro hleft.symm
      have hent1 : ∀ k ∈ rest, SameO (entryOf y1.val k) (entryOf xr.val k) := by
        intro k hk
        have hne : k ≠ key := fun e => hkr (e ▸ hk)
        rw [hother1 k hne]
        exact hent k (List.mem_cons_of_mem _ hk)
      obtain ⟨hiff, hres⟩ := ih hndr y1 des1 hy1 hro1 (hgrow1.trans hgrow) hent1
      simp only
      constructor
      · rw [hiff]
        constructor
        · intro h k hk
          rcases List.mem_cons.mp hk with e | hk
          · rw [e]; exact hrefsome
          · exact h k hk
        · intro h k hk
          exact h k (List.mem_cons_of_mem _ hk)
      · intro hok
        obtain ⟨hvis, hnext, desF, hval, hnilF, hnot, hin⟩ := hres hok
        refine ⟨hvis, hnext, desF, hval, ?_, ?_, ?_⟩
        · rw [hnilF, hnil1, ← hnot key hkr]
          constructor
          · intro h
            refine ⟨h.1.1, ?_⟩
            intro k hk
            rcases List.mem_cons.mp hk with e | hk
            · rw [e]; exact h.1.2
            · exact h.2 k hk
          · intro h
            exact ⟨⟨h.1, h.2 key (List.mem_cons_self _ _)⟩,
              fun k hk => h.2 k (List.mem_cons_of_mem _ hk)⟩
        · intro k hk
          have hne : k ≠ key := fun e => hk (e ▸ List.mem_cons_self _ _)
          have hnr : k ∉ rest := fun e => hk (List.mem_cons_of_mem _ e)
          rw [hnot k hnr, hother1 k hne]
        · intro k hk p hp
          rcases List.mem_cons.mp hk with e | hk
          · subst e
            rw [hp1] at hp
            simp only [Option.some.injEq] at hp
            subst hp
            rw [hnot k hkr]
            exact ⟨hsame1, htype1⟩
          · exact hin k hk p hp

theorem mem_keys_iff (k : Key) (es : List (Key × Val)) :
    k ∈ es.map Prod.fst ↔ mapLookup k es ≠ none := by
  induction es with
  | nil => simp [mapLookup]
  | cons p rest ih =>
    obtain ⟨k1, v1⟩ := p
    simp only [List.map_cons, List.mem_cons, mapLookup]
    by_cases h : k1 = k
    · simp [h]
    · have h1 : ¬ k = k1 := fun e => h e.symm
      simp [h, h1, ih]

theorem distinct_entry {es : List (Key × Val)} (h : distinctEntries es = true) (k : Key)
    (x : Val) (hx : mapLookup k es = some x) : distinctKeys x = true := by
  induction es with
  | nil => cases hx
  | cons p rest ih =>
    obtain ⟨k1, v1⟩ := p
    simp only [distinctEntries, Bool.and_eq_true] at h
    simp only [mapLookup] at hx
    split at hx
    · simp only [Option.some.injEq] at hx
      rw [← hx]
      exact h.1
    · exact ih h.2 hx

theorem distinctKeys_entry {kt vt : Ty} {ses : Option (List (Key × Val))}
    (h : distinctKeys (.map kt vt ses) = true) (k : Key) (x : Val)
    (hx : entryOf (some (.map kt vt ses)) k = some x) : distinctKeys x = true := by
  cases ses with
  | none => cases hx
  | some es =>
    simp only [distinctKeys, Bool.and_eq_true] at h
    exact distinct_entry h.2 k x hx

theorem distinctKeys_nodup {kt vt : Ty} {ses : Option (List (Key × Val))}
    (h : distinctKeys (.map kt vt ses) = true) :
    ((entriesOf (some (.map kt vt ses))).map Prod.fst).Nodup := by
  cases ses with
  | none => exact List.nodup_nil
  | some es =>
    simp only [distinctKeys, Bool.and_eq_true, decide_eq_true_eq] at h
    exact h.1

theorem same_map_form {d d1 : Val} {kt vt : Ty} (h : Same d d1) (ht : typeOf d = Ty.map kt vt) :
    ∃ des des1, d = .map kt vt des ∧ d1 = .map kt vt des1 ∧ (des = none ↔ des1 = none) := by
  cases h with
  | bool b => cases ht
  | int i => cases ht
  | str s => cases ht
  | nilMap k v =>
    simp only [typeOf, Ty.map.injEq] at ht
    obtain ⟨rfl, rfl⟩ := ht
    exact ⟨none, none, rfl, rfl, Iff.rfl⟩
  | map k v es es1 hkeys htype hvals =>
    simp only [typeOf, Ty.map.injEq] at ht
    obtain ⟨rfl, rfl⟩ := ht
    exact ⟨some es, some es1, rfl, rfl, by simp⟩

theorem same_keys {kt vt : Ty} {ses ses1 : Option (List (Key × Val))}
    (h : Same (.map kt vt ses) (.map kt vt ses1)) (k : Key) :
    k ∈ (entriesOf (some (.map kt vt ses))).map Prod.fst
      ↔ k ∈ (entriesOf (some (.map kt vt ses1))).map Prod.fst := by
  have := sameO_none (same_entries h k)
  cases h with
  | nilMap _ _ => exact Iff.rfl
  | map _ _ es es1 hkeys htype hvals =>
    simp only [entriesOf, entryOf, mem_keys_iff] at this ⊢
    exact not_congr this

/-- The map case on two destinations and two sources that are the same up to
the order of their entries, over two enumerations of the keys: it returns
normally on both or on neither, and the maps it leaves are the same up to the
order of their entries. -/
theorem mapLoop_order {rec : Value → Value → Visited → Nat → Res} (hrec : RecOrder rec)
    (overwrite : Bool) (src src1 x x1 : Value) {kt vt : Ty}
    {ses ses1 des des1 : Option (List (Key × Val))} (vis : Visited) (next : Nat)
    (keys keys1 : List Key)
    (hs : src.val = some (.map kt vt ses)) (hs1 : src1.val = some (.map kt vt ses1))
    (hsro : src.ro = false) (hsro1 : src1.ro = false)
    (hss : Same (.map kt vt ses) (.map kt vt ses1))
    (hks : distinctKeys (.map kt vt ses) = true) (hks1 : distinctKeys (.map kt vt ses1) = true)
    (hx : x.val = some (.map kt vt des)) (hx1 : x1.val = some (.map kt vt des1))
    (hxro : x.ro = false) (hxro1 : x1.ro = false) (haddr : x.addr = x1.addr)
    (hdd : Same (.map kt vt des) (.map kt vt des1))
    (hnd : keys.Nodup) (hnd1 : keys1.Nodup) (hmem : ∀ k, k ∈ keys ↔ k ∈ keys1) :
    ((mapLoop rec overwrite src kt keys x vis next).status = Status.ok
      ↔ (mapLoop rec overwrite src1 kt keys1 x1 vis next).status = Status.ok)
    ∧ ((mapLoop rec overwrite src kt keys x vis next).status = Status.ok →
        (mapLoop rec overwrite src kt keys x vis next).visited = vis
        ∧ (mapLoop rec overwrite src kt keys x vis next).next = next
        ∧ (mapLoop rec overwrite src1 kt keys1 x1 vis next).visited = vis
        ∧ (mapLoop rec overwrite src1 kt keys1 x1 vis next).next = next
        ∧ ∃ w w1, (mapLoop rec overwrite src kt keys x vis next).val = some w
          ∧ (mapLoop rec overwrite src1 kt keys1 x1 vis next).val = some w1
          ∧ Same w w1 ∧ typeOf w = Ty.map kt vt) := by
  have hnilx : des = none ↔ des1 = none := by
    cases hdd with
    | nilMap _ _ => exact Iff.rfl
    | map _ _ _ _ _ _ _ => simp
  have hgrow : canGrow x1 = canGrow x := by
    simp only [canGrow, hx, hx1, haddr]
    cases des <;> cases des1 <;> simp at hnilx ⊢
  have hxt : ∀ k v, entryOf x.val k = some v → typeOf v = vt := by
    intro k v hv
    rw [hx] at hv
    exact same_entry_type hdd rfl k v hv
  have hst : ∀ k v, entryOf src.val k = some v → typeOf v = vt := by
    intro k v hv
    rw [hs] at hv
    exact same_entry_type hss rfl k v hv
  have hst1 : ∀ k v, entryOf src1.val k = some v → typeOf v = vt := by
    intro k v hv
    rw [hs1] at hv
    exact same_entry_type (same_symm hss) rfl k v hv
  have hsk : ∀ k v, entryOf src.val k = some v → distinctKeys v = true := by
    intro k v hv
    rw [hs] at hv
    exact distinctKeys_entry hks k v hv
  have hsk1 : ∀ k v, entryOf src1.val k = some v → distinctKeys v = true := by
    intro k v hv
    rw [hs1] at hv
    exact distinctKeys_entry hks1 k v hv
  have hss0 : ∀ k, SameO (entryOf src.val k) (entryOf src.val k) := by
    intro k
    rw [hs]
    exact same_entries (same_left hss) k
  have hss1 : ∀ k, SameO (entryOf src1.val k) (entryOf src.val k) := by
    intro k
    rw [hs, hs1]
    exact same_entries (same_symm hss) k
  have hxx : ∀ k, SameO (entryOf x.val k) (entryOf x.val k) := by
    intro k
    rw [hx]
    exact same_entries (same_left hdd) k
  have hxx1 : ∀ k, SameO (entryOf x1.val k) (entryOf x.val k) := by
    intro k
    rw [hx, hx1]
    exact same_entries (same_symm hdd) k
  obtain ⟨hiff, hres⟩ := mapLoop_char hrec overwrite vis next hs hsro hss0 hst
    hsk hsk hx hxt keys hnd x des hx hxro rfl (fun k _ => hxx k)
  obtain ⟨hiff1, hres1⟩ := mapLoop_char hrec overwrite vis next hs1 hsro1 hss1
    hst1 hsk1 hsk hx hxt keys1 hnd1 x1 des1 hx1 hxro1 hgrow (fun k _ => hxx1 k)
  have hboth : (mapLoop rec overwrite src kt keys x vis next).status = Status.ok
      ↔ (mapLoop rec overwrite src1 kt keys1 x1 vis next).status = Status.ok := by
    rw [hiff, hiff1]
    exact ⟨fun h k hk => h k ((hmem k).mpr hk), fun h k hk => h k ((hmem k).mp hk)⟩
  refine ⟨hboth, ?_⟩
  intro hok
  have hok1 := hboth.mp hok
  obtain ⟨hv, hn, desF, hval, hnilF, hnot, hin⟩ := hres hok
  obtain ⟨hv1, hn1, desF1, hval1, hnilF1, hnot1, hin1⟩ := hres1 hok1
  have hall := hiff.mp hok
  have hent : ∀ k, SameO (entryOf (mapLoop rec overwrite src kt keys x vis next).val k)
      (entryOf (mapLoop rec overwrite src1 kt keys1 x1 vis next).val k) := by
    intro k
    by_cases hk : k ∈ keys
    · obtain ⟨p, hp⟩ := Option.isSome_iff_exists.mp (hall k hk)
      exact sameO_trans (hin k hk p hp).1 (sameO_symm (hin1 k ((hmem k).mp hk) p hp).1)
    · have hk1 : k ∉ keys1 := fun h => hk ((hmem k).mpr h)
      rw [hnot k hk, hnot1 k hk1]
      exact sameO_symm (hxx1 k)
  have htypeF : ∀ k v, entryOf (mapLoop rec overwrite src kt keys x vis next).val k = some v →
      typeOf v = vt := by
    intro k v hkv
    by_cases hk : k ∈ keys
    · obtain ⟨p, hp⟩ := Option.isSome_iff_exists.mp (hall k hk)
      exact (hin k hk p hp).2 v hkv
    · rw [hnot k hk] at hkv
      exact hxt k v hkv
  refine ⟨hv, hn, hv1, hn1, _, _, hval, hval1, ?_, rfl⟩
  rw [hval, hval1] at hent
  rw [hval] at htypeF
  refine same_of_entries ?_ hent htypeF
  rw [hnilF, hnilF1, hnilx]
  constructor
  · intro h
    refine ⟨h.1, ?_⟩
    intro k hk
    have h2 := h.2 k ((hmem k).mpr hk)
    have := sameO_none (hent k)
    rw [← hval, ← hval1] at this
    exact this.mp h2
  · intro h
    refine ⟨h.1, ?_⟩
    intro k hk
    have h2 := h.2 k ((hmem k).mp hk)
    have := sameO_none (hent k)
    rw [← hval, ← hval1] at this
    exact this.mpr h2

/-- `deepMerge` on two maps: the visited check and the map case. -/
theorem deepMerge_map_unfold (overwrite : Bool) (listKey : String) (fuel : Nat) (kt vt skt svt : Ty)
    (des ses : Option (List (Key × Val))) (addr saddr : Option Addr) (vis : Visited)
    (next : Nat) :
    deepMerge overwrite listKey (fuel + 1) ⟨some (.map kt vt des), addr, false⟩
        ⟨some (.map skt svt ses), saddr, false⟩ vis next
      = match enter ⟨some (.map kt vt des), addr, false⟩ vis with
        | none => ⟨some (.map kt vt des), vis, next, none, Status.ok⟩
        | some vis1 =>
          mapLoop (deepMerge overwrite listKey fuel) overwrite
            ⟨some (.map skt svt ses), saddr, false⟩ skt
            ((entriesOf (some (.map skt svt ses))).map Prod.fst)
            ⟨some (.map kt vt des), addr, false⟩ vis1 next := by
  cases ses <;>
    simp [deepMerge, Value.IsValid, Value.Kind, kindOf, Value.MapKeys, entriesOf]

/-- `deepMerge` with the zero `Value` as destination does nothing. -/
theorem deepMerge_invalid_dst (overwrite : Bool) (listKey : String) (fuel : Nat) (s : Val)
    (vis : Visited) (next : Nat) :
    deepMerge overwrite listKey fuel ⟨none, none, false⟩ ⟨some s, none, false⟩ vis next
      = ⟨none, vis, next, none, if fuel = 0 then Status.fuel else Status.ok⟩ := by
  cases fuel with
  | zero => rfl
  | succ n =>
    simp [deepMerge, Value.IsValid, enter, Value.Kind, assignRule, Value.CanSet]

/-- One level of `deepMerge` on maps that are the same up to the order of their
entries, given the property for the level below. -/
theorem deepMerge_order_step {overwrite : Bool} {listKey : String} {fuel : Nat}
    (hrec : RecOrder (deepMerge overwrite listKey fuel)) {d d1 s s1 : Val}
    (addr saddr saddr1 : Option Addr) (vis : Visited) (next : Nat)
    (hd : Same d d1) (hs : Same s s1) (hkm : kindOf s = Kind.map) (hty : typeOf d = typeOf s)
    (hks : distinctKeys s = true) (hks1 : distinctKeys s1 = true) :
    ((deepMerge overwrite listKey (fuel + 1) ⟨some d, addr, false⟩ ⟨some s, saddr, false⟩
        vis next).status = Status.ok
      ↔ (deepMerge overwrite listKey (fuel + 1) ⟨some d1, addr, false⟩ ⟨some s1, saddr1, false⟩
        vis next).status = Status.ok)
    ∧ ((deepMerge overwrite listKey (fuel + 1) ⟨some d, addr, false⟩ ⟨some s, saddr, false⟩
        vis next).status = Status.ok →
        (deepMerge overwrite listKey (fuel + 1) ⟨some d, addr, false⟩ ⟨some s, saddr, false⟩
          vis next).visited
          = (deepMerge overwrite listKey (fuel + 1) ⟨some d1, addr, false⟩
            ⟨some s1, saddr1, false⟩ vis next).visited
        ∧ (addr = none →
          (deepMerge overwrite listKey (fuel + 1) ⟨some d, addr, false⟩ ⟨some s, saddr, false⟩
            vis next).visited = vis)
        ∧ (deepMerge overwrite listKey (fuel + 1) ⟨some d, addr, false⟩ ⟨some s, saddr, false⟩
          vis next).next = next
        ∧ (deepMerge overwrite listKey (fuel + 1) ⟨some d1, addr, false⟩
          ⟨some s1, saddr1, false⟩ vis next).next = next
        ∧ ∃ w w1,
          (deepMerge overwrite listKey (fuel + 1) ⟨some d, addr, false⟩ ⟨some s, saddr, false⟩
            vis next).val = some w
          ∧ (deepMerge overwrite listKey (fuel + 1) ⟨some d1, addr, false⟩
            ⟨some s1, saddr1, false⟩ vis next).val = some w1
          ∧ Same w w1 ∧ typeOf w = typeOf d) := by
  have hsf : ∃ kt vt, typeOf s = Ty.map kt vt := by
    cases hs <;> simp [kindOf] at hkm <;> exact ⟨_, _, rfl⟩
  obtain ⟨kt, vt, hst⟩ := hsf
  obtain ⟨ses, ses1, rfl, rfl, _⟩ := same_map_form hs hst
  obtain ⟨des, des1, rfl, rfl, _⟩ := same_map_form hd (hty.trans hst)
  rw [deepMerge_map_unfold, deepMerge_map_unfold]
  have hen : enter ⟨some (.map kt vt des1), addr, false⟩ vis
      = enter ⟨some (.map kt vt des), addr, false⟩ vis := by
    cases addr <;> rfl
  rw [hen]
  cases hent : enter ⟨some (.map kt vt des), addr, false⟩ vis with
  | none =>
    refine ⟨Iff.rfl, fun _ => ⟨rfl, ?_, rfl, rfl, _, _, rfl, rfl, hd, rfl⟩⟩
    intro h
    subst h
    simp [enter] at hent
  | some vis1 =>
    simp only
    obtain ⟨hiff, hres⟩ := mapLoop_order hrec overwrite
      ⟨some (.map kt vt ses), saddr, false⟩ ⟨some (.map kt vt ses1), saddr1, false⟩
      ⟨some (.map kt vt des), addr, false⟩ ⟨some (.map kt vt des1), addr, false⟩
      vis1 next
      ((entriesOf (some (.map kt vt ses))).map Prod.fst)
      ((entriesOf (some (.map kt vt ses1))).map Prod.fst)
      rfl rfl rfl rfl hs hks hks1 rfl rfl rfl rfl rfl hd
      (distinctKeys_nodup hks) (distinctKeys_nodup hks1) (same_keys hs)
    refine ⟨hiff, ?_⟩
    intro hok
    obtain ⟨h1, h2, h3, h4, w, w1, hw, hw1, hsame, htw⟩ := hres hok
    refine ⟨by rw [h1, h3], ?_, h2, h4, w, w1, hw, hw1, hsame, htw⟩
    intro h
    subst h
    rw [h1]
    simp only [enter, Option.some.injEq] at hent
    exact hent.symm

/-- The outcome of `deepMerge` on maps of leaves and maps does not depend on the
order of their entries, at every recursion budget. -/
theorem deepMerge_recOrder (overwrite : Bool) (listKey : String) :
    ∀ fuel, RecOrder (deepMerge overwrite listKey fuel) := by
  intro fuel
  induction fuel with
  | zero =>
    refine ⟨deepMerge_noErr overwrite listKey 0, ?_, ?_⟩
    · intro s s1 vis next
      exact ⟨rfl, fun h => by simp [deepMerge] at h⟩
    · intro d d1 s s1 vis next _ _ _ _ _ _
      simp [deepMerge]
  | succ n ih =>
    refine ⟨deepMerge_noErr overwrite listKey (n + 1), ?_, ?_⟩
    · intro s s1 vis next
      rw [deepMerge_invalid_dst, deepMerge_invalid_dst]
      simp
    · intro d d1 s s1 vis next hd hs hkm hty hks hks1
      obtain ⟨hiff, hres⟩ := deepMerge_order_step ih none none none vis next hd hs hkm hty
        hks hks1
      refine ⟨hiff, ?_⟩
      intro hok
      obtain ⟨h1, h2, h3, h4, hw⟩ := hres hok
      exact ⟨h2 rfl, h3, by rw [← h1]; exact h2 rfl, h4, hw⟩

theorem same_of_sameEntriesB {n : Nat}
    (ih : ∀ a, depth a ≤ n → ∀ b, sameB a b = true → Same a b) (vt : Ty)
    (es1 : List (Key × Val)) :
    ∀ (es : List (Key × Val)), depthEntries es ≤ n → sameEntriesB vt es es1 = true →
    ∀ k a, mapLookup k es = some a → typeOf a = vt ∧ ∃ b, mapLookup k es1 = some b ∧ Same a b
  | [], _, _ => fun k a ha => by cases ha
  | (k1, v) :: rest, hdep, h => fun k a ha => by
    simp only [sameEntriesB, Bool.and_eq_true] at h
    obtain ⟨h1, h2⟩ := h
    simp only [depthEntries] at hdep
    simp only [mapLookup] at ha
    split at ha
    · rename_i hk
      subst hk
      simp only [Option.some.injEq] at ha
      subst ha
      cases hb : mapLookup k1 es1 with
      | none => rw [hb] at h1; cases h1
      | some b =>
        rw [hb] at h1
        simp only [Bool.and_eq_true, decide_eq_true_eq] at h1
        exact ⟨h1.1, b, rfl, ih v (le_trans (le_max_left _ _) hdep) b h1.2⟩
    · exact same_of_sameEntriesB ih vt es1 rest (le_trans (le_max_right _ _) hdep) h2 k a ha

theorem same_of_sameB_depth : ∀ (n : Nat) (a : Val), depth a ≤ n → ∀ b, sameB a b = true →
    Same a b := by
  intro n
  induction n with
  | zero =>
    intro a ha
    cases a <;> simp [depth] at ha
    all_goals (rename_i x; cases x <;> simp [depth] at ha)
  | succ n ih =>
    intro a ha b h
    cases a with
    | bool x =>
      cases b <;> simp only [sameB, decide_eq_true_eq] at h <;> try cases h
      exact Same.bool x
    | int x =>
      cases b <;> simp only [sameB, decide_eq_true_eq] at h <;> try cases h
      exact Same.int x
    | str x =>
      cases b <;> simp only [sameB, decide_eq_true_eq] at h <;> try cases h
      exact Same.str x
    | struct t fs => simp [sameB] at h
    | slice e arr cap es => simp [sameB] at h
    | ptr e t => simp [sameB] at h
    | iface x => simp [sameB] at h
    | map kt vt ses =>
      cases ses with
      | none =>
        cases b with
        | map kt1 vt1 ses1 =>
          cases ses1 with
          | none =>
            simp only [sameB, Bool.and_eq_true, decide_eq_true_eq] at h
            obtain ⟨rfl, rfl⟩ := h
            exact Same.nilMap kt vt
          | some es1 => simp [sameB] at h
        | bool x => simp [sameB] at h
        | int x => simp [sameB] at h
        | str x => simp [sameB] at h
        | struct t fs => simp [sameB] at h
        | slice e arr cap es => simp [sameB] at h
        | ptr e t => simp [sameB] at h
        | iface x => simp [sameB] at h
      | some es =>
        cases b with
        | map kt1 vt1 ses1 =>
          cases ses1 with
          | none => simp [sameB] at h
          | some es1 =>
            simp only [sameB, Bool.and_eq_true, decide_eq_true_eq, List.all_eq_true] at h
            obtain ⟨⟨⟨rfl, rfl⟩, h3⟩, h4⟩ := h
            simp only [depth, Nat.add_le_add_iff_right] at ha
            have hall := same_of_sameEntriesB ih vt es1 es ha h3
            refine Same.map kt vt es es1 ?_ (fun k a ha => (hall k a ha).1) ?_
            · intro k
              constructor
              · intro hn
                cases hb : mapLookup k es1 with
                | none => rfl
                | some b =>
                  exfalso
                  have hmem : k ∈ es1.map Prod.fst :=
                    (mem_keys_iff k es1).mpr (by rw [hb]; simp)
                  obtain ⟨p, hp, hpk⟩ := List.mem_map.mp hmem
                  have := h4 p hp
                  rw [hpk, hn] at this
                  cases this
              · intro hn
                cases ha : mapLookup k es with
                | none => rfl
                | some a =>
                  obtain ⟨_, b, hb, _⟩ := hall k a ha
                  rw [hn] at hb
                  cases hb
            · intro k a b ha hb
              obtain ⟨_, b1, hb1, hs⟩ := hall k a ha
              rw [hb] at hb1
              simp only [Option.some.injEq] at hb1
              rw [hb1]
              exact hs
        | bool x => simp [sameB] at h
        | int x => simp [sameB] at h
        | str x => simp [sameB] at h
        | struct t fs => simp [sameB] at h
        | slice e arr cap es => simp [sameB] at h
        | ptr e t => simp [sameB] at h
        | iface x => simp [sameB] at h

/-- The check `sameB` is sound. -/
theorem same_of_sameB (a b : Val) (h : sameB a b = true) : Same a b :=
  same_of_sameB_depth (depth a) a (le_refl _) b h

/-- C19 (amended). Key-order independence of the mapping merge when no nested
mapping is shared: for every pair of same-typed mappings `dst` and `src` with
leaf or nested-mapping values, given as values (so that every nested mapping is
held under one key only), and either mode: if `deepMerge` returns normally for
one order of the entries of `src` (the order in which the mapping case
enumerates the keys, at every level), it returns normally for every other order
(`s1`, the same mapping with its entries listed in another order, and likewise
`d1` for `dst`), and the resulting `dst` is the same mapping. -/
theorem deepMerge_key_order (overwrite : Bool) (listKey : String) (fuel : Nat)
    (d d1 s s1 : Val) (addr saddr saddr1 : Option Addr) (vis : Visited) (next : Nat)
    (hd : Same d d1) (hs : Same s s1) (hkm : kindOf s = Kind.map) (hty : typeOf d = typeOf s)
    (hks : distinctKeys s = true) (hks1 : distinctKeys s1 = true)
    (hok : (deepMerge overwrite listKey fuel ⟨some d, addr, false⟩ ⟨some s, saddr, false⟩
      vis next).status = Status.ok) :
    (deepMerge overwrite listKey fuel ⟨some d1, addr, false⟩ ⟨some s1, saddr1, false⟩
      vis next).status = Status.ok
    ∧ ∃ w w1,
      (deepMerge overwrite listKey fuel ⟨some d, addr, false⟩ ⟨some s, saddr, false⟩
        vis next).val = some w
      ∧ (deepMerge overwrite listKey fuel ⟨some d1, addr, false⟩ ⟨some s1, saddr1, false⟩
        vis next).val = some w1
      ∧ Same w w1 := by
  cases fuel with
  | zero => simp [deepMerge] at hok
  | succ n =>
    obtain ⟨hiff, hres⟩ := deepMerge_order_step (deepMerge_recOrder overwrite listKey n)
      addr saddr saddr1 vis next hd hs hkm hty hks hks1
    obtain ⟨_, _, _, _, w, w1, hw, hw1, hsame, _⟩ := hres hok
    exact ⟨hiff.mp hok, w, w1, hw, hw1, hsame⟩

/-- Witness for C19: `dst = {"a": {"y": 2}}` and `src = {"a": {"x": 1}, "b":
{"z": 3}}`, fill-only, with the keys of `src` enumerated as `a, b` and as
`b, a`. -/
theorem deepMerge_key_order_witness :
    (deepMerge false "" 3
      ⟨some (.map .string (.map .string .int)
          (some [(.str "a", .map .string .int (some [(.str "y", .int 2)]))])),
        some (0, []), false⟩
      ⟨some (.map .string (.map .string .int)
          (some [(.str "b", .map .string .int (some [(.str "z", .int 3)])),
            (.str "a", .map .string .int (some [(.str "x", .int 1)]))])),
        none, false⟩ [] 1).status = Status.ok
    ∧ ∃ w w1,
      (deepMerge false "" 3
        ⟨some (.map .string (.map .string .int)
            (some [(.str "a", .map .string .int (some [(.str "y", .int 2)]))])),
          some (0, []), false⟩
        ⟨some (.map .string (.map .string .int)
            (some [(.str "a", .map .string .int (some [(.str "x", .int 1)])),
              (.str "b", .map .string .int (some [(.str "z", .int 3)]))])),
          none, false⟩ [] 1).val = some w
      ∧ (deepMerge false "" 3
        ⟨some (.map .string (.map .string .int)
            (some [(.str "a", .map .string .int (some [(.str "y", .int 2)]))])),
          some (0, []), false⟩
        ⟨some (.map .string (.map .string .int)
            (some [(.str "b", .map .string .int (some [(.str "z", .int 3)])),
              (.str "a", .map .string .int (some [(.str "x", .int 1)]))])),
          none, false⟩ [] 1).val = some w1
      ∧ Same w w1 :=
  deepMerge_key_order false "" 3 _ _ _ _ (some (0, [])) none none [] 1
    (same_of_sameB _ _ (by decide)) (same_of_sameB _ _ (by decide)) rfl rfl
    (by decide) (by decide) (by decide)

/-! ## Sequences on one backing array (heap embedding) -/

/-- C1 (counterexample). `dst = S{L: arr[:1], M: arr}` with one backing array
`arr = [{a, 1}, {b, 2}]` under both sequences and `src = S{L: [{c, 3}]}`, key `K`,
fill-only, on the heap `Graph.sharedArrayHeap`: the element `{c, 3}` is appended
to `dst.L` in place, in the slot that `dst.M[1]` occupies.  The merge returns
normally, and the non-empty leaf `dst.M[1].V`, 2 before, is 3 after. -/
theorem merge_shared_array_overwrites_leaf :
    (Graph.Merge 6 10 Graph.sharedArrayHeap (.ptr (.named "S") (some 0))
        (.struct "S" [("L", .slice (.named "E") (some 6) 1 1),
          ("M", .slice (.named "E") none 0 0)]) "K").status = Status.ok
    ∧ leafAt [.elem, .field 1, .index 1, .field 1]
        (Graph.view Graph.sharedArrayHeap 6 (.ptr (.named "S") (some 0))) = some (.int 2)
    ∧ leafAt [.elem, .field 1, .index 1, .field 1]
        (Graph.view
          (Graph.Merge 6 10 Graph.sharedArrayHeap (.ptr (.named "S") (some 0))
            (.struct "S" [("L", .slice (.named "E") (some 6) 1 1),
              ("M", .slice (.named "E") none 0 0)]) "K").heap
          6 (.ptr (.named "S") (some 0))) = some (.int 3) :=
  ⟨rfl, rfl, rfl⟩

/-- C18 (counterexample). `dst = S{L: arr}` where `arr` holds `{K: "a", Sub:
arr[0:0]}` and `{K: "b"}`, and `src = S{L: [{K: "a", Sub: [{K: "b"}]}]}`, key
`K`, fill-only, on the heap `Graph.selfArrayHeap`.  The first element of `dst.L`
holds an empty sequence on the array it is stored in; the element of `src` is
merged into it, and the append to its `Sub` is in place and overwrites the
element itself.  The merge returns normally with a nil error; the keys of
`dst.L`, `a` and `b` before, are `b` and `b` after. -/
theorem merge_self_array_repeats_key :
    (Graph.Merge 8 10 Graph.selfArrayHeap (.ptr (.named "S") (some 0))
        (.struct "S" [("L", .slice (.named "E") (some 6) 1 1)]) "K").status = Status.ok
    ∧ (Graph.Merge 8 10 Graph.selfArrayHeap (.ptr (.named "S") (some 0))
        (.struct "S" [("L", .slice (.named "E") (some 6) 1 1)]) "K").err = none
    ∧ leafAt [.elem, .field 0, .index 0, .field 0]
        (Graph.view Graph.selfArrayHeap 6 (.ptr (.named "S") (some 0))) = some (.str "a")
    ∧ leafAt [.elem, .field 0, .index 1, .field 0]
        (Graph.view Graph.selfArrayHeap 6 (.ptr (.named "S") (some 0))) = some (.str "b")
    ∧ leafAt [.elem, .field 0, .index 0, .field 0]
        (Graph.view
          (Graph.Merge 8 10 Graph.selfArrayHeap (.ptr (.named "S") (some 0))
            (.struct "S" [("L", .slice (.named "E") (some 6) 1 1)]) "K").heap
          6 (.ptr (.named "S") (some 0))) = some (.str "b")
    ∧ leafAt [.elem, .field 0, .index 1, .field 0]
        (Graph.view
          (Graph.Merge 8 10 Graph.selfArrayHeap (.ptr (.named "S") (some 0))
            (.struct "S" [("L", .slice (.named "E") (some 6) 1 1)]) "K").heap
          6 (.ptr (.named "S") (some 0))) = some (.str "b") :=
  ⟨rfl, rfl, rfl, rfl, rfl, rfl⟩

/-- `Merge` run twice on sequences that share a backing array.  `dst = S{L:
arr[0:2], M: arr[0:1], N: arr[0:3]}` with `arr = [{a, 1}, {b, 2}, {c, 9}]` and
`src = S{L: [{b, 5}], M: [{c, 3}]}`, key `K`, on the heap
`Graph.threeSliceHeap`; no sequence holds two elements with one key.  The first
run appends `{c, 3}` to `dst.M` in place, over the element `b` of `dst.L`; the
second run therefore finds no `b` in `dst.L` and appends `{b, 5}` in place, in the
slot of `dst.N[2]`.  Both runs return normally, and `dst.N[2].V`, 9 after the
first run, is 5 after the second. -/
theorem merge_twice_shared_array :
    (Graph.Merge 8 10 Graph.threeSliceHeap (.ptr (.named "S") (some 0))
        (.struct "S" [("L", .slice (.named "E") (some 6) 1 1),
          ("M", .slice (.named "E") (some 7) 1 1),
          ("N", .slice (.named "E") none 0 0)]) "K").status = Status.ok
    ∧ (Graph.Merge 8 10
        (Graph.Merge 8 10 Graph.threeSliceHeap (.ptr (.named "S") (some 0))
          (.struct "S" [("L", .slice (.named "E") (some 6) 1 1),
            ("M", .slice (.named "E") (some 7) 1 1),
            ("N", .slice (.named "E") none 0 0)]) "K").heap
        (.ptr (.named "S") (some 0))
        (.struct "S" [("L", .slice (.named "E") (some 6) 1 1),
          ("M", .slice (.named "E") (some 7) 1 1),
          ("N", .slice (.named "E") none 0 0)]) "K").status = Status.ok
    ∧ leafAt [.elem, .field 2, .index 2, .field 1]
        (Graph.view
          (Graph.Merge 8 10 Graph.threeSliceHeap (.ptr (.named "S") (some 0))
            (.struct "S" [("L", .slice (.named "E") (some 6) 1 1),
              ("M", .slice (.named "E") (some 7) 1 1),
              ("N", .slice (.named "E") none 0 0)]) "K").heap
          6 (.ptr (.named "S") (some 0))) = some (.int 9)
    ∧ leafAt [.elem, .field 2, .index 2, .field 1]
        (Graph.view
          (Graph.Merge 8 10
            (Graph.Merge 8 10 Graph.threeSliceHeap (.ptr (.named "S") (some 0))
              (.struct "S" [("L", .slice (.named "E") (some 6) 1 1),
                ("M", .slice (.named "E") (some 7) 1 1),
                ("N", .slice (.named "E") none 0 0)]) "K").heap
            (.ptr (.named "S") (some 0))
            (.struct "S" [("L", .slice (.named "E") (some 6) 1 1),
              ("M", .slice (.named "E") (some 7) 1 1),
              ("N", .slice (.named "E") none 0 0)]) "K").heap
          6 (.ptr (.named "S") (some 0))) = some (.int 5) :=
  ⟨rfl, rfl, rfl, rfl⟩

/-! ## Evaluations at concrete inputs -/

/-- C10 (failing input). `dst = {"a": 0, "b": 5}`, `src = {"a": 7}`, fill-only: the
assignment condition of the map case tests `isEmptyValue(dst)`, the emptiness of
the whole destination map, not of the entry, so the empty entry `dst["a"]` is not
filled and `dst` is returned as it was. -/
theorem merge_map_empty_entry_not_filled :
    (Merge 5 10
        (.ptr (.map .string .int)
          (some (0, .map .string .int (some [(.str "a", .int 0), (.str "b", .int 5)]))))
        (.map .string .int (some [(.str "a", .int 7)])) "").val
      = .ptr (.map .string .int)
          (some (0, .map .string .int (some [(.str "a", .int 0), (.str "b", .int 5)])))
    ∧ leafAt [.elem, .key (.str "a")]
        (Merge 5 10
          (.ptr (.map .string .int)
            (some (0, .map .string .int (some [(.str "a", .int 0), (.str "b", .int 5)]))))
          (.map .string .int (some [(.str "a", .int 7)])) "").val = some (.int 0)
    ∧ (Merge 5 10
        (.ptr (.map .string .int)
          (some (0, .map .string .int (some [(.str "a", .int 0), (.str "b", .int 5)]))))
        (.map .string .int (some [(.str "a", .int 7)])) "").status = Status.ok :=
  ⟨rfl, rfl, rfl⟩

/-- C9 (failing input). `dst = {"a": nil}`, `src = {"a": {"x": 1}}`, fill-only: the
nested destination map is nil and is reached through `MapIndex`, so it is not
settable; `dst.Set(reflect.MakeMap(dst.Type()))` panics and `dst` is left as it
was. -/
theorem merge_nested_nil_map_panics :
    (Merge 5 10
        (.ptr (.map .string (.map .string .int))
          (some (0, .map .string (.map .string .int)
            (some [(.str "a", .map .string .int none)]))))
        (.map .string (.map .string .int)
          (some [(.str "a", .map .string .int (some [(.str "x", .int 1)]))])) "").status
      = Status.panic
    ∧ (Merge 5 10
        (.ptr (.map .string (.map .string .int))
          (some (0, .map .string (.map .string .int)
            (some [(.str "a", .map .string .int none)]))))
        (.map .string (.map .string .int)
          (some [(.str "a", .map .string .int (some [(.str "x", .int 1)]))])) "").val
      = .ptr (.map .string (.map .string .int))
          (some (0, .map .string (.map .string .int)
            (some [(.str "a", .map .string .int none)]))) :=
  ⟨rfl, rfl⟩

/-- C9 (the example of the spec). `src = {"a": {"x": 1}}` merged into
`dst = {"a": {"y": 2}}` in fill-only mode gives `dst["a"] = {"y": 2, "x": 1}`. -/
theorem merge_nested_map_example :
    (Merge 5 10
        (.ptr (.map .string (.map .string .int))
          (some (0, .map .string (.map .string .int)
            (some [(.str "a", .map .string .int (some [(.str "y", .int 2)]))]))))
        (.map .string (.map .string .int)
          (some [(.str "a", .map .string .int (some [(.str "x", .int 1)]))])) "").val
      = .ptr (.map .string (.map .string .int))
          (some (0, .map .string (.map .string .int)
            (some [(.str "a", .map .string .int
              (some [(.str "y", .int 2), (.str "x", .int 1)]))]))) :=
  rfl

/-- C7 (failing input). `dst.L` is empty, `src.L = [{V: "a"}, {V: "b"}]` and the
elements have no field `Id`; fill-only merge with key `"Id"`.  The backwards pass
appends `src.L[0]` to `dst.L` before it compares two elements and finds the key
missing; the fallback then sees a non-empty `dst.L` and does not replace it, so
`dst.L` ends as `[{V: "a"}]` and not as `src.L`. -/
theorem merge_missing_key_partial_append :
    (Merge 5 10
        (.ptr (.named "S") (some (0, .struct "S" [("L", .slice (.named "W") none 0 [])])))
        (.struct "S" [("L", .slice (.named "W") (some 2) 2
          [.struct "W" [("V", .str "a")], .struct "W" [("V", .str "b")]])]) "Id").val
      = .ptr (.named "S") (some (0, .struct "S" [("L", .slice (.named "W") (some 10) 1
          [.struct "W" [("V", .str "a")]])]))
    ∧ (Merge 5 10
        (.ptr (.named "S") (some (0, .struct "S" [("L", .slice (.named "W") none 0 [])])))
        (.struct "S" [("L", .slice (.named "W") (some 2) 2
          [.struct "W" [("V", .str "a")], .struct "W" [("V", .str "b")]])]) "Id").status
      = Status.ok :=
  ⟨rfl, rfl⟩

/-- C6 (failing input). `dst.L = [{Id: 1, V: ""}]`, `src.L = [{Id: 2, V: "y"}]`, key
`"Id"`, fill-only.  The keys are compared through `Value.String`, which is
`<int Value>` for every int, so the two elements match although their keys
differ: the destination element is filled from the source element and the source
element is not appended. -/
theorem merge_int_keys_all_match :
    (Merge 5 10
        (.ptr (.named "S") (some (0, .struct "S" [("L", .slice (.named "T") (some 1) 1
          [.struct "T" [("Id", .int 1), ("V", .str "")]])])))
        (.struct "S" [("L", .slice (.named "T") (some 2) 1
          [.struct "T" [("Id", .int 2), ("V", .str "y")]])]) "Id").val
      = .ptr (.named "S") (some (0, .struct "S" [("L", .slice (.named "T") (some 1) 1
          [.struct "T" [("Id", .int 1), ("V", .str "y")]])]))
    ∧ (Merge 5 10
        (.ptr (.named "S") (some (0, .struct "S" [("L", .slice (.named "T") (some 1) 1
          [.struct "T" [("Id", .int 1), ("V", .str "")]])])))
        (.struct "S" [("L", .slice (.named "T") (some 2) 1
          [.struct "T" [("Id", .int 2), ("V", .str "y")]])]) "Id").status = Status.ok :=
  ⟨rfl, rfl⟩

/-- C12 (failing inputs). Four calls with `dst` and `src` of one type that end in
a panic.
* `dst = {l: [{K: "a"}]}`, `src = {l: [{K: "b"}]}`, list key `K`, the field `l`
  unexported: the backwards pass appends to `dst.l`, which was obtained through an
  unexported field; `reflect.Append` panics.
* `dst = {I: &P{X: ""}}`, `src = {I: &Q{X: 5}}`, the field `I` of interface type:
  the recursion reaches `dst.Set(src)` on a string and an int.
* `dst = {"a": nil}`, `src = {"a": {"x": 1}}` in overwrite mode: the nil nested map
  is initialised through `Set` on a value obtained by `MapIndex`.
* `dst = {"k": {L: [{K: "a"}]}}`, `src = {"k": {L: [{K: "b"}]}}`, list key `K`: the
  backwards pass appends to a sequence held in a map value, which is not
  settable; `b.Set(newB)` panics. -/
theorem merge_same_type_panics :
    (Merge 6 10
        (.ptr (.named "S") (some (0, .struct "S"
          [("l", .slice (.named "T") (some 1) 1 [.struct "T" [("K", .str "a")]])])))
        (.struct "S" [("l", .slice (.named "T") (some 2) 1 [.struct "T" [("K", .str "b")]])])
        "K").status = Status.panic
    ∧ (Merge 6 10
        (.ptr (.named "S") (some (0, .struct "S"
          [("I", .iface (some (.ptr (.named "P") (some (1, .struct "P" [("X", .str "")])))))])))
        (.struct "S"
          [("I", .iface (some (.ptr (.named "Q") (some (2, .struct "Q" [("X", .int 5)])))))])
        "").status = Status.panic
    ∧ (MergeWithOverwrite 6 10
        (.ptr (.map .string (.map .string .int))
          (some (0, .map .string (.map .string .int)
            (some [(.str "a", .map .string .int none)]))))
        (.map .string (.map .string .int)
          (some [(.str "a", .map .string .int (some [(.str "x", .int 1)]))])) "").status
        = Status.panic
    ∧ (Merge 6 10
        (.ptr (.map .string (.named "S"))
          (some (0, .map .string (.named "S")
            (some [(.str "k", .struct "S"
              [("L", .slice (.named "T") (some 1) 1 [.struct "T" [("K", .str "a")]])])]))))
        (.map .string (.named "S")
          (some [(.str "k", .struct "S"
            [("L", .slice (.named "T") (some 2) 1 [.struct "T" [("K", .str "b")]])])]))
        "K").status = Status.panic :=
  ⟨rfl, rfl, rfl, rfl⟩

/-- C16 (failing input). `dst = {"a": nil, "c": {"z": 3}}`, `src = {"a": {"x": 1}}`
in overwrite mode: before `dst["a"]` is replaced, `deepMerge` recurses into the nil
nested map, which was obtained through `MapIndex` and is not settable, and
`dst.Set(reflect.MakeMap(dst.Type()))` panics; `dst["a"]` is still nil.  With a
non-nil nested map, `dst = {"a": {"y": 2}, "c": {"z": 3}}` and
`src = {"a": {"x": 1}, "e": {}, "n": nil}`, the call returns normally with
`dst = {"a": {"x": 1}, "c": {"z": 3}}`. -/
theorem merge_overwrite_nested_nil_map :
    (MergeWithOverwrite 5 10
        (.ptr (.map .string (.map .string .int))
          (some (0, .map .string (.map .string .int)
            (some [(.str "a", .map .string .int none),
                   (.str "c", .map .string .int (some [(.str "z", .int 3)]))]))))
        (.map .string (.map .string .int)
          (some [(.str "a", .map .string .int (some [(.str "x", .int 1)]))])) "").status
      = Status.panic
    ∧ (MergeWithOverwrite 5 10
        (.ptr (.map .string (.map .string .int))
          (some (0, .map .string (.map .string .int)
            (some [(.str "a", .map .string .int none),
                   (.str "c", .map .string .int (some [(.str "z", .int 3)]))]))))
        (.map .string (.map .string .int)
          (some [(.str "a", .map .string .int (some [(.str "x", .int 1)]))])) "").val
      = .ptr (.map .string (.map .string .int))
          (some (0, .map .string (.map .string .int)
            (some [(.str "a", .map .string .int none),
                   (.str "c", .map .string .int (some [(.str "z", .int 3)]))])))
    ∧ (MergeWithOverwrite 5 10
        (.ptr (.map .string (.map .string .int))
          (some (0, .map .string (.map .string .int)
            (some [(.str "a", .map .string .int (some [(.str "y", .int 2)])),
                   (.str "c", .map .string .int (some [(.str "z", .int 3)]))]))))
        (.map .string (.map .string .int)
          (some [(.str "a", .map .string .int (some [(.str "x", .int 1)])),
                 (.str "e", .map .string .int (some [])),
                 (.str "n", .map .string .int none)])) "")
      = ⟨.ptr (.map .string (.map .string .int))
          (some (0, .map .string (.map .string .int)
            (some [(.str "a", .map .string .int (some [(.str "x", .int 1)])),
                   (.str "c", .map .string .int (some [(.str "z", .int 3)]))]))),
          [((0, []), .map .string (.map .string .int))], 10, none, Status.ok⟩ :=
  ⟨rfl, rfl, rfl⟩

/-- A merge that panics leaves a `dst` that depends on the order of the keys:
`dst = {"a": nil, "b": {}}`, `src = {"a": {"x": 1}, "b": {"y": 1}}`, fill-only,
with the keys of `src` enumerated in the two possible orders.  Enumerated as
`a, b`, the merge panics on the nil nested map `dst["a"]` before it reaches `b`,
and `dst` is as it was; enumerated as `b, a`, it first fills `dst["b"]` with
`{"y": 1}` and then panics. -/
theorem merge_map_order_dependent :
    (Merge 5 10
        (.ptr (.map .string (.map .string .int))
          (some (0, .map .string (.map .string .int)
            (some [(.str "a", .map .string .int none),
                   (.str "b", .map .string .int (some []))]))))
        (.map .string (.map .string .int)
          (some [(.str "a", .map .string .int (some [(.str "x", .int 1)])),
                 (.str "b", .map .string .int (some [(.str "y", .int 1)]))])) "").val
      = .ptr (.map .string (.map .string .int))
          (some (0, .map .string (.map .string .int)
            (some [(.str "a", .map .string .int none),
                   (.str "b", .map .string .int (some []))])))
    ∧ (Merge 5 10
        (.ptr (.map .string (.map .string .int))
          (some (0, .map .string (.map .string .int)
            (some [(.str "a", .map .string .int none),
                   (.str "b", .map .string .int (some []))]))))
        (.map .string (.map .string .int)
          (some [(.str "b", .map .string .int (some [(.str "y", .int 1)])),
                 (.str "a", .map .string .int (some [(.str "x", .int 1)]))])) "").val
      = .ptr (.map .string (.map .string .int))
          (some (0, .map .string (.map .string .int)
            (some [(.str "a", .map .string .int none),
                   (.str "b", .map .string .int (some [(.str "y", .int 1)]))]))) :=
  ⟨rfl, rfl⟩

end Mergo
